import Mathlib

/-!
# GraphLab execution core: deferred read/write lock, blocking queue, update task,
engine loop, distributed objects and control, coloured and sampling schedulers

A shallow embedding of
* `src/graphlab/parallel/deferred_rwlock.hpp` (class `deferred_rw_lock`),
* `src/graphlab/util/blocking_queue.hpp` (class `blocking_queue`),
* `src/graphlab/tasks/update_task.hpp` (class `update_task`),
* `src/graphlab/engine/sim_thread_engine.hpp` (class `sim_thread_engine`),
* `src/graphlab/rpc/dc_dist_object.hpp` (class `dc_dist_object`),
* `src/graphlab/schedulers/colored_scheduler.hpp` (class `colored_scheduler`),
* `src/graphlab/rpc/dc.cpp` (class `distributed_control`),
* `demoapps/lda/dht_lda.cpp` (struct `topic_vector`),
* `src/graphlab/schedulers/sampling_scheduler.hpp` (class `sampling_scheduler`),
followed by the properties established about them.

Every member function of the lock and the queue runs under the object's mutex, so each
call is one atomic transition of the object's state; the embedding is a state-passing
function per member function.  The lock is embedded twice: `linked_rw_lock`
follows the code pointer by pointer, with the callers' request objects in a memory,
and `deferred_rw_lock` keeps the queue as a list; the two describe the same states as
long as no request object is passed to `writelock` or `readlock` while it is linked
into the queue.  The engine is sequential; what its surroundings (timer,
termination functions, scheduler) answer is an input of the embedding.  The calls of
the coloured scheduler are taken as atomic and interleaved in any order.
-/

namespace graphlab

/-! ## deferred_rw_lock -/

/-- Modelled from the spec: the two request tags `QUEUED_RW_LOCK_REQUEST_READ` and
`QUEUED_RW_LOCK_REQUEST_WRITE` are preprocessor constants defined outside
`deferred_rwlock.hpp`; the spec says requests are tagged read or write, so the
tag is a two-valued type. -/
inductive lockclass_t where
  | READ
  | WRITE
deriving DecidableEq

/-- A `deferred_rw_lock::request` as an entry of a queue or of a released chain.  The
C++ object is identified by its address `request* I`, kept here as `addr`; `lockclass`
is the tag written by `writelock` / `readlock`.  In the list model below the `next`
pointer is not a field: a pointer to a request is represented by the list of requests
reachable from it through `next` (`NULL` is `[]`).  The request objects themselves,
with their `next` pointers, are `request_obj` in the linked model further down.  The
payload `void* id` is never read or written by the lock. -/
structure request where
  addr : Nat
  lockclass : lockclass_t
deriving DecidableEq

/-- State of a `deferred_rw_lock` in the list model.  `queue` is the chain
`head, head->next, ...` (so `head == NULL` iff `queue = []`, and `tail` is its last
node); `reader_count` is the `uint16_t` field, a natural number below `65536`;
`writer` is the `bool` field.  The list model is the state of the linked model
`linked_rw_lock`, which keeps the request objects and the pointers `head` and `tail`
as the code does, as long as `writelock` and `readlock` are called with request
objects that are not linked into the queue (relation `represents`). -/
structure deferred_rw_lock where
  queue : List request
  reader_count : Nat
  writer : Bool
deriving DecidableEq

/-- Result of `readlock`, `wrunlock` and `rdunlock`: the new lock state, the chain
reachable from the out-parameter `released` at return, and the returned count. -/
structure unlock_result where
  lock : deferred_rw_lock
  released : List request
  ret : Nat
deriving DecidableEq

/-- Test `r->lockclass == QUEUED_RW_LOCK_REQUEST_READ`. -/
def is_read (r : request) : Bool :=
  decide (r.lockclass = lockclass_t.READ)

/-- Test `r->lockclass == QUEUED_RW_LOCK_REQUEST_WRITE`, i.e. the else-branch of the
read test (the tag has two values). -/
def is_write (r : request) : Bool :=
  decide (r.lockclass = lockclass_t.WRITE)

/-- Constructor `deferred_rw_lock()`: empty queue, no reader, no writer. -/
def deferred_rw_lock.init : deferred_rw_lock :=
  { queue := [], reader_count := 0, writer := false }

/-- Member `get_reader_count`. -/
def deferred_rw_lock.get_reader_count (L : deferred_rw_lock) : Nat :=
  L.reader_count

/-- Member `has_waiters`: `head != NULL || tail != NULL`. -/
def deferred_rw_lock.has_waiters (L : deferred_rw_lock) : Bool :=
  !L.queue.isEmpty || !L.queue.getLast?.isNone

/-- Member `insert_queue(I)` in the list model: the request is appended to the queue.
The code links the object `I` behind `tail` (or makes it head and tail), which appends
it when `I` is not already linked into the queue; `linked_rw_lock.insert_queue` is the
statement-by-statement version. -/
def deferred_rw_lock.insert_queue (L : deferred_rw_lock) (I : request) : deferred_rw_lock :=
  { L with queue := L.queue ++ [I] }

/-- Member `writelock(I)`: tags `I` as a write request; grants it on the fast path
when `reader_count == 0 && writer == false`, otherwise appends it to the queue.
Returns the new state and the returned `bool`. -/
def deferred_rw_lock.writelock (L : deferred_rw_lock) (I : Nat) : deferred_rw_lock × Bool :=
  if L.reader_count = 0 ∧ L.writer = false then
    ({ L with writer := true }, true)
  else
    (L.insert_queue ⟨I, lockclass_t.WRITE⟩, false)

/-- Member `complete_wrlock`: `head = head->next; writer = true`. -/
def deferred_rw_lock.complete_wrlock (L : deferred_rw_lock) : deferred_rw_lock :=
  { L with queue := L.queue.tail, writer := true }

/-- Member `complete_rdlock(released)`: `released = head`, the head is dropped, then
every following node tagged read is dropped too; `numcompleted` counts the dropped
nodes and is added to the 16-bit `reader_count`.  The source requires
`head != NULL` (all three call sites guarantee it). -/
def deferred_rw_lock.complete_rdlock (L : deferred_rw_lock) : unlock_result :=
  let released := L.queue
  let numcompleted := 1 + (L.queue.tail.takeWhile is_read).length
  { lock := { L with queue := L.queue.tail.dropWhile is_read,
                     reader_count := (L.reader_count + numcompleted) % 65536 },
    released := released,
    ret := numcompleted }

/-- Member `wrunlock(I, released)`. -/
def deferred_rw_lock.wrunlock (L : deferred_rw_lock) (_I : Nat) : unlock_result :=
  let L1 : deferred_rw_lock := { L with writer := false }
  match L1.queue with
  | [] => { lock := L1, released := [], ret := 0 }
  | h :: _ =>
    if is_read h then L1.complete_rdlock
    else
      let L2 : deferred_rw_lock := { L1 with writer := true }
      { lock := L2.complete_wrlock, released := L2.queue, ret := 1 }

/-- Member `readlock(I, released)`: tags `I` as a read request; fast path when
`head == NULL && writer == false`, otherwise the request is queued and, if the head
is a read request and no writer holds the lock, the leading readers are completed. -/
def deferred_rw_lock.readlock (L : deferred_rw_lock) (I : Nat) : unlock_result :=
  if L.queue = [] ∧ L.writer = false then
    { lock := { L with reader_count := (L.reader_count + 1) % 65536 },
      released := [⟨I, lockclass_t.READ⟩], ret := 1 }
  else
    let L1 := L.insert_queue ⟨I, lockclass_t.READ⟩
    match L1.queue with
    | [] => { lock := L1, released := [], ret := 0 }
    | h :: _ =>
      if is_read h ∧ L1.writer = false then L1.complete_rdlock
      else { lock := L1, released := [], ret := 0 }

/-- Member `rdunlock(I, released)`: `--reader_count` on the 16-bit counter, and when it
reaches zero the head of the queue is served as in `wrunlock`. -/
def deferred_rw_lock.rdunlock (L : deferred_rw_lock) (_I : Nat) : unlock_result :=
  let L1 : deferred_rw_lock := { L with reader_count := (L.reader_count + 65535) % 65536 }
  if L1.reader_count = 0 then
    match L1.queue with
    | [] => { lock := L1, released := [], ret := 0 }
    | h :: _ =>
      if is_read h then L1.complete_rdlock
      else
        let L2 : deferred_rw_lock := { L1 with writer := true }
        { lock := L2.complete_wrlock, released := L2.queue, ret := 1 }
  else
    { lock := L1, released := [], ret := 0 }

/-! ### Call sequences and the set of lock holders -/

/-- One call on the lock, with the address of the request passed as `I`. -/
inductive lock_op where
  | writelock (I : Nat)
  | readlock (I : Nat)
  | wrunlock (I : Nat)
  | rdunlock (I : Nat)
deriving DecidableEq

/-- The lock state after the call. -/
def lock_next (L : deferred_rw_lock) : lock_op → deferred_rw_lock
  | lock_op.writelock I => (L.writelock I).1
  | lock_op.readlock I => (L.readlock I).lock
  | lock_op.wrunlock I => (L.wrunlock I).lock
  | lock_op.rdunlock I => (L.rdunlock I).lock

/-- The requests the call grants, as its caller learns from the return value:
`writelock` grants `I` when it returns true; the other three grant the first `ret`
nodes of the `released` chain. -/
def lock_granted (L : deferred_rw_lock) : lock_op → List request
  | lock_op.writelock I => if (L.writelock I).2 then [⟨I, lockclass_t.WRITE⟩] else []
  | lock_op.readlock I => (L.readlock I).released.take (L.readlock I).ret
  | lock_op.wrunlock I => (L.wrunlock I).released.take (L.wrunlock I).ret
  | lock_op.rdunlock I => (L.rdunlock I).released.take (L.rdunlock I).ret

/-- The lock after a sequence of calls. -/
def lock_run (L : deferred_rw_lock) (ops : List lock_op) : deferred_rw_lock :=
  ops.foldl lock_next L

/-- The grants of a sequence of calls, one entry per call. -/
def grant_log (L : deferred_rw_lock) : List lock_op → List (List request)
  | [] => []
  | op :: ops => lock_granted L op :: grant_log (lock_next L op) ops

/-- The request a locking call submits (`none` for the two unlock calls). -/
def submitted : lock_op → Option request
  | lock_op.writelock I => some ⟨I, lockclass_t.WRITE⟩
  | lock_op.readlock I => some ⟨I, lockclass_t.READ⟩
  | _ => none

/-- The locking call does not grant its own request: `writelock` returns false, or
`readlock` returns 0. -/
def is_queued (L : deferred_rw_lock) : lock_op → Bool
  | lock_op.writelock I => !(L.writelock I).2
  | lock_op.readlock I => decide ((L.readlock I).ret = 0)
  | _ => false

/-- A lock together with the requests that have been granted and not yet unlocked. -/
structure tracked where
  lock : deferred_rw_lock
  holders : List request
deriving DecidableEq

/-- A freshly constructed lock: nobody holds it. -/
def tracked.init : tracked :=
  { lock := deferred_rw_lock.init, holders := [] }

/-- The holders once the caller of an unlock has given up its grant. -/
def unlock_holder (holders : List request) : lock_op → List request
  | lock_op.wrunlock I => holders.erase ⟨I, lockclass_t.WRITE⟩
  | lock_op.rdunlock I => holders.erase ⟨I, lockclass_t.READ⟩
  | _ => holders

/-- One call: the lock moves by `lock_next`, an unlocking caller leaves the holders,
the granted requests join them. -/
def tracked.step (t : tracked) (op : lock_op) : tracked :=
  { lock := lock_next t.lock op,
    holders := unlock_holder t.holders op ++ lock_granted t.lock op }

/-- A call is correctly used when `wrunlock` comes from a request holding the write lock
and `rdunlock` from a request holding a read lock. -/
def tracked.allowed (t : tracked) : lock_op → Bool
  | lock_op.wrunlock I => decide ((⟨I, lockclass_t.WRITE⟩ : request) ∈ t.holders)
  | lock_op.rdunlock I => decide ((⟨I, lockclass_t.READ⟩ : request) ∈ t.holders)
  | _ => true

/-- The state after a sequence of calls. -/
def tracked.run (t : tracked) (ops : List lock_op) : tracked :=
  ops.foldl tracked.step t

/-- Every call of the sequence is correctly used in the state it is made in. -/
def tracked.correct_use (t : tracked) : List lock_op → Bool
  | [] => true
  | op :: ops => t.allowed op && (t.step op).correct_use ops

/-- All states the sequence goes through, the first and the last included. -/
def tracked.states (t : tracked) : List lock_op → List tracked
  | [] => [t]
  | op :: ops => t :: (t.step op).states ops

/-- Number of read requests holding the lock. -/
def tracked.readers (t : tracked) : Nat :=
  t.holders.countP is_read

/-- Number of write requests holding the lock. -/
def tracked.writers (t : tracked) : Nat :=
  t.holders.countP is_write

/-- Exclusivity of a set of holders: no writer together with a reader, and at most
one writer. -/
def exclusive (holders : List request) : Prop :=
  (∀ w ∈ holders, ∀ r ∈ holders, is_write w = true → is_read r = false) ∧
    holders.countP is_write ≤ 1

instance (holders : List request) : Decidable (exclusive holders) := by
  unfold exclusive
  infer_instance

/-- The starting point of the common tail of `wrunlock` and `rdunlock`: the values of
`reader_count` and `writer` when the head of the queue is examined.  `wrunlock` has
cleared `writer`; `rdunlock` gets there only when the decremented counter is zero. -/
def unlock_base (L : deferred_rw_lock) (op : lock_op) (rc0 : Nat) (w0 : Bool) : Prop :=
  (∃ I, op = lock_op.wrunlock I ∧ rc0 = L.reader_count ∧ w0 = false) ∨
  (∃ I, op = lock_op.rdunlock I ∧ (L.reader_count + 65535) % 65536 = 0 ∧ rc0 = 0 ∧
    w0 = L.writer)

/-- The control-flow paths of the four member functions: `lock_path L op L1 g` lists,
path by path, the branch conditions, the resulting state `L1` and the granted
requests `g`. -/
inductive lock_path (L : deferred_rw_lock) (op : lock_op) (L1 : deferred_rw_lock)
    (g : List request) : Prop where
  | wl_fast (I : Nat) (hop : op = lock_op.writelock I) (hrc : L.reader_count = 0)
      (hw : L.writer = false)
      (hL : L1 = ⟨L.queue, L.reader_count, true⟩) (hg : g = [⟨I, lockclass_t.WRITE⟩])
  | wl_slow (I : Nat) (hop : op = lock_op.writelock I)
      (hc : ¬ (L.reader_count = 0 ∧ L.writer = false))
      (hL : L1 = ⟨L.queue ++ [⟨I, lockclass_t.WRITE⟩], L.reader_count, L.writer⟩)
      (hg : g = [])
  | rl_fast (I : Nat) (hop : op = lock_op.readlock I) (hq : L.queue = [])
      (hw : L.writer = false)
      (hL : L1 = ⟨[], (L.reader_count + 1) % 65536, false⟩)
      (hg : g = [⟨I, lockclass_t.READ⟩])
  | rl_slow (I : Nat) (hop : op = lock_op.readlock I)
      (hc : ¬ (L.queue = [] ∧ L.writer = false))
      (hn : L.writer = true ∨
        ∃ h t, L.queue ++ [(⟨I, lockclass_t.READ⟩ : request)] = h :: t ∧ is_read h = false)
      (hL : L1 = ⟨L.queue ++ [⟨I, lockclass_t.READ⟩], L.reader_count, L.writer⟩)
      (hg : g = [])
  | rl_serve (I : Nat) (h : request) (t : List request) (hop : op = lock_op.readlock I)
      (hq : L.queue = h :: t) (hr : is_read h = true) (hw : L.writer = false)
      (hL : L1 = ⟨(L.queue ++ [(⟨I, lockclass_t.READ⟩ : request)]).dropWhile is_read,
        (L.reader_count +
          ((L.queue ++ [(⟨I, lockclass_t.READ⟩ : request)]).takeWhile is_read).length) % 65536, false⟩)
      (hg : g = (L.queue ++ [(⟨I, lockclass_t.READ⟩ : request)]).takeWhile is_read)
  | un_empty (rc0 : Nat) (w0 : Bool) (hb : unlock_base L op rc0 w0) (hq : L.queue = [])
      (hL : L1 = ⟨[], rc0, w0⟩) (hg : g = [])
  | un_read (rc0 : Nat) (w0 : Bool) (h : request) (t : List request)
      (hb : unlock_base L op rc0 w0) (hq : L.queue = h :: t) (hr : is_read h = true)
      (hL : L1 = ⟨L.queue.dropWhile is_read,
        (rc0 + (L.queue.takeWhile is_read).length) % 65536, w0⟩)
      (hg : g = L.queue.takeWhile is_read)
  | un_write (rc0 : Nat) (w0 : Bool) (h : request) (t : List request)
      (hb : unlock_base L op rc0 w0) (hq : L.queue = h :: t) (hr : is_read h = false)
      (hL : L1 = ⟨t, rc0, true⟩) (hg : g = [h])
  | rd_more (I : Nat) (hop : op = lock_op.rdunlock I)
      (hrc : (L.reader_count + 65535) % 65536 ≠ 0)
      (hL : L1 = ⟨L.queue, (L.reader_count + 65535) % 65536, L.writer⟩) (hg : g = [])

/-- With the writer flag clear, a non-empty queue starts with a write request. -/
def head_not_read (L : deferred_rw_lock) : Prop :=
  L.writer = false → ∀ h rest, L.queue = h :: rest → is_read h = false

/-- The bookkeeping of the lock agrees with its holders: `reader_count` is the number of
read holders, the writer flag is set exactly when one write request (and no read
request) holds the lock, and requests wait in the queue only while the lock is held. -/
def lock_inv (t : tracked) : Prop :=
  t.lock.reader_count = t.readers ∧
  (t.lock.writer = true → t.writers = 1 ∧ t.readers = 0) ∧
  (t.lock.writer = false → t.writers = 0) ∧
  (t.lock.writer = false → t.lock.queue ≠ [] → t.lock.reader_count ≠ 0)

/-- Request `A` waits in the queue `q` and request `B` does not wait ahead of it. -/
def ahead (A B : request) (q : List request) : Prop :=
  ∃ x y, q = x ++ A :: y ∧ B ∉ x ∧ B ≠ A

/-! ## deferred_rw_lock: the queue as linked request objects -/

/-- The two fields of a `deferred_rw_lock::request` object that the lock reads and
writes: the pointer `next` (`NULL` is `none`, a request is pointed to by its address)
and the tag `lockclass`. -/
structure request_obj where
  next : Option Nat
  lockclass : lockclass_t
deriving DecidableEq

/-- State of a `deferred_rw_lock` with the memory its pointers refer to: `mem` holds the
request object at every address (the objects belong to the callers), `head` and `tail`
are the two pointers of the lock, `reader_count` is the `uint16_t` field and `writer`
the `bool` field. -/
structure linked_rw_lock where
  mem : Nat → request_obj
  head : Option Nat
  tail : Option Nat
  reader_count : Nat
  writer : Bool

/-- How a call on the linked lock ends: it returns, it dereferences a null pointer, or
the loop of `complete_rdlock` has not come to its end when the fuel is used up. -/
inductive linked_result (α : Type) where
  | done (value : α)
  | null_dereference
  | looping
deriving DecidableEq

/-- Sequencing of calls that may fail. -/
def linked_result.bind {α β : Type} (r : linked_result α) (f : α → linked_result β) :
    linked_result β :=
  match r with
  | linked_result.done value => f value
  | linked_result.null_dereference => linked_result.null_dereference
  | linked_result.looping => linked_result.looping

/-- What `readlock`, `wrunlock` and `rdunlock` leave: the lock, the out-parameter
`released` and the returned count. -/
structure linked_unlock where
  lock : linked_rw_lock
  released : Option Nat
  ret : Nat

/-- Constructor `deferred_rw_lock()`, with the memory as it is. -/
def linked_rw_lock.init (mem : Nat → request_obj) : linked_rw_lock :=
  { mem := mem, head := none, tail := none, reader_count := 0, writer := false }

/-- The two statements `I->next = NULL; I->lockclass = ...;` at the top of `writelock`
and `readlock`. -/
def store_request (mem : Nat → request_obj) (I : Nat) (lockclass : lockclass_t) :
    Nat → request_obj :=
  fun a => if a = I then ⟨none, lockclass⟩ else mem a

/-- The statement `tail->next = I`. -/
def store_next (mem : Nat → request_obj) (tail : Nat) (I : Nat) : Nat → request_obj :=
  fun a => if a = tail then ⟨some I, (mem a).lockclass⟩ else mem a

/-- Member `insert_queue(I)`: `if (head == NULL) { head = I; tail = I; } else
{ tail->next = I; tail = I; }`. -/
def linked_rw_lock.insert_queue (L : linked_rw_lock) (I : Nat) : linked_result linked_rw_lock :=
  match L.head with
  | none => linked_result.done { L with head := some I, tail := some I }
  | some _ =>
    match L.tail with
    | none => linked_result.null_dereference
    | some tail =>
      linked_result.done { L with mem := store_next L.mem tail I, tail := some I }

/-- Member `writelock(I)`. -/
def linked_rw_lock.writelock (L : linked_rw_lock) (I : Nat) :
    linked_result (linked_rw_lock × Bool) :=
  let L0 : linked_rw_lock := { L with mem := store_request L.mem I lockclass_t.WRITE }
  if L0.reader_count = 0 ∧ L0.writer = false then
    linked_result.done ({ L0 with writer := true }, true)
  else
    (L0.insert_queue I).bind (fun L1 => linked_result.done (L1, false))

/-- Member `complete_wrlock()`: `head = head->next; if (head == NULL) tail = NULL;
writer = true;`. -/
def linked_rw_lock.complete_wrlock (L : linked_rw_lock) : linked_result linked_rw_lock :=
  match L.head with
  | none => linked_result.null_dereference
  | some h =>
    linked_result.done
      { L with head := (L.mem h).next,
               tail := if (L.mem h).next = none then none else L.tail,
               writer := true }

/-- The loop `while (head != NULL && head->lockclass == QUEUED_RW_LOCK_REQUEST_READ)
{ head = head->next; numcompleted++; }` of `complete_rdlock`, one iteration per unit
of fuel: the values of `head` and `numcompleted` when it ends. -/
def complete_rdlock_loop (mem : Nat → request_obj) :
    Nat → Option Nat → Nat → linked_result (Option Nat × Nat)
  | 0, _, _ => linked_result.looping
  | _ + 1, none, numcompleted => linked_result.done (none, numcompleted)
  | fuel + 1, some h, numcompleted =>
    if (mem h).lockclass = lockclass_t.READ then
      complete_rdlock_loop mem fuel (mem h).next (numcompleted + 1)
    else linked_result.done (some h, numcompleted)

/-- Member `complete_rdlock(released)`: `released = head; numcompleted = 1;
head = head->next;`, the loop, `reader_count += numcompleted` on the 16-bit counter,
and `if (head == NULL) tail = NULL`. -/
def linked_rw_lock.complete_rdlock (fuel : Nat) (L : linked_rw_lock) :
    linked_result linked_unlock :=
  match L.head with
  | none => linked_result.null_dereference
  | some h =>
    (complete_rdlock_loop L.mem fuel (L.mem h).next 1).bind (fun x =>
      linked_result.done
        { lock := { L with head := x.1,
                           reader_count := (L.reader_count + x.2) % 65536,
                           tail := if x.1 = none then none else L.tail },
          released := some h,
          ret := x.2 })

/-- The part that `wrunlock` and `rdunlock` share, from `if (head != NULL)` on, for
the value `head` has there. -/
def linked_rw_lock.serve_head (fuel : Nat) (L : linked_rw_lock) : linked_result linked_unlock :=
  match L.head with
  | none => linked_result.done { lock := L, released := none, ret := 0 }
  | some h =>
    if (L.mem h).lockclass = lockclass_t.READ then L.complete_rdlock fuel
    else
      ({ L with writer := true } : linked_rw_lock).complete_wrlock.bind (fun L1 =>
        linked_result.done { lock := L1, released := some h, ret := 1 })

/-- Member `wrunlock(I, released)`. -/
def linked_rw_lock.wrunlock (fuel : Nat) (L : linked_rw_lock) (_I : Nat) :
    linked_result linked_unlock :=
  ({ L with writer := false } : linked_rw_lock).serve_head fuel

/-- Member `readlock(I, released)`. -/
def linked_rw_lock.readlock (fuel : Nat) (L : linked_rw_lock) (I : Nat) :
    linked_result linked_unlock :=
  let L0 : linked_rw_lock := { L with mem := store_request L.mem I lockclass_t.READ }
  if L0.head = none ∧ L0.writer = false then
    linked_result.done
      { lock := { L0 with reader_count := (L0.reader_count + 1) % 65536 },
        released := some I, ret := 1 }
  else
    (L0.insert_queue I).bind (fun L1 =>
      match L1.head with
      | none => linked_result.null_dereference
      | some h =>
        if (L1.mem h).lockclass = lockclass_t.READ ∧ L1.writer = false then
          L1.complete_rdlock fuel
        else linked_result.done { lock := L1, released := none, ret := 0 })

/-- Member `rdunlock(I, released)`. -/
def linked_rw_lock.rdunlock (fuel : Nat) (L : linked_rw_lock) (_I : Nat) :
    linked_result linked_unlock :=
  let L1 : linked_rw_lock := { L with reader_count := (L.reader_count + 65535) % 65536 }
  if L1.reader_count = 0 then L1.serve_head fuel
  else linked_result.done { lock := L1, released := none, ret := 0 }

/-- The first `n` request objects reachable from a pointer through `next`, each with
its address and its tag. -/
def chain_take (mem : Nat → request_obj) : Nat → Option Nat → List request
  | 0, _ => []
  | _ + 1, none => []
  | n + 1, some a => ⟨a, (mem a).lockclass⟩ :: chain_take mem n (mem a).next

/-- One call on the linked lock: the new state and the requests granted, which are
the request of a `writelock` that returns true and the first `ret` objects of the
chain at `released` for the other three calls. -/
def linked_rw_lock.step (fuel : Nat) (L : linked_rw_lock) :
    lock_op → linked_result (linked_rw_lock × List request)
  | lock_op.writelock I =>
    (L.writelock I).bind (fun x =>
      linked_result.done (x.1, if x.2 then [⟨I, lockclass_t.WRITE⟩] else []))
  | lock_op.readlock I =>
    (L.readlock fuel I).bind (fun o =>
      linked_result.done (o.lock, chain_take o.lock.mem o.ret o.released))
  | lock_op.wrunlock I =>
    (L.wrunlock fuel I).bind (fun o =>
      linked_result.done (o.lock, chain_take o.lock.mem o.ret o.released))
  | lock_op.rdunlock I =>
    (L.rdunlock fuel I).bind (fun o =>
      linked_result.done (o.lock, chain_take o.lock.mem o.ret o.released))

/-- A sequence of calls on the linked lock: the final state and the grants, one entry
per call. -/
def linked_rw_lock.run (fuel : Nat) :
    linked_rw_lock → List lock_op → linked_result (linked_rw_lock × List (List request))
  | L, [] => linked_result.done (L, [])
  | L, op :: ops =>
    (L.step fuel op).bind (fun x =>
      (linked_rw_lock.run fuel x.1 ops).bind (fun y => linked_result.done (y.1, x.2 :: y.2)))

/-- The grants of a sequence of calls on the linked lock. -/
def linked_rw_lock.grants (fuel : Nat) (L : linked_rw_lock) (ops : List lock_op) :
    linked_result (List (List request)) :=
  (L.run fuel ops).bind (fun x => linked_result.done x.2)

/-- The chain of request objects waiting in the linked lock, at most `n` of them. -/
def linked_rw_lock.waiting (n : Nat) (L : linked_rw_lock) : List request :=
  chain_take L.mem n L.head

/-- A memory for examples: every request object has a null `next` and a read tag. -/
def blank_memory : Nat → request_obj := fun _ => ⟨none, lockclass_t.READ⟩

/-- A correctly used call sequence that takes `reader_count` past its capacity: the
65536 read requests 1, ..., 65536 take the lock; `writelock(70000)` is made and then
`writelock(70001)`; the 65536 readers unlock; the writer 70000 unlocks. -/
def calls_past_capacity : List lock_op :=
  (List.range' 1 65536).map lock_op.readlock ++
    ([lock_op.writelock 70000, lock_op.writelock 70001] ++
      ((List.range' 1 65536).map lock_op.rdunlock ++ [lock_op.wrunlock 70000]))

/-- The request object passed to `writelock` or `readlock` is not among the waiting
requests `L.queue`. -/
def deferred_rw_lock.unlinked (L : deferred_rw_lock) : lock_op → Bool
  | lock_op.writelock I => decide (I ∉ L.queue.map request.addr)
  | lock_op.readlock I => decide (I ∉ L.queue.map request.addr)
  | _ => true

/-- No call of the sequence submits a request object that is waiting in the queue at
that time: `writelock(I)` and `readlock(I)` are only called with an `I` that is not
linked into the queue. -/
def fresh_use (L : deferred_rw_lock) : List lock_op → Bool
  | [] => true
  | op :: ops => L.unlinked op && fresh_use (lock_next L op) ops

/-- The linked queue `head, head->next, ...` in the memory `mem` consists of the request
objects `queue`, in this order, and ends with a null `next`. -/
def is_chain (mem : Nat → request_obj) : Option Nat → List request → Prop
  | p, [] => p = none
  | p, r :: rest =>
    p = some r.addr ∧ (mem r.addr).lockclass = r.lockclass ∧ is_chain mem (mem r.addr).next rest

/-- Whether the linked queue from a pointer consists of the given request objects is
found by walking the chain. -/
def is_chain_decidable (mem : Nat → request_obj) :
    (p : Option Nat) → (q : List request) → Decidable (is_chain mem p q)
  | p, [] => inferInstanceAs (Decidable (p = none))
  | p, r :: rest =>
    have : Decidable (is_chain mem (mem r.addr).next rest) :=
      is_chain_decidable mem (mem r.addr).next rest
    inferInstanceAs (Decidable (p = some r.addr ∧ (mem r.addr).lockclass = r.lockclass ∧
      is_chain mem (mem r.addr).next rest))

instance (mem : Nat → request_obj) (p : Option Nat) (q : List request) :
    Decidable (is_chain mem p q) :=
  is_chain_decidable mem p q

/-- A linked lock together with the requests that have been granted and not yet
unlocked. -/
structure linked_tracked where
  lock : linked_rw_lock
  holders : List request

/-- A freshly constructed linked lock in the memory `mem`: nobody holds it. -/
def linked_tracked.init (mem : Nat → request_obj) : linked_tracked :=
  { lock := linked_rw_lock.init mem, holders := [] }

/-- One call on the linked lock: if it returns, an unlocking caller leaves the holders
and the granted requests join them. -/
def linked_tracked.step (fuel : Nat) (t : linked_tracked) (op : lock_op) :
    linked_result linked_tracked :=
  (t.lock.step fuel op).bind (fun x =>
    linked_result.done { lock := x.1, holders := unlock_holder t.holders op ++ x.2 })

/-- The state after a sequence of calls, when all of them return. -/
def linked_tracked.run (fuel : Nat) :
    linked_tracked → List lock_op → linked_result linked_tracked
  | t, [] => linked_result.done t
  | t, op :: ops => (t.step fuel op).bind (fun t1 => linked_tracked.run fuel t1 ops)

/-- A call is correctly used when `wrunlock` comes from a request holding the write lock
and `rdunlock` from a request holding a read lock. -/
def linked_tracked.allowed (t : linked_tracked) : lock_op → Bool
  | lock_op.wrunlock I => decide ((⟨I, lockclass_t.WRITE⟩ : request) ∈ t.holders)
  | lock_op.rdunlock I => decide ((⟨I, lockclass_t.READ⟩ : request) ∈ t.holders)
  | _ => true

/-- The request object passed to `writelock` or `readlock` is not linked into the queue
at the time of the call (among the first `fuel` objects reachable from `head`). -/
def linked_tracked.unlinked (fuel : Nat) (t : linked_tracked) : lock_op → Bool
  | lock_op.writelock I => decide (I ∉ (t.lock.waiting fuel).map request.addr)
  | lock_op.readlock I => decide (I ∉ (t.lock.waiting fuel).map request.addr)
  | _ => true

/-- Every call of the sequence is correctly used in the state it is made in.  A call
that does not return is the last one made. -/
def linked_tracked.correct_use (fuel : Nat) : linked_tracked → List lock_op → Bool
  | _, [] => true
  | t, op :: ops =>
    t.allowed op &&
      (match t.step fuel op with
        | linked_result.done t1 => linked_tracked.correct_use fuel t1 ops
        | _ => true)

/-- No call of the sequence submits a request object that is linked into the queue at
the time of the call.  A call that does not return is the last one made. -/
def linked_tracked.fresh_use (fuel : Nat) : linked_tracked → List lock_op → Bool
  | _, [] => true
  | t, op :: ops =>
    t.unlinked fuel op &&
      (match t.step fuel op with
        | linked_result.done t1 => linked_tracked.fresh_use fuel t1 ops
        | _ => true)

/-- All states the sequence goes through, the first one included, up to the first call
that does not return. -/
def linked_tracked.states (fuel : Nat) : linked_tracked → List lock_op → List linked_tracked
  | t, [] => [t]
  | t, op :: ops =>
    t :: (match t.step fuel op with
      | linked_result.done t1 => linked_tracked.states fuel t1 ops
      | _ => [])

/-- Number of read requests holding the linked lock. -/
def linked_tracked.readers (t : linked_tracked) : Nat :=
  t.holders.countP is_read

/-- Number of write requests holding the linked lock. -/
def linked_tracked.writers (t : linked_tracked) : Nat :=
  t.holders.countP is_write

/-- The linked lock `H` stands in the state that the list `L.queue` describes: the
chain from `head` is the queue, whose request objects are pairwise different, `tail`
points to its last object, and the counter and the flag agree. -/
structure represents (H : linked_rw_lock) (L : deferred_rw_lock) : Prop where
  chain : is_chain H.mem H.head L.queue
  last : H.tail = L.queue.getLast?.map request.addr
  nodup : (L.queue.map request.addr).Nodup
  count : H.reader_count = L.reader_count
  flag : H.writer = L.writer

/-- The outcome `o` of a call on the linked lock is the outcome `r` of the same call on
the list of waiting requests: the locks correspond, the chain at `released` consists of
the requests `r.released`, and the returned counts are equal. -/
structure represents_result (o : linked_unlock) (r : unlock_result) : Prop where
  lock : represents o.lock r.lock
  released : is_chain o.lock.mem o.released r.released
  ret : o.ret = r.ret

/-- The linked lock with its holders stands in the state `s`. -/
structure tracks (t : linked_tracked) (s : tracked) : Prop where
  lock : represents t.lock s.lock
  holders : t.holders = s.holders

/-! ## blocking_queue -/

/-- State of a `blocking_queue<T>`: the flag `m_alive` and the `std::list` `m_queue`, front
first.  The mutex and the two condition variables carry no data: every member function
runs under the mutex and is one transition of this state. -/
structure blocking_queue (T : Type) where
  m_alive : Bool
  m_queue : List T
deriving DecidableEq

/-- Constructor `blocking_queue()`: alive and empty. -/
def blocking_queue.init {T : Type} : blocking_queue T :=
  { m_alive := true, m_queue := [] }

/-- Member `enqueue(elem)`: `m_queue.push_back(elem)`. -/
def blocking_queue.enqueue {T : Type} (q : blocking_queue T) (elem : T) : blocking_queue T :=
  { q with m_queue := q.m_queue ++ [elem] }

/-- Member `dequeue()`.  The call waits while `m_queue.empty() && m_alive`; in such a state
it does not return, which is `none`.  Otherwise it returns the new state and the pair:
the front element and `true` (the front is popped) when the queue is not empty, else
`T()` and `false`. -/
def blocking_queue.dequeue {T : Type} [Inhabited T] (q : blocking_queue T) :
    Option (blocking_queue T × (T × Bool)) :=
  if q.m_queue.isEmpty = true ∧ q.m_alive = true then none
  else if q.m_queue.isEmpty = false then
    some ({ q with m_queue := q.m_queue.tail }, (q.m_queue.headD default, true))
  else some (q, (default, false))

/-- Member `try_dequeue()`: returns `(T(), false)` when `m_queue.empty() || m_alive == false`,
otherwise pops the front element and returns it with `true`. -/
def blocking_queue.try_dequeue {T : Type} [Inhabited T] (q : blocking_queue T) :
    blocking_queue T × (T × Bool) :=
  if q.m_queue.isEmpty = true ∨ q.m_alive = false then (q, (default, false))
  else ({ q with m_queue := q.m_queue.tail }, (q.m_queue.headD default, true))

/-- Member `empty()`. -/
def blocking_queue.empty {T : Type} (q : blocking_queue T) : Bool :=
  q.m_queue.isEmpty

/-- Member `stop_blocking()`: `m_alive = false` (and both condition variables are
broadcast). -/
def blocking_queue.stop_blocking {T : Type} (q : blocking_queue T) : blocking_queue T :=
  { q with m_alive := false }

/-- Member `size()`. -/
def blocking_queue.size {T : Type} (q : blocking_queue T) : Nat :=
  q.m_queue.length

/-- Member `wait_until_empty()`.  The call waits while the queue is not empty and alive
(`none`); otherwise it returns `m_alive`.  The state is not changed. -/
def blocking_queue.wait_until_empty {T : Type} (q : blocking_queue T) : Option Bool :=
  if q.m_queue.isEmpty = false ∧ q.m_alive = true then none else some q.m_alive

/-- Member `signal()`: a broadcast on a condition variable, no change of state. -/
def blocking_queue.signal {T : Type} (q : blocking_queue T) : blocking_queue T := q

/-- Member `signal_blocking_empty()`: a broadcast, no change of state. -/
def blocking_queue.signal_blocking_empty {T : Type} (q : blocking_queue T) :
    blocking_queue T := q

/-- The queue after `enqueue` of every element of `xs`, in order. -/
def blocking_queue.enqueue_all {T : Type} (q : blocking_queue T) (xs : List T) :
    blocking_queue T :=
  xs.foldl blocking_queue.enqueue q

/-- Successive `dequeue` calls: the final state and the returned pairs in call order, or
`none` when one of the calls waits. -/
def blocking_queue.dequeue_n {T : Type} [Inhabited T] :
    Nat → blocking_queue T → Option (blocking_queue T × List (T × Bool))
  | 0, q => some (q, [])
  | n + 1, q =>
    match q.dequeue with
    | none => none
    | some (q1, r) =>
      match blocking_queue.dequeue_n n q1 with
      | none => none
      | some (q2, rs) => some (q2, r :: rs)

/-- One call on a blocking queue. -/
inductive queue_op (T : Type) where
  | enqueue (elem : T)
  | dequeue
  | try_dequeue
  | signal
  | signal_blocking_empty
  | wait_until_empty
  | stop_blocking

/-- The state a call leaves behind; a call that waits leaves the state as it is. -/
def blocking_queue.step {T : Type} [Inhabited T] (q : blocking_queue T) :
    queue_op T → blocking_queue T
  | queue_op.enqueue elem => q.enqueue elem
  | queue_op.dequeue =>
    match q.dequeue with
    | some (q1, _) => q1
    | none => q
  | queue_op.try_dequeue => q.try_dequeue.1
  | queue_op.signal => q.signal
  | queue_op.signal_blocking_empty => q.signal_blocking_empty
  | queue_op.wait_until_empty => q
  | queue_op.stop_blocking => q.stop_blocking

/-- The state after a sequence of calls. -/
def blocking_queue.run {T : Type} [Inhabited T] (q : blocking_queue T)
    (ops : List (queue_op T)) : blocking_queue T :=
  ops.foldl blocking_queue.step q

/-! ## update_task -/

/-- Modelled from the spec: `vertex_id_t` is declared in `graphlab/graph/graph.hpp`, which
is not among the sources; the spec gives vertices dense 32-bit ids, so a vertex id is
an unsigned 32-bit integer. -/
def vertex_id_bits : Nat := 32

/-- Conversion of an integer to `vertex_id_t`: reduction modulo `2 ^ 32`. -/
def to_vertex_id (i : Int) : Nat :=
  (i % (2 : Int) ^ vertex_id_bits).toNat

/-- An `update_task`: the vertex id and the update function, a function pointer kept as
its address (`NULL` is 0). -/
structure update_task where
  vertexid : Nat
  func : Nat
deriving DecidableEq

/-- Constructor `update_task(vertex_id_t vertexid = -1, update_function_type func = NULL)`
with both default arguments. -/
def update_task.default_task : update_task :=
  { vertexid := to_vertex_id (-1), func := 0 }

/-- Member `vertex()`. -/
def update_task.vertex (t : update_task) : Nat := t.vertexid

/-- Member `function()`. -/
def update_task.function (t : update_task) : Nat := t.func

/-- Member `operator==`: `vertexid == i.vertexid && func == i.func`. -/
def update_task.eq (t i : update_task) : Bool :=
  t.vertexid == i.vertexid && t.func == i.func

/-- Member `operator<`: `(vertexid < i.vertexid) || (vertexid == i.vertexid && func < i.func)`. -/
def update_task.lt (t i : update_task) : Bool :=
  decide (t.vertexid < i.vertexid) || (t.vertexid == i.vertexid && decide (t.func < i.func))

/-! ## sim_thread_engine -/

/-- The `sched_status::status_enum` of `ischeduler.hpp`. -/
inductive sched_status where
  | NEWTASK
  | EMPTY
  | WAITING
  | COMPLETE
deriving DecidableEq

/-- Modelled from the spec: the enumeration `exec_status` returned by `start()` is declared
in a header that is not among the sources.  The engine returns `EXEC_COMPLETED`,
`EXEC_MAX_TASKS_EXCEEDED` and `EXEC_TIMEOUT`; the spec lists the execution statuses
completed, timeout, budget exceeded, termination function and forced stop, pairwise
distinct. -/
inductive exec_status where
  | EXEC_COMPLETED
  | EXEC_TIMEOUT
  | EXEC_MAX_TASKS_EXCEEDED
  | EXEC_TERM_FUNCTION
  | EXEC_FORCED_STOP
deriving DecidableEq

/-- The fields of `sim_thread_engine` that `run_next_task`, `start()` and
`last_update_count()` read or write.  `has_data_manager` is `data_manager != NULL`;
`term_functions` holds the registered termination functions by address; `timeout` is
a `double` that only ever receives the whole number of seconds given to `set_timeout`;
`taskcount` is the `atomic<size_t>` (a counter that calls cannot bring to `2 ^ 64`). -/
structure sim_thread_engine where
  ncpus : Nat
  task_counts : List Nat
  has_data_manager : Bool
  term_functions : List Nat
  taskbudget : Nat
  taskcount : Nat
  timeout : Nat
  aborted : Bool
  terminatoraborted : Bool
deriving DecidableEq

/-- Constructor `sim_thread_engine(g, num_cpus)`. -/
def sim_thread_engine.init (num_cpus : Nat) : sim_thread_engine :=
  { ncpus := num_cpus, task_counts := List.replicate num_cpus 0, has_data_manager := false,
    term_functions := [], taskbudget := 0, taskcount := 0, timeout := 0, aborted := false,
    terminatoraborted := false }

/-- Member `set_timeout(timeout_secs)`. -/
def sim_thread_engine.set_timeout (e : sim_thread_engine) (timeout_secs : Nat) :
    sim_thread_engine :=
  { e with timeout := timeout_secs }

/-- Member `set_task_budget(max_tasks)`. -/
def sim_thread_engine.set_task_budget (e : sim_thread_engine) (max_tasks : Nat) :
    sim_thread_engine :=
  { e with taskbudget := max_tasks }

/-- Member `set_shared_data_manager(manager)`, with `installed` for `manager != NULL`. -/
def sim_thread_engine.set_shared_data_manager (e : sim_thread_engine) (installed : Bool) :
    sim_thread_engine :=
  { e with has_data_manager := installed }

/-- Member `add_terminator(term)`. -/
def sim_thread_engine.add_terminator (e : sim_thread_engine) (term : Nat) : sim_thread_engine :=
  { e with term_functions := e.term_functions ++ [term] }

/-- Member `clear_terminators()`. -/
def sim_thread_engine.clear_terminators (e : sim_thread_engine) : sim_thread_engine :=
  { e with term_functions := [] }

/-- What the surroundings of the engine answer during one iteration of the `while(true)`
loop of `run_next_task`: whether `_timer->current_time() > timeout`, whether
`lowres_time_seconds() - lasttermcheck >= 0.1`, what each termination function returns on
the data manager, what `scheduler.get_next_task(cpuid, task)` returns, with the task
it stores, and the scope pointer that `scope_manager.get_scope(cpuid, vertex)` returns
when it is called (`NULL` is 0).  The scheduler is any scheduler and the scope manager
any scope manager: their answers are not constrained. -/
structure engine_tick where
  time_exceeded : Bool
  term_check_due : Bool
  term_value : Nat → Bool
  stat : sched_status
  task : update_task
  scope : Nat

/-- What the engine does to its collaborators, in order.  Notifications to the optional
monitor are not recorded. -/
inductive engine_event where
  | get_next_task (cpuid : Nat) (stat : sched_status)
  | get_scope (cpuid : Nat) (vertex : Nat)
  | update_function (task : update_task)
  | commit
  | release_scope
  | completed_task (cpuid : Nat) (task : update_task)
deriving DecidableEq

/-- How a call ends: it returns a value, it stops at a failed `assert`, or it is still
inside its loop when the recorded answers of the surroundings end. -/
inductive run_result where
  | returned (b : Bool)
  | assertion_failed
  | running
deriving DecidableEq

/-- Outcome of `run_next_task`: the engine state, how the call ended, the events of the
call and the answers not yet consumed. -/
structure run_outcome where
  engine : sim_thread_engine
  result : run_result
  events : List engine_event
  rest : List engine_tick

/-- Member `check_all_terminators()`. -/
def sim_thread_engine.check_all_terminators (e : sim_thread_engine) (t : engine_tick) : Bool :=
  if e.has_data_manager then e.term_functions.any t.term_value else false

/-- The statement `task_counts[cpuid] = task_counts[cpuid]++;`: the right-hand side yields
the old value and increments the element, then the assignment (sequenced after it
since C++17) stores the old value back, so the element keeps its value.  Before C++17
the statement has undefined behaviour. -/
def assign_post_increment (x : Nat) : Nat := x

/-- Modelled from the spec: `atomic<T>::inc()` is declared in `graphlab/parallel/atomic.hpp`,
which is not among the sources; the spec only says that the counters are atomic
integers.  The call adds one to the counter and returns the new value, which is the
reading under which `waiting.inc() == cpu_index.size()` in the coloured scheduler can
hold for the last of the workers.  The result is both the stored and the returned
value. -/
@[simp]
def atomic_inc (value : Nat) : Nat := value + 1

/-- The `NEWTASK` branch of `run_next_task` after the asserts: the per-worker counter
statement and, after the task has run, the budget test
`taskbudget > 0 && (taskcount.inc() > taskbudget)`, where `inc()` returns the incremented
value and is not evaluated when `taskbudget` is 0. -/
def sim_thread_engine.account_task (e : sim_thread_engine) (cpuid : Nat) : sim_thread_engine :=
  let e1 : sim_thread_engine :=
    { e with task_counts :=
        e.task_counts.set cpuid (assign_post_increment (e.task_counts.getD cpuid 0)) }
  if 0 < e1.taskbudget then
    let e2 : sim_thread_engine := { e1 with taskcount := atomic_inc e1.taskcount }
    if e2.taskcount > e2.taskbudget then { e2 with aborted := true } else e2
  else e1

/-- The events of one executed task, from `get_scope` (which has returned a scope) to
`completed_task`. -/
def task_events (cpuid : Nat) (task : update_task) : List engine_event :=
  [engine_event.get_scope cpuid task.vertex, engine_event.update_function task,
    engine_event.commit, engine_event.release_scope, engine_event.completed_task cpuid task]

/-- The checks at the top of the loop of `run_next_task`: worker 0 sets `aborted` when a
timeout is configured and exceeded, and a due termination check sets
`terminatoraborted` when `check_all_terminators()` holds. -/
def sim_thread_engine.check_abort (e : sim_thread_engine) (cpuid : Nat) (t : engine_tick) :
    sim_thread_engine :=
  let e1 : sim_thread_engine :=
    if 0 < e.timeout ∧ cpuid = 0 then
      (if t.time_exceeded then { e with aborted := true } else e)
    else e
  if t.term_check_due then
    (if e1.check_all_terminators t then { e1 with terminatoraborted := true } else e1)
  else e1

/-- Member `run_next_task(cpuid)`, one loop iteration per recorded answer.  After the
checks it returns false when a flag is set.  Otherwise the scheduler is asked:
`WAITING` sleeps and loops, `COMPLETE` returns false, `NEWTASK` runs the task and
returns true, and for `EMPTY` no branch is taken, so the loop goes round again.  In
the `NEWTASK` branch `assert(task.function() != NULL)` stops the call before anything
else is done, and `assert(scope != NULL)` stops it right after `get_scope`. -/
def sim_thread_engine.run_next_task (e : sim_thread_engine) (cpuid : Nat) :
    List engine_tick → run_outcome
  | [] => { engine := e, result := run_result.running, events := [], rest := [] }
  | t :: ts =>
    let e2 := e.check_abort cpuid t
    if e2.aborted || e2.terminatoraborted then
      { engine := e2, result := run_result.returned false, events := [], rest := ts }
    else
      match t.stat with
      | sched_status.WAITING =>
        let r := sim_thread_engine.run_next_task e2 cpuid ts
        { r with events := engine_event.get_next_task cpuid sched_status.WAITING :: r.events }
      | sched_status.COMPLETE =>
        { engine := e2, result := run_result.returned false,
          events := [engine_event.get_next_task cpuid sched_status.COMPLETE], rest := ts }
      | sched_status.NEWTASK =>
        if t.task.function = 0 then
          { engine := e2, result := run_result.assertion_failed,
            events := [engine_event.get_next_task cpuid sched_status.NEWTASK], rest := ts }
        else if t.scope = 0 then
          { engine := e2, result := run_result.assertion_failed,
            events := [engine_event.get_next_task cpuid sched_status.NEWTASK,
              engine_event.get_scope cpuid t.task.vertex],
            rest := ts }
        else
          { engine := e2.account_task cpuid, result := run_result.returned true,
            events := engine_event.get_next_task cpuid sched_status.NEWTASK ::
              task_events cpuid t.task,
            rest := ts }
      | sched_status.EMPTY =>
        let r := sim_thread_engine.run_next_task e2 cpuid ts
        { r with events := engine_event.get_next_task cpuid sched_status.EMPTY :: r.events }

/-- How `start()` ends. -/
inductive start_result where
  | returned (status : exec_status)
  | assertion_failed
  | running
deriving DecidableEq

/-- Outcome of `start()`: the engine state, how the call ended and all events. -/
structure start_outcome where
  engine : sim_thread_engine
  result : start_result
  events : List engine_event

/-- The status computed at the end of `start()`: `EXEC_COMPLETED` unless `aborted`, and
otherwise `taskbudget > 0 && taskcount.inc() > taskbudget` (which increments
`taskcount` once more when a budget is set) chooses between
`EXEC_MAX_TASKS_EXCEEDED` and `EXEC_TIMEOUT`. -/
def sim_thread_engine.exit_status (e : sim_thread_engine) : sim_thread_engine × exec_status :=
  if e.aborted = false then (e, exec_status.EXEC_COMPLETED)
  else if 0 < e.taskbudget then
    let e1 : sim_thread_engine := { e with taskcount := atomic_inc e.taskcount }
    if e1.taskcount > e1.taskbudget then (e1, exec_status.EXEC_MAX_TASKS_EXCEEDED)
    else (e1, exec_status.EXEC_TIMEOUT)
  else (e, exec_status.EXEC_TIMEOUT)

/-- The loop `while(not_finished) { cpuid = random::rand_int(ncpus - 1); not_finished =
run_next_task(cpuid); }` of `start()`, followed by the status.  `pick i` is the `i`-th
random draw; `fuel` bounds the number of `run_next_task` calls, each of which
consumes at least one recorded answer. -/
def sim_thread_engine.start_loop (pick : Nat → Nat) :
    Nat → Nat → sim_thread_engine → List engine_tick → start_outcome
  | 0, _, e, _ => { engine := e, result := start_result.running, events := [] }
  | fuel + 1, i, e, ticks =>
    let r := e.run_next_task (pick i) ticks
    match r.result with
    | run_result.running =>
      { engine := r.engine, result := start_result.running, events := r.events }
    | run_result.assertion_failed =>
      { engine := r.engine, result := start_result.assertion_failed, events := r.events }
    | run_result.returned false =>
      { engine := r.engine.exit_status.1,
        result := start_result.returned r.engine.exit_status.2, events := r.events }
    | run_result.returned true =>
      let o := sim_thread_engine.start_loop pick fuel (i + 1) r.engine r.rest
      { o with events := r.events ++ o.events }

/-- Member `start()`: both flags are cleared, then the loop runs.  The calls
`scheduler.start()` and `scheduler.stop()` belong to the scheduler. -/
def sim_thread_engine.start (e : sim_thread_engine) (pick : Nat → Nat)
    (ticks : List engine_tick) : start_outcome :=
  sim_thread_engine.start_loop pick (ticks.length + 1) 0
    { e with aborted := false, terminatoraborted := false } ticks

/-- Member `last_update_count()`: the sum of `task_counts`. -/
def sim_thread_engine.last_update_count (e : sim_thread_engine) : Nat :=
  e.task_counts.foldl (fun total_updates tc => total_updates + tc) 0

/-- Number of invocations of an update function among the events. -/
def executed_tasks (events : List engine_event) : Nat :=
  events.countP (fun ev => match ev with
    | engine_event.update_function _ => true
    | _ => false)

/-- Number of `completed_task` notifications among the events. -/
def completed_tasks (events : List engine_event) : Nat :=
  events.countP (fun ev => match ev with
    | engine_event.completed_task _ _ => true
    | _ => false)

/-- An iteration in which no time limit is exceeded, no termination check is due, the
scheduler answers `stat` with `task`, and a scope is available. -/
def quiet_tick (stat : sched_status) (task : update_task) : engine_tick :=
  { time_exceeded := false, term_check_due := false, term_value := fun _ => false,
    stat := stat, task := task, scope := 1 }

/-- An iteration in which the timer is past the timeout. -/
def late_tick (stat : sched_status) (task : update_task) : engine_tick :=
  { time_exceeded := true, term_check_due := false, term_value := fun _ => false,
    stat := stat, task := task, scope := 1 }

/-- An iteration in which a termination check is due and every termination function
returns true. -/
def converged_tick (stat : sched_status) (task : update_task) : engine_tick :=
  { time_exceeded := false, term_check_due := true, term_value := fun _ => true,
    stat := stat, task := task, scope := 1 }

/-! ## dc_dist_object -/

/-- Modelled from the spec: the packet type flags `STANDARD_CALL`, `FAST_CALL` and
`CONTROL_PACKET` used by `dc_dist_object.hpp` are constants of a header that is not
among the sources.  The spec names the packet types (regular call, fast call,
control) without values, so the three flags are parameters. -/
structure packet_flags where
  STANDARD_CALL : Nat
  FAST_CALL : Nat
  CONTROL_PACKET : Nat
deriving DecidableEq

/-- Modelled from the spec: `dc_impl::recv_from_struct` is declared in
`dc_dist_object_base.hpp`, which is not among the sources; the spec describes it as
the internal slot on which the receiver stores the blob.  These are the fields
`recv_from` reads and writes (the lock and the condition variable apart). -/
structure recv_from_struct where
  data : List Nat
  tag : Nat
  hasdata : Bool
deriving DecidableEq

/-- The fields of `dc_dist_object<T>` that its calls read or write, with
`senders_size` for `dc_.senders.size()` of the control plane it refers to.  The two
counters are `atomic<size_t>` (counters that calls cannot bring to `2 ^ 64`). -/
structure dc_dist_object where
  senders_size : Nat
  callsreceived : Nat
  callssent : Nat
  recv_froms : List recv_from_struct
deriving DecidableEq

/-- Member `inc_calls_received()`. -/
def dc_dist_object.inc_calls_received (o : dc_dist_object) : dc_dist_object :=
  { o with callsreceived := atomic_inc o.callsreceived }

/-- Member `inc_calls_sent()`. -/
def dc_dist_object.inc_calls_sent (o : dc_dist_object) : dc_dist_object :=
  { o with callssent := atomic_inc o.callssent }

/-- Member `calls_received()`. -/
def dc_dist_object.calls_received (o : dc_dist_object) : Nat := o.callsreceived

/-- Member `calls_sent()`. -/
def dc_dist_object.calls_sent (o : dc_dist_object) : Nat := o.callssent

/-- The body generated by `RPC_INTERFACE_GENERATOR` for an interface with the flags
`flags`: `ASSERT_LT(target, dc_.senders.size())` (no result when it fails), then
`if ((flags & CONTROL_PACKET) == 0) inc_calls_sent();`, then the call issue `exec` on
`dc_.senders[target]`, which is handed the sender and the object id and has no access
to the counters of this object. -/
def dc_dist_object.rpc_interface (o : dc_dist_object) (pf : packet_flags) (flags : Nat)
    (target : Nat) : Option dc_dist_object :=
  if target < o.senders_size then
    some (if flags &&& pf.CONTROL_PACKET = 0 then o.inc_calls_sent else o)
  else none

/-- The body generated by `REQUEST_INTERFACE_GENERATOR`: the same assertion and counter
statement, followed by `return ...::exec(...)`; the value returned by the remote
function is not part of the state of this object. -/
def dc_dist_object.request_interface (o : dc_dist_object) (pf : packet_flags) (flags : Nat)
    (target : Nat) : Option dc_dist_object :=
  if target < o.senders_size then
    some (if flags &&& pf.CONTROL_PACKET = 0 then o.inc_calls_sent else o)
  else none

/-- Interface `remote_call`, generated with `STANDARD_CALL`. -/
def dc_dist_object.remote_call (o : dc_dist_object) (pf : packet_flags) (target : Nat) :
    Option dc_dist_object :=
  o.rpc_interface pf pf.STANDARD_CALL target

/-- Interface `fast_remote_call`, generated with `FAST_CALL`. -/
def dc_dist_object.fast_remote_call (o : dc_dist_object) (pf : packet_flags) (target : Nat) :
    Option dc_dist_object :=
  o.rpc_interface pf pf.FAST_CALL target

/-- Interface `control_call`, generated with `FAST_CALL | CONTROL_PACKET`. -/
def dc_dist_object.control_call (o : dc_dist_object) (pf : packet_flags) (target : Nat) :
    Option dc_dist_object :=
  o.rpc_interface pf (pf.FAST_CALL ||| pf.CONTROL_PACKET) target

/-- Interface `remote_request`, generated with `STANDARD_CALL`. -/
def dc_dist_object.remote_request (o : dc_dist_object) (pf : packet_flags) (target : Nat) :
    Option dc_dist_object :=
  o.request_interface pf pf.STANDARD_CALL target

/-- Interface `fast_remote_request`, generated with `FAST_CALL`. -/
def dc_dist_object.fast_remote_request (o : dc_dist_object) (pf : packet_flags)
    (target : Nat) : Option dc_dist_object :=
  o.request_interface pf pf.FAST_CALL target

/-- Interface `control_request`, generated with `FAST_CALL | CONTROL_PACKET`. -/
def dc_dist_object.control_request (o : dc_dist_object) (pf : packet_flags) (target : Nat) :
    Option dc_dist_object :=
  o.request_interface pf (pf.FAST_CALL ||| pf.CONTROL_PACKET) target

/-- Member `send_to(target, t, control)`.  Without `control` it counts a sent call and
issues `dc_.remote_call`, with `control` it issues `dc_.control_call`; both belong to
the control plane.  Then `rt.wait()` blocks until the receiver replies: `replied`
tells whether the reply arrives, and there is no result when it does not.  After the
wait a received call is counted unless `control`. -/
def dc_dist_object.send_to (o : dc_dist_object) (control : Bool) (replied : Bool) :
    Option dc_dist_object :=
  let o1 := if control = false then o.inc_calls_sent else o
  if replied then some (if control = false then o1.inc_calls_received else o1) else none

/-- Member `recv_from(source, t, control)`.  It waits until the slot of `source` has data
(no result while it has none, or when there is no such slot), hands out the data
and clears the slot.  Without `control` it replies through `dc_.fast_remote_call`
and counts one received and one sent call; with `control` it replies through
`dc_.control_call`. -/
def dc_dist_object.recv_from (o : dc_dist_object) (source : Nat) (control : Bool) :
    Option (dc_dist_object × List Nat) :=
  match o.recv_froms[source]? with
  | none => none
  | some recvstruct =>
    if recvstruct.hasdata then
      let o1 : dc_dist_object :=
        { o with recv_froms :=
            o.recv_froms.set source { recvstruct with data := [], hasdata := false } }
      some (if control = false then o1.inc_calls_received.inc_calls_sent else o1,
        recvstruct.data)
    else none

/-! ## colored_scheduler -/

/-- Modelled from the spec: `controlled_termination` is declared in
`graphlab/util/controlled_termination.hpp`, which is not among the sources; the spec
says that the terminator reports complete and that the engine asks it whether it is
finished.  It is one flag, set by `complete()`. -/
structure controlled_termination where
  finished : Bool
deriving DecidableEq

/-- Member `complete()` of the terminator. -/
def controlled_termination.complete (_t : controlled_termination) : controlled_termination :=
  { finished := true }

/-- The fields of `colored_scheduler` apart from the graph and the callback.  The three
per-worker vectors have the size `ncpus` given to the constructor; `cpu_waiting` is a
`vector<size_t>` that only ever holds `true` and `false`.  `color` and `waiting` are
`atomic<size_t>` (counters that calls cannot bring to `2 ^ 64`), and the update
function is kept as its address (`NULL` is 0). -/
structure colored_scheduler where
  color_blocks : List (List Nat)
  cpu_index : List Nat
  cpu_color : List Nat
  cpu_waiting : List Bool
  max_iterations : Nat
  update_function : Nat
  color : Nat
  waiting : Nat
  terminator : controlled_termination
deriving DecidableEq

/-- One iteration of the constructor loop for vertex `i` of colour `color`:
`if (color >= color_blocks.size()) color_blocks.resize(color + 1);` and
`color_blocks[color].push_back(i);`. -/
def color_blocks_push (color_blocks : List (List Nat)) (i color : Nat) : List (List Nat) :=
  let resized :=
    if color ≥ color_blocks.length then
      color_blocks ++ List.replicate (color + 1 - color_blocks.length) []
    else color_blocks
  resized.set color (resized.getD color [] ++ [i])

/-- The constructor loop `for (i = 0; i < graph.num_vertices(); ++i)` from vertex `i` on,
over the colours `graph.color(i)`, `graph.color(i + 1)`, ... of the remaining
vertices. -/
def init_color_blocks : List Nat → Nat → List (List Nat) → List (List Nat)
  | [], _, color_blocks => color_blocks
  | color :: rest, i, color_blocks =>
    init_color_blocks rest (i + 1) (color_blocks_push color_blocks i color)

/-- Constructor `colored_scheduler(engine, graph, ncpus)` for a graph whose vertices
`0, 1, ...` have the colours `colors` (a valid colouring, as the constructor asserts;
edges play no part in the scheduler, and a vertex number is a vertex id).  The
vectors are value-initialised, `color` is set to 0 and `waiting` starts at 0. -/
def colored_scheduler.init (colors : List Nat) (ncpus : Nat) : colored_scheduler :=
  { color_blocks := init_color_blocks colors 0 [],
    cpu_index := List.replicate ncpus 0,
    cpu_color := List.replicate ncpus 0,
    cpu_waiting := List.replicate ncpus false,
    max_iterations := 0,
    update_function := 0,
    color := 0,
    waiting := 0,
    terminator := { finished := false } }

/-- Member `set_options(opts)` with the option `max_iterations` present and no
`update_function` option. -/
def colored_scheduler.set_options (s : colored_scheduler) (max_iterations : Nat) :
    colored_scheduler :=
  { s with max_iterations := max_iterations }

/-- Member `add_task(task, priority)`: only the function of the task is kept. -/
def colored_scheduler.add_task (s : colored_scheduler) (task : update_task) :
    colored_scheduler :=
  { s with update_function := task.function }

/-- Member `add_tasks(vertices, func, priority)`. -/
def colored_scheduler.add_tasks (s : colored_scheduler) (_vertices : List Nat) (func : Nat) :
    colored_scheduler :=
  { s with update_function := func }

/-- Member `add_task_to_all(func, priority)`. -/
def colored_scheduler.add_task_to_all (s : colored_scheduler) (func : Nat) :
    colored_scheduler :=
  { s with update_function := func }

/-- Member `completed_task(cpuid, task)`, whose body is empty. -/
def colored_scheduler.completed_task (s : colored_scheduler) (_cpuid : Nat)
    (_task : update_task) : colored_scheduler := s

/-- Member `start()`: the assertion `update_function != NULL` (no result when it fails),
then every worker gets `cpu_index[i] = i`, `cpu_color[i] = -1` (the `size_t` value
`2 ^ 64 - 1`) and `cpu_waiting[i] = true`, and `waiting` is set to 0.  `color` is not
touched. -/
def colored_scheduler.start (s : colored_scheduler) : Option colored_scheduler :=
  if s.update_function = 0 then none
  else
    some { s with
      cpu_index := List.range s.cpu_index.length,
      cpu_color := List.replicate s.cpu_index.length (2 ^ 64 - 1),
      cpu_waiting := List.replicate s.cpu_index.length true,
      waiting := 0 }

/-- Member `get_next_task(cpuid, ret_task)`, executed atomically: the new state, the
status and the task stored in `ret_task` (nothing is stored unless the status is
`NEWTASK`).  There is no result when `cpuid` is not an index of the per-worker
vectors or when `color_blocks` is empty (a remainder by zero). -/
def colored_scheduler.get_next_task (s : colored_scheduler) (cpuid : Nat) :
    Option (colored_scheduler × sched_status × Option update_task) :=
  if s.cpu_index.length ≤ cpuid then none
  else if s.cpu_waiting.getD cpuid false = true ∧ s.cpu_color.getD cpuid 0 = s.color then
    some (s, sched_status.EMPTY, none)
  else
    let s1 : colored_scheduler :=
      if s.cpu_waiting.getD cpuid false = true then
        { s with
          cpu_color := s.cpu_color.set cpuid s.color,
          cpu_index := s.cpu_index.set cpuid cpuid,
          cpu_waiting := s.cpu_waiting.set cpuid false }
      else
        { s with
          cpu_index := s.cpu_index.set cpuid (s.cpu_index.getD cpuid 0 + s.cpu_index.length) }
    if s1.color_blocks.length = 0 then none
    else
      let current_color := s1.cpu_color.getD cpuid 0 % s1.color_blocks.length
      if s1.cpu_color.getD cpuid 0 / s1.color_blocks.length ≥ s1.max_iterations then
        some ({ s1 with terminator := s1.terminator.complete }, sched_status.EMPTY, none)
      else if s1.cpu_index.getD cpuid 0 < (s1.color_blocks.getD current_color []).length then
        some (s1, sched_status.NEWTASK,
          some (update_task.mk
            ((s1.color_blocks.getD current_color []).getD (s1.cpu_index.getD cpuid 0) 0)
            s1.update_function))
      else
        let current_waiting := atomic_inc s1.waiting
        let s2 : colored_scheduler :=
          { s1 with waiting := current_waiting, cpu_waiting := s1.cpu_waiting.set cpuid true }
        if current_waiting = s2.cpu_index.length then
          some ({ s2 with waiting := 0, color := atomic_inc s2.color }, sched_status.EMPTY, none)
        else some (s2, sched_status.EMPTY, none)

/-- One `get_next_task` call as the engine sees it: the worker, the value of the colour
counter when the call was made, the status and the task. -/
structure sched_record where
  cpuid : Nat
  color : Nat
  stat : sched_status
  task : Option update_task
deriving DecidableEq

/-- A scheduler together with the record of the calls made so far. -/
structure sched_run where
  sched : colored_scheduler
  log : List sched_record
deriving DecidableEq

/-- One more `get_next_task` call, by worker `cpuid`. -/
def sched_run.step (r : sched_run) (cpuid : Nat) : Option sched_run :=
  match r.sched.get_next_task cpuid with
  | none => none
  | some (s1, stat, task) =>
    some { sched := s1,
           log := r.log ++ [{ cpuid := cpuid, color := r.sched.color, stat := stat,
                              task := task }] }

/-- An interleaving of atomic `get_next_task` calls: the workers call in the order
given. -/
def sched_run.run : sched_run → List Nat → Option sched_run
  | r, [] => some r
  | r, cpuid :: rest =>
    match r.step cpuid with
    | none => none
    | some r1 => sched_run.run r1 rest

/-- The scheduler of a graph with the colours `colors`, for `ncpus` workers, with the
option `max_iterations` and the update function `func` set, after `start()`. -/
def colored_scheduler.started (colors : List Nat) (ncpus max_iterations func : Nat) :
    Option colored_scheduler :=
  (((colored_scheduler.init colors ncpus).set_options max_iterations).add_task_to_all
    func).start

/-- Number of times vertex `v` has been returned with `NEWTASK`. -/
def newtask_count (log : List sched_record) (v : Nat) : Nat :=
  log.countP (fun r => decide (r.stat = sched_status.NEWTASK) &&
    decide (r.task.map update_task.vertex = some v))

/-- Number of times vertex `v` has been returned with `NEWTASK` while the colour counter
had the value `k`. -/
def newtask_count_at (log : List sched_record) (k v : Nat) : Nat :=
  log.countP (fun r => (decide (r.stat = sched_status.NEWTASK) &&
    decide (r.task.map update_task.vertex = some v)) && decide (r.color = k))

/-- The vertices returned with `NEWTASK` to worker `w` while the colour counter had the
value `k`, in the order of the calls. -/
def served (log : List sched_record) (k w : Nat) : List Nat :=
  log.filterMap (fun r =>
    if r.stat = sched_status.NEWTASK ∧ r.color = k ∧ r.cpuid = w then
      r.task.map update_task.vertex
    else none)

/-- The indices `w, w + n, w + 2 n, ...` below `size`, in increasing order. -/
def stride_indices (w n size : Nat) : List Nat :=
  (List.range ((size + n - 1 - w) / n)).map (fun j => w + j * n)

/-- The slice of worker `w` out of `n` in a colour block: its entries at the indices
`w, w + n, w + 2 n, ...`. -/
def stride_slice (block : List Nat) (w n : Nat) : List Nat :=
  (stride_indices w n block.length).map (fun i => block.getD i 0)

/-- The colour block used while the colour counter has the value `k`. -/
def colored_scheduler.block (s : colored_scheduler) (k : Nat) : List Nat :=
  s.color_blocks.getD (k % s.color_blocks.length) []

/-- The entry `cpu_index[w]`. -/
def colored_scheduler.idx (s : colored_scheduler) (w : Nat) : Nat := s.cpu_index.getD w 0

/-- The entry `cpu_color[w]`, the colour worker `w` has observed. -/
def colored_scheduler.col (s : colored_scheduler) (w : Nat) : Nat := s.cpu_color.getD w 0

/-- The entry `cpu_waiting[w]`. -/
def colored_scheduler.wt (s : colored_scheduler) (w : Nat) : Bool := s.cpu_waiting.getD w false

/-- Worker `w` is waiting on the current value of the colour counter. -/
def colored_scheduler.waits_on_color (s : colored_scheduler) (w : Nat) : Bool :=
  s.wt w && decide (s.col w = s.color)

/-- What a `get_next_task` call by worker `c` leaves untouched: the colour blocks, the
options, the sizes of the per-worker vectors (all `n`) and the entries of the other
workers. -/
def sched_frame (n : Nat) (s s1 : colored_scheduler) (c : Nat) : Prop :=
  s1.color_blocks = s.color_blocks ∧ s1.max_iterations = s.max_iterations ∧
  s1.update_function = s.update_function ∧
  s1.cpu_index.length = n ∧ s1.cpu_color.length = n ∧ s1.cpu_waiting.length = n ∧
  ∀ w, w ≠ c → s1.idx w = s.idx w ∧ s1.col w = s.col w ∧ s1.wt w = s.wt w

/-- The first part of a `get_next_task` call by a worker `c` that is not waiting on the
current colour: a waiting worker takes over the colour and restarts at index `c`, a
working one moves its index on by `n`. -/
def sched_moved (n : Nat) (s s1 : colored_scheduler) (c : Nat) : Prop :=
  s.waits_on_color c = false ∧
  s1.col c = (if s.wt c = true then s.color else s.col c) ∧
  s1.idx c = (if s.wt c = true then c else s.idx c + n)

/-- The five ways a `get_next_task` call by worker `c` can go, with the new state
described through the entries of the vectors. -/
inductive worker_step (n : Nat) (s : colored_scheduler) (c : Nat) :
    colored_scheduler → sched_status → Option update_task → Prop where
  | still_waiting : s.wt c = true → s.col c = s.color →
      worker_step n s c s sched_status.EMPTY none
  | complete (s1 : colored_scheduler) : sched_frame n s s1 c → sched_moved n s s1 c →
      s1.max_iterations ≤ s1.col c / s1.color_blocks.length →
      s1.wt c = false → s1.color = s.color → s1.waiting = s.waiting →
      s1.terminator.finished = true →
      worker_step n s c s1 sched_status.EMPTY none
  | newtask (s1 : colored_scheduler) : sched_frame n s s1 c → sched_moved n s s1 c →
      s1.col c / s1.color_blocks.length < s1.max_iterations →
      s1.idx c < (s1.block (s1.col c)).length →
      s1.wt c = false → s1.color = s.color → s1.waiting = s.waiting →
      s1.terminator = s.terminator →
      worker_step n s c s1 sched_status.NEWTASK
        (some (update_task.mk ((s1.block (s1.col c)).getD (s1.idx c) 0) s1.update_function))
  | overrun (s1 : colored_scheduler) : sched_frame n s s1 c → sched_moved n s s1 c →
      s1.col c / s1.color_blocks.length < s1.max_iterations →
      (s1.block (s1.col c)).length ≤ s1.idx c →
      s1.wt c = true → s1.color = s.color → s1.waiting = s.waiting + 1 →
      s.waiting + 1 ≠ n →
      s1.terminator = s.terminator →
      worker_step n s c s1 sched_status.EMPTY none
  | advance (s1 : colored_scheduler) : sched_frame n s s1 c → sched_moved n s s1 c →
      s1.col c / s1.color_blocks.length < s1.max_iterations →
      (s1.block (s1.col c)).length ≤ s1.idx c →
      s1.wt c = true → s1.color = s.color + 1 → s1.waiting = 0 →
      s.waiting + 1 = n →
      s1.terminator = s.terminator →
      worker_step n s c s1 sched_status.EMPTY none

/-- The part of `get_next_task` that follows the waiting test, from the statement
`size_t current_color = cpu_color[cpuid] % color_blocks.size();` on, as a function of
the state `s1` reached there. -/
def colored_scheduler.serve (s1 : colored_scheduler) (cpuid : Nat) :
    Option (colored_scheduler × sched_status × Option update_task) :=
  if s1.color_blocks.length = 0 then none
  else
    let current_color := s1.cpu_color.getD cpuid 0 % s1.color_blocks.length
    if s1.cpu_color.getD cpuid 0 / s1.color_blocks.length ≥ s1.max_iterations then
      some ({ s1 with terminator := s1.terminator.complete }, sched_status.EMPTY, none)
    else if s1.cpu_index.getD cpuid 0 < (s1.color_blocks.getD current_color []).length then
      some (s1, sched_status.NEWTASK,
        some (update_task.mk
          ((s1.color_blocks.getD current_color []).getD (s1.cpu_index.getD cpuid 0) 0)
          s1.update_function))
    else
      let current_waiting := atomic_inc s1.waiting
      let s2 : colored_scheduler :=
        { s1 with waiting := current_waiting, cpu_waiting := s1.cpu_waiting.set cpuid true }
      if current_waiting = s2.cpu_index.length then
        some ({ s2 with waiting := 0, color := atomic_inc s2.color }, sched_status.EMPTY, none)
      else some (s2, sched_status.EMPTY, none)

/-- The invariant of a run for `n` workers with `max_iterations = M` and the update
function `f`: the sizes, the meaning of the `waiting` counter, the colour observed by a
working worker, the colour at which the terminator is completed, and for every worker
and value `k` of the colour counter the vertices served so far. -/
structure sched_inv (n M f : Nat) (r : sched_run) : Prop where
  blocks_pos : 0 < r.sched.color_blocks.length
  max_eq : r.sched.max_iterations = M
  func_eq : r.sched.update_function = f
  len_index : r.sched.cpu_index.length = n
  len_color : r.sched.cpu_color.length = n
  len_waiting : r.sched.cpu_waiting.length = n
  waiting_eq : r.sched.waiting = (List.range n).countP r.sched.waits_on_color
  working_color : ∀ w, w < n → r.sched.wt w = false → r.sched.col w = r.sched.color
  finished_color : r.sched.terminator.finished = true →
    M * r.sched.color_blocks.length ≤ r.sched.color
  log_newtask : ∀ e ∈ r.log, e.stat = sched_status.NEWTASK →
    e.cpuid < n ∧ e.color / r.sched.color_blocks.length < M
  served_later : ∀ k w, r.sched.color < k → served r.log k w = []
  served_earlier : ∀ k w, w < n → k < r.sched.color →
    served r.log k w = stride_slice (r.sched.block k) w n
  served_before : ∀ w, w < n → r.sched.wt w = true → r.sched.col w ≠ r.sched.color →
    served r.log r.sched.color w = []
  served_done : ∀ w, w < n → r.sched.wt w = true → r.sched.col w = r.sched.color →
    served r.log r.sched.color w = stride_slice (r.sched.block r.sched.color) w n
  served_working : ∀ w, w < n → r.sched.wt w = false →
    r.sched.color / r.sched.color_blocks.length < M →
    ∃ j, r.sched.idx w = w + j * n ∧ r.sched.idx w < (r.sched.block r.sched.color).length ∧
      served r.log r.sched.color w =
        (List.range (j + 1)).map (fun t => (r.sched.block r.sched.color).getD (w + t * n) 0)
  served_complete : ∀ w, w < n → r.sched.wt w = false →
    M ≤ r.sched.color / r.sched.color_blocks.length → served r.log r.sched.color w = []

/-! ## distributed_control -/

/-- Modelled from the spec: the deserialiser `iarchive` is declared in
`graphlab/serialization`, which is not among the sources; the spec only says that a
payload starts with a dispatch id and, for a portable call, continues with a name
string and an `is_request` byte.  A stream is the list of its bytes not yet read,
and the three extraction operators that `exec_function_call` uses are parameters:
each returns the value read and the stream behind it. -/
structure iarchive where
  read_size_t : List Nat → Nat × List Nat
  read_string : List Nat → String × List Nat
  read_char : List Nat → Nat × List Nat

/-- A `function_call_block`: the source machine and the `len` bytes at `data`. -/
structure function_call_block where
  source : Nat
  data : List Nat
deriving DecidableEq, Inhabited

/-- What `exec_function_call` and `fcallhandler_loop` do, in order: a dispatch thunk
(kept as its address) is called with the source and the stream where the archive has
left it, a name is looked up in one of the two portable tables, an error is logged,
a receiver is told that a call is completed. -/
inductive dc_event where
  | dispatch (thunk : Nat) (source : Nat) (istrm : List Nat)
  | find_call (name : String)
  | find_request (name : String)
  | log_error (name : String)
  | function_call_completed (source : Nat)
deriving DecidableEq

/-- The fields of `distributed_control` used by `exec_function_call` and
`fcallhandler_loop`: the two name tables (name and thunk address), the queue of
deferred calls and, for each receiver, the number of calls it has been told are
completed. -/
structure distributed_control where
  portable_dispatch_call_map : List (String × Nat)
  portable_dispatch_request_map : List (String × Nat)
  fcallqueue : blocking_queue function_call_block
  receivers : List Nat
deriving DecidableEq

/-- Member `exec_function_call(source, istrm)`, as the list of what it does.  What a
thunk does when it is called is not part of this function. -/
def distributed_control.exec_function_call (dc : distributed_control) (arc : iarchive)
    (source : Nat) (istrm : List Nat) : List dc_event :=
  let f := (arc.read_size_t istrm).1
  let istrm1 := (arc.read_size_t istrm).2
  if f ≠ 0 then [dc_event.dispatch f source istrm1]
  else
    let s := (arc.read_string istrm1).1
    let istrm2 := (arc.read_string istrm1).2
    let isrequest := (arc.read_char istrm2).1
    let istrm3 := (arc.read_char istrm2).2
    if isrequest = 0 then
      match dc.portable_dispatch_call_map.lookup s with
      | none => [dc_event.find_call s, dc_event.log_error s]
      | some thunk => [dc_event.find_call s, dc_event.dispatch thunk source istrm3]
    else
      match dc.portable_dispatch_request_map.lookup s with
      | none => [dc_event.find_request s, dc_event.log_error s]
      | some thunk => [dc_event.find_request s, dc_event.dispatch thunk source istrm3]

/-- Member `deferred_function_call(source, buf, len)`. -/
def distributed_control.deferred_function_call (dc : distributed_control) (source : Nat)
    (buf : List Nat) : distributed_control :=
  { dc with fcallqueue := dc.fcallqueue.enqueue ⟨source, buf⟩ }

/-- How a handler loop stands: it has returned, it waits inside `dequeue`, it has
indexed `receivers` beyond its size, or it is still going when the fuel ends. -/
inductive loop_result where
  | returned
  | waiting
  | out_of_range
  | running
deriving DecidableEq

/-- Outcome of `fcallhandler_loop`: the state, how the loop stands, the blocks passed to
`exec_function_call` in order, and everything done in order. -/
structure loop_outcome where
  dc : distributed_control
  result : loop_result
  executed : List function_call_block
  events : List dc_event

/-- Member `fcallhandler_loop()`, one iteration of `while(1)` per unit of fuel, for one
handler thread and no other caller of the queue in between.  Each iteration calls
`dequeue`, returns when its flag is false, and otherwise runs `exec_function_call` on
the block and then `receivers[source]->function_call_completed()`. -/
def distributed_control.fcallhandler_loop (arc : iarchive) :
    Nat → distributed_control → loop_outcome
  | 0, dc => { dc := dc, result := loop_result.running, executed := [], events := [] }
  | fuel + 1, dc =>
    match dc.fcallqueue.dequeue with
    | none => { dc := dc, result := loop_result.waiting, executed := [], events := [] }
    | some (q1, entry) =>
      let dc1 : distributed_control := { dc with fcallqueue := q1 }
      if entry.2 = false then
        { dc := dc1, result := loop_result.returned, executed := [], events := [] }
      else
        let done := dc1.exec_function_call arc entry.1.source entry.1.data
        if entry.1.source < dc1.receivers.length then
          let dc2 : distributed_control :=
            { dc1 with receivers :=
                dc1.receivers.set entry.1.source (dc1.receivers.getD entry.1.source 0 + 1) }
          let o := distributed_control.fcallhandler_loop arc fuel dc2
          { o with executed := entry.1 :: o.executed,
                   events := done ++ dc_event.function_call_completed entry.1.source :: o.events }
        else
          { dc := dc1, result := loop_result.out_of_range, executed := [entry.1],
            events := done }

/-- What the loop does for one block. -/
def block_events (dc : distributed_control) (arc : iarchive) (b : function_call_block) :
    List dc_event :=
  dc.exec_function_call arc b.source b.data ++ [dc_event.function_call_completed b.source]

/-- Number of thunk invocations among the events. -/
def dispatch_count (events : List dc_event) : Nat :=
  events.countP (fun ev => match ev with
    | dc_event.dispatch _ _ _ => true
    | _ => false)

/-- Number of lookups in a name table among the events. -/
def find_count (events : List dc_event) : Nat :=
  events.countP (fun ev => match ev with
    | dc_event.find_call _ => true
    | dc_event.find_request _ => true
    | _ => false)

/-- An archive for examples: a `size_t` and a byte are one stream element each, and a
string is one element that stands for the name `ping` when it is 1 and for `pong`
otherwise. -/
def sample_archive : iarchive :=
  { read_size_t := fun istrm => (istrm.headD 0, istrm.tail),
    read_string := fun istrm => (if istrm.headD 0 = 1 then "ping" else "pong", istrm.tail),
    read_char := fun istrm => (istrm.headD 0, istrm.tail) }

/-! ## distributed_control::parse_options -/

/-- A `std::stringstream` that is only read: the characters not yet extracted and the
three state bits.  A `std::string` is the list of its characters. -/
structure stringstream where
  buf : List Char
  eofbit : Bool
  failbit : Bool
  badbit : Bool
deriving DecidableEq

/-- Constructor `std::stringstream s(str)`. -/
def stringstream.init (str : List Char) : stringstream :=
  { buf := str, eofbit := false, failbit := false, badbit := false }

/-- Member `good()`: no state bit is set. -/
def stringstream.good (s : stringstream) : Bool :=
  !s.eofbit && !s.failbit && !s.badbit

/-- Member `bad()`. -/
def stringstream.bad (s : stringstream) : Bool := s.badbit

/-- Member `eof()`. -/
def stringstream.eof (s : stringstream) : Bool := s.eofbit

/-- The library function `std::getline(s, str, delim)`, with the stream after the call
and the new value of `str`.  On a stream that is not good it sets `failbit` and
leaves `str`.  Otherwise `str` is cleared and characters are moved to it until the
delimiter, which is extracted and dropped, or the end of the stream, which sets
`eofbit`; `failbit` is set when nothing at all was extracted. -/
def getline (s : stringstream) (str : List Char) (delim : Char) : stringstream × List Char :=
  if s.good = false then ({ s with failbit := true }, str)
  else
    match s.buf.dropWhile (fun c => decide (c ≠ delim)) with
    | [] =>
      ({ s with buf := [], eofbit := true,
                failbit := (s.buf.takeWhile (fun c => decide (c ≠ delim))).isEmpty },
        s.buf.takeWhile (fun c => decide (c ≠ delim)))
    | _ :: rest => ({ s with buf := rest }, s.buf.takeWhile (fun c => decide (c ≠ delim)))

/-- The library function `std::replace(first, last, old_value, new_value)` on a whole
string. -/
def std_replace (str : List Char) (old_value new_value : Char) : List Char :=
  str.map (fun c => if c = old_value then new_value else c)

/-- The assignment `options[key] = value` on a `std::map<std::string, std::string>`, kept
as the list of its entries: the value of an existing key is replaced, a new key gets
an entry. -/
def map_assign (options : List (List Char × List Char)) (key value : List Char) :
    List (List Char × List Char) :=
  if options.any (fun e => decide (e.1 = key)) then
    options.map (fun e => if e.1 = key then (key, value) else e)
  else options ++ [(key, value)]

/-- The loop `while(s.good())` of `parse_options`, one iteration per unit of fuel, with
the variables `opt`, `value` and `options`; `none` when the fuel ends before the loop
does.  The function `trim` of `graphlab/util/stl_util.hpp`, which is not among the
sources, is a parameter. -/
def parse_options_loop (trim : List Char → List Char) :
    Nat → stringstream → List Char → List Char → List (List Char × List Char) →
      Option (List (List Char × List Char))
  | 0, _, _, _, _ => none
  | fuel + 1, s, opt, value, options =>
    if s.good = false then some options
    else
      let r1 := getline s opt '='
      if (r1.1.bad || r1.1.eof) = true then some options
      else
        let r2 := getline r1.1 value '\n'
        if r2.1.bad = true then some options
        else
          parse_options_loop trim fuel r2.1 r1.2 r2.2
            (map_assign options (trim r1.2) (trim r2.2))

/-- Member `parse_options(initstring)`: `,` and `;` become blanks, then the loop reads
an option name up to `=` and a value up to the end of the line.  Every iteration that
goes on extracts at least the `=`, so the length of the string plus one is fuel
enough. -/
def parse_options (trim : List Char → List Char) (initstring : List Char) :
    Option (List (List Char × List Char)) :=
  let replaced := std_replace (std_replace initstring ',' ' ') ';' ' '
  parse_options_loop trim (initstring.length + 1) (stringstream.init replaced) [] [] []

/-! ## topic_vector -/

/-- Modelled from the spec: `topic_id_type`, the element type of `topic_vector`, is
declared in `corpus.hpp`, which is not among the sources; the spec speaks of an
integer sum.  It is taken as an unsigned integer type of `bits` bits, and this is the
conversion of a sum back to it. -/
def topic_wrap (bits : Nat) (x : Nat) : Nat := x % 2 ^ bits

/-- The loop `for(size_t i = 0; i < max_size; ++i) (*this)[i] += (i < other.size()?
other[i] : 0);` of `operator+=`, from index `i` on for `count` more indices. -/
def topic_vector.add_loop (bits : Nat) (other : List Nat) : Nat → Nat → List Nat → List Nat
  | 0, _, this => this
  | count + 1, i, this =>
    topic_vector.add_loop bits other count (i + 1)
      (this.set i (topic_wrap bits
        (this.getD i 0 + (if i < other.length then other.getD i 0 else 0))))

/-- Member `operator+=(other)` of `topic_vector`, a `std::vector<topic_id_type>` kept as
the list of its entries: the vector is resized to the larger of the two sizes (new
entries are 0) and `other` is added entry by entry. -/
def topic_vector.add_assign (bits : Nat) (this other : List Nat) : List Nat :=
  let max_size := max this.length other.length
  let resized := this ++ List.replicate (max_size - this.length) 0
  topic_vector.add_loop bits other max_size 0 resized

/-- Member `operator+(other)`: `topic_vector result(*this); result += other;`. -/
def topic_vector.add (bits : Nat) (this other : List Nat) : List Nat :=
  topic_vector.add_assign bits this other

/-! ## sampling_scheduler -/

/-- A value of the type `double` as far as its comparison with 0 goes: not a number, an
infinity, or a finite value, kept as a rational number. -/
inductive double where
  | nan
  | neg_inf
  | finite (q : Rat)
  | pos_inf
deriving DecidableEq

/-- The comparison `priority <= 0`, false for a value that is not a number. -/
def double.le_zero : double → Bool
  | double.nan => false
  | double.neg_inf => true
  | double.finite q => decide (q ≤ 0)
  | double.pos_inf => false

/-- The comparison `priority > 0`, false for a value that is not a number. -/
def double.pos : double → Bool
  | double.nan => false
  | double.neg_inf => false
  | double.finite q => decide (0 < q)
  | double.pos_inf => true

/-- Modelled from the spec: `vertex_task_set` and `fast_multinomial` are declared in
`schedulers/support/vertex_task_set.hpp` and `util/fast_multinomial.hpp`, which are
not among the sources; the spec describes a task set with priorities per vertex and
a fast multinomial for priority-weighted selection.  Their states are the types `VT`
and `MN`, and the three members that `add_task` calls are parameters:
`vertex_tasks.add(task, priority)` with its result (true for a first insertion),
`vertex_tasks.top_priority(vertex)` and `multinomial.set(vertex, weight)`. -/
structure sampling_support (VT MN : Type) where
  add : VT → update_task → double → VT × Bool
  top_priority : VT → Nat → double
  set : MN → Nat → double → MN

/-- The fields of `sampling_scheduler` that `add_task` reads or writes.
`terminator_jobs` is the number of jobs recorded by `terminator.new_job()` (the class
`task_count_termination` is not among the sources), `has_monitor` is
`monitor != NULL`, and the vector `locks` has `num_vertices` entries. -/
structure sampling_scheduler (VT MN : Type) where
  num_vertices : Nat
  multinomial : MN
  vertex_tasks : VT
  terminator_jobs : Nat
  has_monitor : Bool

/-- What `add_task` tells its surroundings: the warning of the logger and the
notifications sent to the monitor. -/
inductive sched_notice where
  | warning
  | scheduler_task_added (task : update_task) (priority : double)
  | scheduler_task_promoted (task : update_task) (priority : double)
  | scheduler_task_pruned (task : update_task)
deriving DecidableEq

/-- The notice goes to the monitor. -/
def sched_notice.to_monitor : sched_notice → Bool
  | sched_notice.warning => false
  | _ => true

/-- Member `add_task(task, priority)` of `sampling_scheduler`: the new state and the
notices.  A priority `<= 0` is dropped with a warning.  Otherwise the lock of the
vertex is taken (no result when the vertex is not an index of `locks`), the task is
added to the task set, a first insertion is recorded as a new job, the weight of the
vertex in the multinomial is set to its top priority, and the monitor, if there is
one, is notified. -/
def sampling_scheduler.add_task {VT MN : Type} (sup : sampling_support VT MN)
    (s : sampling_scheduler VT MN) (task : update_task) (priority : double) :
    Option (sampling_scheduler VT MN × List sched_notice) :=
  if priority.le_zero = true then some (s, [sched_notice.warning])
  else if s.num_vertices ≤ task.vertex then none
  else
    let added := sup.add s.vertex_tasks task priority
    let newadd := added.2
    let jobs := if newadd = true then s.terminator_jobs + 1 else s.terminator_jobs
    let weights := sup.set s.multinomial task.vertex (sup.top_priority added.1 task.vertex)
    some ({ s with vertex_tasks := added.1, terminator_jobs := jobs, multinomial := weights },
      if s.has_monitor = true then
        (if newadd = true then [sched_notice.scheduler_task_added task priority]
         else [sched_notice.scheduler_task_promoted task priority,
               sched_notice.scheduler_task_pruned task])
      else [])

/-- A task set for examples: the list of the tasks added so far with their priorities;
`add` reports a first insertion when the task is not yet in the list, and the top
priority of a vertex is that of its first entry. -/
def sample_support : sampling_support (List (update_task × double)) (List (Nat × double)) :=
  { add := fun vt task priority =>
      (vt ++ [(task, priority)], !(vt.any (fun e => decide (e.1 = task)))),
    top_priority := fun vt vertex =>
      ((vt.find? (fun e => decide (e.1.vertex = vertex))).map (fun e => e.2)).getD
        (double.finite 0),
    set := fun mn vertex weight => (vertex, weight) :: mn }

/-! ## colored_scheduler: colourings, mixed call sequences and subscripts -/

/-- Modelled from the spec: `graph.valid_coloring()`, asserted by the constructor of
`colored_scheduler`, is a member of the graph class, which is not among the sources;
the spec says that a coloring is a mapping vertex → color such that no edge connects
two vertices of equal color.  The graph is given by its list of edges and the colours
of the vertices `0, 1, ...`. -/
def valid_coloring (edges : List (Nat × Nat)) (colors : List Nat) : Bool :=
  edges.all (fun e => decide (colors.getD e.1 0 ≠ colors.getD e.2 0))

/-- The calls an engine and its clients make on a started `colored_scheduler`:
`get_next_task(cpuid, ret_task)`, `add_task(task, priority)`,
`add_tasks(vertices, func, priority)` and `add_task_to_all(func, priority)`. -/
inductive sched_call where
  | get_next_task (cpuid : Nat)
  | add_task (task : update_task) (priority : double)
  | add_tasks (vertices : List Nat) (func : Nat) (priority : double)
  | add_task_to_all (func : Nat) (priority : double)

/-- One call on a scheduler with its record; only `get_next_task` calls are recorded. -/
def sched_run.call (r : sched_run) : sched_call → Option sched_run
  | sched_call.get_next_task cpuid => r.step cpuid
  | sched_call.add_task task _ => some { r with sched := r.sched.add_task task }
  | sched_call.add_tasks vertices func _ =>
    some { r with sched := r.sched.add_tasks vertices func }
  | sched_call.add_task_to_all func _ => some { r with sched := r.sched.add_task_to_all func }

/-- A sequence of atomic calls, in the order given. -/
def sched_run.calls : sched_run → List sched_call → Option sched_run
  | r, [] => some r
  | r, call :: rest =>
    match r.call call with
    | none => none
    | some r1 => sched_run.calls r1 rest

/-- The function given by the most recent of the `add_task`, `add_tasks` and
`add_task_to_all` calls of a sequence, `f` when there is none. -/
def last_function (f : Nat) : List sched_call → Nat
  | [] => f
  | sched_call.get_next_task _ :: rest => last_function f rest
  | sched_call.add_task task _ :: rest => last_function task.function rest
  | sched_call.add_tasks _ func _ :: rest => last_function func rest
  | sched_call.add_task_to_all func _ :: rest => last_function func rest

/-- The call sequence of the worked example: the schedule 0, 1, 0, 1, 0, 1, 1, 0, 0 of two
workers with three `add` calls in between, none of them on all the vertices. -/
def sample_calls : List sched_call :=
  [sched_call.add_task ⟨2, 9⟩ double.pos_inf, sched_call.get_next_task 0,
    sched_call.get_next_task 1, sched_call.add_tasks [1] 11 double.nan,
    sched_call.get_next_task 0, sched_call.get_next_task 1, sched_call.get_next_task 0,
    sched_call.get_next_task 1, sched_call.add_task_to_all 13 double.neg_inf,
    sched_call.get_next_task 1, sched_call.get_next_task 0, sched_call.get_next_task 0]

/-- The worker of a `get_next_task` call. -/
def sched_call.worker : sched_call → Option Nat
  | sched_call.get_next_task cpuid => some cpuid
  | _ => none

/-- A record entry without the function of its task: worker, value of the colour
counter, status and vertex. -/
def sched_record.vertex_part (e : sched_record) : Nat × Nat × sched_status × Option Nat :=
  (e.cpuid, e.color, e.stat, e.task.map update_task.vertex)

/-- The divisions and subscripts of one `get_next_task` call: the subscript `cpuid` of
the per-worker vectors, `cpu_color[cpuid] % color_blocks.size()`,
`cpu_color[cpuid] / color_blocks.size()`, `color_blocks[current_color]` and
`color_blocks[current_color][cpu_index[cpuid]]`, each with the divisor or the size of
the vector subscripted. -/
inductive sched_access where
  | worker (index size : Nat)
  | remainder (divisor : Nat)
  | quotient (divisor : Nat)
  | block (index size : Nat)
  | entry (index size : Nat)
deriving DecidableEq

/-- A division is defined when the divisor is not zero, a subscript when it is below
the size. -/
def sched_access.safe : sched_access → Bool
  | sched_access.worker index size => decide (index < size)
  | sched_access.remainder divisor => decide (divisor ≠ 0)
  | sched_access.quotient divisor => decide (divisor ≠ 0)
  | sched_access.block index size => decide (index < size)
  | sched_access.entry index size => decide (index < size)

/-- The divisions and subscripts of the part of `get_next_task` that follows the waiting
test, in program order, up to the first one that is not defined: the remainder, the
quotient of the iteration test, `color_blocks[current_color].size()` of the index test
and, when the index is good, `color_blocks[current_color][cpu_index[cpuid]]`. -/
def colored_scheduler.serve_accesses (s1 : colored_scheduler) (cpuid : Nat) :
    List sched_access :=
  if s1.color_blocks.length = 0 then [sched_access.remainder s1.color_blocks.length]
  else
    let current_color := s1.cpu_color.getD cpuid 0 % s1.color_blocks.length
    if s1.cpu_color.getD cpuid 0 / s1.color_blocks.length ≥ s1.max_iterations then
      [sched_access.remainder s1.color_blocks.length,
        sched_access.quotient s1.color_blocks.length]
    else if s1.cpu_index.getD cpuid 0 < (s1.color_blocks.getD current_color []).length then
      [sched_access.remainder s1.color_blocks.length,
        sched_access.quotient s1.color_blocks.length,
        sched_access.block current_color s1.color_blocks.length,
        sched_access.block current_color s1.color_blocks.length,
        sched_access.entry (s1.cpu_index.getD cpuid 0)
          (s1.color_blocks.getD current_color []).length]
    else
      [sched_access.remainder s1.color_blocks.length,
        sched_access.quotient s1.color_blocks.length,
        sched_access.block current_color s1.color_blocks.length]

/-- The divisions and subscripts of `get_next_task(cpuid, ret_task)` in the state `s`,
in program order, up to the first one that is not defined. -/
def colored_scheduler.accesses (s : colored_scheduler) (cpuid : Nat) : List sched_access :=
  if s.cpu_index.length ≤ cpuid then [sched_access.worker cpuid s.cpu_index.length]
  else if s.cpu_waiting.getD cpuid false = true ∧ s.cpu_color.getD cpuid 0 = s.color then
    [sched_access.worker cpuid s.cpu_index.length]
  else
    sched_access.worker cpuid s.cpu_index.length ::
      colored_scheduler.serve_accesses
        (if s.cpu_waiting.getD cpuid false = true then
          { s with
            cpu_color := s.cpu_color.set cpuid s.color,
            cpu_index := s.cpu_index.set cpuid cpuid,
            cpu_waiting := s.cpu_waiting.set cpuid false }
        else
          { s with
            cpu_index :=
              s.cpu_index.set cpuid (s.cpu_index.getD cpuid 0 + s.cpu_index.length) }) cpuid

/-! ## distributed_control: shutdown and the handler threads -/

/-- The destructor `~distributed_control()` as far as the handler threads see it, up to
`fcallhandlers.join()`: the receivers are shut down and deleted and `receivers` is
cleared, and only then `fcallqueue.stop_blocking()` is called. -/
def distributed_control.destructor (dc : distributed_control) : distributed_control :=
  { dc with receivers := [], fcallqueue := dc.fcallqueue.stop_blocking }

/-- One of the `numhandlerthreads` threads that run `fcallhandler_loop`: how its loop
stands (`running` is between two iterations), the blocks it has passed to
`exec_function_call` and what it has done, in its own order. -/
structure handler_thread where
  result : loop_result
  executed : List function_call_block
  events : List dc_event
deriving DecidableEq

/-- The handler threads with the object they share, and the blocks taken out of
`fcallqueue` so far, in the order of the `dequeue` calls, which the mutex of the queue
puts one after the other. -/
structure handler_pool where
  dc : distributed_control
  threads : List handler_thread
  dequeued : List function_call_block
deriving DecidableEq

/-- The loop `for (i = 0; i < numhandlerthreads; ++i) launch_in_new_thread(...)` of
`init`: every thread is at the top of its loop. -/
def handler_pool.launch (dc : distributed_control) (numhandlerthreads : Nat) : handler_pool :=
  { dc := dc,
    threads := List.replicate numhandlerthreads ⟨loop_result.running, [], []⟩,
    dequeued := [] }

/-- Thread `i` does the next iteration of its `while(1)` loop, when it is still in the
loop (a thread waiting inside `dequeue` is woken and tries again).  The `dequeue` of an
iteration is atomic; what the thread then does with its block touches only the block,
the name tables, which nobody writes, and the receiver of the source, so the iteration
is one step and the steps of the threads are interleaved in any order. -/
def handler_pool.step (arc : iarchive) (p : handler_pool) (i : Nat) : handler_pool :=
  match p.threads[i]? with
  | none => p
  | some th =>
    if th.result = loop_result.running ∨ th.result = loop_result.waiting then
      let o := distributed_control.fcallhandler_loop arc 1 p.dc
      { dc := o.dc,
        threads := p.threads.set i ⟨o.result, th.executed ++ o.executed, th.events ++ o.events⟩,
        dequeued := p.dequeued ++ o.executed }
    else p

/-- An interleaving of iterations: the threads named in the schedule step in turn. -/
def handler_pool.run (arc : iarchive) : handler_pool → List Nat → handler_pool
  | p, [] => p
  | p, i :: rest => handler_pool.run arc (p.step arc i) rest

/-- An object for examples: no portable names, two receivers, and three deferred calls
in the queue, which is alive. -/
def sample_control : distributed_control :=
  { portable_dispatch_call_map := [], portable_dispatch_request_map := [],
    fcallqueue := ⟨true, [⟨0, [5]⟩, ⟨1, [6, 8]⟩, ⟨0, [7]⟩]⟩, receivers := [0, 0] }

/-- The invariant of the handler threads on a stopped queue that held `bs` at stop time,
all from sources that have a receiver in `dc0`, after the iterations of `sched`. -/
structure pool_inv (arc : iarchive) (dc0 : distributed_control)
    (bs : List function_call_block) (n : Nat) (sched : List Nat) (p : handler_pool) :
    Prop where
  alive : p.dc.fcallqueue.m_alive = false
  call_map : p.dc.portable_dispatch_call_map = dc0.portable_dispatch_call_map
  request_map : p.dc.portable_dispatch_request_map = dc0.portable_dispatch_request_map
  recv : p.dc.receivers.length = dc0.receivers.length
  queue : p.dequeued ++ p.dc.fcallqueue.m_queue = bs
  len : p.threads.length = n
  res : ∀ th ∈ p.threads, th.result = loop_result.running ∨
    (th.result = loop_result.returned ∧ p.dc.fcallqueue.m_queue = [])
  ev : ∀ th ∈ p.threads, th.events = th.executed.flatMap (block_events dc0 arc)
  sub : ∀ th ∈ p.threads, th.executed.Sublist p.dequeued
  cnt : ∀ b, (p.threads.map (fun th => th.executed.count b)).sum = p.dequeued.count b
  steps : ∀ i th, p.threads[i]? = some th → th.result = loop_result.running →
    th.executed.length = sched.count i

/-! ## colored_scheduler: calls that make progress -/

/-- Number of calls of a schedule made by a worker that, at the time of its call, is
not waiting on the current value of the colour counter, so that the call gets past
the first `return` of `get_next_task`. -/
def sched_run.busy : sched_run → List Nat → Nat
  | _, [] => 0
  | r, cpuid :: rest =>
    match r.step cpuid with
    | none => 0
    | some r1 => (if r.sched.waits_on_color cpuid = true then 0 else 1) + sched_run.busy r1 rest

/-- A number of such calls after which the scheduler of a graph with the colours
`colors`, for `n` workers and `M` iterations, has completed its terminator: each of
the `M * C` values of the colour counter takes at most `V + 2` calls of each worker,
and one more call finds the counter at `M * C`. -/
def pass_bound (colors : List Nat) (n M : Nat) : Nat :=
  M * (init_color_blocks colors 0 []).length * (n * (colors.length + 2) + 1) +
    n * (colors.length + 2) + 1

/-- What worker `w` can still do at the current value of the colour counter, counted
generously, when no block is longer than `B`: nothing when it waits on the colour,
`B + 2` calls when it has yet to take the colour over, and one call per index step
left below `B + 1` when it is working. -/
def worker_potential (B : Nat) (s : colored_scheduler) (w : Nat) : Nat :=
  if s.wt w = true then (if s.col w = s.color then 0 else B + 2) else B + 1 - s.idx w

/-- A bound on the number of calls that get past the waiting test before the
terminator is completed: 0 when it is, 1 when the counter has reached `M * C`, and
otherwise the sum over the workers for the current value plus a full share for every
later value, plus the last call. -/
def sched_potential (n M B : Nat) (s : colored_scheduler) : Nat :=
  if s.terminator.finished = true then 0
  else if M * s.color_blocks.length ≤ s.color then 1
  else (M * s.color_blocks.length - s.color) * (n * (B + 2) + 1) +
    ((List.range n).map (worker_potential B s)).sum + 1

/-! # Properties -/

/-! ### Paths of the lock functions -/

theorem take_length_takeWhile {α : Type} (p : α → Bool) (l : List α) :
    l.take (l.takeWhile p).length = l.takeWhile p := by
  induction l with
  | nil => simp
  | cons a l ih =>
    by_cases hp : p a = true
    · rw [List.takeWhile_cons_of_pos hp]
      simp [ih]
    · rw [List.takeWhile_cons_of_neg hp]
      simp

theorem complete_rdlock_eq (L : deferred_rw_lock) (h : request) (t : List request)
    (hq : L.queue = h :: t) (hr : is_read h = true) :
    L.complete_rdlock =
      { lock := ⟨L.queue.dropWhile is_read,
          (L.reader_count + (L.queue.takeWhile is_read).length) % 65536, L.writer⟩,
        released := L.queue,
        ret := (L.queue.takeWhile is_read).length } := by
  simp [deferred_rw_lock.complete_rdlock, hq, List.dropWhile_cons_of_pos hr,
    List.takeWhile_cons_of_pos hr, Nat.add_comm]

/-- The code after the head test shared by `wrunlock` and `rdunlock`, as one function of
the state reached at that point. -/
theorem serve_head_path (L B : deferred_rw_lock) (op : lock_op) (r : unlock_result)
    (hb : unlock_base L op B.reader_count B.writer) (hB : B.queue = L.queue)
    (hr : r = match B.queue with
      | [] => { lock := B, released := [], ret := 0 }
      | h :: _ =>
        if is_read h then B.complete_rdlock
        else
          let L2 : deferred_rw_lock := { B with writer := true }
          { lock := L2.complete_wrlock, released := L2.queue, ret := 1 }) :
    lock_path L op r.lock (r.released.take r.ret) := by
  cases hq : B.queue with
  | nil =>
    rw [hq] at hr
    simp only at hr
    subst hr
    refine lock_path.un_empty B.reader_count B.writer hb (hB ▸ hq) ?_ (by simp)
    cases B
    simp_all
  | cons h t =>
    rw [hq] at hr
    simp only at hr
    by_cases hrd : is_read h = true
    · rw [if_pos hrd] at hr
      subst hr
      rw [complete_rdlock_eq B h t hq hrd]
      refine lock_path.un_read B.reader_count B.writer h t hb (hB ▸ hq) hrd ?_ ?_
      · rw [hB]
      · simp only
        rw [take_length_takeWhile, hB]
    · rw [if_neg hrd] at hr
      subst hr
      refine lock_path.un_write B.reader_count B.writer h t hb (hB ▸ hq) (by simpa using hrd)
        ?_ ?_
      · simp [deferred_rw_lock.complete_wrlock, hq]
      · simp [hq]

theorem lock_path_step (L : deferred_rw_lock) (op : lock_op) :
    lock_path L op (lock_next L op) (lock_granted L op) := by
  cases op with
  | writelock I =>
    by_cases hc : L.reader_count = 0 ∧ L.writer = false
    · refine lock_path.wl_fast I rfl hc.1 hc.2 ?_ ?_
      · simp [lock_next, deferred_rw_lock.writelock, hc]
      · simp [lock_granted, deferred_rw_lock.writelock, hc]
    · refine lock_path.wl_slow I rfl hc ?_ ?_
      · simp [lock_next, deferred_rw_lock.writelock, hc, deferred_rw_lock.insert_queue]
      · simp [lock_granted, deferred_rw_lock.writelock, hc]
  | readlock I =>
    by_cases hc : L.queue = [] ∧ L.writer = false
    · refine lock_path.rl_fast I rfl hc.1 hc.2 ?_ ?_
      · simp [lock_next, deferred_rw_lock.readlock, hc]
      · simp [lock_granted, deferred_rw_lock.readlock, hc]
    · cases hq1 : L.queue ++ [(⟨I, lockclass_t.READ⟩ : request)] with
      | nil => simp at hq1
      | cons h t =>
        by_cases hs : is_read h = true ∧ L.writer = false
        · have hqne : L.queue ≠ [] := fun e => hc ⟨e, hs.2⟩
          obtain ⟨h0, t0, hq0⟩ := List.exists_cons_of_ne_nil hqne
          have hh : h0 = h := by
            rw [hq0] at hq1
            simp at hq1
            exact hq1.1
          subst hh
          have key := complete_rdlock_eq (L.insert_queue ⟨I, lockclass_t.READ⟩) h0 t
            (by simpa [deferred_rw_lock.insert_queue] using hq1) hs.1
          refine lock_path.rl_serve I h0 t0 rfl hq0 hs.1 hs.2 ?_ ?_
          · simp only [lock_next, deferred_rw_lock.readlock, if_neg hc]
            simp only [deferred_rw_lock.insert_queue, hq1]
            rw [if_pos hs]
            rw [← hq1]
            have := congrArg unlock_result.lock key
            simp only [deferred_rw_lock.insert_queue] at this
            rw [this, hs.2]
          · simp only [lock_granted, deferred_rw_lock.readlock, if_neg hc]
            simp only [deferred_rw_lock.insert_queue, hq1]
            rw [if_pos hs]
            rw [← hq1]
            have h1 := congrArg unlock_result.released key
            have h2 := congrArg unlock_result.ret key
            simp only [deferred_rw_lock.insert_queue] at h1 h2
            rw [h1, h2]
            exact take_length_takeWhile _ _
        · refine lock_path.rl_slow I rfl hc ?_ ?_ ?_
          · by_cases hw : L.writer = true
            · exact Or.inl hw
            · right
              refine ⟨h, t, hq1, ?_⟩
              have hw2 : L.writer = false := by simpa using hw
              by_contra hr
              exact hs ⟨by simpa using hr, hw2⟩
          · simp only [lock_next, deferred_rw_lock.readlock, if_neg hc]
            simp only [deferred_rw_lock.insert_queue, hq1]
            rw [if_neg hs]
          · simp only [lock_granted, deferred_rw_lock.readlock, if_neg hc]
            simp only [deferred_rw_lock.insert_queue, hq1]
            rw [if_neg hs]
            simp
  | wrunlock I =>
    exact serve_head_path L { L with writer := false } (lock_op.wrunlock I) (L.wrunlock I)
      (Or.inl ⟨I, rfl, rfl, rfl⟩) rfl rfl
  | rdunlock I =>
    by_cases hz : (L.reader_count + 65535) % 65536 = 0
    · refine serve_head_path L { L with reader_count := (L.reader_count + 65535) % 65536 }
        (lock_op.rdunlock I) (L.rdunlock I) (Or.inr ⟨I, rfl, hz, hz, rfl⟩) rfl ?_
      simp only [deferred_rw_lock.rdunlock, hz, if_true]
      try rfl
    · refine lock_path.rd_more I rfl hz ?_ ?_
      · simp only [lock_next, deferred_rw_lock.rdunlock, if_neg hz]
      · simp only [lock_granted, deferred_rw_lock.rdunlock, if_neg hz]
        simp

/-! ### The head of the queue when no writer holds the lock -/


theorem dropWhile_head_not {α : Type} (p : α → Bool) :
    ∀ (l : List α) (h : α) (rest : List α), l.dropWhile p = h :: rest → p h = false
  | [], _, _, e => by simp at e
  | a :: l, h, rest, e => by
    by_cases hp : p a = true
    · rw [List.dropWhile_cons_of_pos hp] at e
      exact dropWhile_head_not p l h rest e
    · have hp2 : p a = false := by simpa using hp
      rw [List.dropWhile_cons_of_neg hp] at e
      injection e with e1 e2
      rw [← e1]; exact hp2

theorem head_not_read_path (L L1 : deferred_rw_lock) (op : lock_op) (g : List request)
    (hp : lock_path L op L1 g) (hL : head_not_read L) : head_not_read L1 := by
  intro hw h rest hq
  cases hp with
  | wl_fast I hop hrc hw0 hL1 hg => subst hL1; simp at hw
  | wl_slow I hop hc hL1 hg =>
    subst hL1
    simp only at hw hq
    cases hq0 : L.queue with
    | nil =>
      rw [hq0] at hq
      simp at hq
      rw [← hq.1]; rfl
    | cons a l =>
      rw [hq0] at hq
      simp at hq
      rw [← hq.1]
      exact hL hw a l hq0
  | rl_fast I hop hq0 hw0 hL1 hg => subst hL1; simp at hq
  | rl_slow I hop hc hn hL1 hg =>
    subst hL1
    simp only at hw hq
    rcases hn with hn | ⟨h1, t1, e1, hr1⟩
    · rw [hn] at hw; simp at hw
    · rw [e1] at hq
      injection hq with e2 e3
      rw [← e2]; exact hr1
  | rl_serve I h0 t0 hop hq0 hr hw0 hL1 hg =>
    subst hL1
    exact dropWhile_head_not is_read _ h rest hq
  | un_empty rc0 w0 hb hq0 hL1 hg => subst hL1; simp at hq
  | un_read rc0 w0 h0 t0 hb hq0 hr hL1 hg =>
    subst hL1
    exact dropWhile_head_not is_read _ h rest hq
  | un_write rc0 w0 h0 t0 hb hq0 hr hL1 hg => subst hL1; simp at hw
  | rd_more I hop hrc hL1 hg =>
    subst hL1
    exact hL hw h rest hq

theorem head_not_read_run (ops : List lock_op) :
    ∀ L : deferred_rw_lock, head_not_read L → head_not_read (lock_run L ops) := by
  induction ops with
  | nil => intro L hL; exact hL
  | cons op ops ih =>
    intro L hL
    exact ih (lock_next L op) (head_not_read_path L _ op _ (lock_path_step L op) hL)

theorem head_not_read_init : head_not_read deferred_rw_lock.init := by
  intro _ h rest hq
  simp [deferred_rw_lock.init] at hq

/-! ### Holders and counters -/

theorem is_write_eq_not_is_read (r : request) : is_write r = !is_read r := by
  cases r with
  | mk a c => cases c <;> rfl

theorem countP_erase_of_pos {α : Type} [DecidableEq α] (p : α → Bool) (a : α) :
    ∀ l : List α, a ∈ l → p a = true → (l.erase a).countP p + 1 = l.countP p
  | [], h, _ => by simp at h
  | b :: l, h, hp => by
    by_cases hba : b = a
    · subst hba
      simp [hp]
    · have hmem : a ∈ l := by
        rcases List.mem_cons.mp h with h1 | h1
        · exact absurd h1.symm hba
        · exact h1
      have ih := countP_erase_of_pos p a l hmem hp
      have hne : (b == a) = false := by simpa using hba
      rw [List.erase_cons, hne]
      simp only [Bool.false_eq_true, if_false, List.countP_cons]
      omega

theorem countP_erase_of_neg {α : Type} [DecidableEq α] (p : α → Bool) (a : α)
    (hp : p a = false) : ∀ l : List α, (l.erase a).countP p = l.countP p
  | [] => by simp
  | b :: l => by
    by_cases hba : b = a
    · subst hba
      simp [hp]
    · have hne : (b == a) = false := by simpa using hba
      rw [List.erase_cons, hne]
      simp only [Bool.false_eq_true, if_false, List.countP_cons]
      rw [countP_erase_of_neg p a hp l]

theorem countP_read_takeWhile (q : List request) :
    (q.takeWhile is_read).countP is_read = (q.takeWhile is_read).length := by
  rw [List.countP_eq_length]
  intro a ha
  exact (List.mem_takeWhile_imp ha)

theorem countP_write_takeWhile (q : List request) :
    (q.takeWhile is_read).countP is_write = 0 := by
  rw [List.countP_eq_zero]
  intro a ha
  have := List.mem_takeWhile_imp ha
  rw [is_write_eq_not_is_read, this]
  simp

theorem takeWhile_length_pos (h : request) (t : List request) (hr : is_read h = true) :
    0 < ((h :: t).takeWhile is_read).length := by
  rw [List.takeWhile_cons_of_pos hr]
  simp

theorem readers_step (t : tracked) (op : lock_op) :
    (t.step op).readers =
      (unlock_holder t.holders op).countP is_read + (lock_granted t.lock op).countP is_read := by
  simp [tracked.step, tracked.readers, List.countP_append]

theorem writers_step (t : tracked) (op : lock_op) :
    (t.step op).writers =
      (unlock_holder t.holders op).countP is_write + (lock_granted t.lock op).countP is_write := by
  simp [tracked.step, tracked.writers, List.countP_append]

theorem countP_pos_of_mem {α : Type} (p : α → Bool) (a : α) (l : List α) (h : a ∈ l)
    (hp : p a = true) : 0 < l.countP p :=
  List.countP_pos_iff.mpr ⟨a, h, hp⟩

theorem countP_read_write_request (I : Nat) :
    List.countP is_read [(⟨I, lockclass_t.WRITE⟩ : request)] = 0 := rfl

theorem countP_write_write_request (I : Nat) :
    List.countP is_write [(⟨I, lockclass_t.WRITE⟩ : request)] = 1 := rfl

theorem countP_read_read_request (I : Nat) :
    List.countP is_read [(⟨I, lockclass_t.READ⟩ : request)] = 1 := rfl

theorem countP_write_read_request (I : Nat) :
    List.countP is_write [(⟨I, lockclass_t.READ⟩ : request)] = 0 := rfl

/-- At the head test of an unlock made by a holder, nobody holds the lock any more. -/
theorem unlock_base_inv (t : tracked) (op : lock_op) (rc0 : Nat) (w0 : Bool)
    (hi : lock_inv t) (ha : t.allowed op = true) (hlt : t.readers < 65536)
    (hb : unlock_base t.lock op rc0 w0) :
    rc0 = 0 ∧ w0 = false ∧ (unlock_holder t.holders op).countP is_read = 0 ∧
      (unlock_holder t.holders op).countP is_write = 0 := by
  obtain ⟨h1, h2, h3, h4⟩ := hi
  rcases hb with ⟨I, hop, hrc, hw⟩ | ⟨I, hop, hz, hrc, hw⟩
  · subst hop
    simp only [tracked.allowed, decide_eq_true_eq] at ha
    have hpos : 0 < t.writers := countP_pos_of_mem is_write _ _ ha rfl
    have hwt : t.lock.writer = true := by
      by_contra hne
      have := h3 (by simpa using hne)
      omega
    obtain ⟨hw1, hr0⟩ := h2 hwt
    have e1 := countP_erase_of_pos is_write ⟨I, lockclass_t.WRITE⟩ t.holders ha rfl
    have e2 := countP_erase_of_neg is_read ⟨I, lockclass_t.WRITE⟩ rfl t.holders
    simp only [tracked.readers, tracked.writers] at hw1 hr0 h1
    refine ⟨by omega, hw, ?_, ?_⟩
    · simp only [unlock_holder]; omega
    · simp only [unlock_holder]; omega
  · subst hop
    simp only [tracked.allowed, decide_eq_true_eq] at ha
    have hpos : 0 < t.readers := countP_pos_of_mem is_read _ _ ha rfl
    have hwf : t.lock.writer = false := by
      by_contra hne
      have := (h2 (by simpa using hne)).2
      omega
    have hw0 := h3 hwf
    have e1 := countP_erase_of_pos is_read ⟨I, lockclass_t.READ⟩ t.holders ha rfl
    have e2 := countP_erase_of_neg is_write ⟨I, lockclass_t.READ⟩ rfl t.holders
    simp only [tracked.readers, tracked.writers] at hw0 hpos h1 hlt
    refine ⟨hrc, by rw [hw, hwf], ?_, ?_⟩
    · simp only [unlock_holder]; omega
    · simp only [unlock_holder]; omega

theorem lock_inv_step (t : tracked) (op : lock_op) (hi : lock_inv t)
    (ha : t.allowed op = true) (hlt : t.readers < 65536)
    (hlt1 : (t.step op).readers < 65536) : lock_inv (t.step op) := by
  have hp := lock_path_step t.lock op
  have hR := readers_step t op
  have hW := writers_step t op
  have hi0 := hi
  obtain ⟨h1, h2, h3, h4⟩ := hi
  have hlock : (t.step op).lock = lock_next t.lock op := rfl
  unfold lock_inv
  rw [hlock]
  cases hp with
  | wl_fast I hop hrc hw0 hL1 hg =>
    rw [hL1, hR, hW, hg]
    subst hop
    have := h3 hw0
    simp only [tracked.readers, tracked.writers] at h1 this
    simp only [unlock_holder, countP_read_write_request, countP_write_write_request]
    refine ⟨by omega, fun _ => by omega, fun hw => by simp at hw, fun hw => by simp at hw⟩
  | wl_slow I hop hc hL1 hg =>
    rw [hL1, hR, hW, hg]
    subst hop
    simp only [tracked.readers, tracked.writers] at h1 h2 h3
    simp only [unlock_holder, List.countP_nil, Nat.add_zero]
    refine ⟨h1, h2, h3, ?_⟩
    intro hw _
    intro h0
    exact hc ⟨h0, hw⟩
  | rl_fast I hop hq0 hw0 hL1 hg =>
    rw [hR, hg] at hlt1
    rw [hL1, hR, hW, hg]
    subst hop
    have := h3 hw0
    simp only [tracked.readers, tracked.writers] at h1 this
    simp only [unlock_holder, countP_read_read_request, countP_write_read_request]
      at hlt1 ⊢
    refine ⟨?_, fun hw => by simp at hw, fun _ => by omega, fun _ hq => by simp at hq⟩
    rw [Nat.mod_eq_of_lt (by omega)]; omega
  | rl_slow I hop hc hn hL1 hg =>
    rw [hL1, hR, hW, hg]
    subst hop
    simp only [tracked.readers, tracked.writers] at h1 h2 h3
    simp only [unlock_holder, List.countP_nil, Nat.add_zero]
    refine ⟨h1, h2, h3, ?_⟩
    intro hw _
    apply h4 hw
    intro hq
    exact hc ⟨hq, hw⟩
  | rl_serve I h0 t0 hop hq0 hr hw0 hL1 hg =>
    rw [hR, hg, countP_read_takeWhile] at hlt1
    rw [hL1, hR, hW, hg, countP_read_takeWhile, countP_write_takeWhile]
    subst hop
    have := h3 hw0
    have hk : 0 < ((t.lock.queue ++ [(⟨I, lockclass_t.READ⟩ : request)]).takeWhile
        is_read).length := by
      rw [hq0]; exact takeWhile_length_pos h0 _ hr
    simp only [tracked.readers, tracked.writers] at h1 this
    simp only [unlock_holder] at hlt1 ⊢
    refine ⟨?_, by simp, fun _ => by omega, fun _ _ => ?_⟩
    · rw [Nat.mod_eq_of_lt (by omega)]; omega
    · rw [Nat.mod_eq_of_lt (by omega)]; omega
  | un_empty rc0 w0 hb hq0 hL1 hg =>
    obtain ⟨e1, e2, e3, e4⟩ := unlock_base_inv t op rc0 w0 hi0 ha hlt hb
    rw [hL1, hR, hW, hg, e1, e2, e3, e4]
    simp
  | un_read rc0 w0 h0 t0 hb hq0 hr hL1 hg =>
    obtain ⟨e1, e2, e3, e4⟩ := unlock_base_inv t op rc0 w0 hi0 ha hlt hb
    rw [hR, hg, countP_read_takeWhile, e3] at hlt1
    rw [hL1, hR, hW, hg, e1, e2, e3, e4, countP_read_takeWhile, countP_write_takeWhile]
    have hk : 0 < (t.lock.queue.takeWhile is_read).length := by
      rw [hq0]; exact takeWhile_length_pos h0 _ hr
    refine ⟨?_, by simp, fun _ => rfl, fun _ _ => ?_⟩
    · simp only [Nat.zero_add] at hlt1 ⊢
      rw [Nat.mod_eq_of_lt hlt1]
    · simp only [Nat.zero_add] at hlt1 ⊢
      rw [Nat.mod_eq_of_lt hlt1]; omega
  | un_write rc0 w0 h0 t0 hb hq0 hr hL1 hg =>
    obtain ⟨e1, e2, e3, e4⟩ := unlock_base_inv t op rc0 w0 hi0 ha hlt hb
    rw [hL1, hR, hW, hg, e1, e3, e4]
    have hwr : is_write h0 = true := by rw [is_write_eq_not_is_read, hr]; rfl
    simp [hr, hwr]
  | rd_more I hop hrc hL1 hg =>
    rw [hL1, hR, hW, hg]
    subst hop
    simp only [tracked.allowed, decide_eq_true_eq] at ha
    have hpos : 0 < t.readers := countP_pos_of_mem is_read _ _ ha rfl
    have hwf : t.lock.writer = false := by
      by_contra hne
      have := (h2 (by simpa using hne)).2
      omega
    have hw0 := h3 hwf
    have e1 := countP_erase_of_pos is_read ⟨I, lockclass_t.READ⟩ t.holders ha rfl
    have e2 := countP_erase_of_neg is_write ⟨I, lockclass_t.READ⟩ rfl t.holders
    simp only [tracked.readers, tracked.writers] at hw0 hpos h1 hlt
    simp only [unlock_holder, List.countP_nil, Nat.add_zero]
    refine ⟨by omega, fun hw => by rw [hwf] at hw; simp at hw, fun _ => by omega,
      fun _ _ => hrc⟩

/-! ### Runs -/

theorem run_cons (t : tracked) (op : lock_op) (ops : List lock_op) :
    t.run (op :: ops) = (t.step op).run ops := rfl

theorem run_append (t : tracked) (a b : List lock_op) :
    t.run (a ++ b) = (t.run a).run b := by
  simp [tracked.run, List.foldl_append]

theorem run_lock (ops : List lock_op) :
    ∀ t : tracked, (t.run ops).lock = lock_run t.lock ops := by
  induction ops with
  | nil => intro t; rfl
  | cons op ops ih => intro t; exact ih (t.step op)

theorem correct_use_append (a b : List lock_op) :
    ∀ t : tracked, t.correct_use (a ++ b) = (t.correct_use a && (t.run a).correct_use b) := by
  induction a with
  | nil => intro t; simp [tracked.correct_use, tracked.run]
  | cons op a ih =>
    intro t
    show (t.allowed op && (t.step op).correct_use (a ++ b)) = _
    rw [ih]
    simp only [tracked.correct_use, run_cons, Bool.and_assoc]

theorem states_append_mem (a b : List lock_op) :
    ∀ (t s : tracked), s ∈ t.states a → s ∈ t.states (a ++ b) := by
  induction a with
  | nil =>
    intro t s hs
    simp only [tracked.states, List.mem_singleton] at hs
    subst hs
    cases b <;> simp [tracked.states]
  | cons op a ih =>
    intro t s hs
    simp only [tracked.states, List.mem_cons, List.cons_append] at hs ⊢
    rcases hs with hs | hs
    · exact Or.inl hs
    · exact Or.inr (ih _ _ hs)

theorem run_mem_states (ops : List lock_op) : ∀ t : tracked, t.run ops ∈ t.states ops := by
  induction ops with
  | nil => intro t; simp [tracked.states, tracked.run]
  | cons op ops ih =>
    intro t
    simp only [tracked.states, List.mem_cons, run_cons]
    exact Or.inr (ih _)

theorem self_mem_states (t : tracked) (ops : List lock_op) : t ∈ t.states ops := by
  cases ops <;> simp [tracked.states]

theorem lock_inv_init : lock_inv tracked.init := by
  simp [lock_inv, tracked.init, deferred_rw_lock.init, tracked.readers, tracked.writers]

theorem lock_inv_states (ops : List lock_op) :
    ∀ t : tracked, lock_inv t → t.correct_use ops = true →
      (∀ s ∈ t.states ops, s.readers < 65536) → ∀ s ∈ t.states ops, lock_inv s := by
  induction ops with
  | nil =>
    intro t hi _ _ s hs
    simp only [tracked.states, List.mem_singleton] at hs
    subst hs
    exact hi
  | cons op ops ih =>
    intro t hi hc hb s hs
    simp only [tracked.correct_use, Bool.and_eq_true] at hc
    simp only [tracked.states, List.mem_cons] at hs
    rcases hs with hs | hs
    · subst hs; exact hi
    · have hb1 : ∀ s ∈ (t.step op).states ops, s.readers < 65536 := by
        intro s1 hs1
        apply hb
        simp only [tracked.states, List.mem_cons]
        exact Or.inr hs1
      have h0 : t.readers < 65536 := hb t (self_mem_states t _)
      have h1 : (t.step op).readers < 65536 := hb1 _ (self_mem_states _ _)
      exact ih (t.step op) (lock_inv_step t op hi hc.1 h0 h1) hc.2 hb1 s hs

theorem exclusive_of_lock_inv (t : tracked) (hi : lock_inv t) : exclusive t.holders := by
  obtain ⟨_, h2, h3, _⟩ := hi
  simp only [tracked.readers, tracked.writers] at h2 h3
  cases hw : t.lock.writer with
  | true =>
    obtain ⟨e1, e2⟩ := h2 hw
    refine ⟨?_, by omega⟩
    intro w _ r hr _
    by_contra hrd
    have := countP_pos_of_mem is_read r _ hr (by simpa using hrd)
    omega
  | false =>
    have e1 := h3 hw
    refine ⟨?_, by omega⟩
    intro w hwm r _ hww
    have := countP_pos_of_mem is_write w _ hwm hww
    omega

/-! ### Long runs of readers -/

theorem run_readlocks_fast (l : List Nat) :
    ∀ (rc : Nat) (hs : List request), rc < 65536 →
      (tracked.mk ⟨[], rc, false⟩ hs).run (l.map lock_op.readlock) =
        tracked.mk ⟨[], (rc + l.length) % 65536, false⟩
          (hs ++ l.map (fun I => (⟨I, lockclass_t.READ⟩ : request))) := by
  induction l with
  | nil => intro rc hs hrc; simp [tracked.run, Nat.mod_eq_of_lt hrc]
  | cons I l ih =>
    intro rc hs hrc
    rw [List.map_cons, run_cons]
    have hstep : (tracked.mk ⟨[], rc, false⟩ hs).step (lock_op.readlock I) =
        tracked.mk ⟨[], (rc + 1) % 65536, false⟩ (hs ++ [⟨I, lockclass_t.READ⟩]) := by
      simp [tracked.step, lock_next, lock_granted, deferred_rw_lock.readlock, unlock_holder]
    have e1 : ((rc + 1) % 65536 + l.length) % 65536 = (rc + (I :: l).length) % 65536 := by
      rw [List.length_cons]
      omega
    have e2 : hs ++ [(⟨I, lockclass_t.READ⟩ : request)] ++
          l.map (fun I => (⟨I, lockclass_t.READ⟩ : request)) =
        hs ++ (I :: l).map (fun I => (⟨I, lockclass_t.READ⟩ : request)) := by
      simp
    rw [hstep, ih _ _ (Nat.mod_lt _ (by norm_num)), e1, e2]

theorem run_readlocks_queued (l : List Nat) :
    ∀ (q : List request) (rc : Nat) (hs : List request),
      (tracked.mk ⟨q, rc, true⟩ hs).run (l.map lock_op.readlock) =
        tracked.mk ⟨q ++ l.map (fun I => (⟨I, lockclass_t.READ⟩ : request)), rc, true⟩ hs := by
  induction l with
  | nil => intro q rc hs; simp [tracked.run]
  | cons I l ih =>
    intro q rc hs
    rw [List.map_cons, run_cons]
    have hstep : (tracked.mk ⟨q, rc, true⟩ hs).step (lock_op.readlock I) =
        tracked.mk ⟨q ++ [⟨I, lockclass_t.READ⟩], rc, true⟩ hs := by
      cases hq : q ++ [(⟨I, lockclass_t.READ⟩ : request)] with
      | nil => simp at hq
      | cons h t =>
        simp [tracked.step, lock_next, lock_granted, deferred_rw_lock.readlock, unlock_holder,
          deferred_rw_lock.insert_queue, hq]
    rw [hstep, ih]
    simp

theorem correct_use_readlocks (l : List Nat) :
    ∀ t : tracked, t.correct_use (l.map lock_op.readlock) = true := by
  induction l with
  | nil => intro t; rfl
  | cons I l ih =>
    intro t
    simp only [List.map_cons, tracked.correct_use, tracked.allowed, Bool.true_and]
    exact ih _

/-! ### C1: lock exclusivity -/

theorem ahead_pop (A B : request) (q g q1 : List request) (ha : ahead A B q)
    (hsplit : q = g ++ q1) :
    (B ∉ g ∧ ahead A B q1) ∨ (∃ u v, g = u ++ A :: v ∧ B ∉ u) := by
  obtain ⟨x, y, hq, hBx, hBA⟩ := ha
  rw [hq] at hsplit
  rcases List.append_eq_append_iff.mp hsplit with ⟨a1, e1, e2⟩ | ⟨c1, e1, e2⟩
  · cases a1 with
    | nil =>
      simp only [List.append_nil, List.nil_append] at e1 e2
      left
      refine ⟨?_, [], y, ?_, by simp, hBA⟩
      · rw [e1]; exact hBx
      · rw [← e2]; rfl
    | cons a a2 =>
      right
      simp only [List.cons_append] at e2
      injection e2 with e3 e4
      refine ⟨x, a2, ?_, hBx⟩
      rw [e1, e3]
  · left
    rw [e1] at hBx
    refine ⟨fun h => hBx (List.mem_append_left _ h), c1, y, e2, ?_, hBA⟩
    exact fun h => hBx (List.mem_append_right _ h)

theorem ahead_append (A B : request) (q : List request) (N : request) (ha : ahead A B q) :
    ahead A B (q ++ [N]) := by
  obtain ⟨x, y, hq, hBx, hBA⟩ := ha
  exact ⟨x, y ++ [N], by simp [hq], hBx, hBA⟩

theorem ahead_ne_nil (A B : request) (q : List request) (ha : ahead A B q) : q ≠ [] := by
  obtain ⟨x, y, hq, _, _⟩ := ha
  rw [hq]; simp

theorem mem_takeWhile_read (a : request) (q : List request)
    (h : a ∈ q.takeWhile is_read) : is_read a = true :=
  List.mem_takeWhile_imp h

/-- One call, seen from a waiting request `A` and a request `B` that is not ahead of it:
either `B` is not granted and `A` keeps waiting ahead of `B`, or `A` is granted, no
later in the released chain than `B`, and together with `B` only if both are readers. -/
theorem ahead_path (A B : request) (L L1 : deferred_rw_lock) (op : lock_op)
    (g : List request) (hp : lock_path L op L1 g) (ha : ahead A B L.queue)
    (hnf : ∀ I, op = lock_op.writelock I → L.reader_count = 0 → L.writer = false →
      B ≠ ⟨I, lockclass_t.WRITE⟩) :
    (B ∉ g ∧ ahead A B L1.queue) ∨
      ((∃ u v, g = u ++ A :: v ∧ B ∉ u) ∧ (B ∈ g → is_read A = true ∧ is_read B = true)) := by
  have hne := ahead_ne_nil A B L.queue ha
  cases hp with
  | wl_fast I hop hrc hw0 hL1 hg =>
    left
    subst hL1
    refine ⟨?_, ha⟩
    rw [hg]
    simp only [List.mem_singleton]
    exact hnf I hop hrc hw0
  | wl_slow I hop hc hL1 hg =>
    left
    subst hL1
    exact ⟨by rw [hg]; simp, ahead_append A B _ _ ha⟩
  | rl_fast I hop hq0 hw0 hL1 hg => exact absurd hq0 hne
  | rl_slow I hop hc hn hL1 hg =>
    left
    subst hL1
    exact ⟨by rw [hg]; simp, ahead_append A B _ _ ha⟩
  | rl_serve I h0 t0 hop hq0 hr hw0 hL1 hg =>
    subst hL1
    have hsplit := (List.takeWhile_append_dropWhile is_read
      (L.queue ++ [(⟨I, lockclass_t.READ⟩ : request)])).symm
    rw [← hg] at hsplit
    rcases ahead_pop A B _ g _ (ahead_append A B _ _ ha) hsplit with h1 | h1
    · exact Or.inl h1
    · right
      refine ⟨h1, fun hB => ?_⟩
      obtain ⟨u, v, e, _⟩ := h1
      have hA : A ∈ g := by rw [e]; simp
      rw [hg] at hA hB
      exact ⟨mem_takeWhile_read _ _ hA, mem_takeWhile_read _ _ hB⟩
  | un_empty rc0 w0 hb hq0 hL1 hg => exact absurd hq0 hne
  | un_read rc0 w0 h0 t0 hb hq0 hr hL1 hg =>
    subst hL1
    have hsplit := (List.takeWhile_append_dropWhile is_read L.queue).symm
    rw [← hg] at hsplit
    rcases ahead_pop A B _ g _ ha hsplit with h1 | h1
    · exact Or.inl h1
    · right
      refine ⟨h1, fun hB => ?_⟩
      obtain ⟨u, v, e, _⟩ := h1
      have hA : A ∈ g := by rw [e]; simp
      rw [hg] at hA hB
      exact ⟨mem_takeWhile_read _ _ hA, mem_takeWhile_read _ _ hB⟩
  | un_write rc0 w0 h0 t0 hb hq0 hr hL1 hg =>
    subst hL1
    have hsplit : L.queue = g ++ t0 := by rw [hq0, hg]; rfl
    rcases ahead_pop A B _ g _ ha hsplit with h1 | h1
    · exact Or.inl h1
    · right
      refine ⟨h1, fun hB => ?_⟩
      obtain ⟨u, v, e, _⟩ := h1
      have hA : A ∈ g := by rw [e]; simp
      rw [hg] at hA hB
      simp only [List.mem_singleton] at hA hB
      exact absurd (hB.trans hA.symm) ha.choose_spec.choose_spec.2.2
  | rd_more I hop hrc hL1 hg =>
    left
    subst hL1
    exact ⟨by rw [hg]; simp, ha⟩

theorem mem_queue_path (A : request) (L L1 : deferred_rw_lock) (op : lock_op)
    (g : List request) (hp : lock_path L op L1 g) (ha : A ∈ L.queue) :
    A ∈ g ∨ A ∈ L1.queue := by
  cases hp with
  | wl_fast I hop hrc hw0 hL1 hg => right; subst hL1; exact ha
  | wl_slow I hop hc hL1 hg => right; subst hL1; exact List.mem_append_left _ ha
  | rl_fast I hop hq0 hw0 hL1 hg => rw [hq0] at ha; simp at ha
  | rl_slow I hop hc hn hL1 hg => right; subst hL1; exact List.mem_append_left _ ha
  | rl_serve I h0 t0 hop hq0 hr hw0 hL1 hg =>
    subst hL1
    have h1 : A ∈ (L.queue ++ [(⟨I, lockclass_t.READ⟩ : request)]) :=
      List.mem_append_left _ ha
    rw [← List.takeWhile_append_dropWhile is_read
      (L.queue ++ [(⟨I, lockclass_t.READ⟩ : request)]), ← hg] at h1
    exact List.mem_append.mp h1
  | un_empty rc0 w0 hb hq0 hL1 hg => rw [hq0] at ha; simp at ha
  | un_read rc0 w0 h0 t0 hb hq0 hr hL1 hg =>
    subst hL1
    rw [← List.takeWhile_append_dropWhile is_read L.queue, ← hg] at ha
    exact List.mem_append.mp ha
  | un_write rc0 w0 h0 t0 hb hq0 hr hL1 hg =>
    subst hL1
    rw [hq0] at ha
    rw [hg]
    simpa using ha
  | rd_more I hop hrc hL1 hg => right; subst hL1; exact ha

theorem lock_run_cons (L : deferred_rw_lock) (op : lock_op) (ops : List lock_op) :
    lock_run L (op :: ops) = lock_run (lock_next L op) ops := rfl

theorem lock_run_append (L : deferred_rw_lock) (a b : List lock_op) :
    lock_run L (a ++ b) = lock_run (lock_run L a) b := by
  simp [lock_run, List.foldl_append]

theorem grant_log_length (ops : List lock_op) :
    ∀ L : deferred_rw_lock, (grant_log L ops).length = ops.length := by
  induction ops with
  | nil => intro L; rfl
  | cons op ops ih => intro L; simp [grant_log, ih]

theorem grant_log_append (a b : List lock_op) :
    ∀ L : deferred_rw_lock,
      grant_log L (a ++ b) = grant_log L a ++ grant_log (lock_run L a) b := by
  induction a with
  | nil => intro L; rfl
  | cons op a ih =>
    intro L
    show lock_granted L op :: grant_log (lock_next L op) (a ++ b) = _
    rw [ih]
    rfl

/-- A waiting request either is granted by some call of the sequence or still waits. -/
theorem waits_or_granted (A : request) (ops : List lock_op) :
    ∀ L : deferred_rw_lock, A ∈ L.queue →
      (∃ (m : Nat) (gm : List request), (grant_log L ops)[m]? = some gm ∧ A ∈ gm) ∨ A ∈ (lock_run L ops).queue := by
  induction ops with
  | nil => intro L h; exact Or.inr h
  | cons op ops ih =>
    intro L h
    rcases mem_queue_path A L _ op _ (lock_path_step L op) h with h1 | h1
    · exact Or.inl ⟨0, lock_granted L op, by simp [grant_log], h1⟩
    · rcases ih _ h1 with ⟨m, gm, e, hm⟩ | h2
      · exact Or.inl ⟨m + 1, gm, by simpa [grant_log] using e, hm⟩
      · exact Or.inr h2

/-- Grants after a state in which `A` waits and `B` is not ahead of it: whenever `B` is
granted, `A` has been granted by the same or an earlier call. -/
theorem ahead_run (A B : request) (ops : List lock_op) :
    ∀ L : deferred_rw_lock, ahead A B L.queue →
      (is_write B = true → ∀ op ∈ ops, submitted op ≠ some B) →
      ∀ k g, (grant_log L ops)[k]? = some g → B ∈ g →
        ∃ (m : Nat) (gm : List request), m ≤ k ∧ (grant_log L ops)[m]? = some gm ∧ A ∈ gm ∧
          (m = k → (∃ u v, g = u ++ A :: v ∧ B ∉ u) ∧ is_read A = true ∧ is_read B = true) := by
  induction ops with
  | nil => intro L _ _ k g hk _; simp [grant_log] at hk
  | cons op ops ih =>
    intro L ha hre k g hk hB
    have hnf : ∀ I, op = lock_op.writelock I → L.reader_count = 0 → L.writer = false →
        B ≠ ⟨I, lockclass_t.WRITE⟩ := by
      intro I hop _ _ hBe
      have hw : is_write B = true := by rw [hBe]; rfl
      apply hre hw op (List.mem_cons_self _ _)
      rw [hop, hBe]; rfl
    rcases ahead_path A B L _ op _ (lock_path_step L op) ha hnf with ⟨hn, ha1⟩ | ⟨hu, hrd⟩
    · cases k with
      | zero =>
        simp only [grant_log, List.getElem?_cons_zero, Option.some.injEq] at hk
        rw [← hk] at hB
        exact absurd hB hn
      | succ k =>
        simp only [grant_log, List.getElem?_cons_succ] at hk
        obtain ⟨m, gm, hmk, e, hA, hlast⟩ :=
          ih _ ha1 (fun hw op1 h1 => hre hw op1 (List.mem_cons_of_mem _ h1)) k g hk hB
        refine ⟨m + 1, gm, by omega, by simpa [grant_log] using e, hA, fun hmk1 => ?_⟩
        exact hlast (by omega)
    · obtain ⟨u, v, e, hBu⟩ := hu
      refine ⟨0, lock_granted L op, by omega, by simp [grant_log], by rw [e]; simp, fun h0 => ?_⟩
      subst h0
      simp only [grant_log, List.getElem?_cons_zero, Option.some.injEq] at hk
      subst hk
      exact ⟨⟨u, v, e, hBu⟩, hrd hB⟩

/-- The same with the first call only required not to grant `B` on the write fast path. -/
theorem ahead_run_cons (A B : request) (op : lock_op) (ops : List lock_op)
    (L : deferred_rw_lock) (ha : ahead A B L.queue)
    (hnf : ∀ I, op = lock_op.writelock I → L.reader_count = 0 → L.writer = false →
      B ≠ ⟨I, lockclass_t.WRITE⟩)
    (hre : is_write B = true → ∀ op1 ∈ ops, submitted op1 ≠ some B)
    (k : Nat) (g : List request) (hk : (grant_log L (op :: ops))[k]? = some g) (hB : B ∈ g) :
    ∃ (m : Nat) (gm : List request), m ≤ k ∧ (grant_log L (op :: ops))[m]? = some gm ∧ A ∈ gm ∧
      (m = k → (∃ u v, g = u ++ A :: v ∧ B ∉ u) ∧ is_read A = true ∧ is_read B = true) := by
  rcases ahead_path A B L _ op _ (lock_path_step L op) ha hnf with ⟨hn, ha1⟩ | ⟨hu, hrd⟩
  · cases k with
    | zero =>
      simp only [grant_log, List.getElem?_cons_zero, Option.some.injEq] at hk
      rw [← hk] at hB
      exact absurd hB hn
    | succ k =>
      simp only [grant_log, List.getElem?_cons_succ] at hk
      obtain ⟨m, gm, hmk, e, hA, hlast⟩ := ahead_run A B ops _ ha1 hre k g hk hB
      refine ⟨m + 1, gm, by omega, by simpa [grant_log] using e, hA, fun hmk1 => ?_⟩
      exact hlast (by omega)
  · obtain ⟨u, v, e, hBu⟩ := hu
    refine ⟨0, lock_granted L op, by omega, by simp [grant_log], by rw [e]; simp, fun h0 => ?_⟩
    subst h0
    simp only [grant_log, List.getElem?_cons_zero, Option.some.injEq] at hk
    subst hk
    exact ⟨⟨u, v, e, hBu⟩, hrd hB⟩

/-- A locking call that does not grant its own request leaves it in the queue and grants
nothing. -/
theorem queued_mem (L : deferred_rw_lock) (op : lock_op) (A : request)
    (hA : submitted op = some A) (hq : is_queued L op = true) :
    A ∈ (lock_next L op).queue ∧
      (∀ I, op = lock_op.writelock I → ¬ (L.reader_count = 0 ∧ L.writer = false)) := by
  have hp := lock_path_step L op
  cases op with
  | writelock I =>
    simp only [submitted, Option.some.injEq] at hA
    simp only [is_queued, deferred_rw_lock.writelock] at hq
    by_cases hc : L.reader_count = 0 ∧ L.writer = false
    · rw [if_pos hc] at hq
      simp at hq
    · refine ⟨?_, fun _ _ => hc⟩
      simp only [lock_next, deferred_rw_lock.writelock, if_neg hc,
        deferred_rw_lock.insert_queue]
      rw [← hA]
      simp
  | readlock I =>
    simp only [submitted, Option.some.injEq] at hA
    refine ⟨?_, fun I1 h => by cases h⟩
    simp only [is_queued, decide_eq_true_eq] at hq
    cases hp with
    | wl_fast I1 hop _ _ _ _ => cases hop
    | wl_slow I1 hop _ _ _ => cases hop
    | rl_fast I1 hop hq0 hw0 hL1 hg =>
      simp only [deferred_rw_lock.readlock, hq0, hw0, and_self, if_true] at hq
      simp at hq
    | rl_slow I1 hop hc hn hL1 hg =>
      injection hop with hI
      subst hI
      rw [hL1, ← hA]
      simp
    | rl_serve I1 h0 t0 hop hq0 hr hw0 hL1 hg =>
      exfalso
      have hlen : 0 < (lock_granted L (lock_op.readlock I)).length := by
        rw [hg, hq0]
        simp only [List.cons_append]
        exact takeWhile_length_pos h0 _ hr
      simp only [lock_granted, hq, List.take_zero, List.length_nil] at hlen
      omega
    | un_empty rc0 w0 hb _ _ _ =>
      rcases hb with ⟨I1, hop, _⟩ | ⟨I1, hop, _⟩ <;> cases hop
    | un_read rc0 w0 h0 t0 hb _ _ _ _ =>
      rcases hb with ⟨I1, hop, _⟩ | ⟨I1, hop, _⟩ <;> cases hop
    | un_write rc0 w0 h0 t0 hb _ _ _ _ =>
      rcases hb with ⟨I1, hop, _⟩ | ⟨I1, hop, _⟩ <;> cases hop
    | rd_more I1 hop _ _ _ => cases hop
  | wrunlock I => simp [is_queued] at hq
  | rdunlock I => simp [is_queued] at hq

/-- Order of grants along a call sequence.  `opA` queues request `A`; later `opB` submits
request `B`, which is then not in the queue (a request object is in one place at a
time) and, if it is a write request, is not submitted again afterwards.  Whenever a
call from `opB` on grants `B`, some call after `opA`, the same or an earlier one, has
granted `A`; if it is the same call, `A` comes no later than `B` in the released
chain and both are read requests. -/
theorem grant_order (L0 : deferred_rw_lock) (pre mid post : List lock_op)
    (opA opB : lock_op) (A B : request)
    (hA : submitted opA = some A) (hAq : is_queued (lock_run L0 pre) opA = true)
    (hBq : (∃ I, opB = lock_op.readlock I) ∨
      is_queued (lock_run L0 (pre ++ opA :: mid)) opB = true)
    (hfresh : B ∉ (lock_run L0 (pre ++ opA :: mid)).queue)
    (hre : is_write B = true → ∀ op ∈ post, submitted op ≠ some B)
    (k : Nat) (g : List request) (hkj : pre.length + 1 + mid.length ≤ k)
    (hk : (grant_log L0 (pre ++ opA :: (mid ++ opB :: post)))[k]? = some g) (hBg : B ∈ g) :
    ∃ (m : Nat) (gm : List request), pre.length < m ∧ m ≤ k ∧
      (grant_log L0 (pre ++ opA :: (mid ++ opB :: post)))[m]? = some gm ∧ A ∈ gm ∧
      (m = k → (∃ u v, g = u ++ A :: v ∧ B ∉ u) ∧ is_read A = true ∧ is_read B = true) := by
  have hlog : grant_log L0 (pre ++ opA :: (mid ++ opB :: post)) =
      (grant_log L0 pre ++ [lock_granted (lock_run L0 pre) opA]) ++
        (grant_log (lock_next (lock_run L0 pre) opA) mid ++
          grant_log (lock_run L0 (pre ++ opA :: mid)) (opB :: post)) := by
    rw [grant_log_append]
    show _ ++ lock_granted (lock_run L0 pre) opA ::
      grant_log (lock_next (lock_run L0 pre) opA) (mid ++ opB :: post) = _
    rw [grant_log_append, lock_run_append, lock_run_cons]
    simp
  have hl1 : (grant_log L0 pre ++ [lock_granted (lock_run L0 pre) opA]).length =
      pre.length + 1 := by
    simp [grant_log_length]
  have hl2 : (grant_log (lock_next (lock_run L0 pre) opA) mid).length = mid.length :=
    grant_log_length _ _
  rw [hlog] at hk ⊢
  have hAmem := (queued_mem (lock_run L0 pre) opA A hA hAq).1
  rcases waits_or_granted A mid _ hAmem with ⟨m1, gm, e, hAg⟩ | hAw
  · -- granted before `opB` is made
    have hm1 : m1 < mid.length := by
      have := (List.getElem?_eq_some_iff.mp e).1
      rw [grant_log_length] at this
      exact this
    refine ⟨pre.length + 1 + m1, gm, by omega, by omega, ?_, hAg, fun h => by omega⟩
    rw [List.getElem?_append_right (by rw [hl1]; omega), hl1,
      List.getElem?_append_left (by rw [hl2]; omega)]
    rw [show pre.length + 1 + m1 - (pre.length + 1) = m1 by omega]
    exact e
  · -- still waiting when `opB` is made
    rw [← lock_run_cons, ← lock_run_append] at hAw
    have hahead : ahead A B (lock_run L0 (pre ++ opA :: mid)).queue := by
      obtain ⟨x, y, hxy⟩ := List.append_of_mem hAw
      refine ⟨x, y, hxy, fun hx => hfresh ?_, fun hBA => hfresh (hBA ▸ hAw)⟩
      rw [hxy]
      exact List.mem_append_left _ hx
    have hnf : ∀ I, opB = lock_op.writelock I →
        (lock_run L0 (pre ++ opA :: mid)).reader_count = 0 →
        (lock_run L0 (pre ++ opA :: mid)).writer = false →
        B ≠ ⟨I, lockclass_t.WRITE⟩ := by
      intro I hop hrc hw _
      rcases hBq with ⟨I1, h1⟩ | hq
      · rw [h1] at hop; cases hop
      · rw [hop] at hq
        simp [is_queued, deferred_rw_lock.writelock, hrc, hw] at hq
    rw [List.getElem?_append_right (by rw [hl1]; omega), hl1,
      List.getElem?_append_right (by rw [hl2]; omega), hl2] at hk
    obtain ⟨m1, gm, hm1, e, hAg, hlast⟩ :=
      ahead_run_cons A B opB post _ hahead hnf hre _ g hk hBg
    refine ⟨pre.length + 1 + mid.length + m1, gm, by omega, by omega, ?_, hAg,
      fun h => hlast (by omega)⟩
    rw [List.getElem?_append_right (by rw [hl1]; omega), hl1,
      List.getElem?_append_right (by rw [hl2]; omega), hl2]
    rw [show pre.length + 1 + mid.length + m1 - (pre.length + 1) - mid.length = m1 by omega]
    exact e

/-! ### The linked queue and the list of waiting requests -/

theorem is_chain_nil (mem : Nat → request_obj) (p : Option Nat) :
    is_chain mem p [] ↔ p = none := Iff.rfl

theorem is_chain_cons (mem : Nat → request_obj) (p : Option Nat) (r : request)
    (rest : List request) :
    is_chain mem p (r :: rest) ↔
      p = some r.addr ∧ (mem r.addr).lockclass = r.lockclass ∧
        is_chain mem (mem r.addr).next rest := Iff.rfl

/-- A chain only depends on the request objects in it. -/
theorem is_chain_congr (mem mem1 : Nat → request_obj) :
    ∀ (q : List request) (p : Option Nat),
      (∀ a ∈ q.map request.addr, mem1 a = mem a) → is_chain mem p q → is_chain mem1 p q := by
  intro q
  induction q with
  | nil => intro p _ h; exact h
  | cons r rest ih =>
    intro p hm h
    rw [is_chain_cons] at h ⊢
    obtain ⟨h1, h2, h3⟩ := h
    have e : mem1 r.addr = mem r.addr := hm r.addr (by simp)
    rw [e]
    exact ⟨h1, h2, ih _ (fun a ha => hm a (by
      simp only [List.map_cons, List.mem_cons]
      exact Or.inr ha)) h3⟩

theorem is_chain_head_none (mem : Nat → request_obj) (q : List request)
    (h : is_chain mem none q) : q = [] := by
  cases q with
  | nil => rfl
  | cons r rest =>
    rw [is_chain_cons] at h
    cases h.1

theorem is_chain_head_some (mem : Nat → request_obj) (a : Nat) (q : List request)
    (h : is_chain mem (some a) q) : ∃ r rest, q = r :: rest ∧ r.addr = a := by
  cases q with
  | nil =>
    rw [is_chain_nil] at h
    cases h
  | cons r rest =>
    rw [is_chain_cons] at h
    refine ⟨r, rest, rfl, ?_⟩
    have := h.1
    rw [Option.some.injEq] at this
    exact this.symm

/-- Linking a request object that is not in the chain behind the last object of the
chain appends it. -/
theorem is_chain_snoc (mem : Nat → request_obj) (I tail : Nat) (cls : lockclass_t) :
    ∀ (q : List request) (p : Option Nat), is_chain mem p q → q ≠ [] →
      (q.map request.addr).Nodup → q.getLast?.map request.addr = some tail →
      I ∉ q.map request.addr → mem I = ⟨none, cls⟩ →
      is_chain (store_next mem tail I) p (q ++ [⟨I, cls⟩]) := by
  intro q
  induction q with
  | nil => intro p _ h; exact absurd rfl h
  | cons r rest ih =>
    intro p hc _ hnd hlast hI hmem
    rw [is_chain_cons] at hc
    obtain ⟨h1, h2, h3⟩ := hc
    have hIr : I ≠ r.addr := by
      intro e
      apply hI
      simp [e]
    cases rest with
    | nil =>
      have ht : tail = r.addr := by
        simp at hlast
        exact hlast.symm
      subst ht
      rw [List.singleton_append, is_chain_cons]
      refine ⟨h1, by simp [store_next, h2], ?_⟩
      have e1 : (store_next mem r.addr I r.addr).next = some I := by simp [store_next]
      rw [e1, is_chain_cons]
      have e2 : store_next mem r.addr I I = mem I := by simp [store_next, hIr]
      show some I = some I ∧ (store_next mem r.addr I I).lockclass = cls ∧
        (store_next mem r.addr I I).next = none
      rw [e2, hmem]
      exact ⟨rfl, rfl, rfl⟩
    | cons r2 rest2 =>
      have hlast2 : (r2 :: rest2).getLast?.map request.addr = some tail := by
        rw [List.getLast?_cons_cons] at hlast
        exact hlast
      have hnd2 : ((r2 :: rest2).map request.addr).Nodup := by
        rw [List.map_cons] at hnd
        exact (List.nodup_cons.mp hnd).2
      have htail_mem : tail ∈ (r2 :: rest2).map request.addr := by
        cases hl : (r2 :: rest2).getLast? with
        | none => rw [hl] at hlast2; cases hlast2
        | some x =>
          rw [hl, Option.map_some', Option.some.injEq] at hlast2
          rw [← hlast2]
          exact List.mem_map_of_mem _ (List.mem_of_getLast?_eq_some hl)
      have hne : tail ≠ r.addr := by
        intro e
        rw [List.map_cons] at hnd
        exact (List.nodup_cons.mp hnd).1 (e ▸ htail_mem)
      have e1 : store_next mem tail I r.addr = mem r.addr := if_neg (Ne.symm hne)
      rw [List.cons_append, is_chain_cons, e1]
      refine ⟨h1, h2, ih _ h3 (by simp) hnd2 hlast2 ?_ hmem⟩
      intro hm
      apply hI
      rw [List.map_cons]
      exact List.mem_cons_of_mem _ hm

/-- The loop of `complete_rdlock` on a chain: it passes the read requests in front and
stops at the first write request or at the end, when the fuel exceeds the length. -/
theorem complete_rdlock_loop_chain (mem : Nat → request_obj) :
    ∀ (q : List request) (fuel : Nat) (p : Option Nat) (num : Nat), is_chain mem p q →
      q.length < fuel →
      ∃ p1, complete_rdlock_loop mem fuel p num =
          linked_result.done (p1, num + (q.takeWhile is_read).length) ∧
        is_chain mem p1 (q.dropWhile is_read) := by
  intro q
  induction q with
  | nil =>
    intro fuel p num hc hf
    rw [is_chain_nil] at hc
    subst hc
    cases fuel with
    | zero => simp at hf
    | succ f => exact ⟨none, rfl, rfl⟩
  | cons r rest ih =>
    intro fuel p num hc hf
    rw [is_chain_cons] at hc
    obtain ⟨h1, h2, h3⟩ := hc
    subst h1
    cases fuel with
    | zero => simp at hf
    | succ f =>
      by_cases hr : r.lockclass = lockclass_t.READ
      · have hir : is_read r = true := by simp [is_read, hr]
        obtain ⟨p1, e1, e2⟩ := ih f (mem r.addr).next (num + 1) h3
          (by simp only [List.length_cons] at hf; omega)
        refine ⟨p1, ?_, ?_⟩
        · simp only [complete_rdlock_loop, h2, hr, if_true]
          rw [e1, List.takeWhile_cons_of_pos hir, List.length_cons]
          congr 2
          omega
        · rw [List.dropWhile_cons_of_pos hir]
          exact e2
      · have hir : ¬ is_read r = true := by simp [is_read, hr]
        refine ⟨some r.addr, ?_, ?_⟩
        · simp only [complete_rdlock_loop, h2, hr, if_false]
          rw [List.takeWhile_cons_of_neg hir]
          rfl
        · rw [List.dropWhile_cons_of_neg hir, is_chain_cons]
          exact ⟨rfl, h2, h3⟩

/-- Walking a chain yields its requests. -/
theorem chain_take_chain (mem : Nat → request_obj) :
    ∀ (q : List request) (n : Nat) (p : Option Nat), is_chain mem p q →
      chain_take mem n p = q.take n := by
  intro q
  induction q with
  | nil =>
    intro n p hc
    rw [is_chain_nil] at hc
    subst hc
    cases n <;> rfl
  | cons r rest ih =>
    intro n p hc
    rw [is_chain_cons] at hc
    obtain ⟨h1, h2, h3⟩ := hc
    subst h1
    cases n with
    | zero => rfl
    | succ m =>
      simp only [chain_take, List.take_succ_cons, h2]
      rw [ih m _ h3]

/-! ### The linked lock and the list of waiting requests, call by call -/

theorem getLast_dropWhile {α : Type} (p : α → Bool) (l : List α) (h : l.dropWhile p ≠ []) :
    (l.dropWhile p).getLast? = l.getLast? := by
  conv_rhs => rw [← List.takeWhile_append_dropWhile p l]
  rw [List.getLast?_append_of_ne_nil _ h]

theorem getLast_cons_of_ne_nil {α : Type} (a : α) (l : List α) (h : l ≠ []) :
    (a :: l).getLast? = l.getLast? :=
  List.getLast?_append_of_ne_nil [a] h

theorem represents_head (H : linked_rw_lock) (L : deferred_rw_lock) (h : represents H L) :
    H.head = L.queue.head?.map request.addr := by
  have hc := h.chain
  cases hq : L.queue with
  | nil =>
    rw [hq, is_chain_nil] at hc
    rw [hc]
    rfl
  | cons r t =>
    rw [hq, is_chain_cons] at hc
    rw [hc.1]
    rfl

theorem represents_waiting (H : linked_rw_lock) (L : deferred_rw_lock) (n : Nat)
    (h : represents H L) (hn : L.queue.length ≤ n) : H.waiting n = L.queue := by
  unfold linked_rw_lock.waiting
  rw [chain_take_chain _ _ _ _ h.chain, List.take_of_length_le hn]

theorem represents_init (mem : Nat → request_obj) :
    represents (linked_rw_lock.init mem) deferred_rw_lock.init :=
  ⟨rfl, rfl, List.nodup_nil, rfl, rfl⟩

theorem store_request_represents (H : linked_rw_lock) (L : deferred_rw_lock) (I : Nat)
    (cls : lockclass_t) (h : represents H L) (hI : I ∉ L.queue.map request.addr) :
    represents { H with mem := store_request H.mem I cls } L := by
  refine ⟨?_, h.last, h.nodup, h.count, h.flag⟩
  refine is_chain_congr H.mem _ _ _ (fun a ha => ?_) h.chain
  have hne : a ≠ I := fun e => hI (e ▸ ha)
  exact if_neg hne

theorem insert_queue_represents (H : linked_rw_lock) (L : deferred_rw_lock) (I : Nat)
    (cls : lockclass_t) (h : represents H L) (hI : I ∉ L.queue.map request.addr)
    (hm : H.mem I = ⟨none, cls⟩) :
    ∃ H1, H.insert_queue I = linked_result.done H1 ∧
      represents H1 (L.insert_queue ⟨I, cls⟩) := by
  obtain ⟨hc, hl, hnd, hcount, hflag⟩ := h
  have hnd1 : ((L.queue ++ [(⟨I, cls⟩ : request)]).map request.addr).Nodup := by
    rw [List.map_append]
    refine List.Nodup.append hnd (List.nodup_singleton _) ?_
    intro a ha hb
    rw [List.map_singleton, List.mem_singleton] at hb
    have hb2 : a = I := hb
    exact hI (hb2 ▸ ha)
  cases hq : L.queue with
  | nil =>
    rw [hq, is_chain_nil] at hc
    refine ⟨{ H with head := some I, tail := some I }, ?_, ?_⟩
    · simp only [linked_rw_lock.insert_queue, hc]
    · refine ⟨?_, ?_, hnd1, hcount, hflag⟩
      · show is_chain H.mem (some I) (L.queue ++ [⟨I, cls⟩])
        rw [hq, List.nil_append, is_chain_cons]
        show some I = some I ∧ (H.mem I).lockclass = cls ∧ is_chain H.mem (H.mem I).next []
        rw [hm]
        exact ⟨rfl, rfl, rfl⟩
      · show some I = (L.queue ++ [(⟨I, cls⟩ : request)]).getLast?.map request.addr
        rw [List.getLast?_concat]
        rfl
  | cons r t =>
    have hhead : H.head = some r.addr := by
      rw [hq, is_chain_cons] at hc
      exact hc.1
    have hne : L.queue ≠ [] := by
      rw [hq]
      exact List.cons_ne_nil _ _
    cases htl : L.queue.getLast? with
    | none =>
      rw [List.getLast?_eq_none_iff] at htl
      exact absurd htl hne
    | some x =>
      have htail : H.tail = some x.addr := by
        rw [hl, htl]
        rfl
      refine ⟨{ H with mem := store_next H.mem x.addr I, tail := some I }, ?_, ?_⟩
      · simp only [linked_rw_lock.insert_queue, hhead, htail]
      · refine ⟨?_, ?_, hnd1, hcount, hflag⟩
        · show is_chain (store_next H.mem x.addr I) H.head (L.queue ++ [⟨I, cls⟩])
          exact is_chain_snoc H.mem I x.addr cls L.queue H.head hc hne hnd
            (by rw [htl]; rfl) hI hm
        · show some I = (L.queue ++ [(⟨I, cls⟩ : request)]).getLast?.map request.addr
          rw [List.getLast?_concat]
          rfl

/-- Call `writelock(I)` with a request object that is not in the queue. -/
theorem writelock_represents (H : linked_rw_lock) (L : deferred_rw_lock) (I : Nat)
    (h : represents H L) (hI : I ∉ L.queue.map request.addr) :
    ∃ H1, H.writelock I = linked_result.done (H1, (L.writelock I).2) ∧
      represents H1 (L.writelock I).1 := by
  have h0 := store_request_represents H L I lockclass_t.WRITE h hI
  by_cases hc : L.reader_count = 0 ∧ L.writer = false
  · have hc1 : H.reader_count = 0 ∧ H.writer = false := by
      rw [h.count, h.flag]
      exact hc
    refine ⟨{ H with mem := store_request H.mem I lockclass_t.WRITE, writer := true }, ?_, ?_⟩
    · simp only [linked_rw_lock.writelock, deferred_rw_lock.writelock, if_pos hc, if_pos hc1]
    · simp only [deferred_rw_lock.writelock, if_pos hc]
      exact ⟨h0.chain, h0.last, h0.nodup, h0.count, rfl⟩
  · have hc1 : ¬ (H.reader_count = 0 ∧ H.writer = false) := by
      rw [h.count, h.flag]
      exact hc
    obtain ⟨H1, e1, r1⟩ := insert_queue_represents _ L I lockclass_t.WRITE h0 hI
      (by simp [store_request])
    refine ⟨H1, ?_, ?_⟩
    · simp only [linked_rw_lock.writelock, deferred_rw_lock.writelock, if_neg hc, if_neg hc1]
      rw [e1]
      rfl
    · simp only [deferred_rw_lock.writelock, if_neg hc]
      exact r1

theorem complete_rdlock_represents (H : linked_rw_lock) (L : deferred_rw_lock) (fuel : Nat)
    (h : represents H L) (r : request) (t : List request) (hq : L.queue = r :: t)
    (hf : t.length < fuel) :
    ∃ o, H.complete_rdlock fuel = linked_result.done o ∧
      represents_result o L.complete_rdlock ∧ o.lock.mem = H.mem := by
  obtain ⟨hc, hl, hnd, hcount, hflag⟩ := h
  have hc0 := hc
  rw [hq, is_chain_cons] at hc
  obtain ⟨hhead, _, hrest⟩ := hc
  obtain ⟨p1, e1, c1⟩ := complete_rdlock_loop_chain H.mem t fuel _ 1 hrest hf
  refine ⟨{ lock := { H with head := p1,
                             reader_count :=
                               (H.reader_count + (1 + (t.takeWhile is_read).length)) % 65536,
                             tail := if p1 = none then none else H.tail },
            released := some r.addr,
            ret := 1 + (t.takeWhile is_read).length }, ?_, ?_, ?_⟩
  · simp only [linked_rw_lock.complete_rdlock, hhead, e1, linked_result.bind]
  · refine ⟨⟨?_, ?_, ?_, ?_, ?_⟩, ?_, ?_⟩
    · show is_chain H.mem p1 (L.queue.tail.dropWhile is_read)
      rw [hq]
      exact c1
    · show (if p1 = none then none else H.tail) =
        (L.queue.tail.dropWhile is_read).getLast?.map request.addr
      rw [hq, List.tail_cons]
      by_cases hp : p1 = none
      · rw [if_pos hp]
        rw [hp] at c1
        rw [is_chain_head_none _ _ c1]
        rfl
      · rw [if_neg hp]
        have hne : t.dropWhile is_read ≠ [] := by
          intro e
          rw [e, is_chain_nil] at c1
          exact hp c1
        have hne2 : t ≠ [] := by
          intro e
          rw [e] at hne
          exact hne rfl
        rw [getLast_dropWhile _ _ hne, ← getLast_cons_of_ne_nil r t hne2, ← hq]
        exact hl
    · show ((L.queue.tail.dropWhile is_read).map request.addr).Nodup
      refine List.Nodup.sublist (List.Sublist.map _ ?_) hnd
      exact (List.dropWhile_sublist _).trans (List.tail_sublist _)
    · show (H.reader_count + (1 + (t.takeWhile is_read).length)) % 65536 =
        (L.reader_count + (1 + (L.queue.tail.takeWhile is_read).length)) % 65536
      rw [hq, hcount, List.tail_cons]
    · exact hflag
    · show is_chain H.mem (some r.addr) L.queue
      rw [← hhead]
      exact hc0
    · show 1 + (t.takeWhile is_read).length = 1 + (L.queue.tail.takeWhile is_read).length
      rw [hq, List.tail_cons]
  · rfl

theorem complete_wrlock_represents (H : linked_rw_lock) (L : deferred_rw_lock)
    (h : represents H L) (r : request) (t : List request) (hq : L.queue = r :: t) :
    ∃ H1, H.complete_wrlock = linked_result.done H1 ∧ represents H1 L.complete_wrlock ∧
      H1.mem = H.mem := by
  obtain ⟨hc, hl, hnd, hcount, hflag⟩ := h
  rw [hq, is_chain_cons] at hc
  obtain ⟨hhead, _, hrest⟩ := hc
  refine ⟨{ H with head := (H.mem r.addr).next,
                   tail := if (H.mem r.addr).next = none then none else H.tail,
                   writer := true }, ?_, ⟨?_, ?_, ?_, hcount, rfl⟩, ?_⟩
  · simp only [linked_rw_lock.complete_wrlock, hhead]
  · show is_chain H.mem (H.mem r.addr).next L.queue.tail
    rw [hq]
    exact hrest
  · show (if (H.mem r.addr).next = none then none else H.tail) =
      L.queue.tail.getLast?.map request.addr
    rw [hq, List.tail_cons]
    by_cases hp : (H.mem r.addr).next = none
    · rw [if_pos hp]
      rw [hp] at hrest
      rw [is_chain_head_none _ _ hrest]
      rfl
    · rw [if_neg hp]
      have hne : t ≠ [] := by
        intro e
        rw [e, is_chain_nil] at hrest
        exact hp hrest
      rw [← getLast_cons_of_ne_nil r t hne, ← hq]
      exact hl
  · show (L.queue.tail.map request.addr).Nodup
    exact List.Nodup.sublist (List.Sublist.map _ (List.tail_sublist _)) hnd
  · rfl

/-- The part shared by `wrunlock` and `rdunlock`. -/
theorem serve_head_represents (H : linked_rw_lock) (L : deferred_rw_lock) (fuel : Nat)
    (res : unlock_result)
    (hres : res = match L.queue with
      | [] => { lock := L, released := [], ret := 0 }
      | hd :: _ =>
        if is_read hd then L.complete_rdlock
        else
          let L2 : deferred_rw_lock := { L with writer := true }
          { lock := L2.complete_wrlock, released := L2.queue, ret := 1 })
    (h : represents H L) (hf : L.queue.length < fuel + 1) :
    ∃ o, H.serve_head fuel = linked_result.done o ∧ represents_result o res ∧
      o.lock.mem = H.mem := by
  have hc := h.chain
  cases hq : L.queue with
  | nil =>
    rw [hq] at hres
    simp only at hres
    subst hres
    rw [hq, is_chain_nil] at hc
    refine ⟨⟨H, none, 0⟩, ?_, ⟨h, rfl, rfl⟩, rfl⟩
    simp only [linked_rw_lock.serve_head, hc]
  | cons r t =>
    rw [hq] at hres
    simp only at hres
    rw [hq, is_chain_cons] at hc
    obtain ⟨hhead, hcls, hrest⟩ := hc
    have hft : t.length < fuel := by
      rw [hq, List.length_cons] at hf
      omega
    by_cases hr : r.lockclass = lockclass_t.READ
    · have hir : is_read r = true := by simp [is_read, hr]
      rw [if_pos hir] at hres
      subst hres
      obtain ⟨o, e1, r1, m1⟩ := complete_rdlock_represents H L fuel h r t hq hft
      refine ⟨o, ?_, r1, m1⟩
      simp only [linked_rw_lock.serve_head, hhead, hcls, hr, if_true]
      exact e1
    · have hir : ¬ is_read r = true := by simp [is_read, hr]
      rw [if_neg hir] at hres
      subst hres
      have h2 : represents { H with writer := true } { L with writer := true } :=
        ⟨h.chain, h.last, h.nodup, h.count, rfl⟩
      obtain ⟨H1, e1, r1, m1⟩ := complete_wrlock_represents _ _ h2 r t hq
      refine ⟨⟨H1, some r.addr, 1⟩, ?_, ⟨?_, ?_, rfl⟩, m1⟩
      · unfold linked_rw_lock.serve_head
        rw [hhead]
        simp only
        rw [hhead] at e1
        rw [if_neg (by rw [hcls]; exact hr), e1]
        rfl
      · rw [← hq]
        exact r1
      · show is_chain H1.mem (some r.addr) (r :: t)
        rw [m1, ← hhead, ← hq]
        exact h.chain

theorem wrunlock_represents (H : linked_rw_lock) (L : deferred_rw_lock) (fuel I : Nat)
    (h : represents H L) (hf : L.queue.length < fuel + 1) :
    ∃ o, H.wrunlock fuel I = linked_result.done o ∧ represents_result o (L.wrunlock I) ∧
      o.lock.mem = H.mem := by
  have h1 : represents { H with writer := false } { L with writer := false } :=
    ⟨h.chain, h.last, h.nodup, h.count, rfl⟩
  exact serve_head_represents _ _ fuel (L.wrunlock I) rfl h1 hf

theorem rdunlock_represents (H : linked_rw_lock) (L : deferred_rw_lock) (fuel I : Nat)
    (h : represents H L) (hf : L.queue.length < fuel + 1) :
    ∃ o, H.rdunlock fuel I = linked_result.done o ∧ represents_result o (L.rdunlock I) ∧
      o.lock.mem = H.mem := by
  have h1 : represents { H with reader_count := (H.reader_count + 65535) % 65536 }
      { L with reader_count := (L.reader_count + 65535) % 65536 } :=
    ⟨h.chain, h.last, h.nodup, by show (H.reader_count + 65535) % 65536 = _; rw [h.count],
      h.flag⟩
  by_cases hz : (L.reader_count + 65535) % 65536 = 0
  · have hz1 : (H.reader_count + 65535) % 65536 = 0 := by rw [h.count]; exact hz
    obtain ⟨o, e1, r1, m1⟩ := serve_head_represents _ _ fuel (L.rdunlock I)
      (by simp only [deferred_rw_lock.rdunlock, if_pos hz]; try rfl) h1 hf
    refine ⟨o, ?_, r1, m1⟩
    simp only [linked_rw_lock.rdunlock, if_pos hz1]
    exact e1
  · have hz1 : ¬ (H.reader_count + 65535) % 65536 = 0 := by rw [h.count]; exact hz
    refine ⟨⟨{ H with reader_count := (H.reader_count + 65535) % 65536 }, none, 0⟩,
      ?_, ?_, ?_⟩
    · simp only [linked_rw_lock.rdunlock, if_neg hz1]
    · simp only [deferred_rw_lock.rdunlock, if_neg hz]
      exact ⟨h1, rfl, rfl⟩
    · rfl

/-- Call `readlock(I, released)` with a request object that is not in the queue. -/
theorem readlock_represents (H : linked_rw_lock) (L : deferred_rw_lock) (fuel I : Nat)
    (h : represents H L) (hI : I ∉ L.queue.map request.addr) (hf : L.queue.length < fuel) :
    ∃ o, H.readlock fuel I = linked_result.done o ∧ represents_result o (L.readlock I) := by
  have h0 := store_request_represents H L I lockclass_t.READ h hI
  have hhead := represents_head H L h
  by_cases hc : L.queue = [] ∧ L.writer = false
  · have hc1 : H.head = none ∧ H.writer = false := by
      rw [hhead, h.flag, hc.1]
      exact ⟨rfl, hc.2⟩
    refine ⟨⟨{ H with mem := store_request H.mem I lockclass_t.READ,
                      reader_count := (H.reader_count + 1) % 65536 }, some I, 1⟩, ?_, ?_⟩
    · simp only [linked_rw_lock.readlock, if_pos hc1]
    · simp only [deferred_rw_lock.readlock, if_pos hc]
      refine ⟨⟨h0.chain, h0.last, h0.nodup, ?_, h0.flag⟩, ?_, rfl⟩
      · show (H.reader_count + 1) % 65536 = (L.reader_count + 1) % 65536
        rw [h.count]
      · show is_chain (store_request H.mem I lockclass_t.READ) (some I)
          [⟨I, lockclass_t.READ⟩]
        rw [is_chain_cons]
        simp [store_request, is_chain_nil]
  · have hc1 : ¬ (H.head = none ∧ H.writer = false) := by
      rw [hhead, h.flag]
      intro hh
      apply hc
      refine ⟨?_, hh.2⟩
      cases hq : L.queue with
      | nil => rfl
      | cons a b =>
        rw [hq] at hh
        cases hh.1
    obtain ⟨H1, e1, r1⟩ := insert_queue_represents _ L I lockclass_t.READ h0 hI
      (by simp [store_request])
    have hq1 : (L.insert_queue ⟨I, lockclass_t.READ⟩).queue =
        L.queue ++ [⟨I, lockclass_t.READ⟩] := rfl
    cases hq : L.queue ++ [(⟨I, lockclass_t.READ⟩ : request)] with
    | nil => simp at hq
    | cons hd tl =>
      have hlen : tl.length < fuel := by
        have := congrArg List.length hq
        simp only [List.length_append, List.length_singleton, List.length_cons,
          List.length_nil] at this
        omega
      have hch := r1.chain
      rw [hq1, hq, is_chain_cons] at hch
      obtain ⟨hh1, hcls1, _⟩ := hch
      by_cases hs : is_read hd = true ∧
          (L.insert_queue ⟨I, lockclass_t.READ⟩).writer = false
      · have hs1 : (H1.mem hd.addr).lockclass = lockclass_t.READ ∧ H1.writer = false := by
          rw [hcls1, r1.flag]
          refine ⟨?_, hs.2⟩
          simpa [is_read] using hs.1
        obtain ⟨o, e2, r2, _⟩ := complete_rdlock_represents H1 _ fuel r1 hd tl
          (by rw [hq1, hq]) hlen
        refine ⟨o, ?_, ?_⟩
        · simp only [linked_rw_lock.readlock, if_neg hc1, e1, linked_result.bind, hh1,
            if_pos hs1]
          exact e2
        · simp only [deferred_rw_lock.readlock, if_neg hc, hq1, hq, if_pos hs]
          exact r2
      · have hs1 : ¬ ((H1.mem hd.addr).lockclass = lockclass_t.READ ∧ H1.writer = false) := by
          rw [hcls1, r1.flag]
          intro hh
          apply hs
          refine ⟨?_, hh.2⟩
          simpa [is_read] using hh.1
        refine ⟨⟨H1, none, 0⟩, ?_, ?_⟩
        · simp only [linked_rw_lock.readlock, if_neg hc1, e1, linked_result.bind, hh1,
            if_neg hs1]
        · simp only [deferred_rw_lock.readlock, if_neg hc, hq1, hq, if_neg hs]
          exact ⟨r1, rfl, rfl⟩

/-! ### Call sequences on the linked lock -/

theorem lock_path_length (L L1 : deferred_rw_lock) (op : lock_op) (g : List request)
    (hp : lock_path L op L1 g) : L1.queue.length ≤ L.queue.length + 1 := by
  have hdw : ∀ q : List request, (q.dropWhile is_read).length ≤ q.length :=
    fun q => (List.dropWhile_sublist _).length_le
  cases hp with
  | wl_fast I hop hrc hw hL hg => rw [hL]; simp
  | wl_slow I hop hc hL hg => rw [hL]; simp
  | rl_fast I hop hq hw hL hg => rw [hL]; simp
  | rl_slow I hop hc hn hL hg => rw [hL]; simp
  | rl_serve I h t hop hq hr hw hL hg =>
    rw [hL]
    have := hdw (L.queue ++ [(⟨I, lockclass_t.READ⟩ : request)])
    simpa using this
  | un_empty rc0 w0 hb hq hL hg => rw [hL]; simp
  | un_read rc0 w0 h t hb hq hr hL hg =>
    rw [hL]
    have := hdw L.queue
    simp only
    omega
  | un_write rc0 w0 h t hb hq hr hL hg =>
    rw [hL, hq]
    simp only [List.length_cons]
    omega
  | rd_more I hop hrc hL hg => rw [hL]; simp

theorem lock_next_length (L : deferred_rw_lock) (op : lock_op) :
    (lock_next L op).queue.length ≤ L.queue.length + 1 :=
  lock_path_length L _ op _ (lock_path_step L op)

/-- One call with a request object that is not in the queue: the linked lock returns,
grants what the list model grants, and stands in the state the list model reaches. -/
theorem step_represents (H : linked_rw_lock) (L : deferred_rw_lock) (fuel : Nat)
    (op : lock_op) (h : represents H L) (hu : L.unlinked op = true)
    (hf : L.queue.length < fuel) :
    ∃ H1, H.step fuel op = linked_result.done (H1, lock_granted L op) ∧
      represents H1 (lock_next L op) := by
  cases op with
  | writelock I =>
    have hI : I ∉ L.queue.map request.addr := by
      simpa [deferred_rw_lock.unlinked] using hu
    obtain ⟨H1, e1, r1⟩ := writelock_represents H L I h hI
    refine ⟨H1, ?_, r1⟩
    simp only [linked_rw_lock.step, e1, linked_result.bind, lock_granted]
  | readlock I =>
    have hI : I ∉ L.queue.map request.addr := by
      simpa [deferred_rw_lock.unlinked] using hu
    obtain ⟨o, e1, r1⟩ := readlock_represents H L fuel I h hI hf
    refine ⟨o.lock, ?_, r1.lock⟩
    simp only [linked_rw_lock.step, e1, linked_result.bind, lock_granted]
    rw [chain_take_chain _ _ _ _ r1.released, r1.ret]
  | wrunlock I =>
    obtain ⟨o, e1, r1, _⟩ := wrunlock_represents H L fuel I h (by omega)
    refine ⟨o.lock, ?_, r1.lock⟩
    simp only [linked_rw_lock.step, e1, linked_result.bind, lock_granted]
    rw [chain_take_chain _ _ _ _ r1.released, r1.ret]
  | rdunlock I =>
    obtain ⟨o, e1, r1, _⟩ := rdunlock_represents H L fuel I h (by omega)
    have e2 : H.step fuel (lock_op.rdunlock I) =
        linked_result.done (o.lock, chain_take o.lock.mem o.ret o.released) := by
      simp only [linked_rw_lock.step, e1, linked_result.bind]
    have e3 : lock_granted L (lock_op.rdunlock I) =
        (L.rdunlock I).released.take (L.rdunlock I).ret := by
      simp only [lock_granted]
    have e4 : lock_next L (lock_op.rdunlock I) = (L.rdunlock I).lock := by
      simp only [lock_next]
    rw [e2, e3, e4]
    generalize L.rdunlock I = res at r1
    obtain ⟨r1a, r1b, r1c⟩ := r1
    exact ⟨o.lock, by rw [chain_take_chain _ _ _ _ r1b, r1c], r1a⟩

theorem tracks_init (mem : Nat → request_obj) :
    tracks (linked_tracked.init mem) tracked.init :=
  ⟨represents_init mem, rfl⟩

theorem tracks_unlinked (t : linked_tracked) (s : tracked) (fuel : Nat) (op : lock_op)
    (h : tracks t s) (hf : s.lock.queue.length ≤ fuel) :
    t.unlinked fuel op = s.lock.unlinked op := by
  have hw := represents_waiting t.lock s.lock fuel h.lock hf
  cases op <;> simp only [linked_tracked.unlinked, deferred_rw_lock.unlinked, hw]

theorem tracks_allowed (t : linked_tracked) (s : tracked) (op : lock_op) (h : tracks t s) :
    t.allowed op = s.allowed op := by
  cases op <;> simp only [linked_tracked.allowed, tracked.allowed, h.holders]

theorem tracks_step (t : linked_tracked) (s : tracked) (fuel : Nat) (op : lock_op)
    (h : tracks t s) (hu : s.lock.unlinked op = true) (hf : s.lock.queue.length < fuel) :
    ∃ t1, t.step fuel op = linked_result.done t1 ∧ tracks t1 (s.step op) ∧
      t.lock.step fuel op = linked_result.done (t1.lock, lock_granted s.lock op) := by
  obtain ⟨H1, e1, r1⟩ := step_represents t.lock s.lock fuel op h.lock hu hf
  refine ⟨⟨H1, unlock_holder t.holders op ++ lock_granted s.lock op⟩, ?_, ⟨r1, ?_⟩, e1⟩
  · simp only [linked_tracked.step, e1, linked_result.bind]
  · show unlock_holder t.holders op ++ lock_granted s.lock op =
      unlock_holder s.holders op ++ lock_granted s.lock op
    rw [h.holders]

theorem fresh_use_cons (L : deferred_rw_lock) (op : lock_op) (ops : List lock_op) :
    fresh_use L (op :: ops) = (L.unlinked op && fresh_use (lock_next L op) ops) := rfl

theorem fresh_use_append (a : List lock_op) :
    ∀ (L : deferred_rw_lock) (b : List lock_op),
      fresh_use L (a ++ b) = (fresh_use L a && fresh_use (lock_run L a) b) := by
  induction a with
  | nil => intro L b; simp [fresh_use, lock_run]
  | cons op a ih =>
    intro L b
    rw [List.cons_append, fresh_use_cons, fresh_use_cons, ih, Bool.and_assoc]
    rfl

/-- The linked lock and the list model judge the freshness of a call sequence alike. -/
theorem tracks_fresh_use (fuel : Nat) :
    ∀ (ops : List lock_op) (t : linked_tracked) (s : tracked), tracks t s →
      s.lock.queue.length + ops.length ≤ fuel →
      t.fresh_use fuel ops = fresh_use s.lock ops := by
  intro ops
  induction ops with
  | nil => intro t s _ _; rfl
  | cons op ops ih =>
    intro t s h hf
    simp only [List.length_cons] at hf
    have hu := tracks_unlinked t s fuel op h (by omega)
    simp only [linked_tracked.fresh_use, fresh_use_cons, hu]
    cases hc : s.lock.unlinked op with
    | false => rfl
    | true =>
      obtain ⟨t1, e1, r1, _⟩ := tracks_step t s fuel op h hc (by omega)
      rw [e1]
      simp only [Bool.true_and]
      have hl := lock_next_length s.lock op
      exact ih t1 (s.step op) r1 (by show (lock_next s.lock op).queue.length + _ ≤ _; omega)

/-- A fresh call sequence runs on the linked lock as on the list model: every call
returns, the states and the grants correspond, and so do correct use and the holders in
every state. -/
theorem tracks_run (fuel : Nat) :
    ∀ (ops : List lock_op) (t : linked_tracked) (s : tracked), tracks t s →
      s.lock.queue.length + ops.length ≤ fuel → fresh_use s.lock ops = true →
      (∃ t1, t.run fuel ops = linked_result.done t1 ∧ tracks t1 (s.run ops) ∧
          t.lock.run fuel ops = linked_result.done (t1.lock, grant_log s.lock ops)) ∧
        t.correct_use fuel ops = s.correct_use ops ∧
        (t.states fuel ops).map linked_tracked.holders =
          (s.states ops).map tracked.holders := by
  intro ops
  induction ops with
  | nil =>
    intro t s h _ _
    exact ⟨⟨t, rfl, h, rfl⟩, rfl,
      by simp [linked_tracked.states, tracked.states, h.holders]⟩
  | cons op ops ih =>
    intro t s h hf hfr
    simp only [List.length_cons] at hf
    rw [fresh_use_cons, Bool.and_eq_true] at hfr
    obtain ⟨t1, e1, r1, g1⟩ := tracks_step t s fuel op h hfr.1 (by omega)
    have hl := lock_next_length s.lock op
    obtain ⟨⟨t2, e2, r2, g2⟩, c2, s2⟩ := ih t1 (s.step op) r1
      (by show (lock_next s.lock op).queue.length + _ ≤ _; omega) hfr.2
    refine ⟨⟨t2, ?_, ?_, ?_⟩, ?_, ?_⟩
    · simp only [linked_tracked.run, e1, linked_result.bind]
      exact e2
    · rw [run_cons]
      exact r2
    · simp only [linked_rw_lock.run, g1, linked_result.bind, grant_log]
      have g3 : t1.lock.run fuel ops =
          linked_result.done (t2.lock, grant_log (lock_next s.lock op) ops) := g2
      rw [g3]
    · simp only [linked_tracked.correct_use, tracked.correct_use, e1, c2,
        tracks_allowed t s op h]
    · simp only [linked_tracked.states, tracked.states, e1, List.map_cons, s2, h.holders]

theorem lock_run_length (ops : List lock_op) :
    ∀ L : deferred_rw_lock, (lock_run L ops).queue.length ≤ L.queue.length + ops.length := by
  induction ops with
  | nil => intro L; exact Nat.le_refl _
  | cons op ops ih =>
    intro L
    rw [lock_run_cons, List.length_cons]
    have h1 := ih (lock_next L op)
    have h2 := lock_next_length L op
    omega

theorem readers_of_holders_map (P : List linked_tracked) (Q : List tracked) (n : Nat)
    (h : P.map linked_tracked.holders = Q.map tracked.holders) :
    (∀ s ∈ P, s.readers < n) ↔ (∀ s ∈ Q, s.readers < n) := by
  have hP : (∀ s ∈ P, s.readers < n) ↔
      ∀ hs ∈ P.map linked_tracked.holders, hs.countP is_read < n := by
    simp [linked_tracked.readers]
  have hQ : (∀ s ∈ Q, s.readers < n) ↔
      ∀ hs ∈ Q.map tracked.holders, hs.countP is_read < n := by
    simp [tracked.readers]
  rw [hP, hQ, h]

/-- A call sequence on a freshly constructed linked lock that the list model judges
fresh: it is fresh, every call returns, and states, grants, correct use and holders
are those of the list model. -/
theorem linked_init_of_fresh (mem : Nat → request_obj) (ops : List lock_op) (fuel : Nat)
    (hfl : fresh_use deferred_rw_lock.init ops = true) (hfuel : ops.length ≤ fuel) :
    (linked_tracked.init mem).fresh_use fuel ops = true ∧
      (∃ t, (linked_tracked.init mem).run fuel ops = linked_result.done t ∧
        tracks t (tracked.init.run ops) ∧
        (linked_rw_lock.init mem).run fuel ops =
          linked_result.done (t.lock, grant_log deferred_rw_lock.init ops)) ∧
      (linked_tracked.init mem).correct_use fuel ops = tracked.init.correct_use ops ∧
      (∀ n, (∀ s ∈ (linked_tracked.init mem).states fuel ops, s.readers < n) ↔
        (∀ s ∈ tracked.init.states ops, s.readers < n)) := by
  have hq : tracked.init.lock.queue.length + ops.length ≤ fuel := by
    show 0 + ops.length ≤ fuel
    omega
  obtain ⟨h1, h2, h3⟩ := tracks_run fuel ops _ _ (tracks_init mem) hq hfl
  refine ⟨?_, h1, h2, fun n => readers_of_holders_map _ _ n h3⟩
  rw [tracks_fresh_use fuel ops _ _ (tracks_init mem) hq]
  exact hfl

theorem linked_fresh_init (mem : Nat → request_obj) (ops : List lock_op) (fuel : Nat)
    (hf : (linked_tracked.init mem).fresh_use fuel ops = true) (hfuel : ops.length ≤ fuel) :
    fresh_use deferred_rw_lock.init ops = true := by
  have hq : tracked.init.lock.queue.length + ops.length ≤ fuel := by
    show 0 + ops.length ≤ fuel
    omega
  have e := tracks_fresh_use fuel ops _ _ (tracks_init mem) hq
  rw [hf] at e
  exact e.symm

theorem init_queue_length (ops : List lock_op) :
    (tracked.init.run ops).lock.queue.length ≤ ops.length := by
  rw [run_lock]
  have := lock_run_length ops tracked.init.lock
  have h0 : tracked.init.lock.queue.length = 0 := rfl
  omega

theorem tracks_grants (fuel : Nat) (ops : List lock_op) (t : linked_tracked) (s : tracked)
    (h : tracks t s) (hf : s.lock.queue.length + ops.length ≤ fuel)
    (hfr : fresh_use s.lock ops = true) :
    t.lock.grants fuel ops = linked_result.done (grant_log s.lock ops) := by
  obtain ⟨⟨t1, _, _, g1⟩, _, _⟩ := tracks_run fuel ops t s h hf hfr
  simp only [linked_rw_lock.grants, g1, linked_result.bind]

/-! ### C2: lock fairness -/

theorem grant_log_mid (L : deferred_rw_lock) (pre : List lock_op) (op : lock_op)
    (rest : List lock_op) :
    (grant_log L (pre ++ op :: rest))[pre.length]? =
      some (lock_granted (lock_run L pre) op) := by
  rw [grant_log_append, List.getElem?_append_right (by rw [grant_log_length]),
    grant_log_length, Nat.sub_self]
  simp [grant_log]

theorem grant_log_initial (L : deferred_rw_lock) (a b : List lock_op) (k : Nat)
    (hk : k < a.length) : (grant_log L (a ++ b))[k]? = (grant_log L a)[k]? := by
  rw [grant_log_append, List.getElem?_append_left (by rw [grant_log_length]; exact hk)]

theorem fresh_use_mid (L : deferred_rw_lock) (pre : List lock_op) (op : lock_op)
    (rest : List lock_op) (h : fresh_use L (pre ++ op :: rest) = true) :
    (lock_run L pre).unlinked op = true := by
  rw [fresh_use_append, Bool.and_eq_true, fresh_use_cons, Bool.and_eq_true] at h
  exact h.2.1

theorem fresh_use_initial (L : deferred_rw_lock) (a b : List lock_op)
    (h : fresh_use L (a ++ b) = true) : fresh_use L a = true := by
  rw [fresh_use_append, Bool.and_eq_true] at h
  exact h.1

theorem unlinked_not_mem (L : deferred_rw_lock) (op : lock_op) (B : request)
    (hB : submitted op = some B) (hu : L.unlinked op = true) : B ∉ L.queue := by
  intro hm
  have hmem : B.addr ∈ L.queue.map request.addr := List.mem_map_of_mem _ hm
  cases op with
  | writelock I =>
    simp only [submitted, Option.some.injEq] at hB
    simp only [deferred_rw_lock.unlinked, decide_eq_true_eq] at hu
    rw [← hB] at hmem
    exact hu hmem
  | readlock I =>
    simp only [submitted, Option.some.injEq] at hB
    simp only [deferred_rw_lock.unlinked, decide_eq_true_eq] at hu
    rw [← hB] at hmem
    exact hu hmem
  | wrunlock I => simp [submitted] at hB
  | rdunlock I => simp [submitted] at hB

/-- A locking call that grants nothing has queued its request. -/
theorem queued_of_granted_nil (L : deferred_rw_lock) (op : lock_op) (A : request)
    (hA : submitted op = some A) (hg : lock_granted L op = []) : is_queued L op = true := by
  cases op with
  | writelock I =>
    simp only [lock_granted] at hg
    simp only [is_queued]
    cases hb : (L.writelock I).2 with
    | false => rfl
    | true =>
      rw [hb] at hg
      simp at hg
  | readlock I =>
    have hp := lock_path_step L (lock_op.readlock I)
    rw [hg] at hp
    simp only [is_queued, decide_eq_true_eq]
    cases hp with
    | wl_fast I1 hop _ _ _ _ => cases hop
    | wl_slow I1 hop _ _ _ => cases hop
    | rl_fast I1 hop hq0 hw0 hL1 hg1 => cases hg1
    | rl_slow I1 hop hc hn hL1 hg1 =>
      simp only [deferred_rw_lock.readlock, if_neg hc, deferred_rw_lock.insert_queue]
      cases hq1 : L.queue ++ [(⟨I, lockclass_t.READ⟩ : request)] with
      | nil => simp at hq1
      | cons h t =>
        simp only
        have hs : ¬ (is_read h = true ∧ L.writer = false) := by
          rintro ⟨hr, hw⟩
          rcases hn with hw1 | ⟨h2, t2, e2, hr2⟩
          · rw [hw] at hw1
            cases hw1
          · injection hop with hI
            subst hI
            rw [hq1] at e2
            injection e2 with e3 _
            rw [← e3, hr] at hr2
            cases hr2
        rw [if_neg hs]
    | rl_serve I1 h0 t0 hop hq0 hr hw0 hL1 hg1 =>
      exfalso
      have hlen := takeWhile_length_pos h0 (t0 ++ [(⟨I1, lockclass_t.READ⟩ : request)]) hr
      rw [hq0, List.cons_append] at hg1
      rw [← hg1] at hlen
      simp at hlen
    | un_empty rc0 w0 hb _ _ _ =>
      rcases hb with ⟨I1, hop, _⟩ | ⟨I1, hop, _⟩ <;> cases hop
    | un_read rc0 w0 h0 t0 hb _ _ _ _ =>
      rcases hb with ⟨I1, hop, _⟩ | ⟨I1, hop, _⟩ <;> cases hop
    | un_write rc0 w0 h0 t0 hb _ _ _ _ =>
      rcases hb with ⟨I1, hop, _⟩ | ⟨I1, hop, _⟩ <;> cases hop
    | rd_more I1 hop _ _ _ => cases hop
  | wrunlock I => simp [submitted] at hA
  | rdunlock I => simp [submitted] at hA

/-- The first call of a sequence that submits the request `B`, if there is one. -/
theorem first_submission (B : request) (post : List lock_op)
    (h : ∃ op ∈ post, submitted op = some B) :
    ∃ p1 op1 p2, post = p1 ++ op1 :: p2 ∧ submitted op1 = some B ∧
      ∀ op ∈ p1, submitted op ≠ some B := by
  induction post with
  | nil =>
    obtain ⟨op, hm, _⟩ := h
    cases hm
  | cons a post ih =>
    by_cases ha : submitted a = some B
    · exact ⟨[], a, post, rfl, ha, fun op hm => by cases hm⟩
    · have h1 : ∃ op ∈ post, submitted op = some B := by
        obtain ⟨op, hm, e⟩ := h
        rcases List.mem_cons.mp hm with h2 | h2
        · rw [h2] at e
          exact absurd e ha
        · exact ⟨op, h2, e⟩
      obtain ⟨p1, op1, p2, e1, e2, e3⟩ := ih h1
      refine ⟨a :: p1, op1, p2, by rw [e1]; rfl, e2, ?_⟩
      intro op hm
      rcases List.mem_cons.mp hm with h2 | h2
      · rw [h2]
        exact ha
      · exact e3 op h2

/-- Order of grants along a call sequence that never submits a waiting request object.
`opA` queues request `A`; later `opB` submits request `B`.  Whenever a call from `opB`
on grants `B`, some call after `opA`, the same or an earlier one, has granted `A`; if
it is the same call, `A` comes no later than `B` in the released chain and both are
read requests. -/
theorem grant_order_fresh (pre mid post : List lock_op) (opA opB : lock_op) (A B : request)
    (hA : submitted opA = some A)
    (hAq : is_queued (lock_run deferred_rw_lock.init pre) opA = true)
    (hB : submitted opB = some B)
    (hBq : (∃ I, opB = lock_op.readlock I) ∨
      is_queued (lock_run deferred_rw_lock.init (pre ++ opA :: mid)) opB = true)
    (hf : fresh_use deferred_rw_lock.init (pre ++ opA :: (mid ++ opB :: post)) = true)
    (k : Nat) (g : List request) (hkj : pre.length + 1 + mid.length ≤ k)
    (hk : (grant_log deferred_rw_lock.init (pre ++ opA :: (mid ++ opB :: post)))[k]? = some g)
    (hBg : B ∈ g) :
    ∃ (m : Nat) (gm : List request), pre.length < m ∧ m ≤ k ∧
      (grant_log deferred_rw_lock.init (pre ++ opA :: (mid ++ opB :: post)))[m]? = some gm ∧
      A ∈ gm ∧
      (m = k → (∃ u v, g = u ++ A :: v ∧ B ∉ u) ∧ is_read A = true ∧ is_read B = true) := by
  have hassoc : ∀ rest : List lock_op, pre ++ opA :: (mid ++ opB :: rest) =
      (pre ++ opA :: mid) ++ opB :: rest := by
    intro rest
    simp
  have hfresh : B ∉ (lock_run deferred_rw_lock.init (pre ++ opA :: mid)).queue := by
    rw [hassoc] at hf
    exact unlinked_not_mem _ opB B hB (fresh_use_mid _ _ _ _ hf)
  by_cases hex : is_write B = true ∧ ∃ op ∈ post, submitted op = some B
  · obtain ⟨hw, hex⟩ := hex
    obtain ⟨p1, op1, p2, e1, e2, e3⟩ := first_submission B post hex
    have hsplit : pre ++ opA :: (mid ++ opB :: post) =
        (pre ++ opA :: (mid ++ opB :: p1)) ++ op1 :: p2 := by
      rw [e1]
      simp
    have hlen1 : (pre ++ opA :: (mid ++ opB :: p1)).length =
        pre.length + 1 + mid.length + 1 + p1.length := by
      simp
      omega
    -- grants inside the part before `B` is submitted again
    have hin : ∀ k0 g0, pre.length + 1 + mid.length ≤ k0 →
        k0 < pre.length + 1 + mid.length + 1 + p1.length →
        (grant_log deferred_rw_lock.init (pre ++ opA :: (mid ++ opB :: post)))[k0]? = some g0 →
        B ∈ g0 →
        ∃ (m : Nat) (gm : List request), pre.length < m ∧ m ≤ k0 ∧
          (grant_log deferred_rw_lock.init (pre ++ opA :: (mid ++ opB :: post)))[m]? =
            some gm ∧ A ∈ gm ∧
          (m = k0 → (∃ u v, g0 = u ++ A :: v ∧ B ∉ u) ∧ is_read A = true ∧
            is_read B = true) := by
      intro k0 g0 h1 h2 h3 h4
      rw [hsplit, grant_log_initial _ _ _ _ (by rw [hlen1]; exact h2)] at h3
      obtain ⟨m, gm, m1, m2, m3, m4, m5⟩ :=
        grant_order deferred_rw_lock.init pre mid p1 opA opB A B hA hAq hBq hfresh
          (fun _ => e3) k0 g0 h1 h3 h4
      refine ⟨m, gm, m1, m2, ?_, m4, m5⟩
      rw [hsplit, grant_log_initial _ _ _ _ (by rw [hlen1]; omega)]
      exact m3
    rcases Nat.lt_or_ge k (pre.length + 1 + mid.length + 1 + p1.length) with hlt | hge
    · exact hin k g hkj hlt hk hBg
    · -- `B` has left the queue before it is submitted again
      have hBq1 : is_queued (lock_run deferred_rw_lock.init (pre ++ opA :: mid)) opB = true := by
        rcases hBq with ⟨I, hI⟩ | h
        · rw [hI] at hB
          simp only [submitted, Option.some.injEq] at hB
          rw [← hB] at hw
          simp [is_write] at hw
        · exact h
      have hBmem := (queued_mem _ opB B hB hBq1).1
      have hnot : B ∉ (lock_run deferred_rw_lock.init
          (pre ++ opA :: (mid ++ opB :: p1))).queue := by
        rw [hsplit] at hf
        exact unlinked_not_mem _ op1 B e2 (fresh_use_mid _ _ _ _ hf)
      rcases waits_or_granted B p1 _ hBmem with ⟨m1, gm1, em, hBm⟩ | hstill
      · have hm1 : m1 < p1.length := by
          have := (List.getElem?_eq_some_iff.mp em).1
          rw [grant_log_length] at this
          exact this
        have hlog : (grant_log deferred_rw_lock.init
            (pre ++ opA :: (mid ++ opB :: post)))[pre.length + 1 + mid.length + 1 + m1]? =
            some gm1 := by
          rw [hsplit, grant_log_initial _ _ _ _ (by rw [hlen1]; omega)]
          have e4 : pre ++ opA :: (mid ++ opB :: p1) = (pre ++ opA :: mid ++ [opB]) ++ p1 := by
            simp
          have hlen2 : (grant_log deferred_rw_lock.init (pre ++ opA :: mid ++ [opB])).length =
              pre.length + 1 + mid.length + 1 := by
            rw [grant_log_length]
            simp
            omega
          rw [e4, grant_log_append, List.getElem?_append_right (by rw [hlen2]; omega), hlen2,
            show pre.length + 1 + mid.length + 1 + m1 - (pre.length + 1 + mid.length + 1) = m1
              by omega]
          have e5 : lock_run deferred_rw_lock.init (pre ++ opA :: mid ++ [opB]) =
              lock_next (lock_run deferred_rw_lock.init (pre ++ opA :: mid)) opB := by
            rw [lock_run_append]
            rfl
          rw [e5]
          exact em
        obtain ⟨m, gm, h1, h2, h3, h4, _⟩ :=
          hin (pre.length + 1 + mid.length + 1 + m1) gm1 (by omega) (by omega) hlog hBm
        exact ⟨m, gm, h1, by omega, h3, h4, fun h => by omega⟩
      · exfalso
        apply hnot
        have e6 : pre ++ opA :: (mid ++ opB :: p1) = (pre ++ opA :: mid) ++ opB :: p1 := by
          simp
        rw [e6, lock_run_append, lock_run_cons]
        exact hstill
  · have hre : is_write B = true → ∀ op ∈ post, submitted op ≠ some B := by
      intro hw op hm e
      exact hex ⟨hw, op, hm, e⟩
    exact grant_order deferred_rw_lock.init pre mid post opA opB A B hA hAq hBq hfresh hre
      k g hkj hk hBg

/-- C2 (as amended): lock fairness on the linked lock, for every call sequence
`pre ++ opA :: mid ++ opB :: post` on a freshly constructed lock that never passes to
`writelock` or `readlock` a request object that is linked into the queue at that time
(no condition on who calls the unlocks is needed).  With enough fuel for the loop of
`complete_rdlock`, every call returns; `log` lists the grants of the calls, numbered
from 0, and an empty entry for a locking call means that it queued its request
(`writelock` returned false, `readlock` returned 0).  First part: if `opA = writelock(W)`
queued `W` and `opB = readlock(R)` comes later, then every call from `opB` on (the
`readlock` itself or a later unlock) that grants `R` comes strictly after a call, later
than `opA`, that granted `W`.  Second part: if `opA` queued request `A` and `opB`
queued request `B`, then whenever `B` is granted `A` has been granted by the same or an
earlier call, and in the same call `A` comes no later than `B` in the released chain. -/
theorem deferred_rw_lock_fair (mem : Nat → request_obj) (pre mid post : List lock_op)
    (opA opB : lock_op) (fuel : Nat)
    (hf : (linked_tracked.init mem).fresh_use fuel (pre ++ opA :: (mid ++ opB :: post)) = true)
    (hfuel : (pre ++ opA :: (mid ++ opB :: post)).length ≤ fuel) :
    ∃ log, (linked_rw_lock.init mem).grants fuel (pre ++ opA :: (mid ++ opB :: post)) =
        linked_result.done log ∧
      log.length = (pre ++ opA :: (mid ++ opB :: post)).length ∧
      (∀ (W R k : Nat) (g : List request),
        opA = lock_op.writelock W → opB = lock_op.readlock R → log[pre.length]? = some [] →
        pre.length + 1 + mid.length ≤ k → log[k]? = some g →
        (⟨R, lockclass_t.READ⟩ : request) ∈ g →
        ∃ (m : Nat) (gm : List request), pre.length < m ∧ m < k ∧ log[m]? = some gm ∧
          (⟨W, lockclass_t.WRITE⟩ : request) ∈ gm) ∧
      (∀ (A B : request) (k : Nat) (g : List request),
        submitted opA = some A → submitted opB = some B →
        log[pre.length]? = some [] → log[pre.length + 1 + mid.length]? = some [] →
        pre.length + 1 + mid.length ≤ k → log[k]? = some g → B ∈ g →
        ∃ (m : Nat) (gm : List request), pre.length < m ∧ m ≤ k ∧ log[m]? = some gm ∧
          A ∈ gm ∧ (m = k → ∃ u v, g = u ++ A :: v ∧ B ∉ u)) := by
  have hfl := linked_fresh_init mem _ fuel hf hfuel
  have hq : tracked.init.lock.queue.length +
      (pre ++ opA :: (mid ++ opB :: post)).length ≤ fuel := by
    show 0 + _ ≤ fuel
    omega
  have hg : (linked_rw_lock.init mem).grants fuel (pre ++ opA :: (mid ++ opB :: post)) =
      linked_result.done
        (grant_log deferred_rw_lock.init (pre ++ opA :: (mid ++ opB :: post))) :=
    tracks_grants fuel _ _ _ (tracks_init mem) hq hfl
  have hAg : ∀ A, submitted opA = some A →
      (grant_log deferred_rw_lock.init (pre ++ opA :: (mid ++ opB :: post)))[pre.length]? =
        some [] → is_queued (lock_run deferred_rw_lock.init pre) opA = true := by
    intro A hA h0
    rw [grant_log_mid, Option.some.injEq] at h0
    exact queued_of_granted_nil _ opA A hA h0
  refine ⟨_, hg, grant_log_length _ _, ?_, ?_⟩
  · intro W R k g hopA hopB h0 hkj hk hR
    have hA : submitted opA = some ⟨W, lockclass_t.WRITE⟩ := by rw [hopA]; rfl
    have hB : submitted opB = some ⟨R, lockclass_t.READ⟩ := by rw [hopB]; rfl
    obtain ⟨m, gm, h1, h2, h3, h4, h5⟩ :=
      grant_order_fresh pre mid post opA opB _ _ hA (hAg _ hA h0) hB (Or.inl ⟨R, hopB⟩) hfl
        k g hkj hk hR
    refine ⟨m, gm, h1, ?_, h3, h4⟩
    rcases Nat.lt_or_ge m k with hlt | hge
    · exact hlt
    · have := (h5 (by omega)).2.1
      simp [is_read] at this
  · intro A B k g hA hB h0 h1 hkj hk hBg
    have hBq : is_queued (lock_run deferred_rw_lock.init (pre ++ opA :: mid)) opB = true := by
      have e : pre ++ opA :: (mid ++ opB :: post) = (pre ++ opA :: mid) ++ opB :: post := by
        simp
      have hl : (pre ++ opA :: mid).length = pre.length + 1 + mid.length := by
        simp
        omega
      have h2 := grant_log_mid deferred_rw_lock.init (pre ++ opA :: mid) opB post
      rw [← e, hl, h1, Option.some.injEq] at h2
      exact queued_of_granted_nil _ opB B hB h2.symm
    obtain ⟨m, gm, m1, m2, m3, m4, m5⟩ :=
      grant_order_fresh pre mid post opA opB A B hA (hAg A hA h0) hB (Or.inr hBq) hfl
        k g hkj hk hBg
    exact ⟨m, gm, m1, m2, m3, m4, fun h => (m5 h).1⟩

/-- C2, witness: `writelock(1)` is granted, `writelock(2)` is queued, `readlock(3)` arrives
and is queued behind it; `wrunlock(1)` grants the writer 2 and only `wrunlock(2)`
grants the reader 3. -/
theorem deferred_rw_lock_fair_witness :
    (linked_rw_lock.init blank_memory).grants 10
        ([lock_op.writelock 1] ++ lock_op.writelock 2 ::
          ([] ++ lock_op.readlock 3 :: [lock_op.wrunlock 1, lock_op.wrunlock 2])) =
        linked_result.done
          [[⟨1, lockclass_t.WRITE⟩], [], [], [⟨2, lockclass_t.WRITE⟩], [⟨3, lockclass_t.READ⟩]] ∧
      (linked_tracked.init blank_memory).fresh_use 10
        ([lock_op.writelock 1] ++ lock_op.writelock 2 ::
          ([] ++ lock_op.readlock 3 :: [lock_op.wrunlock 1, lock_op.wrunlock 2])) = true ∧
      ([lock_op.writelock 1] ++ lock_op.writelock 2 ::
          ([] ++ lock_op.readlock 3 :: [lock_op.wrunlock 1, lock_op.wrunlock 2])).length ≤ 10 ∧
      ∃ log, (linked_rw_lock.init blank_memory).grants 10
          ([lock_op.writelock 1] ++ lock_op.writelock 2 ::
            ([] ++ lock_op.readlock 3 :: [lock_op.wrunlock 1, lock_op.wrunlock 2])) =
          linked_result.done log ∧
        log.length = ([lock_op.writelock 1] ++ lock_op.writelock 2 ::
          ([] ++ lock_op.readlock 3 :: [lock_op.wrunlock 1, lock_op.wrunlock 2])).length ∧
        (∀ (W R k : Nat) (g : List request),
          lock_op.writelock 2 = lock_op.writelock W → lock_op.readlock 3 = lock_op.readlock R →
          log[[lock_op.writelock 1].length]? = some [] →
          [lock_op.writelock 1].length + 1 + ([] : List lock_op).length ≤ k →
          log[k]? = some g → (⟨R, lockclass_t.READ⟩ : request) ∈ g →
          ∃ (m : Nat) (gm : List request), [lock_op.writelock 1].length < m ∧ m < k ∧
            log[m]? = some gm ∧ (⟨W, lockclass_t.WRITE⟩ : request) ∈ gm) ∧
        (∀ (A B : request) (k : Nat) (g : List request),
          submitted (lock_op.writelock 2) = some A → submitted (lock_op.readlock 3) = some B →
          log[[lock_op.writelock 1].length]? = some [] →
          log[[lock_op.writelock 1].length + 1 + ([] : List lock_op).length]? = some [] →
          [lock_op.writelock 1].length + 1 + ([] : List lock_op).length ≤ k →
          log[k]? = some g → B ∈ g →
          ∃ (m : Nat) (gm : List request), [lock_op.writelock 1].length < m ∧ m ≤ k ∧
            log[m]? = some gm ∧ A ∈ gm ∧ (m = k → ∃ u v, g = u ++ A :: v ∧ B ∉ u)) :=
  ⟨by decide, by decide, by decide,
    deferred_rw_lock_fair blank_memory [lock_op.writelock 1] []
      [lock_op.wrunlock 1, lock_op.wrunlock 2] (lock_op.writelock 2) (lock_op.readlock 3) 10
      (by decide) (by decide)⟩

/-- C2, counterexample: `writelock(1)` is granted; `readlock(2)` and `writelock(3)` are
queued, in this order; `readlock(2)` is called again with the request object that is
still in the queue, which resets its `next` pointer and unlinks the write request 3;
`readlock(4)` is queued.  `wrunlock(1)`, called by the write holder, then grants the
read requests 2 and 4: the reader 4, submitted after the writer 3 was queued, is
granted although 3 has not been granted.  Every unlock of the sequence comes from a
holder, and afterwards the queue is empty, so that 3 is not granted later either. -/
theorem readlock_twice_unlinks_writer :
    (linked_tracked.init blank_memory).correct_use 10
        [lock_op.writelock 1, lock_op.readlock 2, lock_op.writelock 3, lock_op.readlock 2,
          lock_op.readlock 4, lock_op.wrunlock 1] = true ∧
      (linked_rw_lock.init blank_memory).grants 10
        [lock_op.writelock 1, lock_op.readlock 2, lock_op.writelock 3, lock_op.readlock 2,
          lock_op.readlock 4, lock_op.wrunlock 1] =
        linked_result.done
          [[⟨1, lockclass_t.WRITE⟩], [], [], [], [],
            [⟨2, lockclass_t.READ⟩, ⟨4, lockclass_t.READ⟩]] ∧
      (linked_tracked.init blank_memory).fresh_use 10
        [lock_op.writelock 1, lock_op.readlock 2, lock_op.writelock 3] = true ∧
      (linked_tracked.init blank_memory).fresh_use 10
        [lock_op.writelock 1, lock_op.readlock 2, lock_op.writelock 3, lock_op.readlock 2]
          = false ∧
      (((linked_tracked.init blank_memory).states 10
        [lock_op.writelock 1, lock_op.readlock 2, lock_op.writelock 3, lock_op.readlock 2,
          lock_op.readlock 4, lock_op.wrunlock 1]).map linked_tracked.lock).map
            (linked_rw_lock.waiting 10) =
        [[], [], [⟨2, lockclass_t.READ⟩],
          [⟨2, lockclass_t.READ⟩, ⟨3, lockclass_t.WRITE⟩],
          [⟨2, lockclass_t.READ⟩], [⟨2, lockclass_t.READ⟩, ⟨4, lockclass_t.READ⟩], []] := by
  decide

/-! ### The three outcomes of `wrunlock` -/

theorem wrunlock_nil (L : deferred_rw_lock) (I : Nat) (hq : L.queue = []) :
    L.wrunlock I = ⟨⟨[], L.reader_count, false⟩, [], 0⟩ := by
  simp [deferred_rw_lock.wrunlock, hq]

theorem wrunlock_write (L : deferred_rw_lock) (I : Nat) (h : request) (t : List request)
    (hq : L.queue = h :: t) (hr : is_read h = false) :
    L.wrunlock I = ⟨⟨t, L.reader_count, true⟩, h :: t, 1⟩ := by
  simp [deferred_rw_lock.wrunlock, hq, hr, deferred_rw_lock.complete_wrlock]

theorem wrunlock_read (L : deferred_rw_lock) (I : Nat) (h : request) (t : List request)
    (hq : L.queue = h :: t) (hr : is_read h = true) :
    L.wrunlock I =
      ⟨⟨L.queue.dropWhile is_read,
          (L.reader_count + (L.queue.takeWhile is_read).length) % 65536, false⟩,
        L.queue, (L.queue.takeWhile is_read).length⟩ := by
  have key := complete_rdlock_eq { L with writer := false } h t hq hr
  simp only [deferred_rw_lock.wrunlock, hq, hr, if_true]
  rw [hq] at key
  exact key

/-- A correctly used `wrunlock` finds the writer flag set and no reader counted, as long as
fewer than 65536 read requests have held the lock together. -/
theorem write_holder_state (ops : List lock_op) (I : Nat)
    (hc : tracked.init.correct_use (ops ++ [lock_op.wrunlock I]) = true)
    (hb : ∀ s ∈ tracked.init.states (ops ++ [lock_op.wrunlock I]), s.readers < 65536) :
    (tracked.init.run ops).lock.writer = true ∧ (tracked.init.run ops).lock.reader_count = 0 ∧
      (⟨I, lockclass_t.WRITE⟩ : request) ∈ (tracked.init.run ops).holders ∧
      ((tracked.init.run ops).step (lock_op.wrunlock I)).readers < 65536 ∧
      ((tracked.init.run ops).step (lock_op.wrunlock I)).readers =
        (lock_granted (tracked.init.run ops).lock (lock_op.wrunlock I)).countP is_read := by
  rw [correct_use_append, Bool.and_eq_true] at hc
  obtain ⟨hc1, hc2⟩ := hc
  have hmem : (tracked.init.run ops) ∈ tracked.init.states (ops ++ [lock_op.wrunlock I]) :=
    states_append_mem _ _ _ _ (run_mem_states _ _)
  have hinv := lock_inv_states _ tracked.init lock_inv_init
    (by rw [correct_use_append, hc1, hc2]; rfl) hb _ hmem
  simp only [tracked.correct_use, Bool.and_true] at hc2
  have hlast : (tracked.init.run ops).step (lock_op.wrunlock I) ∈
      tracked.init.states (ops ++ [lock_op.wrunlock I]) := by
    have := run_mem_states (ops ++ [lock_op.wrunlock I]) tracked.init
    rw [run_append] at this
    exact this
  obtain ⟨e1, e2, e3, e4⟩ := unlock_base_inv _ (lock_op.wrunlock I)
    (tracked.init.run ops).lock.reader_count false hinv hc2 (hb _ hmem)
    (Or.inl ⟨I, rfl, rfl, rfl⟩)
  have hmemI : (⟨I, lockclass_t.WRITE⟩ : request) ∈ (tracked.init.run ops).holders := by
    simpa [tracked.allowed] using hc2
  have hw : (tracked.init.run ops).lock.writer = true := by
    by_contra hne
    have h0 := hinv.2.2.1 (by simpa using hne)
    have := countP_pos_of_mem is_write _ _ hmemI rfl
    simp only [tracked.writers] at h0
    omega
  refine ⟨hw, e1, hmemI, hb _ hlast, ?_⟩
  rw [readers_step, e3, Nat.zero_add]

/-! ### C3: `wrunlock` serves the head of the queue -/

theorem drop_length_takeWhile {α : Type} (p : α → Bool) (l : List α) :
    l.drop (l.takeWhile p).length = l.dropWhile p := by
  induction l with
  | nil => simp
  | cons a l ih =>
    by_cases hp : p a = true
    · rw [List.takeWhile_cons_of_pos hp, List.dropWhile_cons_of_pos hp]
      simpa using ih
    · rw [List.takeWhile_cons_of_neg hp, List.dropWhile_cons_of_neg hp]
      simp

theorem takeWhile_all {α : Type} (p : α → Bool) (l : List α) (h : ∀ a ∈ l, p a = true) :
    l.takeWhile p = l := by
  induction l with
  | nil => rfl
  | cons a l ih =>
    rw [List.takeWhile_cons_of_pos (h a (List.mem_cons_self _ _)),
      ih (fun b hb => h b (List.mem_cons_of_mem _ hb))]

theorem is_read_map_read (l : List Nat) :
    ∀ a ∈ l.map (fun I => (⟨I, lockclass_t.READ⟩ : request)), is_read a = true := by
  intro a ha
  obtain ⟨I, _, e⟩ := List.mem_map.mp ha
  rw [← e]; rfl

theorem correct_use_cons (t : tracked) (op : lock_op) (ops : List lock_op) :
    t.correct_use (op :: ops) = (t.allowed op && (t.step op).correct_use ops) := rfl

theorem correct_use_wrunlock (t : tracked) (I : Nat)
    (h : (⟨I, lockclass_t.WRITE⟩ : request) ∈ t.holders) :
    t.correct_use [lock_op.wrunlock I] = true := by
  simp [tracked.correct_use, tracked.allowed, h]

/-- Outcome of `wrunlock` on a queue made of a non-empty run of read requests followed by `rest`,
which does not start with a read request. -/
theorem wrunlock_read_run (rs rest : List request) (rc : Nat) (w : Bool) (I : Nat)
    (hne : rs ≠ []) (hall : ∀ a ∈ rs, is_read a = true)
    (hrest : rest.dropWhile is_read = rest) :
    (deferred_rw_lock.mk (rs ++ rest) rc w).wrunlock I =
      ⟨⟨rest, (rc + rs.length) % 65536, false⟩, rs ++ rest, rs.length⟩ := by
  obtain ⟨h, t, hq⟩ := List.exists_cons_of_ne_nil hne
  have hr : is_read h = true := hall h (by rw [hq]; simp)
  have htw : (rs ++ rest).takeWhile is_read = rs := by
    rw [List.takeWhile_append_of_pos hall]
    have : rest.takeWhile is_read = [] := by
      have h1 := List.takeWhile_append_dropWhile is_read rest
      rw [hrest] at h1
      exact List.append_left_eq_self.mp h1
    rw [this, List.append_nil]
  have hdw : (rs ++ rest).dropWhile is_read = rest := by
    rw [List.dropWhile_append_of_pos hall, hrest]
  have hw := wrunlock_read (deferred_rw_lock.mk (rs ++ rest) rc w) I h (t ++ rest)
    (by simp [hq]) hr
  rw [hw]
  simp only [htw, hdw]

/-- In the list model: `wrunlock` called by the write holder, in a correctly used call
sequence on a fresh lock during which fewer than 65536 read requests hold the lock at
any time, serves the head of the queue. -/
theorem wrunlock_serves_queue (ops : List lock_op) (I : Nat)
    (hc : tracked.init.correct_use (ops ++ [lock_op.wrunlock I]) = true)
    (hb : ∀ s ∈ tracked.init.states (ops ++ [lock_op.wrunlock I]), s.readers < 65536) :
    ((tracked.init.run ops).lock.queue = [] →
      (tracked.init.run ops).lock.wrunlock I = ⟨⟨[], 0, false⟩, [], 0⟩) ∧
    (∀ h t, (tracked.init.run ops).lock.queue = h :: t → is_read h = false →
      (tracked.init.run ops).lock.wrunlock I = ⟨⟨t, 0, true⟩, h :: t, 1⟩) ∧
    (∀ h t, (tracked.init.run ops).lock.queue = h :: t → is_read h = true →
      (tracked.init.run ops).lock.wrunlock I =
        ⟨⟨(h :: t).drop ((h :: t).takeWhile is_read).length,
            ((h :: t).takeWhile is_read).length, false⟩,
          h :: t, ((h :: t).takeWhile is_read).length⟩ ∧
      (h :: t).take ((h :: t).takeWhile is_read).length = (h :: t).takeWhile is_read ∧
      (∀ x rest, (h :: t).drop ((h :: t).takeWhile is_read).length = x :: rest →
        is_read x = false)) := by
  obtain ⟨_, hrc, _, hlt, hrd⟩ := write_holder_state ops I hc hb
  refine ⟨fun hq => ?_, fun h t hq hr => ?_, fun h t hq hr => ⟨?_, ?_, ?_⟩⟩
  · rw [wrunlock_nil _ I hq, hrc]
  · rw [wrunlock_write _ I h t hq hr, hrc]
  · have hw := wrunlock_read _ I h t hq hr
    have hk : ((h :: t).takeWhile is_read).length < 65536 := by
      rw [hrd] at hlt
      simp only [lock_granted, hw, hq] at hlt
      rw [take_length_takeWhile, countP_read_takeWhile] at hlt
      exact hlt
    rw [hw, hrc, hq, Nat.zero_add, Nat.mod_eq_of_lt hk, drop_length_takeWhile]
  · exact take_length_takeWhile _ _
  · intro x rest hx
    rw [drop_length_takeWhile] at hx
    exact dropWhile_head_not is_read _ x rest hx

theorem fresh_use_snoc_unlock (L : deferred_rw_lock) (ops : List lock_op) (op : lock_op)
    (hop : submitted op = none) (h : fresh_use L ops = true) :
    fresh_use L (ops ++ [op]) = true := by
  rw [fresh_use_append, h, Bool.true_and, fresh_use_cons]
  cases op with
  | writelock I => simp [submitted] at hop
  | readlock I => simp [submitted] at hop
  | wrunlock I => rfl
  | rdunlock I => rfl

/-- On the linked lock: `wrunlock` called by the write holder serves the head of the
queue.  The state `t` before the call is the one of the list model. -/
theorem wrunlock_serves_linked (mem : Nat → request_obj) (ops : List lock_op) (I fuel : Nat)
    (hc : (linked_tracked.init mem).correct_use fuel (ops ++ [lock_op.wrunlock I]) = true)
    (hf : (linked_tracked.init mem).fresh_use fuel ops = true)
    (hb : ∀ s ∈ (linked_tracked.init mem).states fuel (ops ++ [lock_op.wrunlock I]),
      s.readers < 65536)
    (hfuel : ops.length < fuel) :
    ∃ t o, (linked_tracked.init mem).run fuel ops = linked_result.done t ∧
      tracks t (tracked.init.run ops) ∧
      t.lock.wrunlock fuel I = linked_result.done o ∧
      is_chain t.lock.mem t.lock.head (t.lock.waiting fuel) ∧
      o.lock.mem = t.lock.mem ∧
      is_chain o.lock.mem o.lock.head (o.lock.waiting fuel) ∧
      (t.lock.waiting fuel = [] →
        o.ret = 0 ∧ o.released = none ∧ o.lock.waiting fuel = [] ∧
        o.lock.reader_count = 0 ∧ o.lock.writer = false) ∧
      (∀ h q, t.lock.waiting fuel = h :: q → is_read h = false →
        o.ret = 1 ∧ o.released = some h.addr ∧ o.lock.waiting fuel = q ∧
        o.lock.reader_count = 0 ∧ o.lock.writer = true) ∧
      (∀ h q, t.lock.waiting fuel = h :: q → is_read h = true →
        o.ret = ((h :: q).takeWhile is_read).length ∧ o.released = some h.addr ∧
        chain_take o.lock.mem o.ret o.released = (h :: q).takeWhile is_read ∧
        o.lock.waiting fuel = (h :: q).drop ((h :: q).takeWhile is_read).length ∧
        o.lock.reader_count = ((h :: q).takeWhile is_read).length ∧
        o.lock.writer = false ∧
        (∀ x rest, o.lock.waiting fuel = x :: rest → is_read x = false)) := by
  have hlen1 : (ops ++ [lock_op.wrunlock I]).length ≤ fuel := by
    simp only [List.length_append, List.length_singleton]
    omega
  have hfl := linked_fresh_init mem ops fuel hf (by omega)
  have hfl1 := fresh_use_snoc_unlock _ ops (lock_op.wrunlock I) rfl hfl
  obtain ⟨_, ⟨t, e1, r1, _⟩, _, _⟩ := linked_init_of_fresh mem ops fuel hfl (by omega)
  obtain ⟨_, _, c2, b2⟩ := linked_init_of_fresh mem _ fuel hfl1 hlen1
  have hcl : tracked.init.correct_use (ops ++ [lock_op.wrunlock I]) = true := by
    rw [← c2]
    exact hc
  have hbl := (b2 65536).mp hb
  obtain ⟨l1, l2, l3⟩ := wrunlock_serves_queue ops I hcl hbl
  have hql := init_queue_length ops
  obtain ⟨o, e2, r2, m2⟩ := wrunlock_represents t.lock _ fuel I r1.lock (by omega)
  have hw := represents_waiting t.lock _ fuel r1.lock (by omega)
  have hch := r1.lock.chain
  rw [← hw] at hch
  generalize (tracked.init.run ops).lock = L at hql hw l1 l2 l3 r1 r2
  have hql2 : (L.wrunlock I).lock.queue.length ≤ fuel := by
    have := lock_next_length L (lock_op.wrunlock I)
    have e : lock_next L (lock_op.wrunlock I) = (L.wrunlock I).lock := rfl
    rw [e] at this
    omega
  have hw2 := represents_waiting o.lock _ fuel r2.lock hql2
  have hch2 := r2.lock.chain
  rw [← hw2] at hch2
  refine ⟨t, o, e1, ?_, e2, hch, m2, hch2, ?_, ?_, ?_⟩
  · exact r1
  · intro hq
    rw [hw] at hq
    have e := l1 hq
    rw [e] at r2 hw2
    have h3 : is_chain o.lock.mem o.released [] := r2.released
    exact ⟨r2.ret, h3, hw2, r2.lock.count, r2.lock.flag⟩
  · intro h q hq hr
    rw [hw] at hq
    have e := l2 h q hq hr
    rw [e] at r2 hw2
    have h3 : is_chain o.lock.mem o.released (h :: q) := r2.released
    rw [is_chain_cons] at h3
    exact ⟨r2.ret, h3.1, hw2, r2.lock.count, r2.lock.flag⟩
  · intro h q hq hr
    rw [hw] at hq
    obtain ⟨e, e3, e4⟩ := l3 h q hq hr
    rw [e] at r2 hw2
    have h3 : is_chain o.lock.mem o.released (h :: q) := r2.released
    have h4 : o.ret = ((h :: q).takeWhile is_read).length := r2.ret
    refine ⟨h4, ?_, ?_, hw2, r2.lock.count, r2.lock.flag, ?_⟩
    · rw [is_chain_cons] at h3
      exact h3.1
    · rw [chain_take_chain _ _ _ _ h3, h4]
      exact e3
    · intro x rest hx
      rw [hw2] at hx
      exact e4 x rest hx

/-- The scenario `writelock(1)`, `readlock(2)`, `readlock(3)`, `wrunlock(1)` on a linked
lock in any memory. -/
theorem wrunlock_two_readers (mem : Nat → request_obj) :
    ∃ t o, (linked_tracked.init mem).run 4
        [lock_op.writelock 1, lock_op.readlock 2, lock_op.readlock 3] =
        linked_result.done t ∧
      t.holders = [⟨1, lockclass_t.WRITE⟩] ∧
      t.lock.waiting 4 = [⟨2, lockclass_t.READ⟩, ⟨3, lockclass_t.READ⟩] ∧
      t.lock.wrunlock 4 1 = linked_result.done o ∧ o.ret = 2 ∧
      chain_take o.lock.mem 2 o.released =
        [⟨2, lockclass_t.READ⟩, ⟨3, lockclass_t.READ⟩] ∧
      o.lock.reader_count = 2 ∧ o.lock.writer = false ∧ o.lock.waiting 4 = [] := by
  have hfl : fresh_use deferred_rw_lock.init
      [lock_op.writelock 1, lock_op.readlock 2, lock_op.readlock 3] = true := by decide
  have hfl1 : fresh_use deferred_rw_lock.init
      ([lock_op.writelock 1, lock_op.readlock 2, lock_op.readlock 3] ++
        [lock_op.wrunlock 1]) = true := by decide
  obtain ⟨f1, _, _, _⟩ := linked_init_of_fresh mem _ 4 hfl (by decide)
  obtain ⟨_, _, c2, b2⟩ := linked_init_of_fresh mem _ 4 hfl1 (by decide)
  obtain ⟨t, o, e1, r1, e2, _, _, _, _, _, h3⟩ :=
    wrunlock_serves_linked mem [lock_op.writelock 1, lock_op.readlock 2, lock_op.readlock 3]
      1 4 (by rw [c2]; decide) f1 ((b2 65536).mpr (by decide)) (by decide)
  have hh : t.holders = [⟨1, lockclass_t.WRITE⟩] := by
    rw [r1.holders]
    decide
  have hw : t.lock.waiting 4 = [⟨2, lockclass_t.READ⟩, ⟨3, lockclass_t.READ⟩] := by
    rw [represents_waiting t.lock _ 4 r1.lock (by decide)]
    decide
  obtain ⟨g1, _, g3, g4, g5, g6, _⟩ := h3 _ _ hw rfl
  have hk : (([⟨2, lockclass_t.READ⟩, ⟨3, lockclass_t.READ⟩] : List request).takeWhile
      is_read).length = 2 := by decide
  rw [hk] at g1 g4 g5
  rw [g1] at g3
  exact ⟨t, o, e1, hh, hw, e2, g1, g3, g5, g6, g4⟩

/-- C3 (as amended): `wrunlock` called by the write holder, on the linked lock, in a
correctly used call sequence on a freshly constructed lock that never passes to
`writelock` or `readlock` a request object linked into the queue and during which
fewer than 65536 read requests hold the lock at any time (the unlock included).  With
more fuel than calls, the sequence `ops` returns, in a state `t` whose queue
`t.lock.waiting fuel` is a null-terminated chain, and `wrunlock` returns, leaving the
request objects as they are.  With an empty queue it returns 0, `released` is null and
the lock is free.  When the head is a write request it returns 1, `released` is the
head, the writer flag is set again and only the head leaves the queue.  When the head
is a read request it returns `k`, the length of the maximal run of read requests at
the front of the queue; `released` is the head, the granted requests are the first `k`
objects of the chain, `reader_count` becomes `k`, the writer flag is clear and the
queue keeps the remaining requests in order.  Last conjunct: `writelock(1)` granted,
`readlock(2)` and `readlock(3)` queued, then `wrunlock(1)` returns 2 with both readers
released and `reader_count = 2`. -/
theorem wrunlock_by_write_holder (mem : Nat → request_obj) (ops : List lock_op)
    (I fuel : Nat)
    (hc : (linked_tracked.init mem).correct_use fuel (ops ++ [lock_op.wrunlock I]) = true)
    (hf : (linked_tracked.init mem).fresh_use fuel ops = true)
    (hb : ∀ s ∈ (linked_tracked.init mem).states fuel (ops ++ [lock_op.wrunlock I]),
      s.readers < 65536)
    (hfuel : ops.length < fuel) :
    (∃ t o, (linked_tracked.init mem).run fuel ops = linked_result.done t ∧
      t.lock.wrunlock fuel I = linked_result.done o ∧
      is_chain t.lock.mem t.lock.head (t.lock.waiting fuel) ∧
      o.lock.mem = t.lock.mem ∧
      is_chain o.lock.mem o.lock.head (o.lock.waiting fuel) ∧
      (t.lock.waiting fuel = [] →
        o.ret = 0 ∧ o.released = none ∧ o.lock.waiting fuel = [] ∧
        o.lock.reader_count = 0 ∧ o.lock.writer = false) ∧
      (∀ h q, t.lock.waiting fuel = h :: q → is_read h = false →
        o.ret = 1 ∧ o.released = some h.addr ∧ o.lock.waiting fuel = q ∧
        o.lock.reader_count = 0 ∧ o.lock.writer = true) ∧
      (∀ h q, t.lock.waiting fuel = h :: q → is_read h = true →
        o.ret = ((h :: q).takeWhile is_read).length ∧ o.released = some h.addr ∧
        chain_take o.lock.mem o.ret o.released = (h :: q).takeWhile is_read ∧
        o.lock.waiting fuel = (h :: q).drop ((h :: q).takeWhile is_read).length ∧
        o.lock.reader_count = ((h :: q).takeWhile is_read).length ∧
        o.lock.writer = false ∧
        (∀ x rest, o.lock.waiting fuel = x :: rest → is_read x = false))) ∧
    (∃ t o, (linked_tracked.init mem).run 4
        [lock_op.writelock 1, lock_op.readlock 2, lock_op.readlock 3] =
        linked_result.done t ∧
      t.holders = [⟨1, lockclass_t.WRITE⟩] ∧
      t.lock.waiting 4 = [⟨2, lockclass_t.READ⟩, ⟨3, lockclass_t.READ⟩] ∧
      t.lock.wrunlock 4 1 = linked_result.done o ∧ o.ret = 2 ∧
      chain_take o.lock.mem 2 o.released =
        [⟨2, lockclass_t.READ⟩, ⟨3, lockclass_t.READ⟩] ∧
      o.lock.reader_count = 2 ∧ o.lock.writer = false ∧ o.lock.waiting 4 = []) := by
  obtain ⟨t, o, e1, _, e2, h1, h2, h3, h4, h5, h6⟩ :=
    wrunlock_serves_linked mem ops I fuel hc hf hb hfuel
  exact ⟨⟨t, o, e1, e2, h1, h2, h3, h4, h5, h6⟩, wrunlock_two_readers mem⟩

/-- C3, witness: the call sequence of the last conjunct, in a memory of blank request
objects. -/
theorem wrunlock_by_write_holder_witness :
    (linked_tracked.init blank_memory).correct_use 10
        ([lock_op.writelock 1, lock_op.readlock 2, lock_op.readlock 3] ++
          [lock_op.wrunlock 1]) = true ∧
      (linked_tracked.init blank_memory).fresh_use 10
        [lock_op.writelock 1, lock_op.readlock 2, lock_op.readlock 3] = true ∧
      (∀ s ∈ (linked_tracked.init blank_memory).states 10
        ([lock_op.writelock 1, lock_op.readlock 2, lock_op.readlock 3] ++
          [lock_op.wrunlock 1]), s.readers < 65536) ∧
      (linked_rw_lock.init blank_memory).grants 10
        [lock_op.writelock 1, lock_op.readlock 2, lock_op.readlock 3, lock_op.wrunlock 1] =
        linked_result.done
          [[⟨1, lockclass_t.WRITE⟩], [], [], [⟨2, lockclass_t.READ⟩, ⟨3, lockclass_t.READ⟩]] ∧
      ∃ t o, (linked_tracked.init blank_memory).run 4
          [lock_op.writelock 1, lock_op.readlock 2, lock_op.readlock 3] =
          linked_result.done t ∧
        t.holders = [⟨1, lockclass_t.WRITE⟩] ∧
        t.lock.waiting 4 = [⟨2, lockclass_t.READ⟩, ⟨3, lockclass_t.READ⟩] ∧
        t.lock.wrunlock 4 1 = linked_result.done o ∧ o.ret = 2 ∧
        chain_take o.lock.mem 2 o.released =
          [⟨2, lockclass_t.READ⟩, ⟨3, lockclass_t.READ⟩] ∧
        o.lock.reader_count = 2 ∧ o.lock.writer = false ∧ o.lock.waiting 4 = [] :=
  ⟨by decide, by decide, by decide, by decide,
    (wrunlock_by_write_holder blank_memory
      [lock_op.writelock 1, lock_op.readlock 2, lock_op.readlock 3] 1 10
      (by decide) (by decide) (by decide) (by decide)).2⟩

/-! ### Runs past the capacity of `reader_count`, and re-submitted request objects -/

theorem lock_next_readlock_queued (q : List request) (rc I : Nat) :
    lock_next ⟨q, rc, true⟩ (lock_op.readlock I) = ⟨q ++ [⟨I, lockclass_t.READ⟩], rc, true⟩ := by
  cases hq : q ++ [(⟨I, lockclass_t.READ⟩ : request)] with
  | nil => simp at hq
  | cons h t =>
    simp [lock_next, deferred_rw_lock.readlock, deferred_rw_lock.insert_queue, hq]

/-- Read requests at pairwise different addresses, none of them in the queue, submitted
while a writer holds the lock: no call submits a waiting request object. -/
theorem fresh_use_readlocks_queued (l : List Nat) :
    ∀ (q : List request) (rc : Nat), l.Nodup → (∀ i ∈ l, i ∉ q.map request.addr) →
      fresh_use ⟨q, rc, true⟩ (l.map lock_op.readlock) = true := by
  induction l with
  | nil => intro q rc _ _; rfl
  | cons I l ih =>
    intro q rc hnd hq
    rw [List.map_cons, fresh_use_cons, lock_next_readlock_queued, Bool.and_eq_true]
    refine ⟨?_, ih _ rc (List.nodup_cons.mp hnd).2 ?_⟩
    · simp only [deferred_rw_lock.unlinked, decide_eq_true_eq]
      exact hq I (List.mem_cons_self _ _)
    · intro i hi hm
      rw [List.map_append, List.mem_append] at hm
      rcases hm with hm | hm
      · exact hq i (List.mem_cons_of_mem _ hi) hm
      · simp only [List.map_cons, List.map_nil, List.mem_singleton] at hm
        rw [hm] at hi
        exact (List.nodup_cons.mp hnd).1 hi

/-- Read requests submitted while the queue is empty and no writer holds the lock. -/
theorem fresh_use_readlocks_fast (l : List Nat) :
    ∀ rc : Nat, fresh_use ⟨[], rc, false⟩ (l.map lock_op.readlock) = true := by
  induction l with
  | nil => intro rc; rfl
  | cons I l ih =>
    intro rc
    rw [List.map_cons, fresh_use_cons, Bool.and_eq_true]
    refine ⟨by simp [deferred_rw_lock.unlinked], ?_⟩
    have e : lock_next ⟨[], rc, false⟩ (lock_op.readlock I) =
        ⟨[], (rc + 1) % 65536, false⟩ := by
      simp [lock_next, deferred_rw_lock.readlock]
    rw [e]
    exact ih _

theorem fresh_use_rdunlocks (l : List Nat) :
    ∀ L : deferred_rw_lock, fresh_use L (l.map lock_op.rdunlock) = true := by
  induction l with
  | nil => intro L; rfl
  | cons I l ih =>
    intro L
    rw [List.map_cons, fresh_use_cons, ih]
    rfl

theorem run_readers_behind_writer (l : List Nat) :
    tracked.init.run (lock_op.writelock 0 :: l.map lock_op.readlock) =
      tracked.mk ⟨l.map (fun I => (⟨I, lockclass_t.READ⟩ : request)), 0, true⟩
        [⟨0, lockclass_t.WRITE⟩] := by
  rw [run_cons]
  have h0 : tracked.init.step (lock_op.writelock 0) =
      tracked.mk ⟨[], 0, true⟩ [⟨0, lockclass_t.WRITE⟩] := by decide
  rw [h0, run_readlocks_queued]
  simp

theorem range_addr_map (n : Nat) :
    ((List.range' 1 n).map (fun I => (⟨I, lockclass_t.READ⟩ : request))).map request.addr =
      List.range' 1 n := by
  rw [List.map_map]
  exact List.map_id _

theorem fresh_use_readers_behind_writer :
    fresh_use deferred_rw_lock.init
      (lock_op.writelock 0 :: (List.range' 1 65536).map lock_op.readlock) = true := by
  rw [fresh_use_cons, Bool.and_eq_true]
  refine ⟨by decide, ?_⟩
  have e : lock_next deferred_rw_lock.init (lock_op.writelock 0) = ⟨[], 0, true⟩ := by decide
  rw [e]
  exact fresh_use_readlocks_queued _ [] 0 (List.nodup_range' 1 65536)
    (fun i _ hm => by cases hm)

/-- A read request object that is linked to itself: the loop of `complete_rdlock` does
not come to an end, whatever the fuel. -/
theorem loop_on_self_link (mem : Nat → request_obj) (a : Nat)
    (h1 : (mem a).lockclass = lockclass_t.READ) (h2 : (mem a).next = some a) :
    ∀ fuel n, complete_rdlock_loop mem fuel (some a) n = linked_result.looping := by
  intro fuel
  induction fuel with
  | zero => intro n; rfl
  | succ f ih =>
    intro n
    simp only [complete_rdlock_loop, h1, if_true, h2]
    exact ih _

/-- C3, counterexample, in a memory of blank request objects.  First part:
`writelock(0)` is granted on a fresh lock and the 65536 calls `readlock(1)`, ...,
`readlock(65536)` queue behind it, each with its own request object.  `wrunlock(0)`,
made by the write holder, finds a run of `k = 65536` read requests at the front of the
queue and returns 65536, but the 16-bit `reader_count` it leaves is 0, not `k`.  Second
part: after `writelock(1)` (granted) and `readlock(2)` (queued), `readlock(2)` is
called again with the request object that is in the queue, which links the object to
itself; the `wrunlock(1)` of the write holder then does not return, whatever the
fuel. -/
theorem wrunlock_reader_count_wraps :
    ((linked_tracked.init blank_memory).correct_use 70000
        ((lock_op.writelock 0 :: (List.range' 1 65536).map lock_op.readlock) ++
          [lock_op.wrunlock 0]) = true ∧
      (linked_tracked.init blank_memory).fresh_use 70000
        ((lock_op.writelock 0 :: (List.range' 1 65536).map lock_op.readlock) ++
          [lock_op.wrunlock 0]) = true ∧
      ∃ t o, (linked_tracked.init blank_memory).run 70000
          (lock_op.writelock 0 :: (List.range' 1 65536).map lock_op.readlock) =
          linked_result.done t ∧
        t.holders = [⟨0, lockclass_t.WRITE⟩] ∧
        t.lock.waiting 70000 =
          (List.range' 1 65536).map (fun I => (⟨I, lockclass_t.READ⟩ : request)) ∧
        t.lock.wrunlock 70000 0 = linked_result.done o ∧
        o.ret = 65536 ∧ o.lock.reader_count = 0) ∧
    ((linked_tracked.init blank_memory).correct_use 10
        [lock_op.writelock 1, lock_op.readlock 2, lock_op.readlock 2, lock_op.wrunlock 1]
        = true ∧
      (∀ s ∈ (linked_tracked.init blank_memory).states 10
        [lock_op.writelock 1, lock_op.readlock 2, lock_op.readlock 2, lock_op.wrunlock 1],
        s.readers < 65536) ∧
      ∀ fuel, (linked_rw_lock.init blank_memory).grants fuel
        [lock_op.writelock 1, lock_op.readlock 2, lock_op.readlock 2, lock_op.wrunlock 1] =
        linked_result.looping) := by
  constructor
  · have hlen : ((List.range' 1 65536).map
        (fun I => (⟨I, lockclass_t.READ⟩ : request))).length = 65536 := by
      rw [List.length_map, List.length_range']
    have hne : (List.range' 1 65536).map (fun I => (⟨I, lockclass_t.READ⟩ : request)) ≠ [] := by
      intro h
      rw [h] at hlen
      exact absurd hlen (by decide)
    have hopsl : (lock_op.writelock 0 :: (List.range' 1 65536).map lock_op.readlock).length =
        65537 := by
      rw [List.length_cons, List.length_map, List.length_range']
    have hrun := run_readers_behind_writer (List.range' 1 65536)
    have hw := wrunlock_read_run _ [] 0 true 0 hne (is_read_map_read (List.range' 1 65536)) rfl
    rw [List.append_nil, hlen] at hw
    have hfl := fresh_use_readers_behind_writer
    have hfl1 := fresh_use_snoc_unlock _ _ (lock_op.wrunlock 0) rfl hfl
    obtain ⟨_, ⟨t, e1, r1, _⟩, _, _⟩ :=
      linked_init_of_fresh blank_memory _ 70000 hfl (by rw [hopsl]; decide)
    obtain ⟨f2, _, c2, _⟩ := linked_init_of_fresh blank_memory _ 70000 hfl1
      (by rw [List.length_append, hopsl]; decide)
    have hcl : tracked.init.correct_use
        ((lock_op.writelock 0 :: (List.range' 1 65536).map lock_op.readlock) ++
          [lock_op.wrunlock 0]) = true := by
      rw [correct_use_append, Bool.and_eq_true]
      constructor
      · rw [correct_use_cons, correct_use_readlocks, Bool.and_true]
        rfl
      · rw [hrun]
        exact correct_use_wrunlock _ 0 (List.mem_singleton.mpr rfl)
    rw [hrun] at r1
    obtain ⟨o, e2, r2, _⟩ := wrunlock_represents t.lock _ 70000 0 r1.lock
      (by show ((List.range' 1 65536).map
            (fun I => (⟨I, lockclass_t.READ⟩ : request))).length < 70000 + 1
          rw [hlen]
          decide)
    rw [hw] at r2
    refine ⟨by rw [c2]; exact hcl, f2, t, o, e1, r1.holders, ?_, e2, r2.ret, r2.lock.count⟩
    exact represents_waiting t.lock _ 70000 r1.lock
      (by show ((List.range' 1 65536).map
            (fun I => (⟨I, lockclass_t.READ⟩ : request))).length ≤ 70000
          rw [hlen]
          decide)
  · refine ⟨by decide, by decide, fun fuel => ?_⟩
    have key := loop_on_self_link
      (store_next (store_request (store_request (store_request blank_memory 1 lockclass_t.WRITE)
        2 lockclass_t.READ) 2 lockclass_t.READ) 2 2) 2 (by decide) (by decide)
    have hn : (store_next (store_request (store_request (store_request blank_memory 1
        lockclass_t.WRITE) 2 lockclass_t.READ) 2 lockclass_t.READ) 2 2 2).next = some 2 := by
      decide
    have hl : (store_next (store_request (store_request (store_request blank_memory 1
        lockclass_t.WRITE) 2 lockclass_t.READ) 2 lockclass_t.READ) 2 2 2).lockclass =
        lockclass_t.READ := by
      decide
    simp [linked_rw_lock.grants, linked_rw_lock.run, linked_rw_lock.step,
      linked_rw_lock.writelock, linked_rw_lock.readlock, linked_rw_lock.insert_queue,
      linked_result.bind, linked_rw_lock.init, linked_rw_lock.wrunlock,
      linked_rw_lock.serve_head, linked_rw_lock.complete_rdlock, hn, hl, key]

/-! ### C4: `writelock` -/

theorem holders_nil_of_counts (l : List request) (hr : l.countP is_read = 0)
    (hw : l.countP is_write = 0) : l = [] := by
  cases l with
  | nil => rfl
  | cons a l =>
    exfalso
    cases hra : is_read a with
    | true =>
      have := countP_pos_of_mem is_read a (a :: l) (List.mem_cons_self _ _) hra
      omega
    | false =>
      have hwa : is_write a = true := by rw [is_write_eq_not_is_read, hra]; rfl
      have := countP_pos_of_mem is_write a (a :: l) (List.mem_cons_self _ _) hwa
      omega

/-- In the list model: in every state reached by a correctly used call sequence on a
fresh lock during which fewer than 65536 read requests hold the lock at any time,
`writelock(I)` returns true if and only if the queue is empty and nobody holds the
lock. -/
theorem writelock_free_iff (ops : List lock_op) (I : Nat)
    (hc : tracked.init.correct_use ops = true)
    (hb : ∀ s ∈ tracked.init.states ops, s.readers < 65536) :
    (((tracked.init.run ops).lock.writelock I).2 = true ↔
      (tracked.init.run ops).lock.queue = [] ∧ (tracked.init.run ops).lock.reader_count = 0 ∧
        (tracked.init.run ops).lock.writer = false) ∧
    (((tracked.init.run ops).lock.writelock I).2 = true ↔
      (tracked.init.run ops).lock.queue = [] ∧ (tracked.init.run ops).holders = []) ∧
    (((tracked.init.run ops).lock.writelock I).2 = true →
      ((tracked.init.run ops).lock.writelock I).1 =
        ⟨(tracked.init.run ops).lock.queue, (tracked.init.run ops).lock.reader_count, true⟩) ∧
    (((tracked.init.run ops).lock.writelock I).2 = false →
      ((tracked.init.run ops).lock.writelock I).1 =
        ⟨(tracked.init.run ops).lock.queue ++ [⟨I, lockclass_t.WRITE⟩],
          (tracked.init.run ops).lock.reader_count, (tracked.init.run ops).lock.writer⟩) := by
  obtain ⟨h1, h2, h3, h4⟩ :=
    lock_inv_states ops tracked.init lock_inv_init hc hb _ (run_mem_states ops _)
  generalize tracked.init.run ops = t at h1 h2 h3 h4
  simp only [tracked.readers, tracked.writers] at h1 h2 h3
  have hiff : (t.lock.writelock I).2 = true ↔
      t.lock.queue = [] ∧ t.lock.reader_count = 0 ∧ t.lock.writer = false := by
    by_cases hcnd : t.lock.reader_count = 0 ∧ t.lock.writer = false
    · simp only [deferred_rw_lock.writelock, if_pos hcnd, true_iff]
      refine ⟨?_, hcnd.1, hcnd.2⟩
      by_contra hq
      exact h4 hcnd.2 hq hcnd.1
    · simp only [deferred_rw_lock.writelock, if_neg hcnd]
      constructor
      · intro h; cases h
      · intro h; exact absurd ⟨h.2.1, h.2.2⟩ hcnd
  refine ⟨hiff, ?_, ?_, ?_⟩
  · rw [hiff]
    constructor
    · rintro ⟨hq, hrc, hw⟩
      exact ⟨hq, holders_nil_of_counts _ (by omega) (h3 hw)⟩
    · rintro ⟨hq, hh⟩
      rw [hh] at h1 h2
      refine ⟨hq, by simpa using h1, ?_⟩
      by_contra hw
      have := (h2 (by simpa using hw)).1
      simp at this
  · intro h
    by_cases hcnd : t.lock.reader_count = 0 ∧ t.lock.writer = false
    · simp [deferred_rw_lock.writelock, hcnd]
    · simp [deferred_rw_lock.writelock, hcnd] at h
  · intro h
    by_cases hcnd : t.lock.reader_count = 0 ∧ t.lock.writer = false
    · simp [deferred_rw_lock.writelock, hcnd] at h
    · simp [deferred_rw_lock.writelock, hcnd, deferred_rw_lock.insert_queue]

/-- On the linked lock: `writelock(I)` with a request object that is not in the queue.
The state `t` before the call is the one of the list model. -/
theorem writelock_linked (mem : Nat → request_obj) (ops : List lock_op) (I fuel : Nat)
    (hc : (linked_tracked.init mem).correct_use fuel ops = true)
    (hf : (linked_tracked.init mem).fresh_use fuel (ops ++ [lock_op.writelock I]) = true)
    (hb : ∀ s ∈ (linked_tracked.init mem).states fuel ops, s.readers < 65536)
    (hfuel : ops.length < fuel) :
    ∃ t H1 b, (linked_tracked.init mem).run fuel ops = linked_result.done t ∧
      tracks t (tracked.init.run ops) ∧
      t.lock.writelock I = linked_result.done (H1, b) ∧
      is_chain t.lock.mem t.lock.head (t.lock.waiting fuel) ∧
      is_chain H1.mem H1.head (H1.waiting fuel) ∧
      (b = true ↔
        t.lock.waiting fuel = [] ∧ t.lock.reader_count = 0 ∧ t.lock.writer = false) ∧
      (b = true ↔ t.lock.waiting fuel = [] ∧ t.holders = []) ∧
      (b = true →
        H1.waiting fuel = t.lock.waiting fuel ∧ H1.reader_count = t.lock.reader_count ∧
          H1.writer = true) ∧
      (b = false →
        H1.waiting fuel = t.lock.waiting fuel ++ [⟨I, lockclass_t.WRITE⟩] ∧
          H1.reader_count = t.lock.reader_count ∧ H1.writer = t.lock.writer) := by
  have hlen1 : (ops ++ [lock_op.writelock I]).length ≤ fuel := by
    simp only [List.length_append, List.length_singleton]
    omega
  have hfl1 := linked_fresh_init mem _ fuel hf hlen1
  have hfl := fresh_use_initial _ _ _ hfl1
  have hu := fresh_use_mid _ ops (lock_op.writelock I) [] hfl1
  obtain ⟨_, ⟨t, e1, r1, _⟩, c2, b2⟩ := linked_init_of_fresh mem ops fuel hfl (by omega)
  have hcl : tracked.init.correct_use ops = true := by
    rw [← c2]
    exact hc
  have hbl := (b2 65536).mp hb
  obtain ⟨l1, l2, l3, l4⟩ := writelock_free_iff ops I hcl hbl
  have hql := init_queue_length ops
  have hrl : lock_run deferred_rw_lock.init ops = (tracked.init.run ops).lock :=
    (run_lock ops tracked.init).symm
  rw [hrl] at hu
  have hI : I ∉ (tracked.init.run ops).lock.queue.map request.addr := by
    simpa [deferred_rw_lock.unlinked] using hu
  obtain ⟨H1, e2, r2⟩ := writelock_represents t.lock _ I r1.lock hI
  have hw := represents_waiting t.lock _ fuel r1.lock (by omega)
  have hch := r1.lock.chain
  rw [← hw] at hch
  have hh := r1.holders
  have hcount := r1.lock.count
  have hflag := r1.lock.flag
  generalize (tracked.init.run ops).lock = L at hql hw l1 l2 l3 l4 r2 e2 hcount hflag
  generalize (tracked.init.run ops).holders = hs at hh l2
  have hql2 : (L.writelock I).1.queue.length ≤ fuel := by
    have := lock_next_length L (lock_op.writelock I)
    have e : lock_next L (lock_op.writelock I) = (L.writelock I).1 := rfl
    rw [e] at this
    omega
  have hw2 := represents_waiting H1 _ fuel r2 hql2
  have hch2 := r2.chain
  rw [← hw2] at hch2
  refine ⟨t, H1, (L.writelock I).2, e1, r1, e2, hch, hch2, ?_, ?_, ?_, ?_⟩
  · rw [l1, hw, hcount, hflag]
  · rw [l2, hw, hh]
  · intro hb1
    have e := l3 hb1
    rw [e] at r2 hw2
    exact ⟨by rw [hw2, hw], by rw [r2.count, hcount], r2.flag⟩
  · intro hb1
    have e := l4 hb1
    rw [e] at r2 hw2
    exact ⟨by rw [hw2, hw], by rw [r2.count, hcount], by rw [r2.flag, hflag]⟩

/-- C4 (as amended): on the linked lock, in every state `t` reached by a correctly used
call sequence on a freshly constructed lock that never passes to `writelock` or
`readlock` a request object linked into the queue (the `writelock(I)` under study
included) and during which fewer than 65536 read requests hold the lock at any time.
With more fuel than calls the sequence returns, the queue `t.lock.waiting fuel` is a
null-terminated chain, and `writelock(I)` returns a value `b`.  It returns true if and
only if the queue is empty and neither a reader nor a writer holds the lock, stated
both on the fields the code tests (`reader_count == 0`, `writer == false`) and on the
requests granted and not yet unlocked.  When it returns true the writer flag is set and
queue and `reader_count` are unchanged; when it returns false the request is appended
to the tail of the queue and `reader_count` and the writer flag are unchanged. -/
theorem writelock_granted_iff_free (mem : Nat → request_obj) (ops : List lock_op)
    (I fuel : Nat)
    (hc : (linked_tracked.init mem).correct_use fuel ops = true)
    (hf : (linked_tracked.init mem).fresh_use fuel (ops ++ [lock_op.writelock I]) = true)
    (hb : ∀ s ∈ (linked_tracked.init mem).states fuel ops, s.readers < 65536)
    (hfuel : ops.length < fuel) :
    ∃ t H1 b, (linked_tracked.init mem).run fuel ops = linked_result.done t ∧
      t.lock.writelock I = linked_result.done (H1, b) ∧
      is_chain t.lock.mem t.lock.head (t.lock.waiting fuel) ∧
      is_chain H1.mem H1.head (H1.waiting fuel) ∧
      (b = true ↔
        t.lock.waiting fuel = [] ∧ t.lock.reader_count = 0 ∧ t.lock.writer = false) ∧
      (b = true ↔ t.lock.waiting fuel = [] ∧ t.holders = []) ∧
      (b = true →
        H1.waiting fuel = t.lock.waiting fuel ∧ H1.reader_count = t.lock.reader_count ∧
          H1.writer = true) ∧
      (b = false →
        H1.waiting fuel = t.lock.waiting fuel ++ [⟨I, lockclass_t.WRITE⟩] ∧
          H1.reader_count = t.lock.reader_count ∧ H1.writer = t.lock.writer) := by
  obtain ⟨t, H1, b, e1, _, e2, h1, h2, h3, h4, h5, h6⟩ :=
    writelock_linked mem ops I fuel hc hf hb hfuel
  exact ⟨t, H1, b, e1, e2, h1, h2, h3, h4, h5, h6⟩

/-- C4, witness: after `writelock(1)` (granted), `readlock(2)` (queued) and `wrunlock(1)` a
reader holds the lock; `writelock(4)` returns false and is appended to the queue. -/
theorem writelock_granted_iff_free_witness :
    (linked_tracked.init blank_memory).correct_use 10
        [lock_op.writelock 1, lock_op.readlock 2, lock_op.wrunlock 1] = true ∧
      (linked_tracked.init blank_memory).fresh_use 10
        ([lock_op.writelock 1, lock_op.readlock 2, lock_op.wrunlock 1] ++
          [lock_op.writelock 4]) = true ∧
      (∀ s ∈ (linked_tracked.init blank_memory).states 10
        [lock_op.writelock 1, lock_op.readlock 2, lock_op.wrunlock 1], s.readers < 65536) ∧
      (linked_rw_lock.init blank_memory).grants 10
        [lock_op.writelock 1, lock_op.readlock 2, lock_op.wrunlock 1, lock_op.writelock 4] =
        linked_result.done [[⟨1, lockclass_t.WRITE⟩], [], [⟨2, lockclass_t.READ⟩], []] ∧
      ∃ t H1 b, (linked_tracked.init blank_memory).run 10
          [lock_op.writelock 1, lock_op.readlock 2, lock_op.wrunlock 1] =
          linked_result.done t ∧
        t.lock.writelock 4 = linked_result.done (H1, b) ∧
        is_chain t.lock.mem t.lock.head (t.lock.waiting 10) ∧
        is_chain H1.mem H1.head (H1.waiting 10) ∧
        (b = true ↔
          t.lock.waiting 10 = [] ∧ t.lock.reader_count = 0 ∧ t.lock.writer = false) ∧
        (b = true ↔ t.lock.waiting 10 = [] ∧ t.holders = []) ∧
        (b = true →
          H1.waiting 10 = t.lock.waiting 10 ∧ H1.reader_count = t.lock.reader_count ∧
            H1.writer = true) ∧
        (b = false →
          H1.waiting 10 = t.lock.waiting 10 ++ [⟨4, lockclass_t.WRITE⟩] ∧
            H1.reader_count = t.lock.reader_count ∧ H1.writer = t.lock.writer) :=
  ⟨by decide, by decide, by decide, by decide,
    writelock_granted_iff_free blank_memory
      [lock_op.writelock 1, lock_op.readlock 2, lock_op.wrunlock 1] 4 10
      (by decide) (by decide) (by decide) (by decide)⟩

/-- The run used below, for any list `l` of 65536 request addresses: `writelock(0)`
granted, `readlock` of every address of `l` queued, `writelock(70000)` queued, and
`wrunlock(0)` by the holder. -/
theorem run_wrapping_unlock (l : List Nat) (Q : List request)
    (hQ : l.map (fun I => (⟨I, lockclass_t.READ⟩ : request)) = Q) (hlen : Q.length = 65536) :
    tracked.init.correct_use
        (lock_op.writelock 0 :: (l.map lock_op.readlock ++
          [lock_op.writelock 70000, lock_op.wrunlock 0])) = true ∧
      tracked.init.run
        (lock_op.writelock 0 :: (l.map lock_op.readlock ++
          [lock_op.writelock 70000, lock_op.wrunlock 0])) =
        tracked.mk ⟨[⟨70000, lockclass_t.WRITE⟩], 0, false⟩ Q ∧
      (tracked.mk ⟨[⟨70000, lockclass_t.WRITE⟩], 0, false⟩ Q).readers = 65536 := by
  have hne : Q ≠ [] := by
    intro h
    rw [h] at hlen
    exact absurd hlen (by decide)
  have hall : ∀ a ∈ Q, is_read a = true := by
    rw [← hQ]
    exact is_read_map_read l
  have hrun1 : tracked.init.run (lock_op.writelock 0 :: l.map lock_op.readlock) =
      tracked.mk ⟨Q, 0, true⟩ [⟨0, lockclass_t.WRITE⟩] := by
    rw [run_cons]
    have h0 : tracked.init.step (lock_op.writelock 0) =
        tracked.mk ⟨[], 0, true⟩ [⟨0, lockclass_t.WRITE⟩] := by decide
    rw [h0, run_readlocks_queued, hQ]
    simp
  have hstep2 : (tracked.mk ⟨Q, 0, true⟩ [⟨0, lockclass_t.WRITE⟩]).step
      (lock_op.writelock 70000) =
      tracked.mk ⟨Q ++ [⟨70000, lockclass_t.WRITE⟩], 0, true⟩ [⟨0, lockclass_t.WRITE⟩] := by
    simp [tracked.step, lock_next, lock_granted, deferred_rw_lock.writelock, unlock_holder,
      deferred_rw_lock.insert_queue]
  have hw := wrunlock_read_run Q [⟨70000, lockclass_t.WRITE⟩] 0 true 0 hne hall rfl
  rw [hlen] at hw
  have hstep3 : (tracked.mk ⟨Q ++ [⟨70000, lockclass_t.WRITE⟩], 0, true⟩
      [⟨0, lockclass_t.WRITE⟩]).step (lock_op.wrunlock 0) =
      tracked.mk ⟨[⟨70000, lockclass_t.WRITE⟩], 0, false⟩ Q := by
    have e1 : List.take 65536 (Q ++ [(⟨70000, lockclass_t.WRITE⟩ : request)]) = Q := by
      have := List.take_left Q [(⟨70000, lockclass_t.WRITE⟩ : request)]
      rw [hlen] at this
      exact this
    have e2 : [(⟨0, lockclass_t.WRITE⟩ : request)].erase ⟨0, lockclass_t.WRITE⟩ = [] := by
      decide
    simp only [tracked.step, lock_next, lock_granted, unlock_holder, hw, e1, e2]
    rfl
  refine ⟨?_, ?_, ?_⟩
  · rw [← List.cons_append, correct_use_append, hrun1, correct_use_cons,
      correct_use_readlocks, correct_use_cons, hstep2]
    rw [correct_use_wrunlock _ 0 (List.mem_singleton.mpr rfl)]
    rfl
  · rw [← List.cons_append, run_append, hrun1, run_cons, hstep2, run_cons, hstep3]
    rfl
  · show Q.countP is_read = 65536
    rw [List.countP_eq_length.mpr hall, hlen]


theorem lock_run_tracked (L : deferred_rw_lock) (hs : List request) (ops : List lock_op) :
    lock_run L ops = ((tracked.mk L hs).run ops).lock :=
  (run_lock ops (tracked.mk L hs)).symm

/-- The wrapping run never submits a waiting request object, and neither does a
`writelock(70001)` after it. -/
theorem fresh_use_wrapping_unlock :
    fresh_use deferred_rw_lock.init
      ((lock_op.writelock 0 :: ((List.range' 1 65536).map lock_op.readlock ++
        [lock_op.writelock 70000, lock_op.wrunlock 0])) ++ [lock_op.writelock 70001]) = true := by
  have hlen : ((List.range' 1 65536).map
      (fun I => (⟨I, lockclass_t.READ⟩ : request))).length = 65536 := by
    rw [List.length_map, List.length_range']
  have hne : (List.range' 1 65536).map (fun I => (⟨I, lockclass_t.READ⟩ : request)) ≠ [] := by
    intro h
    rw [h] at hlen
    exact absurd hlen (by decide)
  have e0 : (lock_op.writelock 0 :: ((List.range' 1 65536).map lock_op.readlock ++
        [lock_op.writelock 70000, lock_op.wrunlock 0])) ++ [lock_op.writelock 70001] =
      (lock_op.writelock 0 :: (List.range' 1 65536).map lock_op.readlock) ++
        [lock_op.writelock 70000, lock_op.wrunlock 0, lock_op.writelock 70001] := by
    simp
  have hrun : lock_run deferred_rw_lock.init
      (lock_op.writelock 0 :: (List.range' 1 65536).map lock_op.readlock) =
      ⟨(List.range' 1 65536).map (fun I => (⟨I, lockclass_t.READ⟩ : request)), 0, true⟩ := by
    have := run_lock (lock_op.writelock 0 :: (List.range' 1 65536).map lock_op.readlock)
      tracked.init
    rw [run_readers_behind_writer] at this
    exact this.symm
  rw [e0, fresh_use_append, fresh_use_readers_behind_writer, Bool.true_and, hrun]
  have h1 : lock_next
      ⟨(List.range' 1 65536).map (fun I => (⟨I, lockclass_t.READ⟩ : request)), 0, true⟩
      (lock_op.writelock 70000) =
      ⟨(List.range' 1 65536).map (fun I => (⟨I, lockclass_t.READ⟩ : request)) ++
        [⟨70000, lockclass_t.WRITE⟩], 0, true⟩ := by
    simp [lock_next, deferred_rw_lock.writelock, deferred_rw_lock.insert_queue]
  have hw := wrunlock_read_run _ [⟨70000, lockclass_t.WRITE⟩] 0 true 0 hne
    (is_read_map_read (List.range' 1 65536)) rfl
  rw [hlen] at hw
  have h2 : lock_next
      ⟨(List.range' 1 65536).map (fun I => (⟨I, lockclass_t.READ⟩ : request)) ++
        [⟨70000, lockclass_t.WRITE⟩], 0, true⟩ (lock_op.wrunlock 0) =
      ⟨[⟨70000, lockclass_t.WRITE⟩], 0, false⟩ := by
    simp only [lock_next, hw]
  rw [fresh_use_cons, h1, fresh_use_cons, h2, fresh_use_cons]
  simp only [Bool.and_eq_true]
  refine ⟨?_, rfl, ?_, rfl⟩
  · simp only [deferred_rw_lock.unlinked, decide_eq_true_eq, range_addr_map]
    intro hm
    have := (List.mem_range'_1.mp hm).2
    omega
  · decide

/-- C4, counterexample, in a memory of blank request objects: `writelock(0)` is granted
on a fresh lock, `readlock(1)`, ..., `readlock(65536)` and then `writelock(70000)`
queue behind it, each with its own request object, and the holder calls `wrunlock(0)`.
The 65536 readers are granted together and `reader_count` wraps to 0, with request 70000
still in the queue.  All calls are correctly used and none submits a waiting request
object, yet the next `writelock(70001)` returns true although the queue is not empty
and 65536 readers hold the lock.  Second part: after `writelock(1)` (granted) and
`writelock(2)` (queued), `writelock(2)` is called again with the request object that
is in the queue; it returns false, and the queue is then not the old queue with the
request appended but the object 2 linked to itself. -/
theorem writelock_granted_with_waiters :
    ((linked_tracked.init blank_memory).correct_use 70000
        (lock_op.writelock 0 :: ((List.range' 1 65536).map lock_op.readlock ++
          [lock_op.writelock 70000, lock_op.wrunlock 0])) = true ∧
      (linked_tracked.init blank_memory).fresh_use 70000
        ((lock_op.writelock 0 :: ((List.range' 1 65536).map lock_op.readlock ++
          [lock_op.writelock 70000, lock_op.wrunlock 0])) ++ [lock_op.writelock 70001]) = true ∧
      ∃ t H1, (linked_tracked.init blank_memory).run 70000
          (lock_op.writelock 0 :: ((List.range' 1 65536).map lock_op.readlock ++
            [lock_op.writelock 70000, lock_op.wrunlock 0])) = linked_result.done t ∧
        t.lock.waiting 70000 = [⟨70000, lockclass_t.WRITE⟩] ∧
        t.readers = 65536 ∧ t.lock.reader_count = 0 ∧ t.lock.writer = false ∧
        t.lock.writelock 70001 = linked_result.done (H1, true)) ∧
    ((linked_tracked.init blank_memory).correct_use 10
        [lock_op.writelock 1, lock_op.writelock 2, lock_op.writelock 2] = true ∧
      (linked_rw_lock.init blank_memory).grants 10
        [lock_op.writelock 1, lock_op.writelock 2, lock_op.writelock 2] =
        linked_result.done [[⟨1, lockclass_t.WRITE⟩], [], []] ∧
      (((linked_tracked.init blank_memory).states 10
        [lock_op.writelock 1, lock_op.writelock 2, lock_op.writelock 2]).map
          linked_tracked.lock).map (linked_rw_lock.waiting 4) =
        [[], [], [⟨2, lockclass_t.WRITE⟩],
          [⟨2, lockclass_t.WRITE⟩, ⟨2, lockclass_t.WRITE⟩, ⟨2, lockclass_t.WRITE⟩,
            ⟨2, lockclass_t.WRITE⟩]]) := by
  refine ⟨?_, by decide⟩
  have hlen : ((List.range' 1 65536).map
      (fun I => (⟨I, lockclass_t.READ⟩ : request))).length = 65536 := by
    rw [List.length_map, List.length_range']
  have hopsl : (lock_op.writelock 0 :: ((List.range' 1 65536).map lock_op.readlock ++
      [lock_op.writelock 70000, lock_op.wrunlock 0])).length = 65539 := by
    rw [List.length_cons, List.length_append, List.length_map, List.length_range']
    show 65536 + 2 + 1 = 65539
    norm_num
  obtain ⟨h1, h2, h3⟩ := run_wrapping_unlock (List.range' 1 65536) _ rfl hlen
  have hfl1 := fresh_use_wrapping_unlock
  have hfl := fresh_use_initial _ _ _ hfl1
  obtain ⟨_, ⟨t, e1, r1, _⟩, c2, _⟩ :=
    linked_init_of_fresh blank_memory _ 70000 hfl (by rw [hopsl]; decide)
  obtain ⟨f2, _, _, _⟩ := linked_init_of_fresh blank_memory _ 70000 hfl1
    (by rw [List.length_append, hopsl]; decide)
  rw [h2] at r1
  have hrep : represents t.lock ⟨[⟨70000, lockclass_t.WRITE⟩], 0, false⟩ := r1.lock
  have hhold : t.holders =
      (List.range' 1 65536).map (fun I => (⟨I, lockclass_t.READ⟩ : request)) := r1.holders
  obtain ⟨H1, e2, _⟩ := writelock_represents t.lock _ 70001 hrep (by decide)
  have hb : ((⟨[⟨70000, lockclass_t.WRITE⟩], 0, false⟩ : deferred_rw_lock).writelock 70001).2 =
      true := by decide
  rw [hb] at e2
  refine ⟨by rw [c2]; exact h1, f2, t, H1, e1, ?_, ?_, hrep.count, hrep.flag, e2⟩
  · exact represents_waiting t.lock _ 70000 hrep (by decide)
  · show t.holders.countP is_read = 65536
    rw [hhold, List.countP_eq_length.mpr (is_read_map_read _), hlen]

/-! ### C5: `readlock` -/

theorem readlock_fast (L : deferred_rw_lock) (I : Nat) (hq : L.queue = [])
    (hw : L.writer = false) :
    L.readlock I =
      ⟨⟨L.queue, (L.reader_count + 1) % 65536, L.writer⟩, [⟨I, lockclass_t.READ⟩], 1⟩ := by
  simp [deferred_rw_lock.readlock, hq, hw]

theorem readlock_slow (L : deferred_rw_lock) (I : Nat) (hL : head_not_read L)
    (hc : ¬ (L.queue = [] ∧ L.writer = false)) :
    L.readlock I =
      ⟨⟨L.queue ++ [⟨I, lockclass_t.READ⟩], L.reader_count, L.writer⟩, [], 0⟩ := by
  simp only [deferred_rw_lock.readlock, if_neg hc, deferred_rw_lock.insert_queue]
  cases hq : L.queue with
  | nil =>
    have hw : L.writer = true := by
      by_contra hw
      exact hc ⟨hq, by simpa using hw⟩
    simp [hw]
  | cons h t =>
    have hn : ¬ (is_read h = true ∧ L.writer = false) := by
      rintro ⟨hr, hw⟩
      have := hL hw h t hq
      rw [hr] at this
      cases this
    simp only [List.cons_append]
    rw [if_neg hn]

/-- In the list model, for every call sequence on a fresh lock: `readlock` grants its
request exactly when the writer flag is clear and the queue is empty, and queues it
otherwise. -/
theorem readlock_by_flag (ops : List lock_op) (I : Nat) :
    ((tracked.init.run ops).lock.queue = [] ∧ (tracked.init.run ops).lock.writer = false →
      (tracked.init.run ops).lock.readlock I =
        ⟨⟨(tracked.init.run ops).lock.queue,
            ((tracked.init.run ops).lock.reader_count + 1) % 65536,
            (tracked.init.run ops).lock.writer⟩, [⟨I, lockclass_t.READ⟩], 1⟩) ∧
    (¬ ((tracked.init.run ops).lock.queue = [] ∧ (tracked.init.run ops).lock.writer = false) →
      (tracked.init.run ops).lock.readlock I =
        ⟨⟨(tracked.init.run ops).lock.queue ++ [⟨I, lockclass_t.READ⟩],
            (tracked.init.run ops).lock.reader_count,
            (tracked.init.run ops).lock.writer⟩, [], 0⟩) ∧
    (((tracked.init.run ops).lock.readlock I).ret = 1 ↔
      (tracked.init.run ops).lock.queue = [] ∧ (tracked.init.run ops).lock.writer = false) ∧
    ((tracked.init.run ops).lock.readlock I).ret ≤ 1 ∧
    (∀ W : Nat, (⟨W, lockclass_t.WRITE⟩ : request) ∈ (tracked.init.run ops).lock.queue →
      ((tracked.init.run ops).lock.readlock I).ret = 0 ∧
      lock_granted (tracked.init.run ops).lock (lock_op.readlock I) = []) := by
  have hL : head_not_read (tracked.init.run ops).lock := by
    rw [run_lock]
    exact head_not_read_run ops _ head_not_read_init
  generalize (tracked.init.run ops).lock = L at hL
  have hfast := fun h : L.queue = [] ∧ L.writer = false => readlock_fast L I h.1 h.2
  have hslow := readlock_slow L I hL
  refine ⟨hfast, hslow, ?_, ?_, ?_⟩
  · by_cases hc : L.queue = [] ∧ L.writer = false
    · rw [hfast hc]; simp [hc]
    · rw [hslow hc]; simp [hc]
  · by_cases hc : L.queue = [] ∧ L.writer = false
    · rw [hfast hc]
    · rw [hslow hc]; simp
  · intro W hW
    have hc : ¬ (L.queue = [] ∧ L.writer = false) := by
      rintro ⟨hq, _⟩
      rw [hq] at hW
      simp at hW
    simp [lock_granted, hslow hc]

/-- In the list model, for a correctly used call sequence during which fewer than 65536
read requests hold the lock at any time, the `readlock` under study included: the
writer flag is set exactly when a write request holds the lock, and the increment of
`reader_count` on the fast path does not wrap. -/
theorem readlock_state (ops : List lock_op) (I : Nat)
    (hc : tracked.init.correct_use ops = true)
    (hb : ∀ s ∈ tracked.init.states (ops ++ [lock_op.readlock I]), s.readers < 65536) :
    ((tracked.init.run ops).writers = 0 ↔ (tracked.init.run ops).lock.writer = false) ∧
      ((tracked.init.run ops).lock.queue = [] ∧ (tracked.init.run ops).lock.writer = false →
        (tracked.init.run ops).lock.reader_count + 1 < 65536) := by
  have hb0 : ∀ s ∈ tracked.init.states ops, s.readers < 65536 :=
    fun s hs => hb s (states_append_mem _ _ _ _ hs)
  obtain ⟨h1, h2, h3, _⟩ :=
    lock_inv_states ops tracked.init lock_inv_init hc hb0 _ (run_mem_states ops _)
  have hlast : (tracked.init.run ops).step (lock_op.readlock I) ∈
      tracked.init.states (ops ++ [lock_op.readlock I]) := by
    have := run_mem_states (ops ++ [lock_op.readlock I]) tracked.init
    rw [run_append] at this
    exact this
  have hlt := hb _ hlast
  generalize tracked.init.run ops = t at h1 h2 h3 hlt
  constructor
  · constructor
    · intro h0
      by_contra hw
      have := (h2 (by simpa using hw)).1
      omega
    · exact h3
  · rintro ⟨hq, hw⟩
    rw [readers_step] at hlt
    have hg : lock_granted t.lock (lock_op.readlock I) = [⟨I, lockclass_t.READ⟩] := by
      simp only [lock_granted, readlock_fast t.lock I hq hw]
      rfl
    rw [hg] at hlt
    simp only [unlock_holder, tracked.readers] at hlt h1
    rw [h1]
    have := countP_read_read_request I
    omega

/-- On the linked lock: `readlock(I)` with a request object that is not in the queue.
The state `t` before the call is the one of the list model. -/
theorem readlock_linked (mem : Nat → request_obj) (ops : List lock_op) (I fuel : Nat)
    (hc : (linked_tracked.init mem).correct_use fuel ops = true)
    (hf : (linked_tracked.init mem).fresh_use fuel (ops ++ [lock_op.readlock I]) = true)
    (hb : ∀ s ∈ (linked_tracked.init mem).states fuel (ops ++ [lock_op.readlock I]),
      s.readers < 65536)
    (hfuel : ops.length < fuel) :
    ∃ t o, (linked_tracked.init mem).run fuel ops = linked_result.done t ∧
      tracks t (tracked.init.run ops) ∧
      t.lock.readlock fuel I = linked_result.done o ∧
      is_chain t.lock.mem t.lock.head (t.lock.waiting fuel) ∧
      is_chain o.lock.mem o.lock.head (o.lock.waiting fuel) ∧
      (t.writers = 0 ↔ t.lock.writer = false) ∧
      (o.ret = 1 ↔ t.writers = 0 ∧ t.lock.waiting fuel = []) ∧
      (t.writers = 0 ∧ t.lock.waiting fuel = [] →
        o.ret = 1 ∧ o.released = some I ∧
        chain_take o.lock.mem o.ret o.released = [⟨I, lockclass_t.READ⟩] ∧
        o.lock.reader_count = t.lock.reader_count + 1 ∧
        o.lock.waiting fuel = t.lock.waiting fuel ∧ o.lock.writer = t.lock.writer) ∧
      (¬ (t.writers = 0 ∧ t.lock.waiting fuel = []) →
        o.ret = 0 ∧ o.released = none ∧
        o.lock.waiting fuel = t.lock.waiting fuel ++ [⟨I, lockclass_t.READ⟩] ∧
        o.lock.reader_count = t.lock.reader_count ∧ o.lock.writer = t.lock.writer) ∧
      o.ret ≤ 1 ∧
      (∀ W : Nat, (⟨W, lockclass_t.WRITE⟩ : request) ∈ t.lock.waiting fuel →
        o.ret = 0 ∧ chain_take o.lock.mem o.ret o.released = []) := by
  have hlen1 : (ops ++ [lock_op.readlock I]).length ≤ fuel := by
    simp only [List.length_append, List.length_singleton]
    omega
  have hfl1 := linked_fresh_init mem _ fuel hf hlen1
  have hfl := fresh_use_initial _ _ _ hfl1
  have hu := fresh_use_mid _ ops (lock_op.readlock I) [] hfl1
  obtain ⟨_, ⟨t, e1, r1, _⟩, c2, _⟩ := linked_init_of_fresh mem ops fuel hfl (by omega)
  obtain ⟨_, _, _, b2⟩ := linked_init_of_fresh mem _ fuel hfl1 hlen1
  have hcl : tracked.init.correct_use ops = true := by
    rw [← c2]
    exact hc
  have hbl := (b2 65536).mp hb
  obtain ⟨s1, s2⟩ := readlock_state ops I hcl hbl
  obtain ⟨l1, l2, l3, l4, l5⟩ := readlock_by_flag ops I
  have hql := init_queue_length ops
  have hrl : lock_run deferred_rw_lock.init ops = (tracked.init.run ops).lock :=
    (run_lock ops tracked.init).symm
  rw [hrl] at hu
  have hI : I ∉ (tracked.init.run ops).lock.queue.map request.addr := by
    simpa [deferred_rw_lock.unlinked] using hu
  obtain ⟨o, e2, r2⟩ := readlock_represents t.lock _ fuel I r1.lock hI (by omega)
  have hw := represents_waiting t.lock _ fuel r1.lock (by omega)
  have hch := r1.lock.chain
  rw [← hw] at hch
  have hcount := r1.lock.count
  have hflag := r1.lock.flag
  have hwr : t.writers = (tracked.init.run ops).writers := by
    show t.holders.countP is_write = (tracked.init.run ops).holders.countP is_write
    rw [r1.holders]
  rw [← hwr, ← hflag] at s1
  generalize (tracked.init.run ops).lock = L at hql hw l1 l2 l3 l4 l5 r2 s2 hcount hflag
  have hql2 : (L.readlock I).lock.queue.length ≤ fuel := by
    have := lock_next_length L (lock_op.readlock I)
    have e : lock_next L (lock_op.readlock I) = (L.readlock I).lock := rfl
    rw [e] at this
    omega
  have hw2 := represents_waiting o.lock _ fuel r2.lock hql2
  have hch2 := r2.lock.chain
  rw [← hw2] at hch2
  have hcond : (t.writers = 0 ∧ t.lock.waiting fuel = []) ↔ (L.queue = [] ∧ L.writer = false) := by
    rw [s1, hw, hflag]
    exact And.comm
  have hfast : t.writers = 0 ∧ t.lock.waiting fuel = [] →
      o.ret = 1 ∧ o.released = some I ∧
        chain_take o.lock.mem o.ret o.released = [⟨I, lockclass_t.READ⟩] ∧
        o.lock.reader_count = t.lock.reader_count + 1 ∧
        o.lock.waiting fuel = t.lock.waiting fuel ∧ o.lock.writer = t.lock.writer := by
    intro hcnd
    have hc1 := hcond.mp hcnd
    have e := l1 hc1
    have hlt := s2 hc1
    rw [e] at r2 hw2
    have h3 : is_chain o.lock.mem o.released [⟨I, lockclass_t.READ⟩] := r2.released
    have h4 : o.ret = 1 := r2.ret
    have h5 : o.lock.reader_count = (L.reader_count + 1) % 65536 := r2.lock.count
    refine ⟨h4, ?_, ?_, ?_, by rw [hw2, hw], by rw [r2.lock.flag, hflag]⟩
    · rw [is_chain_cons] at h3
      exact h3.1
    · rw [chain_take_chain _ _ _ _ h3, h4]
      rfl
    · rw [h5, Nat.mod_eq_of_lt hlt, hcount]
  have hslow : ¬ (t.writers = 0 ∧ t.lock.waiting fuel = []) →
      o.ret = 0 ∧ o.released = none ∧
        o.lock.waiting fuel = t.lock.waiting fuel ++ [⟨I, lockclass_t.READ⟩] ∧
        o.lock.reader_count = t.lock.reader_count ∧ o.lock.writer = t.lock.writer := by
    intro hcnd
    have hc1 : ¬ (L.queue = [] ∧ L.writer = false) := fun h => hcnd (hcond.mpr h)
    have e := l2 hc1
    rw [e] at r2 hw2
    have h3 : is_chain o.lock.mem o.released [] := r2.released
    exact ⟨r2.ret, h3, by rw [hw2, hw], by rw [r2.lock.count, hcount],
      by rw [r2.lock.flag, hflag]⟩
  refine ⟨t, o, e1, r1, e2, hch, hch2, s1, ?_, hfast, hslow, ?_, ?_⟩
  · rw [hcond, r2.ret, l3]
  · rw [r2.ret]
    exact l4
  · intro W hW
    rw [hw] at hW
    obtain ⟨g1, g2⟩ := l5 W hW
    have hne : ¬ (t.writers = 0 ∧ t.lock.waiting fuel = []) := by
      rintro ⟨_, hq⟩
      rw [hw] at hq
      rw [hq] at hW
      cases hW
    obtain ⟨k1, k2, _⟩ := hslow hne
    refine ⟨k1, ?_⟩
    rw [k1, k2]
    rfl

/-! ### A writer granted past the capacity of `reader_count` -/

theorem rdunlock_serves_writer (W : request) (t : List request) (rc : Nat) (w : Bool) (I : Nat)
    (hz : (rc + 65535) % 65536 = 0) (hW : is_read W = false) :
    (deferred_rw_lock.mk (W :: t) rc w).rdunlock I = ⟨⟨t, 0, true⟩, W :: t, 1⟩ := by
  simp only [deferred_rw_lock.rdunlock, hz]
  rw [if_pos trivial]
  simp [hW, deferred_rw_lock.complete_wrlock]

theorem rdunlock_keeps (q : List request) (rc : Nat) (w : Bool) (I : Nat)
    (hz : (rc + 65535) % 65536 ≠ 0) :
    (deferred_rw_lock.mk q rc w).rdunlock I = ⟨⟨q, (rc + 65535) % 65536, w⟩, [], 0⟩ := by
  simp only [deferred_rw_lock.rdunlock, if_neg hz]

theorem step_rdunlock_head (L : deferred_rw_lock) (I : Nat) (hs : List request) :
    (tracked.mk L (⟨I, lockclass_t.READ⟩ :: hs)).step (lock_op.rdunlock I) =
      tracked.mk (L.rdunlock I).lock (hs ++ (L.rdunlock I).released.take (L.rdunlock I).ret) := by
  simp only [tracked.step, lock_next, lock_granted, unlock_holder, List.erase_cons_head]

theorem allowed_rdunlock_head (L : deferred_rw_lock) (I : Nat) (hs : List request) :
    (tracked.mk L (⟨I, lockclass_t.READ⟩ :: hs)).allowed (lock_op.rdunlock I) = true := by
  simp [tracked.allowed]

/-- Read holders, at most 65536 of them and all counted in `reader_count`, unlock one
after the other while the write request `W` waits: the last `rdunlock` grants `W`. -/
theorem run_rdunlocks (W : request) (hW : is_read W = false) (l : List Nat) :
    l ≠ [] → l.length ≤ 65536 → ∀ rest : List request,
      (tracked.mk ⟨[W], l.length % 65536, true⟩
          (l.map (fun I => (⟨I, lockclass_t.READ⟩ : request)) ++ rest)).run
          (l.map lock_op.rdunlock) = tracked.mk ⟨[], 0, true⟩ (rest ++ [W]) ∧
        (tracked.mk ⟨[W], l.length % 65536, true⟩
          (l.map (fun I => (⟨I, lockclass_t.READ⟩ : request)) ++ rest)).correct_use
          (l.map lock_op.rdunlock) = true := by
  induction l with
  | nil => intro h; exact absurd rfl h
  | cons I l ih =>
    intro _ hlen rest
    rw [List.length_cons] at hlen
    simp only [List.map_cons, List.cons_append]
    rw [run_cons, correct_use_cons, allowed_rdunlock_head, Bool.true_and, step_rdunlock_head]
    by_cases hl : l = []
    · subst hl
      have hz : ((([I] : List Nat).length % 65536) + 65535) % 65536 = 0 := by
        rw [List.length_singleton]
      rw [rdunlock_serves_writer W [] _ true I hz hW]
      exact ⟨rfl, rfl⟩
    · have hpos : 0 < l.length := List.length_pos.mpr hl
      have hz : (((I :: l).length % 65536) + 65535) % 65536 ≠ 0 := by
        rw [List.length_cons]
        omega
      have he : (((I :: l).length % 65536) + 65535) % 65536 = l.length % 65536 := by
        rw [List.length_cons]
        omega
      rw [rdunlock_keeps _ _ true I hz, he]
      simp only [List.take_nil, List.append_nil]
      exact ih hl (by omega) rest

/-- The run `calls_past_capacity` in the list model, for any list `l` of 65536 request
addresses in the place of 1, ..., 65536: it is correctly used, never submits a waiting
request object (nor does a `readlock(5)` after it), and ends with the write request
70001 holding the lock while the writer flag is clear. -/
theorem run_past_capacity (l : List Nat) (hl : l.length = 65536) :
    tracked.init.correct_use
        (l.map lock_op.readlock ++
          ([lock_op.writelock 70000, lock_op.writelock 70001] ++
            (l.map lock_op.rdunlock ++ [lock_op.wrunlock 70000]))) = true ∧
      tracked.init.run
        (l.map lock_op.readlock ++
          ([lock_op.writelock 70000, lock_op.writelock 70001] ++
            (l.map lock_op.rdunlock ++ [lock_op.wrunlock 70000]))) =
        tracked.mk ⟨[], 0, false⟩ [⟨70001, lockclass_t.WRITE⟩] ∧
      fresh_use deferred_rw_lock.init
        ((l.map lock_op.readlock ++
          ([lock_op.writelock 70000, lock_op.writelock 70001] ++
            (l.map lock_op.rdunlock ++ [lock_op.wrunlock 70000]))) ++
          [lock_op.readlock 5]) = true := by
  have hne : l ≠ [] := by
    intro h
    rw [h] at hl
    exact absurd hl (by decide)
  have e0 : (0 + 65536) % 65536 = 0 := by norm_num
  have e1 : 65536 % 65536 = 0 := by norm_num
  have hS1 : tracked.init.run (l.map lock_op.readlock) =
      tracked.mk ⟨[], 0, false⟩ (l.map (fun I => (⟨I, lockclass_t.READ⟩ : request))) := by
    have := run_readlocks_fast l 0 [] (by decide)
    rw [hl, e0, List.nil_append] at this
    exact this
  have hS3 : (tracked.mk ⟨[], 0, false⟩
      (l.map (fun I => (⟨I, lockclass_t.READ⟩ : request)))).run
      [lock_op.writelock 70000, lock_op.writelock 70001] =
      tracked.mk ⟨[⟨70001, lockclass_t.WRITE⟩], l.length % 65536, true⟩
        (l.map (fun I => (⟨I, lockclass_t.READ⟩ : request)) ++ [⟨70000, lockclass_t.WRITE⟩]) := by
    rw [hl, e1]
    simp [tracked.run, tracked.step, lock_next, lock_granted, deferred_rw_lock.writelock,
      unlock_holder, deferred_rw_lock.insert_queue]
  obtain ⟨hS4, hC4⟩ := run_rdunlocks ⟨70001, lockclass_t.WRITE⟩ rfl l hne (by omega)
    [⟨70000, lockclass_t.WRITE⟩]
  have hS5 : (tracked.mk ⟨[], 0, true⟩
      ([⟨70000, lockclass_t.WRITE⟩] ++ [(⟨70001, lockclass_t.WRITE⟩ : request)])).run
      [lock_op.wrunlock 70000] = tracked.mk ⟨[], 0, false⟩ [⟨70001, lockclass_t.WRITE⟩] := by
    decide
  have hrun : tracked.init.run
      (l.map lock_op.readlock ++
        ([lock_op.writelock 70000, lock_op.writelock 70001] ++
          (l.map lock_op.rdunlock ++ [lock_op.wrunlock 70000]))) =
      tracked.mk ⟨[], 0, false⟩ [⟨70001, lockclass_t.WRITE⟩] := by
    rw [run_append, hS1, run_append, hS3, run_append, hS4, hS5]
  refine ⟨?_, hrun, ?_⟩
  · rw [correct_use_append, correct_use_readlocks, Bool.true_and, hS1, correct_use_append,
      hS3, correct_use_append, hC4, hS4, Bool.true_and, Bool.and_eq_true]
    exact ⟨by simp [tracked.correct_use, tracked.allowed], by decide⟩
  · have hL1 : lock_run deferred_rw_lock.init (l.map lock_op.readlock) = ⟨[], 0, false⟩ := by
      have := run_lock (l.map lock_op.readlock) tracked.init
      rw [hS1] at this
      exact this.symm
    have hL3 : lock_run ⟨[], 0, false⟩ [lock_op.writelock 70000, lock_op.writelock 70001] =
        ⟨[⟨70001, lockclass_t.WRITE⟩], 0, true⟩ := by decide
    have hLall : lock_run deferred_rw_lock.init
        (l.map lock_op.readlock ++
          ([lock_op.writelock 70000, lock_op.writelock 70001] ++
            (l.map lock_op.rdunlock ++ [lock_op.wrunlock 70000]))) = ⟨[], 0, false⟩ := by
      have := run_lock (l.map lock_op.readlock ++
          ([lock_op.writelock 70000, lock_op.writelock 70001] ++
            (l.map lock_op.rdunlock ++ [lock_op.wrunlock 70000]))) tracked.init
      rw [hrun] at this
      exact this.symm
    have hf1 : fresh_use deferred_rw_lock.init (l.map lock_op.readlock) = true :=
      fresh_use_readlocks_fast l 0
    have hf2 : fresh_use ⟨[], 0, false⟩ [lock_op.writelock 70000, lock_op.writelock 70001] =
        true := by decide
    have hf3 := fresh_use_snoc_unlock ⟨[⟨70001, lockclass_t.WRITE⟩], 0, true⟩
      (l.map lock_op.rdunlock) (lock_op.wrunlock 70000) rfl (fresh_use_rdunlocks l _)
    have hf4 : fresh_use ⟨[], 0, false⟩ [lock_op.readlock 5] = true := by decide
    rw [fresh_use_append, hLall, hf4, Bool.and_true, fresh_use_append, hf1, Bool.true_and, hL1,
      fresh_use_append, hf2, Bool.true_and, hL3]
    exact hf3

/-- C5 (as amended): on the linked lock, in every state `t` reached by a correctly used
call sequence on a freshly constructed lock that never passes to `writelock` or
`readlock` a request object linked into the queue and during which fewer than 65536
read requests hold the lock at any time, the `readlock(I, released)` under study
included in both conditions.  With more fuel than calls the sequence returns, the queue
`t.lock.waiting fuel` is a null-terminated chain, and `readlock` returns.  No write
request holds the lock exactly when the writer flag is clear.  `readlock` grants the
request immediately, returning 1 with `released = I`, `reader_count` incremented by one
and the queue unchanged, exactly when no writer holds the lock and the queue is empty.
In every other such state it appends `I` to the tail of the queue, returns 0, leaves
`released` null and leaves `reader_count` and the writer flag unchanged.  Hence the
return value is never greater than 1, and a reader arriving while a write request waits
in the queue is not granted by `readlock` itself. -/
theorem readlock_grants_iff_free (mem : Nat → request_obj) (ops : List lock_op)
    (I fuel : Nat)
    (hc : (linked_tracked.init mem).correct_use fuel ops = true)
    (hf : (linked_tracked.init mem).fresh_use fuel (ops ++ [lock_op.readlock I]) = true)
    (hb : ∀ s ∈ (linked_tracked.init mem).states fuel (ops ++ [lock_op.readlock I]),
      s.readers < 65536)
    (hfuel : ops.length < fuel) :
    ∃ t o, (linked_tracked.init mem).run fuel ops = linked_result.done t ∧
      t.lock.readlock fuel I = linked_result.done o ∧
      is_chain t.lock.mem t.lock.head (t.lock.waiting fuel) ∧
      is_chain o.lock.mem o.lock.head (o.lock.waiting fuel) ∧
      (t.writers = 0 ↔ t.lock.writer = false) ∧
      (o.ret = 1 ↔ t.writers = 0 ∧ t.lock.waiting fuel = []) ∧
      (t.writers = 0 ∧ t.lock.waiting fuel = [] →
        o.ret = 1 ∧ o.released = some I ∧
        chain_take o.lock.mem o.ret o.released = [⟨I, lockclass_t.READ⟩] ∧
        o.lock.reader_count = t.lock.reader_count + 1 ∧
        o.lock.waiting fuel = t.lock.waiting fuel ∧ o.lock.writer = t.lock.writer) ∧
      (¬ (t.writers = 0 ∧ t.lock.waiting fuel = []) →
        o.ret = 0 ∧ o.released = none ∧
        o.lock.waiting fuel = t.lock.waiting fuel ++ [⟨I, lockclass_t.READ⟩] ∧
        o.lock.reader_count = t.lock.reader_count ∧ o.lock.writer = t.lock.writer) ∧
      o.ret ≤ 1 ∧
      (∀ W : Nat, (⟨W, lockclass_t.WRITE⟩ : request) ∈ t.lock.waiting fuel →
        o.ret = 0 ∧ chain_take o.lock.mem o.ret o.released = []) := by
  obtain ⟨t, o, e1, _, e2, h1, h2, h3, h4, h5, h6, h7, h8⟩ :=
    readlock_linked mem ops I fuel hc hf hb hfuel
  exact ⟨t, o, e1, e2, h1, h2, h3, h4, h5, h6, h7, h8⟩

/-- C5, witness: after `readlock(1)` (granted at once on the fresh lock) and a queued
`writelock(2)`, `readlock(3)` is queued behind the writer and returns 0. -/
theorem readlock_grants_iff_free_witness :
    (linked_tracked.init blank_memory).correct_use 10
        [lock_op.readlock 1, lock_op.writelock 2] = true ∧
      (linked_tracked.init blank_memory).fresh_use 10
        ([lock_op.readlock 1, lock_op.writelock 2] ++ [lock_op.readlock 3]) = true ∧
      (∀ s ∈ (linked_tracked.init blank_memory).states 10
        ([lock_op.readlock 1, lock_op.writelock 2] ++ [lock_op.readlock 3]),
        s.readers < 65536) ∧
      (linked_rw_lock.init blank_memory).grants 10
        [lock_op.readlock 1, lock_op.writelock 2, lock_op.readlock 3] =
        linked_result.done [[⟨1, lockclass_t.READ⟩], [], []] ∧
      ∃ t o, (linked_tracked.init blank_memory).run 10
          [lock_op.readlock 1, lock_op.writelock 2] = linked_result.done t ∧
        t.lock.readlock 10 3 = linked_result.done o ∧
        is_chain t.lock.mem t.lock.head (t.lock.waiting 10) ∧
        is_chain o.lock.mem o.lock.head (o.lock.waiting 10) ∧
        (t.writers = 0 ↔ t.lock.writer = false) ∧
        (o.ret = 1 ↔ t.writers = 0 ∧ t.lock.waiting 10 = []) ∧
        (t.writers = 0 ∧ t.lock.waiting 10 = [] →
          o.ret = 1 ∧ o.released = some 3 ∧
          chain_take o.lock.mem o.ret o.released = [⟨3, lockclass_t.READ⟩] ∧
          o.lock.reader_count = t.lock.reader_count + 1 ∧
          o.lock.waiting 10 = t.lock.waiting 10 ∧ o.lock.writer = t.lock.writer) ∧
        (¬ (t.writers = 0 ∧ t.lock.waiting 10 = []) →
          o.ret = 0 ∧ o.released = none ∧
          o.lock.waiting 10 = t.lock.waiting 10 ++ [⟨3, lockclass_t.READ⟩] ∧
          o.lock.reader_count = t.lock.reader_count ∧ o.lock.writer = t.lock.writer) ∧
        o.ret ≤ 1 ∧
        (∀ W : Nat, (⟨W, lockclass_t.WRITE⟩ : request) ∈ t.lock.waiting 10 →
          o.ret = 0 ∧ chain_take o.lock.mem o.ret o.released = []) :=
  ⟨by decide, by decide, by decide, by decide,
    readlock_grants_iff_free blank_memory [lock_op.readlock 1, lock_op.writelock 2] 3 10
      (by decide) (by decide) (by decide) (by decide)⟩

/-- C5, counterexample, in a memory of blank request objects: the call sequence
`calls_past_capacity`.  The 65536 read requests 1, ..., 65536 are granted on the fast
path, which wraps `reader_count` to 0, so that `writelock(70000)` is granted beside
them; `writelock(70001)` is queued; the readers unlock, and the last `rdunlock` grants
the write request 70001; the writer 70000 unlocks, which clears the writer flag.  All
calls are correctly used and none submits a waiting request object.  Now the write
request 70001 holds the lock, the queue is empty, and `readlock(5)` returns 1: a
reader is granted at once although a writer holds the lock.  Second part: after
`writelock(1)` (granted) and `readlock(2)` (queued), `readlock(2)` is called again with
the request object that is in the queue; it returns 0, and the queue is then not the
old queue with the request appended but the object 2 linked to itself. -/
theorem readlock_granted_beside_writer :
    ((linked_tracked.init blank_memory).correct_use 200000 calls_past_capacity = true ∧
      (linked_tracked.init blank_memory).fresh_use 200000
        (calls_past_capacity ++ [lock_op.readlock 5]) = true ∧
      ∃ t o, (linked_tracked.init blank_memory).run 200000 calls_past_capacity =
          linked_result.done t ∧
        t.holders = [⟨70001, lockclass_t.WRITE⟩] ∧ t.writers = 1 ∧
        t.lock.writer = false ∧ t.lock.waiting 200000 = [] ∧
        t.lock.readlock 200000 5 = linked_result.done o ∧
        o.ret = 1 ∧ o.released = some 5) ∧
    ((linked_tracked.init blank_memory).correct_use 10
        [lock_op.writelock 1, lock_op.readlock 2, lock_op.readlock 2] = true ∧
      (linked_rw_lock.init blank_memory).grants 10
        [lock_op.writelock 1, lock_op.readlock 2, lock_op.readlock 2] =
        linked_result.done [[⟨1, lockclass_t.WRITE⟩], [], []] ∧
      (((linked_tracked.init blank_memory).states 10
        [lock_op.writelock 1, lock_op.readlock 2, lock_op.readlock 2]).map
          linked_tracked.lock).map (linked_rw_lock.waiting 4) =
        [[], [], [⟨2, lockclass_t.READ⟩],
          [⟨2, lockclass_t.READ⟩, ⟨2, lockclass_t.READ⟩, ⟨2, lockclass_t.READ⟩,
            ⟨2, lockclass_t.READ⟩]]) := by
  refine ⟨?_, by decide⟩
  have hl : (List.range' 1 65536).length = 65536 := List.length_range' _ _ _
  obtain ⟨h1, h2, h3⟩ := run_past_capacity (List.range' 1 65536) hl
  have hlen : calls_past_capacity.length = 131075 := by
    unfold calls_past_capacity
    rw [List.length_append, List.length_append, List.length_append, List.length_map,
      List.length_map, hl]
    show 65536 + (2 + (65536 + 1)) = 131075
    norm_num
  have hfl := fresh_use_initial _ _ _ h3
  obtain ⟨_, ⟨t, e1, r1, _⟩, c2, _⟩ :=
    linked_init_of_fresh blank_memory calls_past_capacity 200000 hfl (by rw [hlen]; decide)
  obtain ⟨f2, _, _, _⟩ := linked_init_of_fresh blank_memory
    (calls_past_capacity ++ [lock_op.readlock 5]) 200000 h3
    (by rw [List.length_append, hlen]; decide)
  have h2a : tracked.init.run calls_past_capacity =
      tracked.mk ⟨[], 0, false⟩ [⟨70001, lockclass_t.WRITE⟩] := h2
  rw [h2a] at r1
  have hrep : represents t.lock ⟨[], 0, false⟩ := r1.lock
  have hhold : t.holders = [⟨70001, lockclass_t.WRITE⟩] := r1.holders
  obtain ⟨o, e2, r2⟩ := readlock_represents t.lock _ 200000 5 hrep (by decide) (by decide)
  have hr : (⟨[], 0, false⟩ : deferred_rw_lock).readlock 5 =
      ⟨⟨[], 1, false⟩, [⟨5, lockclass_t.READ⟩], 1⟩ := by decide
  rw [hr] at r2
  have h4 : is_chain o.lock.mem o.released [⟨5, lockclass_t.READ⟩] := r2.released
  rw [is_chain_cons] at h4
  refine ⟨by rw [c2]; exact h1, f2, t, o, e1, hhold, ?_, hrep.flag, ?_, e2, r2.ret, h4.1⟩
  · show t.holders.countP is_write = 1
    rw [hhold]
    rfl
  · exact represents_waiting t.lock _ 200000 hrep (by decide)

/-! ### C6 - C9: blocking_queue -/

theorem dequeue_cons {T : Type} [Inhabited T] (a : Bool) (x : T) (rest : List T) :
    (blocking_queue.mk a (x :: rest)).dequeue = some (⟨a, rest⟩, (x, true)) := by
  simp [blocking_queue.dequeue]

theorem enqueue_all_queue {T : Type} (xs : List T) :
    ∀ q : blocking_queue T, q.enqueue_all xs = ⟨q.m_alive, q.m_queue ++ xs⟩ := by
  induction xs with
  | nil => intro q; simp [blocking_queue.enqueue_all]
  | cons x xs ih =>
    intro q
    have := ih (q.enqueue x)
    simp only [blocking_queue.enqueue_all, List.foldl_cons] at this ⊢
    rw [this]
    simp [blocking_queue.enqueue]

theorem dequeue_n_take {T : Type} [Inhabited T] (a : Bool) :
    ∀ (k : Nat) (l : List T), k ≤ l.length →
      (blocking_queue.mk a l).dequeue_n k =
        some (⟨a, l.drop k⟩, (l.take k).map (fun x => (x, true))) := by
  intro k
  induction k with
  | zero => intro l _; simp [blocking_queue.dequeue_n]
  | succ k ih =>
    intro l hl
    cases l with
    | nil => simp at hl
    | cons x rest =>
      simp only [List.length_cons, Nat.add_le_add_iff_right] at hl
      simp only [blocking_queue.dequeue_n, dequeue_cons, ih rest hl]
      simp

/-- C6: `blocking_queue` is FIFO.  `enqueue(x)` appends `x` at the back and changes nothing
else; `dequeue` on a non-empty queue returns `(front, true)` and removes exactly the
front element; `size()` is the length of the queue.  Hence after `enqueue` of
`x1, ..., xn` on an empty queue, for every `k ≤ n` the next `k` calls of `dequeue` all
return, with `(x1, true), ..., (xk, true)` in that order, and then `size()` is `n - k`
(enqueued minus dequeued); with `k = n` all `n` elements come back in order. -/
theorem blocking_queue_fifo {T : Type} [Inhabited T] :
    (∀ (q : blocking_queue T) (x : T), q.enqueue x = ⟨q.m_alive, q.m_queue ++ [x]⟩) ∧
    (∀ (q : blocking_queue T) (x : T) (rest : List T), q.m_queue = x :: rest →
      q.dequeue = some (⟨q.m_alive, rest⟩, (x, true))) ∧
    (∀ q : blocking_queue T, q.size = q.m_queue.length) ∧
    (∀ (xs : List T) (k : Nat), k ≤ xs.length →
      ((blocking_queue.init : blocking_queue T).enqueue_all xs).dequeue_n k =
        some (⟨true, xs.drop k⟩, (xs.take k).map (fun x => (x, true))) ∧
      (blocking_queue.mk true (xs.drop k)).size = xs.length - k) ∧
    (∀ xs : List T,
      ((blocking_queue.init : blocking_queue T).enqueue_all xs).dequeue_n xs.length =
        some (⟨true, []⟩, xs.map (fun x => (x, true)))) := by
  refine ⟨fun q x => rfl, ?_, fun q => rfl, ?_, ?_⟩
  · intro q x rest hq
    cases q with
    | mk a l =>
      simp only at hq
      subst hq
      exact dequeue_cons a x rest
  · intro xs k hk
    rw [enqueue_all_queue]
    simp only [blocking_queue.init, List.nil_append]
    exact ⟨dequeue_n_take true k xs hk, by simp [blocking_queue.size]⟩
  · intro xs
    rw [enqueue_all_queue]
    simp only [blocking_queue.init, List.nil_append]
    rw [dequeue_n_take true xs.length xs (Nat.le_refl _)]
    simp

/-- C6, witness: three elements enqueued on an empty live queue come back in order, and
after two of the three `dequeue` calls the size is one. -/
theorem blocking_queue_fifo_witness :
    ((blocking_queue.mk true [5, 6, 7] : blocking_queue Nat).dequeue =
        some (⟨true, [6, 7]⟩, (5, true))) ∧
      (((blocking_queue.init : blocking_queue Nat).enqueue_all [5, 6, 7]).dequeue_n 2 =
        some (⟨true, [7]⟩, [(5, true), (6, true)]) ∧
        (blocking_queue.mk true [7] : blocking_queue Nat).size = 1) :=
  ⟨blocking_queue_fifo.2.1 ⟨true, [5, 6, 7]⟩ 5 [6, 7] rfl,
    blocking_queue_fifo.2.2.2.1 [5, 6, 7] 2 (by decide)⟩

/-- C7: `dequeue` on a queue that has been stopped and is empty returns at once with
`(T(), false)` and leaves the queue state unchanged. -/
theorem dequeue_stopped_empty {T : Type} [Inhabited T] (q : blocking_queue T)
    (hstop : q.m_alive = false) (hempty : q.m_queue = []) :
    q.dequeue = some (q, (default, false)) := by
  simp [blocking_queue.dequeue, hstop, hempty]

/-- C7, witness: an empty queue of naturals after `stop_blocking`. -/
theorem dequeue_stopped_empty_witness :
    ((blocking_queue.init : blocking_queue Nat).stop_blocking).m_alive = false ∧
      ((blocking_queue.init : blocking_queue Nat).stop_blocking).m_queue = [] ∧
      ((blocking_queue.init : blocking_queue Nat).stop_blocking).dequeue =
        some ((blocking_queue.init : blocking_queue Nat).stop_blocking, (default, false)) :=
  ⟨rfl, rfl, dequeue_stopped_empty _ rfl rfl⟩

/-- C8, the code at the failing input: on a stopped queue holding the single element 7,
`try_dequeue` returns `(T(), false)` and leaves the element in the queue, although the
queue has an entry; `dequeue` on the same queue returns `(7, true)` and removes it.  On
every live queue `try_dequeue` does return the front element when there is one. -/
theorem try_dequeue_stopped_nonempty :
    (blocking_queue.mk false [7] : blocking_queue Nat).try_dequeue =
        (⟨false, [7]⟩, (default, false)) ∧
      (blocking_queue.mk false [7] : blocking_queue Nat).dequeue =
        some (⟨false, []⟩, (7, true)) ∧
      (∀ (x : Nat) (rest : List Nat),
        (blocking_queue.mk true (x :: rest)).try_dequeue = (⟨true, rest⟩, (x, true))) := by
  refine ⟨by decide, by decide, ?_⟩
  intro x rest
  simp [blocking_queue.try_dequeue]

theorem step_alive_false {T : Type} [Inhabited T] (q : blocking_queue T) (op : queue_op T)
    (h : q.m_alive = false) : (q.step op).m_alive = false := by
  cases op with
  | enqueue elem => exact h
  | dequeue =>
    simp only [blocking_queue.step, blocking_queue.dequeue]
    split
    · rename_i q1 r heq
      split at heq
      · cases heq
      · split at heq
        · injection heq with heq
          injection heq with h1 h2
          rw [← h1]; exact h
        · injection heq with heq
          injection heq with h1 h2
          rw [← h1]; exact h
    · exact h
  | try_dequeue =>
    simp only [blocking_queue.step, blocking_queue.try_dequeue]
    split
    · exact h
    · exact h
  | signal => exact h
  | signal_blocking_empty => exact h
  | wait_until_empty => exact h
  | stop_blocking => rfl

theorem run_alive_false {T : Type} [Inhabited T] (ops : List (queue_op T)) :
    ∀ q : blocking_queue T, q.m_alive = false → (q.run ops).m_alive = false := by
  induction ops with
  | nil => intro q h; exact h
  | cons op ops ih => intro q h; exact ih _ (step_alive_false q op h)

/-- C9: `stop_blocking` permanently disables the queue.  After `stop_blocking`, whatever
calls follow (`enqueue`, `dequeue`, `try_dequeue`, `signal`, `signal_blocking_empty`,
`wait_until_empty`, `stop_blocking`), the queue is not alive and `wait_until_empty`
returns false without waiting; and on a live queue `wait_until_empty` returns true only
when the queue is empty. -/
theorem stop_blocking_permanent {T : Type} [Inhabited T] :
    (∀ (q : blocking_queue T) (ops : List (queue_op T)),
      (q.stop_blocking.run ops).m_alive = false ∧
      (q.stop_blocking.run ops).wait_until_empty = some false) ∧
    (∀ q : blocking_queue T, q.m_alive = true → q.wait_until_empty = some true →
      q.m_queue = []) := by
  constructor
  · intro q ops
    have h := run_alive_false ops q.stop_blocking rfl
    refine ⟨h, ?_⟩
    simp [blocking_queue.wait_until_empty, h]
  · intro q ha hw
    cases hq : q.m_queue with
    | nil => rfl
    | cons x rest =>
      simp [blocking_queue.wait_until_empty, hq, ha] at hw

/-- C9, witness: a live empty queue returns true from `wait_until_empty`; stopped, then
filled and searched again, the queue stays dead. -/
theorem stop_blocking_permanent_witness :
    (blocking_queue.init : blocking_queue Nat).m_alive = true ∧
      (blocking_queue.init : blocking_queue Nat).wait_until_empty = some true ∧
      (blocking_queue.init : blocking_queue Nat).m_queue = [] ∧
      (((blocking_queue.mk true [1] : blocking_queue Nat).stop_blocking.run
        [queue_op.enqueue 2, queue_op.dequeue, queue_op.try_dequeue, queue_op.signal,
          queue_op.wait_until_empty]).m_alive = false ∧
        ((blocking_queue.mk true [1] : blocking_queue Nat).stop_blocking.run
          [queue_op.enqueue 2, queue_op.dequeue, queue_op.try_dequeue, queue_op.signal,
            queue_op.wait_until_empty]).wait_until_empty = some false) :=
  ⟨rfl, rfl, stop_blocking_permanent.2 blocking_queue.init rfl rfl,
    stop_blocking_permanent.1 ⟨true, [1]⟩ _⟩

/-! ### C10: update_task -/

/-- C10: two update tasks are equal iff both fields match.  For all tasks, `a == b` holds
exactly when `a.vertex() == b.vertex()` and `a.function() == b.function()`; the
relation is reflexive, symmetric and transitive; and a default-constructed task has
vertex id `-1` as a 32-bit unsigned value, that is `2 ^ 32 - 1` with all 32 bits set,
and a null function. -/
theorem update_task_eq_iff :
    (∀ a b : update_task, a.eq b = true ↔ a.vertex = b.vertex ∧ a.function = b.function) ∧
    (∀ a : update_task, a.eq a = true) ∧
    (∀ a b : update_task, a.eq b = true → b.eq a = true) ∧
    (∀ a b c : update_task, a.eq b = true → b.eq c = true → a.eq c = true) ∧
    update_task.default_task.vertex = 2 ^ 32 - 1 ∧
    (∀ i : Nat, i < 32 → update_task.default_task.vertex.testBit i = true) ∧
    update_task.default_task.function = 0 := by
  have hiff : ∀ a b : update_task,
      a.eq b = true ↔ a.vertex = b.vertex ∧ a.function = b.function := by
    intro a b
    simp [update_task.eq, update_task.vertex, update_task.function]
  refine ⟨hiff, ?_, ?_, ?_, by decide, by decide, rfl⟩
  · intro a
    exact (hiff a a).mpr ⟨rfl, rfl⟩
  · intro a b h
    obtain ⟨h1, h2⟩ := (hiff a b).mp h
    exact (hiff b a).mpr ⟨h1.symm, h2.symm⟩
  · intro a b c h1 h2
    obtain ⟨e1, e2⟩ := (hiff a b).mp h1
    obtain ⟨e3, e4⟩ := (hiff b c).mp h2
    exact (hiff a c).mpr ⟨e1.trans e3, e2.trans e4⟩

/-- C10, witness: tasks with the same vertex and function are equal in either order. -/
theorem update_task_eq_iff_witness :
    (update_task.mk 3 40).eq (update_task.mk 3 40) = true ∧
      (update_task.mk 3 41).eq (update_task.mk 3 40) = false :=
  ⟨update_task_eq_iff.2.2.1 ⟨3, 40⟩ ⟨3, 40⟩ (by decide), by decide⟩

/-! ### The engine loop -/

theorem check_abort_quiet (e : sim_thread_engine) (cpuid : Nat) (stat : sched_status)
    (task : update_task) : e.check_abort cpuid (quiet_tick stat task) = e := by
  simp [sim_thread_engine.check_abort, quiet_tick]

theorem run_next_task_cons (e : sim_thread_engine) (cpuid : Nat) (t : engine_tick)
    (ts : List engine_tick) :
    e.run_next_task cpuid (t :: ts) =
      if (e.check_abort cpuid t).aborted || (e.check_abort cpuid t).terminatoraborted then
        { engine := e.check_abort cpuid t, result := run_result.returned false, events := [],
          rest := ts }
      else
        match t.stat with
        | sched_status.WAITING =>
          { (e.check_abort cpuid t).run_next_task cpuid ts with
            events := engine_event.get_next_task cpuid sched_status.WAITING ::
              ((e.check_abort cpuid t).run_next_task cpuid ts).events }
        | sched_status.COMPLETE =>
          { engine := e.check_abort cpuid t, result := run_result.returned false,
            events := [engine_event.get_next_task cpuid sched_status.COMPLETE], rest := ts }
        | sched_status.NEWTASK =>
          if t.task.function = 0 then
            { engine := e.check_abort cpuid t, result := run_result.assertion_failed,
              events := [engine_event.get_next_task cpuid sched_status.NEWTASK], rest := ts }
          else if t.scope = 0 then
            { engine := e.check_abort cpuid t, result := run_result.assertion_failed,
              events := [engine_event.get_next_task cpuid sched_status.NEWTASK,
                engine_event.get_scope cpuid t.task.vertex],
              rest := ts }
          else
            { engine := (e.check_abort cpuid t).account_task cpuid,
              result := run_result.returned true,
              events := engine_event.get_next_task cpuid sched_status.NEWTASK ::
                task_events cpuid t.task,
              rest := ts }
        | sched_status.EMPTY =>
          { (e.check_abort cpuid t).run_next_task cpuid ts with
            events := engine_event.get_next_task cpuid sched_status.EMPTY ::
              ((e.check_abort cpuid t).run_next_task cpuid ts).events } := by
  rw [sim_thread_engine.run_next_task]
  try rfl

/-- A task answered in a quiet iteration, with no flag set, is executed. -/
theorem run_next_task_newtask (e : sim_thread_engine) (cpuid : Nat) (task : update_task)
    (ts : List engine_tick) (ha : e.aborted = false) (ht : e.terminatoraborted = false)
    (hf : task.function ≠ 0) :
    e.run_next_task cpuid (quiet_tick sched_status.NEWTASK task :: ts) =
      { engine := e.account_task cpuid, result := run_result.returned true,
        events := engine_event.get_next_task cpuid sched_status.NEWTASK ::
          task_events cpuid task,
        rest := ts } := by
  rw [run_next_task_cons, check_abort_quiet]
  simp [ha, ht, quiet_tick, hf]

/-- With a flag set the call returns false at once. -/
theorem run_next_task_flag (e : sim_thread_engine) (cpuid : Nat) (t : engine_tick)
    (ts : List engine_tick)
    (h : (e.check_abort cpuid t).aborted = true ∨ (e.check_abort cpuid t).terminatoraborted = true) :
    e.run_next_task cpuid (t :: ts) =
      { engine := e.check_abort cpuid t, result := run_result.returned false, events := [],
        rest := ts } := by
  rw [run_next_task_cons]
  rcases h with h | h <;> simp [h]

/-- Only `EMPTY` answers: the call is still in its loop after all of them. -/
theorem run_next_task_all_empty (e : sim_thread_engine) (cpuid : Nat) (task : update_task)
    (ha : e.aborted = false) (ht : e.terminatoraborted = false) (n : Nat) :
    e.run_next_task cpuid (List.replicate n (quiet_tick sched_status.EMPTY task)) =
      { engine := e, result := run_result.running,
        events := List.replicate n (engine_event.get_next_task cpuid sched_status.EMPTY),
        rest := [] } := by
  induction n with
  | zero => rfl
  | succ n ih =>
    rw [List.replicate_succ, run_next_task_cons, check_abort_quiet, ih]
    simp [ha, ht, quiet_tick, List.replicate_succ]

theorem start_loop_succ (pick : Nat → Nat) (fuel i : Nat) (e : sim_thread_engine)
    (ticks : List engine_tick) :
    sim_thread_engine.start_loop pick (fuel + 1) i e ticks =
      match (e.run_next_task (pick i) ticks).result with
      | run_result.running =>
        { engine := (e.run_next_task (pick i) ticks).engine, result := start_result.running,
          events := (e.run_next_task (pick i) ticks).events }
      | run_result.assertion_failed =>
        { engine := (e.run_next_task (pick i) ticks).engine,
          result := start_result.assertion_failed,
          events := (e.run_next_task (pick i) ticks).events }
      | run_result.returned false =>
        { engine := (e.run_next_task (pick i) ticks).engine.exit_status.1,
          result := start_result.returned (e.run_next_task (pick i) ticks).engine.exit_status.2,
          events := (e.run_next_task (pick i) ticks).events }
      | run_result.returned true =>
        { sim_thread_engine.start_loop pick fuel (i + 1)
            (e.run_next_task (pick i) ticks).engine (e.run_next_task (pick i) ticks).rest with
          events := (e.run_next_task (pick i) ticks).events ++
            (sim_thread_engine.start_loop pick fuel (i + 1)
              (e.run_next_task (pick i) ticks).engine
              (e.run_next_task (pick i) ticks).rest).events } := by
  rw [sim_thread_engine.start_loop]
  try rfl

theorem start_of_clear (e : sim_thread_engine) (ha : e.aborted = false)
    (ht : e.terminatoraborted = false) (pick : Nat → Nat) (ticks : List engine_tick) :
    e.start pick ticks = sim_thread_engine.start_loop pick (ticks.length + 1) 0 e ticks := by
  cases e
  simp only at ha ht
  subst ha ht
  rfl

/-- The checks only ever set flags: when both flags are clear after them, they have left
the engine as it was. -/
theorem check_abort_eq_of_clear (e : sim_thread_engine) (cpuid : Nat) (t : engine_tick)
    (ha : (e.check_abort cpuid t).aborted = false)
    (ht : (e.check_abort cpuid t).terminatoraborted = false) : e.check_abort cpuid t = e := by
  simp only [sim_thread_engine.check_abort] at ha ht ⊢
  split_ifs at ha ht ⊢ <;> rfl

/-- Iterations that set no flag and in which the scheduler answers `EMPTY` or `WAITING`
only add their `get_next_task` calls in front of what follows. -/
theorem run_next_task_polls (e : sim_thread_engine) (cpuid : Nat) (pre : List engine_tick)
    (rest : List engine_tick)
    (hpre : ∀ u ∈ pre, (e.check_abort cpuid u).aborted = false ∧
      (e.check_abort cpuid u).terminatoraborted = false ∧
      (u.stat = sched_status.EMPTY ∨ u.stat = sched_status.WAITING)) :
    (e.run_next_task cpuid (pre ++ rest)).engine = (e.run_next_task cpuid rest).engine ∧
      (e.run_next_task cpuid (pre ++ rest)).result = (e.run_next_task cpuid rest).result ∧
      (e.run_next_task cpuid (pre ++ rest)).events =
        pre.map (fun u => engine_event.get_next_task cpuid u.stat) ++
          (e.run_next_task cpuid rest).events ∧
      (e.run_next_task cpuid (pre ++ rest)).rest = (e.run_next_task cpuid rest).rest := by
  induction pre with
  | nil => simp
  | cons u pre ih =>
    obtain ⟨h1, h2, h3⟩ := hpre u (List.mem_cons_self _ _)
    have he := check_abort_eq_of_clear e cpuid u h1 h2
    obtain ⟨i1, i2, i3, i4⟩ := ih (fun v hv => hpre v (List.mem_cons_of_mem _ hv))
    rw [List.cons_append, run_next_task_cons, he]
    rw [he] at h1 h2
    rcases h3 with h3 | h3
    · simp [h1, h2, h3, i1, i2, i3, i4]
    · simp [h1, h2, h3, i1, i2, i3, i4]

/-! ### C14: the worker loop on `EMPTY` and on `COMPLETE` -/

/-- An engine as constructed asks its scheduler again after every `EMPTY` answer:
however many answers `n` are recorded, `start()` has not returned after them and its
first `run_next_task` call is still inside `while(true)`, because no branch handles
`EMPTY` and the terminator of the scheduler is never consulted. -/
theorem engine_spins_on_empty (ncpus n : Nat) (pick : Nat → Nat) (task : update_task) :
    ((sim_thread_engine.init ncpus).start pick
        (List.replicate n (quiet_tick sched_status.EMPTY task))).result =
        start_result.running ∧
      ((sim_thread_engine.init ncpus).start pick
        (List.replicate n (quiet_tick sched_status.EMPTY task))).events =
        List.replicate n (engine_event.get_next_task (pick 0) sched_status.EMPTY) ∧
      ((sim_thread_engine.init ncpus).run_next_task (pick 0)
        (List.replicate n (quiet_tick sched_status.EMPTY task))).result =
        run_result.running := by
  have h := run_next_task_all_empty (sim_thread_engine.init ncpus) (pick 0) task rfl rfl n
  refine ⟨?_, ?_, ?_⟩
  · rw [start_of_clear _ rfl rfl, start_loop_succ, h]
  · rw [start_of_clear _ rfl rfl, start_loop_succ, h]
  · rw [h]

/-- Without a timeout and without a data manager the checks at the top of the loop set
no flag, whatever the surroundings answer. -/
theorem check_abort_unconfigured (e : sim_thread_engine) (cpuid : Nat) (t : engine_tick)
    (htime : e.timeout = 0) (hdm : e.has_data_manager = false) : e.check_abort cpuid t = e := by
  simp [sim_thread_engine.check_abort, sim_thread_engine.check_all_terminators, htime, hdm]

/-- The state of an engine with a budget after `k` more tasks, none of which exceeds the
budget: only `taskcount` has moved. -/
theorem account_task_within (e : sim_thread_engine) (cpuid : Nat) (hb : 0 < e.taskbudget)
    (hc : e.taskcount + 1 ≤ e.taskbudget) :
    (e.account_task cpuid).taskcount = e.taskcount + 1 ∧
      (e.account_task cpuid).taskbudget = e.taskbudget ∧
      (e.account_task cpuid).aborted = e.aborted ∧
      (e.account_task cpuid).terminatoraborted = e.terminatoraborted ∧
      (e.account_task cpuid).timeout = e.timeout := by
  have h : ¬ (e.taskcount + 1 > e.taskbudget) := by omega
  simp [sim_thread_engine.account_task, hb, h]

theorem account_task_beyond (e : sim_thread_engine) (cpuid : Nat) (hb : 0 < e.taskbudget)
    (hc : e.taskbudget < e.taskcount + 1) :
    (e.account_task cpuid).taskcount = e.taskcount + 1 ∧
      (e.account_task cpuid).taskbudget = e.taskbudget ∧
      (e.account_task cpuid).aborted = true := by
  simp [sim_thread_engine.account_task, hb, hc]

/-- The first `k` tasks of a run that stay within the budget: each `run_next_task` call
executes one and returns true, and the loop of `start()` goes on with the rest. -/
theorem start_loop_within_budget (pick : Nat → Nat) (task : update_task)
    (hf : task.function ≠ 0) (k : Nat) :
    ∀ (fuel i : Nat) (e : sim_thread_engine) (rest : List engine_tick),
      e.aborted = false → e.terminatoraborted = false → 0 < e.taskbudget →
      e.taskcount + k ≤ e.taskbudget →
      ∃ e1 : sim_thread_engine, e1.aborted = false ∧ e1.terminatoraborted = false ∧
        e1.taskbudget = e.taskbudget ∧ e1.taskcount = e.taskcount + k ∧
        e1.timeout = e.timeout ∧
        (sim_thread_engine.start_loop pick (fuel + k) i e
          (List.replicate k (quiet_tick sched_status.NEWTASK task) ++ rest)).result =
          (sim_thread_engine.start_loop pick fuel (i + k) e1 rest).result ∧
        executed_tasks (sim_thread_engine.start_loop pick (fuel + k) i e
          (List.replicate k (quiet_tick sched_status.NEWTASK task) ++ rest)).events =
          k + executed_tasks (sim_thread_engine.start_loop pick fuel (i + k) e1 rest).events := by
  induction k with
  | zero =>
    intro fuel i e rest ha ht _ _
    exact ⟨e, ha, ht, rfl, rfl, rfl, rfl, by simp⟩
  | succ k ih =>
    intro fuel i e rest ha ht hb hc
    obtain ⟨h1, h2, h3, h4, h5⟩ := account_task_within e (pick i) hb (by omega)
    obtain ⟨e1, g1, g2, g3, g4, g5, g6, g7⟩ := ih fuel (i + 1) (e.account_task (pick i)) rest
      (h3.trans ha) (h4.trans ht) (by omega) (by omega)
    refine ⟨e1, g1, g2, g3.trans h2, by omega, g5.trans h5, ?_, ?_⟩
    · rw [show fuel + (k + 1) = (fuel + k) + 1 by omega, start_loop_succ, List.replicate_succ,
        List.cons_append, run_next_task_newtask e (pick i) task _ ha ht hf]
      simp only
      rw [g6, show i + 1 + k = i + (k + 1) by omega]
    · rw [show fuel + (k + 1) = (fuel + k) + 1 by omega, start_loop_succ, List.replicate_succ,
        List.cons_append, run_next_task_newtask e (pick i) task _ ha ht hf]
      simp only [executed_tasks, List.countP_append, List.countP_cons, task_events] at g7 ⊢
      rw [g7, show i + 1 + k = i + (k + 1) by omega]
      simp
      omega

theorem executed_tasks_poll_block (cpuid : Nat) (task : update_task) :
    executed_tasks (engine_event.get_next_task cpuid sched_status.NEWTASK ::
      task_events cpuid task) = 1 := by
  simp [executed_tasks, task_events]

/-- The end of a run on a budget that is used up: the next task is still executed, sets
`aborted`, and the following call returns false. -/
theorem start_loop_budget_end (pick : Nat → Nat) (task : update_task)
    (hf : task.function ≠ 0) (fuel i n : Nat) (e : sim_thread_engine)
    (ha : e.aborted = false) (ht : e.terminatoraborted = false) (hb : 0 < e.taskbudget)
    (hc : e.taskcount = e.taskbudget) :
    (sim_thread_engine.start_loop pick (fuel + 2) i e
        (List.replicate (n + 2) (quiet_tick sched_status.NEWTASK task))).result =
        start_result.returned exec_status.EXEC_MAX_TASKS_EXCEEDED ∧
      executed_tasks (sim_thread_engine.start_loop pick (fuel + 2) i e
        (List.replicate (n + 2) (quiet_tick sched_status.NEWTASK task))).events = 1 := by
  obtain ⟨h1, h2, h3⟩ := account_task_beyond e (pick i) hb (by omega)
  have hflag := run_next_task_flag (e.account_task (pick i)) (pick (i + 1))
    (quiet_tick sched_status.NEWTASK task)
    (List.replicate n (quiet_tick sched_status.NEWTASK task))
    (Or.inl (by rw [check_abort_quiet]; exact h3))
  rw [check_abort_quiet] at hflag
  have hexit : (e.account_task (pick i)).exit_status.2 =
      exec_status.EXEC_MAX_TASKS_EXCEEDED := by
    have hgt : (e.account_task (pick i)).taskbudget <
        (e.account_task (pick i)).taskcount + 1 := by rw [h1, h2]; omega
    have hpos : 0 < (e.account_task (pick i)).taskbudget := by rw [h2]; exact hb
    simp [sim_thread_engine.exit_status, h3, hpos, hgt]
  constructor
  · rw [start_loop_succ, List.replicate_succ,
      run_next_task_newtask e (pick i) task _ ha ht hf]
    simp only
    rw [start_loop_succ, List.replicate_succ, hflag]
    simp only
    rw [hexit]
  · rw [start_loop_succ, List.replicate_succ,
      run_next_task_newtask e (pick i) task _ ha ht hf]
    simp only
    rw [start_loop_succ, List.replicate_succ, hflag]
    simp [executed_tasks, task_events]

/-- C15, the code at the failing input: an engine with task budget `B + 1 > 0` and a
scheduler that always has a task (with a function).  The run ends with
`EXEC_MAX_TASKS_EXCEEDED` only after `B + 2` update functions have been invoked, one
more than the budget, since `taskcount.inc() > taskbudget` first holds after the task
numbered `taskbudget + 1` has run. -/
theorem task_budget_overrun (ncpus B n : Nat) (pick : Nat → Nat) (v f : Nat) :
    (((sim_thread_engine.init ncpus).set_task_budget (B + 1)).start pick
        (List.replicate (B + 3 + n) (quiet_tick sched_status.NEWTASK ⟨v, f + 1⟩))).result =
        start_result.returned exec_status.EXEC_MAX_TASKS_EXCEEDED ∧
      executed_tasks (((sim_thread_engine.init ncpus).set_task_budget (B + 1)).start pick
        (List.replicate (B + 3 + n) (quiet_tick sched_status.NEWTASK ⟨v, f + 1⟩))).events =
        B + 2 := by
  have hf : (update_task.mk v (f + 1)).function ≠ 0 := by simp [update_task.function]
  obtain ⟨e1, g1, g2, g3, g4, _, g6, g7⟩ := start_loop_within_budget pick ⟨v, f + 1⟩ hf (B + 1)
    (n + 3) 0 ((sim_thread_engine.init ncpus).set_task_budget (B + 1))
    (List.replicate (n + 2) (quiet_tick sched_status.NEWTASK ⟨v, f + 1⟩)) rfl rfl
    (by simp [sim_thread_engine.set_task_budget])
    (by simp [sim_thread_engine.set_task_budget, sim_thread_engine.init])
  have hb : 0 < e1.taskbudget := by rw [g3]; simp [sim_thread_engine.set_task_budget]
  have hc : e1.taskcount = e1.taskbudget := by
    rw [g3, g4]; simp [sim_thread_engine.set_task_budget, sim_thread_engine.init]
  obtain ⟨k1, k2⟩ := start_loop_budget_end pick ⟨v, f + 1⟩ hf (n + 1) (0 + (B + 1)) n e1 g1 g2
    hb hc
  have hsplit : List.replicate (B + 3 + n) (quiet_tick sched_status.NEWTASK ⟨v, f + 1⟩) =
      List.replicate (B + 1) (quiet_tick sched_status.NEWTASK ⟨v, f + 1⟩) ++
        List.replicate (n + 2) (quiet_tick sched_status.NEWTASK ⟨v, f + 1⟩) := by
    rw [← List.replicate_add]
    congr 1
    omega
  rw [start_of_clear _ rfl rfl, List.length_replicate,
    show B + 3 + n + 1 = (n + 3) + (B + 1) by omega, hsplit]
  constructor
  · rw [g6]; exact k1
  · rw [g7, k2]

/-- C16, the code at the failing input: an engine with timeout `T + 1 > 0` and task budget
`B + 1 > 0`; the scheduler hands out `B + 1` tasks, all executed by worker 0 within
the time limit, and in the next iteration worker 0 finds the timer past the timeout.
The run is aborted by the timeout with exactly `B + 1` tasks executed, which does not
exceed the budget, yet `start()` returns `EXEC_MAX_TASKS_EXCEEDED`: its status test
`taskcount.inc() > taskbudget` increments the counter once more. -/
theorem timeout_reported_as_budget (ncpus B T : Nat) (v f : Nat) (stat : sched_status) :
    ((((sim_thread_engine.init ncpus).set_task_budget (B + 1)).set_timeout (T + 1)).start
        (fun _ => 0)
        (List.replicate (B + 1) (quiet_tick sched_status.NEWTASK ⟨v, f + 1⟩) ++
          [late_tick stat ⟨v, f + 1⟩])).result =
        start_result.returned exec_status.EXEC_MAX_TASKS_EXCEEDED ∧
      executed_tasks
        ((((sim_thread_engine.init ncpus).set_task_budget (B + 1)).set_timeout (T + 1)).start
          (fun _ => 0)
          (List.replicate (B + 1) (quiet_tick sched_status.NEWTASK ⟨v, f + 1⟩) ++
            [late_tick stat ⟨v, f + 1⟩])).events = B + 1 := by
  have hf : (update_task.mk v (f + 1)).function ≠ 0 := by simp [update_task.function]
  obtain ⟨e1, g1, g2, g3, g4, g5, g6, g7⟩ := start_loop_within_budget (fun _ => 0)
    ⟨v, f + 1⟩ hf (B + 1) 2 0
    (((sim_thread_engine.init ncpus).set_task_budget (B + 1)).set_timeout (T + 1))
    [late_tick stat ⟨v, f + 1⟩] rfl rfl
    (by simp [sim_thread_engine.set_task_budget, sim_thread_engine.set_timeout])
    (by simp [sim_thread_engine.set_task_budget, sim_thread_engine.set_timeout,
      sim_thread_engine.init])
  have hb : e1.taskbudget = B + 1 := by
    rw [g3]; simp [sim_thread_engine.set_task_budget, sim_thread_engine.set_timeout]
  have hc : e1.taskcount = B + 1 := by
    rw [g4]; simp [sim_thread_engine.set_task_budget, sim_thread_engine.set_timeout,
      sim_thread_engine.init]
  have ht : e1.timeout = T + 1 := by
    rw [g5]; simp [sim_thread_engine.set_timeout]
  have hchk : (e1.check_abort 0 (late_tick stat ⟨v, f + 1⟩)).aborted = true := by
    simp [sim_thread_engine.check_abort, late_tick, ht]
  have hchk2 : (e1.check_abort 0 (late_tick stat ⟨v, f + 1⟩)) =
      { e1 with aborted := true } := by
    simp [sim_thread_engine.check_abort, late_tick, ht]
  have hflag := run_next_task_flag e1 0 (late_tick stat ⟨v, f + 1⟩) [] (Or.inl hchk)
  have hexit : (e1.check_abort 0 (late_tick stat ⟨v, f + 1⟩)).exit_status.2 =
      exec_status.EXEC_MAX_TASKS_EXCEEDED := by
    rw [hchk2]
    simp [sim_thread_engine.exit_status, hb, hc]
  rw [start_of_clear _ rfl rfl]
  simp only [List.length_append, List.length_replicate, List.length_singleton]
  rw [show B + 1 + 1 + 1 = 2 + (B + 1) by omega]
  constructor
  · rw [g6, start_loop_succ, hflag]
    simp only
    rw [hexit]
  · rw [g7, start_loop_succ, hflag]
    simp [executed_tasks]

/-! ### C17: the status after a termination function -/

theorem exit_status_facts (e : sim_thread_engine) :
    e.exit_status.1.aborted = e.aborted ∧
      e.exit_status.1.terminatoraborted = e.terminatoraborted ∧
      (e.aborted = false → e.exit_status.2 = exec_status.EXEC_COMPLETED) ∧
      (e.aborted = true → e.exit_status.2 = exec_status.EXEC_TIMEOUT ∨
        e.exit_status.2 = exec_status.EXEC_MAX_TASKS_EXCEEDED) := by
  unfold sim_thread_engine.exit_status
  by_cases ha : e.aborted = false
  · simp [ha]
  · have ha1 : e.aborted = true := by simpa using ha
    by_cases hb : 0 < e.taskbudget
    · by_cases hc : e.taskcount + 1 > e.taskbudget
      · simp [ha1, hb, hc]
      · simp [ha1, hb, hc]
    · simp [ha1, hb]

/-- Whenever the loop of `start()` returns, the status is the one `exit_status` computes
from the engine the last `run_next_task` call left. -/
theorem start_loop_returned (pick : Nat → Nat) (fuel : Nat) :
    ∀ (i : Nat) (e : sim_thread_engine) (ticks : List engine_tick) (status : exec_status),
      (sim_thread_engine.start_loop pick fuel i e ticks).result =
        start_result.returned status →
      ∃ e1 : sim_thread_engine,
        (sim_thread_engine.start_loop pick fuel i e ticks).engine = e1.exit_status.1 ∧
        status = e1.exit_status.2 := by
  induction fuel with
  | zero =>
    intro i e ticks status h
    simp [sim_thread_engine.start_loop] at h
  | succ fuel ih =>
    intro i e ticks status h
    rw [start_loop_succ] at h ⊢
    cases hr : (e.run_next_task (pick i) ticks).result with
    | running => rw [hr] at h; simp at h
    | assertion_failed => rw [hr] at h; simp at h
    | returned b =>
      cases b with
      | false =>
        rw [hr] at h
        simp only [start_result.returned.injEq] at h
        exact ⟨(e.run_next_task (pick i) ticks).engine, rfl, h.symm⟩
      | true =>
        rw [hr] at h
        simp only at h ⊢
        exact ih _ _ _ _ h

/-- C17 (as amended): whenever `start()` returns, the status is `EXEC_COMPLETED` if the
flag `aborted` is clear at the end and `EXEC_TIMEOUT` or `EXEC_MAX_TASKS_EXCEEDED` if
it is set.  A termination function that evaluates to true sets only
`terminatoraborted`, so a run it stops returns `EXEC_COMPLETED`, the status of a run in
which the scheduler simply completed; timeout and exceeded budget are the stop reasons
with a status of their own, and no run returns the termination-function or
forced-stop status. -/
theorem start_status_of_flags (e : sim_thread_engine) (pick : Nat → Nat)
    (ticks : List engine_tick) (status : exec_status)
    (h : (e.start pick ticks).result = start_result.returned status) :
    ((e.start pick ticks).engine.aborted = false → status = exec_status.EXEC_COMPLETED) ∧
    ((e.start pick ticks).engine.terminatoraborted = true →
      (e.start pick ticks).engine.aborted = false → status = exec_status.EXEC_COMPLETED) ∧
    ((e.start pick ticks).engine.aborted = true →
      status = exec_status.EXEC_TIMEOUT ∨ status = exec_status.EXEC_MAX_TASKS_EXCEEDED) ∧
    status ≠ exec_status.EXEC_TERM_FUNCTION ∧ status ≠ exec_status.EXEC_FORCED_STOP := by
  unfold sim_thread_engine.start at h ⊢
  obtain ⟨e1, he, hs⟩ := start_loop_returned pick _ 0 _ ticks status h
  obtain ⟨f1, _, f3, f4⟩ := exit_status_facts e1
  rw [he, f1, hs]
  have hcases : e1.exit_status.2 = exec_status.EXEC_COMPLETED ∨
      e1.exit_status.2 = exec_status.EXEC_TIMEOUT ∨
      e1.exit_status.2 = exec_status.EXEC_MAX_TASKS_EXCEEDED := by
    cases ha : e1.aborted with
    | false => exact Or.inl (f3 ha)
    | true => exact Or.inr (f4 ha)
  refine ⟨f3, fun _ => f3, f4, ?_, ?_⟩
  · rcases hcases with h1 | h1 | h1 <;> rw [h1] <;> decide
  · rcases hcases with h1 | h1 | h1 <;> rw [h1] <;> decide

/-- C17, witness: one registered termination function, a data manager installed; at the
first check the function returns true and the run stops with `EXEC_COMPLETED`. -/
theorem start_status_of_flags_witness :
    ((((sim_thread_engine.init 1).set_shared_data_manager true).add_terminator 7).start
        (fun _ => 0) [converged_tick sched_status.NEWTASK ⟨3, 9⟩]).result =
        start_result.returned exec_status.EXEC_COMPLETED ∧
      ((((sim_thread_engine.init 1).set_shared_data_manager true).add_terminator 7).start
        (fun _ => 0) [converged_tick sched_status.NEWTASK ⟨3, 9⟩]).engine.terminatoraborted =
        true ∧
      ((((sim_thread_engine.init 1).set_shared_data_manager true).add_terminator 7).start
        (fun _ => 0) [converged_tick sched_status.NEWTASK ⟨3, 9⟩]).engine.aborted = false ∧
      exec_status.EXEC_COMPLETED = exec_status.EXEC_COMPLETED :=
  ⟨by decide, by decide, by decide,
    (start_status_of_flags
      (((sim_thread_engine.init 1).set_shared_data_manager true).add_terminator 7)
      (fun _ => 0) [converged_tick sched_status.NEWTASK ⟨3, 9⟩] exec_status.EXEC_COMPLETED
      (by decide)).2.1 (by decide) (by decide)⟩

/-- C17, counterexample: an engine with a data manager and one termination function that
returns true at the first check is stopped by it (`terminatoraborted` is set) before
any task runs, and `start()` returns `EXEC_COMPLETED`; an engine whose scheduler
answers `COMPLETE` returns `EXEC_COMPLETED` too.  The two stop reasons are reported
with the same status. -/
theorem term_function_reported_as_completed :
    ((((sim_thread_engine.init 1).set_shared_data_manager true).add_terminator 7).start
        (fun _ => 0) [converged_tick sched_status.NEWTASK ⟨3, 9⟩]).result =
        start_result.returned exec_status.EXEC_COMPLETED ∧
      ((((sim_thread_engine.init 1).set_shared_data_manager true).add_terminator 7).start
        (fun _ => 0) [converged_tick sched_status.NEWTASK ⟨3, 9⟩]).engine.terminatoraborted =
        true ∧
      ((((sim_thread_engine.init 1).set_shared_data_manager true).add_terminator 7).start
        (fun _ => 0) [converged_tick sched_status.NEWTASK ⟨3, 9⟩]).events = [] ∧
      ((sim_thread_engine.init 1).start (fun _ => 0)
        [quiet_tick sched_status.COMPLETE ⟨3, 9⟩]).result =
        start_result.returned exec_status.EXEC_COMPLETED := by
  decide

/-! ### C18: `last_update_count` -/

theorem set_getD_self {α : Type} (d : α) :
    ∀ (l : List α) (i : Nat), l.set i (l.getD i d) = l
  | [], _ => rfl
  | _ :: _, 0 => rfl
  | a :: l, i + 1 => by
    have h := set_getD_self d l i
    simp only [List.getD_eq_getElem?_getD] at h
    simp only [List.set_cons_succ, List.getD_eq_getElem?_getD, List.getElem?_cons_succ]
    rw [h]

theorem account_task_counts (e : sim_thread_engine) (cpuid : Nat) :
    (e.account_task cpuid).task_counts = e.task_counts := by
  have h := set_getD_self 0 e.task_counts cpuid
  simp only [List.getD_eq_getElem?_getD] at h
  unfold sim_thread_engine.account_task assign_post_increment
  by_cases hb : 0 < e.taskbudget
  · by_cases hc : e.taskcount + 1 > e.taskbudget
    · simp [hb, hc, h]
    · simp [hb, hc, h]
  · simp [hb, h]

theorem check_abort_counts (e : sim_thread_engine) (cpuid : Nat) (t : engine_tick) :
    (e.check_abort cpuid t).task_counts = e.task_counts := by
  simp only [sim_thread_engine.check_abort]
  split_ifs <;> rfl

theorem run_next_task_counts (cpuid : Nat) (ticks : List engine_tick) :
    ∀ e : sim_thread_engine, (e.run_next_task cpuid ticks).engine.task_counts = e.task_counts := by
  induction ticks with
  | nil => intro e; rfl
  | cons t ts ih =>
    intro e
    rw [run_next_task_cons]
    split
    · exact check_abort_counts e cpuid t
    · split
      · simp only; rw [ih, check_abort_counts]
      · exact check_abort_counts e cpuid t
      · split
        · exact check_abort_counts e cpuid t
        · split
          · exact check_abort_counts e cpuid t
          · simp only; rw [account_task_counts, check_abort_counts]
      · simp only; rw [ih, check_abort_counts]

theorem exit_status_counts (e : sim_thread_engine) :
    e.exit_status.1.task_counts = e.task_counts := by
  simp only [sim_thread_engine.exit_status]
  split_ifs <;> rfl

theorem start_loop_counts (pick : Nat → Nat) (fuel : Nat) :
    ∀ (i : Nat) (e : sim_thread_engine) (ticks : List engine_tick),
      (sim_thread_engine.start_loop pick fuel i e ticks).engine.task_counts = e.task_counts := by
  induction fuel with
  | zero => intro i e ticks; rfl
  | succ fuel ih =>
    intro i e ticks
    rw [start_loop_succ]
    split
    · exact run_next_task_counts _ _ _
    · exact run_next_task_counts _ _ _
    · simp only; rw [exit_status_counts, run_next_task_counts]
    · simp only; rw [ih, run_next_task_counts]

theorem foldl_add_replicate_zero (n : Nat) :
    (List.replicate n 0).foldl (fun total_updates tc => total_updates + tc) 0 = 0 := by
  induction n with
  | zero => rfl
  | succ n ih => simpa [List.replicate_succ] using ih

/-- C18, the code at the failing input: the statement
`task_counts[cpuid] = task_counts[cpuid]++;` leaves every element of `task_counts` as
it was, so after any run of a newly constructed engine `last_update_count()` returns
0; in the run where the scheduler hands out one task and then answers `COMPLETE` the
update function is invoked once and `last_update_count()` is still 0. -/
theorem last_update_count_stays_zero :
    (∀ (ncpus : Nat) (pick : Nat → Nat) (ticks : List engine_tick),
      ((sim_thread_engine.init ncpus).start pick ticks).engine.last_update_count = 0) ∧
    executed_tasks ((sim_thread_engine.init 1).start (fun _ => 0)
      [quiet_tick sched_status.NEWTASK ⟨3, 9⟩, quiet_tick sched_status.COMPLETE ⟨3, 9⟩]).events
      = 1 ∧
    ((sim_thread_engine.init 1).start (fun _ => 0)
      [quiet_tick sched_status.NEWTASK ⟨3, 9⟩, quiet_tick sched_status.COMPLETE ⟨3, 9⟩]).result
      = start_result.returned exec_status.EXEC_COMPLETED ∧
    ((sim_thread_engine.init 1).start (fun _ => 0)
      [quiet_tick sched_status.NEWTASK ⟨3, 9⟩,
        quiet_tick sched_status.COMPLETE ⟨3, 9⟩]).engine.last_update_count = 0 := by
  refine ⟨?_, by decide, by decide, by decide⟩
  intro ncpus pick ticks
  unfold sim_thread_engine.last_update_count sim_thread_engine.start
  rw [start_loop_counts]
  exact foldl_add_replicate_zero ncpus

/-! ### C19: exactly-once completion -/

theorem completed_tasks_polls (cpuid : Nat) (l : List engine_tick) :
    completed_tasks (l.map (fun u => engine_event.get_next_task cpuid u.stat)) = 0 := by
  simp [completed_tasks]

/-- Every call of `run_next_task`, read backwards: its events are `get_next_task` calls,
one per consumed answer, followed by the five events of one task exactly when the
call returns true, in which case the last answer was `NEWTASK` with a function and a
scope; a call that stops at an `assert` had `NEWTASK` as its last answer, without a
function or without a scope, and did nothing after the `get_scope` call at most. -/
theorem run_next_task_shape (cpuid : Nat) (ticks : List engine_tick) :
    ∀ e : sim_thread_engine,
      ((e.run_next_task cpuid ticks).result = run_result.returned true →
        ∃ (pre : List engine_tick) (t : engine_tick),
          ticks = pre ++ t :: (e.run_next_task cpuid ticks).rest ∧
          t.stat = sched_status.NEWTASK ∧ t.task.function ≠ 0 ∧ t.scope ≠ 0 ∧
          (∀ u ∈ pre, u.stat = sched_status.EMPTY ∨ u.stat = sched_status.WAITING) ∧
          (e.run_next_task cpuid ticks).events =
            pre.map (fun u => engine_event.get_next_task cpuid u.stat) ++
              engine_event.get_next_task cpuid sched_status.NEWTASK ::
                task_events cpuid t.task) ∧
      ((e.run_next_task cpuid ticks).result ≠ run_result.returned true →
        (e.run_next_task cpuid ticks).result ≠ run_result.assertion_failed →
        ∀ ev ∈ (e.run_next_task cpuid ticks).events,
          ∃ stat, ev = engine_event.get_next_task cpuid stat) ∧
      ((e.run_next_task cpuid ticks).result = run_result.assertion_failed →
        ∃ (pre : List engine_tick) (t : engine_tick),
          ticks = pre ++ t :: (e.run_next_task cpuid ticks).rest ∧
          t.stat = sched_status.NEWTASK ∧ (t.task.function = 0 ∨ t.scope = 0) ∧
          (∀ u ∈ pre, u.stat = sched_status.EMPTY ∨ u.stat = sched_status.WAITING) ∧
          (e.run_next_task cpuid ticks).events =
            pre.map (fun u => engine_event.get_next_task cpuid u.stat) ++
              (if t.task.function = 0 then
                [engine_event.get_next_task cpuid sched_status.NEWTASK]
              else [engine_event.get_next_task cpuid sched_status.NEWTASK,
                engine_event.get_scope cpuid t.task.vertex])) := by
  induction ticks with
  | nil =>
    intro e
    simp [sim_thread_engine.run_next_task]
  | cons t ts ih =>
    intro e
    rw [run_next_task_cons]
    by_cases hflag : ((e.check_abort cpuid t).aborted ||
        (e.check_abort cpuid t).terminatoraborted) = true
    · rw [if_pos hflag]
      simp
    · rw [if_neg hflag]
      obtain ⟨ih1, ih2, ih3⟩ := ih (e.check_abort cpuid t)
      cases hs : t.stat with
      | NEWTASK =>
        simp only
        by_cases hf : t.task.function = 0
        · rw [if_pos hf]
          refine ⟨fun h => (by cases h), fun _ h => absurd rfl h, fun _ => ?_⟩
          exact ⟨[], t, rfl, hs, Or.inl hf, by simp, by simp [hf]⟩
        · rw [if_neg hf]
          by_cases hsc : t.scope = 0
          · rw [if_pos hsc]
            refine ⟨fun h => (by cases h), fun _ h => absurd rfl h, fun _ => ?_⟩
            exact ⟨[], t, rfl, hs, Or.inr hsc, by simp, by simp [hf]⟩
          · rw [if_neg hsc]
            exact ⟨fun _ => ⟨[], t, rfl, hs, hf, hsc, by simp, by simp⟩,
              fun h => absurd rfl h, fun h => (by cases h)⟩
      | COMPLETE => simp
      | EMPTY =>
        simp only
        refine ⟨?_, ?_, ?_⟩
        · intro h
          obtain ⟨pre, t1, e1, e2, e3, e3b, e4, e5⟩ := ih1 h
          refine ⟨t :: pre, t1, by rw [List.cons_append, ← e1], e2, e3, e3b, ?_, ?_⟩
          · intro u hu
            rcases List.mem_cons.mp hu with hu | hu
            · rw [hu]; exact Or.inl hs
            · exact e4 u hu
          · rw [e5, List.map_cons, hs, List.cons_append]
        · intro h h0 ev hev
          rcases List.mem_cons.mp hev with hev | hev
          · exact ⟨_, hev⟩
          · exact ih2 h h0 ev hev
        · intro h
          obtain ⟨pre, t1, e1, e2, e3, e4, e5⟩ := ih3 h
          refine ⟨t :: pre, t1, by rw [List.cons_append, ← e1], e2, e3, ?_, ?_⟩
          · intro u hu
            rcases List.mem_cons.mp hu with hu | hu
            · rw [hu]; exact Or.inl hs
            · exact e4 u hu
          · rw [e5, List.map_cons, hs, List.cons_append]
      | WAITING =>
        simp only
        refine ⟨?_, ?_, ?_⟩
        · intro h
          obtain ⟨pre, t1, e1, e2, e3, e3b, e4, e5⟩ := ih1 h
          refine ⟨t :: pre, t1, by rw [List.cons_append, ← e1], e2, e3, e3b, ?_, ?_⟩
          · intro u hu
            rcases List.mem_cons.mp hu with hu | hu
            · rw [hu]; exact Or.inr hs
            · exact e4 u hu
          · rw [e5, List.map_cons, hs, List.cons_append]
        · intro h h0 ev hev
          rcases List.mem_cons.mp hev with hev | hev
          · exact ⟨_, hev⟩
          · exact ih2 h h0 ev hev
        · intro h
          obtain ⟨pre, t1, e1, e2, e3, e4, e5⟩ := ih3 h
          refine ⟨t :: pre, t1, by rw [List.cons_append, ← e1], e2, e3, ?_, ?_⟩
          · intro u hu
            rcases List.mem_cons.mp hu with hu | hu
            · rw [hu]; exact Or.inr hs
            · exact e4 u hu
          · rw [e5, List.map_cons, hs, List.cons_append]

theorem executed_tasks_polls (cpuid : Nat) (l : List engine_tick) :
    executed_tasks (l.map (fun u => engine_event.get_next_task cpuid u.stat)) = 0 := by
  simp [executed_tasks]

/-- C19: exactly-once completion in `run_next_task`, for any engine state, worker,
scheduler and scope manager.  First part: when the loop, after iterations that set no
abort flag and in which the scheduler answered `EMPTY` or `WAITING`, reaches a
`get_next_task` call that returns `NEWTASK` with a task `t`, and both asserts of the
branch pass (the task carries a function and `get_scope` returns a scope), the engine
performs `get_scope(cpuid, t.vertex())`, the update function, `commit`,
`release_scope` and `completed_task(cpuid, t)`, in this order and each once, and
returns true.  Second part: a call that returns true did exactly that for its last
answer, which was `NEWTASK`.  Third part: a call that does not return true ran no
update function and called `completed_task` for no answer; unless it stopped at an
assert (it returned false after an abort or `COMPLETE`, or is still looping over
`EMPTY` and `WAITING`) it made only `get_next_task` calls.  Fourth part: a call
stopped at an assert had `NEWTASK` as its last answer, with a task without function
or with no scope, and after that `get_next_task` call it did nothing, or only the
`get_scope` call.  Fifth part: `completed_task` is never called more than once in a
call. -/
theorem run_next_task_completes_once (e : sim_thread_engine) (cpuid : Nat) :
    (∀ (pre : List engine_tick) (t : engine_tick) (post : List engine_tick),
      (∀ u ∈ pre, (e.check_abort cpuid u).aborted = false ∧
        (e.check_abort cpuid u).terminatoraborted = false ∧
        (u.stat = sched_status.EMPTY ∨ u.stat = sched_status.WAITING)) →
      (e.check_abort cpuid t).aborted = false →
      (e.check_abort cpuid t).terminatoraborted = false →
      t.stat = sched_status.NEWTASK → t.task.function ≠ 0 → t.scope ≠ 0 →
      (e.run_next_task cpuid (pre ++ t :: post)).result = run_result.returned true ∧
      (e.run_next_task cpuid (pre ++ t :: post)).events =
        pre.map (fun u => engine_event.get_next_task cpuid u.stat) ++
          [engine_event.get_next_task cpuid sched_status.NEWTASK,
            engine_event.get_scope cpuid t.task.vertex, engine_event.update_function t.task,
            engine_event.commit, engine_event.release_scope,
            engine_event.completed_task cpuid t.task] ∧
      completed_tasks (e.run_next_task cpuid (pre ++ t :: post)).events = 1) ∧
    (∀ ticks : List engine_tick,
      (e.run_next_task cpuid ticks).result = run_result.returned true →
      ∃ (pre : List engine_tick) (t : engine_tick),
        ticks = pre ++ t :: (e.run_next_task cpuid ticks).rest ∧
        t.stat = sched_status.NEWTASK ∧
        (∀ u ∈ pre, u.stat = sched_status.EMPTY ∨ u.stat = sched_status.WAITING) ∧
        (e.run_next_task cpuid ticks).events =
          pre.map (fun u => engine_event.get_next_task cpuid u.stat) ++
            [engine_event.get_next_task cpuid sched_status.NEWTASK,
              engine_event.get_scope cpuid t.task.vertex, engine_event.update_function t.task,
              engine_event.commit, engine_event.release_scope,
              engine_event.completed_task cpuid t.task]) ∧
    (∀ ticks : List engine_tick,
      (e.run_next_task cpuid ticks).result ≠ run_result.returned true →
      completed_tasks (e.run_next_task cpuid ticks).events = 0 ∧
      executed_tasks (e.run_next_task cpuid ticks).events = 0 ∧
      ((e.run_next_task cpuid ticks).result ≠ run_result.assertion_failed →
        ∀ ev ∈ (e.run_next_task cpuid ticks).events,
          ∃ stat, ev = engine_event.get_next_task cpuid stat)) ∧
    (∀ ticks : List engine_tick,
      (e.run_next_task cpuid ticks).result = run_result.assertion_failed →
      ∃ (pre : List engine_tick) (t : engine_tick),
        ticks = pre ++ t :: (e.run_next_task cpuid ticks).rest ∧
        t.stat = sched_status.NEWTASK ∧ (t.task.function = 0 ∨ t.scope = 0) ∧
        (∀ u ∈ pre, u.stat = sched_status.EMPTY ∨ u.stat = sched_status.WAITING) ∧
        (e.run_next_task cpuid ticks).events =
          pre.map (fun u => engine_event.get_next_task cpuid u.stat) ++
            (if t.task.function = 0 then
              [engine_event.get_next_task cpuid sched_status.NEWTASK]
            else [engine_event.get_next_task cpuid sched_status.NEWTASK,
              engine_event.get_scope cpuid t.task.vertex])) ∧
    (∀ ticks : List engine_tick,
      completed_tasks (e.run_next_task cpuid ticks).events ≤ 1) := by
  have hthird : ∀ ticks : List engine_tick,
      (e.run_next_task cpuid ticks).result ≠ run_result.returned true →
      completed_tasks (e.run_next_task cpuid ticks).events = 0 ∧
      executed_tasks (e.run_next_task cpuid ticks).events = 0 ∧
      ((e.run_next_task cpuid ticks).result ≠ run_result.assertion_failed →
        ∀ ev ∈ (e.run_next_task cpuid ticks).events,
          ∃ stat, ev = engine_event.get_next_task cpuid stat) := by
    intro ticks h
    obtain ⟨_, h2, h3⟩ := run_next_task_shape cpuid ticks e
    by_cases hfail : (e.run_next_task cpuid ticks).result = run_result.assertion_failed
    · obtain ⟨pre, t, _, _, _, _, e5⟩ := h3 hfail
      refine ⟨?_, ?_, fun h0 => absurd hfail h0⟩
      · rw [e5]
        unfold completed_tasks
        rw [List.countP_append]
        have := completed_tasks_polls cpuid pre
        unfold completed_tasks at this
        rw [this]
        split_ifs <;> simp
      · rw [e5]
        unfold executed_tasks
        rw [List.countP_append]
        have := executed_tasks_polls cpuid pre
        unfold executed_tasks at this
        rw [this]
        split_ifs <;> simp
    · have h4 := h2 h hfail
      refine ⟨?_, ?_, fun _ => h4⟩
      · unfold completed_tasks
        rw [List.countP_eq_zero]
        intro ev hev
        obtain ⟨stat, hst⟩ := h4 ev hev
        rw [hst]
        simp
      · unfold executed_tasks
        rw [List.countP_eq_zero]
        intro ev hev
        obtain ⟨stat, hst⟩ := h4 ev hev
        rw [hst]
        simp
  have hsecond : ∀ ticks : List engine_tick,
      (e.run_next_task cpuid ticks).result = run_result.returned true →
      ∃ (pre : List engine_tick) (t : engine_tick),
        ticks = pre ++ t :: (e.run_next_task cpuid ticks).rest ∧
        t.stat = sched_status.NEWTASK ∧
        (∀ u ∈ pre, u.stat = sched_status.EMPTY ∨ u.stat = sched_status.WAITING) ∧
        (e.run_next_task cpuid ticks).events =
          pre.map (fun u => engine_event.get_next_task cpuid u.stat) ++
            [engine_event.get_next_task cpuid sched_status.NEWTASK,
              engine_event.get_scope cpuid t.task.vertex, engine_event.update_function t.task,
              engine_event.commit, engine_event.release_scope,
              engine_event.completed_task cpuid t.task] := by
    intro ticks h
    obtain ⟨pre, t, e1, e2, _, _, e4, e5⟩ := (run_next_task_shape cpuid ticks e).1 h
    exact ⟨pre, t, e1, e2, e4, e5⟩
  refine ⟨?_, hsecond, hthird, fun ticks => (run_next_task_shape cpuid ticks e).2.2, ?_⟩
  · intro pre t post hpre ha ht hs hf hsc
    obtain ⟨_, i2, i3, _⟩ := run_next_task_polls e cpuid pre (t :: post) hpre
    have he := check_abort_eq_of_clear e cpuid t ha ht
    have hrun : e.run_next_task cpuid (t :: post) =
        { engine := e.account_task cpuid, result := run_result.returned true,
          events := engine_event.get_next_task cpuid sched_status.NEWTASK ::
            task_events cpuid t.task,
          rest := post } := by
      rw [run_next_task_cons, he]
      rw [he] at ha ht
      simp [ha, ht, hs, hf, hsc]
    rw [i2, i3, hrun]
    refine ⟨rfl, rfl, ?_⟩
    simp [completed_tasks, task_events]
  · intro ticks
    by_cases h : (e.run_next_task cpuid ticks).result = run_result.returned true
    · obtain ⟨pre, t, _, _, _, e5⟩ := hsecond ticks h
      rw [e5]
      simp [completed_tasks]
    · rw [(hthird ticks h).1]
      omega

/-- C19, witness: the scheduler answers `EMPTY`, `WAITING`, then `NEWTASK` with the task
(vertex 3, function 9) to worker 2, and a scope is available. -/
theorem run_next_task_completes_once_witness :
    ((sim_thread_engine.init 4).run_next_task 2
        ([quiet_tick sched_status.EMPTY ⟨0, 0⟩, quiet_tick sched_status.WAITING ⟨0, 0⟩] ++
          quiet_tick sched_status.NEWTASK ⟨3, 9⟩ :: [])).result = run_result.returned true ∧
      ((sim_thread_engine.init 4).run_next_task 2
        ([quiet_tick sched_status.EMPTY ⟨0, 0⟩, quiet_tick sched_status.WAITING ⟨0, 0⟩] ++
          quiet_tick sched_status.NEWTASK ⟨3, 9⟩ :: [])).events =
        [engine_event.get_next_task 2 sched_status.EMPTY,
          engine_event.get_next_task 2 sched_status.WAITING,
          engine_event.get_next_task 2 sched_status.NEWTASK,
          engine_event.get_scope 2 3, engine_event.update_function ⟨3, 9⟩,
          engine_event.commit, engine_event.release_scope,
          engine_event.completed_task 2 ⟨3, 9⟩] ∧
      completed_tasks ((sim_thread_engine.init 4).run_next_task 2
        ([quiet_tick sched_status.EMPTY ⟨0, 0⟩, quiet_tick sched_status.WAITING ⟨0, 0⟩] ++
          quiet_tick sched_status.NEWTASK ⟨3, 9⟩ :: [])).events = 1 :=
  (run_next_task_completes_once (sim_thread_engine.init 4) 2).1
    [quiet_tick sched_status.EMPTY ⟨0, 0⟩, quiet_tick sched_status.WAITING ⟨0, 0⟩]
    (quiet_tick sched_status.NEWTASK ⟨3, 9⟩) [] (by decide) (by decide) (by decide) rfl
    (by decide) (by decide)

/-! ### C20: control packets and the call counters -/

/-- A flag word that includes `CONTROL_PACKET` has the control bit set. -/
theorem or_control_and_control (a c : Nat) (hc : c ≠ 0) : ¬ ((a ||| c) &&& c = 0) := by
  have h : (a ||| c) &&& c = c := by
    apply Nat.eq_of_testBit_eq
    intro i
    simp only [Nat.testBit_and, Nat.testBit_or]
    cases a.testBit i <;> cases c.testBit i <;> rfl
  rw [h]
  exact hc

theorem rpc_interface_counted (o : dc_dist_object) (pf : packet_flags) (flags target : Nat)
    (ht : target < o.senders_size) (hflags : flags &&& pf.CONTROL_PACKET = 0) :
    o.rpc_interface pf flags target = some o.inc_calls_sent := by
  simp [dc_dist_object.rpc_interface, ht, hflags]

theorem rpc_interface_control (o : dc_dist_object) (pf : packet_flags) (flags target : Nat)
    (ht : target < o.senders_size) (hflags : ¬ (flags &&& pf.CONTROL_PACKET = 0)) :
    o.rpc_interface pf flags target = some o := by
  simp [dc_dist_object.rpc_interface, ht, hflags]

theorem request_interface_counted (o : dc_dist_object) (pf : packet_flags) (flags target : Nat)
    (ht : target < o.senders_size) (hflags : flags &&& pf.CONTROL_PACKET = 0) :
    o.request_interface pf flags target = some o.inc_calls_sent := by
  simp [dc_dist_object.request_interface, ht, hflags]

theorem request_interface_control (o : dc_dist_object) (pf : packet_flags)
    (flags target : Nat) (ht : target < o.senders_size)
    (hflags : ¬ (flags &&& pf.CONTROL_PACKET = 0)) :
    o.request_interface pf flags target = some o := by
  simp [dc_dist_object.request_interface, ht, hflags]

/-- With data in the slot of `source`, `recv_from` returns the data and the object with a
cleared slot, counted unless `control`. -/
theorem recv_from_data (o : dc_dist_object) (source : Nat) (slot : recv_from_struct)
    (control : Bool) (hslot : o.recv_froms[source]? = some slot) (hdata : slot.hasdata = true) :
    o.recv_from source control =
      some (if control = false then
          (dc_dist_object.mk o.senders_size o.callsreceived o.callssent
            (o.recv_froms.set source ⟨[], slot.tag, false⟩)).inc_calls_received.inc_calls_sent
        else
          dc_dist_object.mk o.senders_size o.callsreceived o.callssent
            (o.recv_froms.set source ⟨[], slot.tag, false⟩), slot.data) := by
  simp only [dc_dist_object.recv_from, hslot, hdata]
  rfl

/-- C20: control packets are not counted.  The flag constants are parameters, about
which only this is assumed: `CONTROL_PACKET` is a non-zero flag and neither
`STANDARD_CALL` nor `FAST_CALL` shares a bit with it.  For a target that passes the
`ASSERT_LT`, each of `remote_call`, `fast_remote_call`, `remote_request` and
`fast_remote_request` returns with `calls_sent` one larger and `calls_received`
unchanged; `control_call` and `control_request` return with the object unchanged.
`send_to` returns once the receiver has replied, and `recv_from` once the slot of the
source has data; whenever they return, with `control = true` both counters are
unchanged, and with `control = false` both counters are one larger. -/
theorem control_packets_not_counted (pf : packet_flags) (o : dc_dist_object)
    (hs : pf.STANDARD_CALL &&& pf.CONTROL_PACKET = 0)
    (hf : pf.FAST_CALL &&& pf.CONTROL_PACKET = 0)
    (hc : pf.CONTROL_PACKET ≠ 0) :
    (∀ target, target < o.senders_size →
      ∀ call ∈ [dc_dist_object.remote_call, dc_dist_object.fast_remote_call,
          dc_dist_object.remote_request, dc_dist_object.fast_remote_request],
        ∃ o1, call o pf target = some o1 ∧ o1.calls_sent = o.calls_sent + 1 ∧
          o1.calls_received = o.calls_received) ∧
    (∀ target, target < o.senders_size →
      o.control_call pf target = some o ∧ o.control_request pf target = some o) ∧
    (o.send_to true true = some o ∧
      (∀ replied o1, o.send_to true replied = some o1 → o1 = o)) ∧
    ((∃ o1, o.send_to false true = some o1) ∧
      (∀ replied o1, o.send_to false replied = some o1 →
        o1.calls_sent = o.calls_sent + 1 ∧ o1.calls_received = o.calls_received + 1)) ∧
    (∀ source slot, o.recv_froms[source]? = some slot → slot.hasdata = true →
      (∃ o1, o.recv_from source true = some (o1, slot.data) ∧
        o1.calls_sent = o.calls_sent ∧ o1.calls_received = o.calls_received) ∧
      (∃ o1, o.recv_from source false = some (o1, slot.data) ∧
        o1.calls_sent = o.calls_sent + 1 ∧ o1.calls_received = o.calls_received + 1)) ∧
    (∀ source control o1 data, o.recv_from source control = some (o1, data) →
      (control = true → o1.calls_sent = o.calls_sent ∧
        o1.calls_received = o.calls_received) ∧
      (control = false → o1.calls_sent = o.calls_sent + 1 ∧
        o1.calls_received = o.calls_received + 1)) := by
  have hfc := or_control_and_control pf.FAST_CALL pf.CONTROL_PACKET hc
  refine ⟨?_, ?_, ?_, ?_, ?_, ?_⟩
  · intro target ht call hcall
    simp only [List.mem_cons, List.mem_singleton, List.not_mem_nil, or_false] at hcall
    rcases hcall with h | h | h | h <;> subst h
    · exact ⟨_, rpc_interface_counted o pf _ target ht hs, rfl, rfl⟩
    · exact ⟨_, rpc_interface_counted o pf _ target ht hf, rfl, rfl⟩
    · exact ⟨_, request_interface_counted o pf _ target ht hs, rfl, rfl⟩
    · exact ⟨_, request_interface_counted o pf _ target ht hf, rfl, rfl⟩
  · intro target ht
    exact ⟨rpc_interface_control o pf _ target ht hfc,
      request_interface_control o pf _ target ht hfc⟩
  · refine ⟨rfl, ?_⟩
    intro replied o1 h
    cases replied with
    | false => simp [dc_dist_object.send_to] at h
    | true =>
      simp only [dc_dist_object.send_to] at h
      simpa using h.symm
  · refine ⟨⟨_, rfl⟩, ?_⟩
    intro replied o1 h
    cases replied with
    | false => simp [dc_dist_object.send_to] at h
    | true =>
      simp only [dc_dist_object.send_to] at h
      have h1 : o1 = o.inc_calls_sent.inc_calls_received := by simpa using h.symm
      rw [h1]
      exact ⟨rfl, rfl⟩
  · intro source slot hslot hdata
    constructor
    · refine ⟨_, recv_from_data o source slot true hslot hdata, rfl, rfl⟩
    · refine ⟨_, recv_from_data o source slot false hslot hdata, rfl, rfl⟩
  · intro source control o1 data h
    simp only [dc_dist_object.recv_from] at h
    cases hslot : o.recv_froms[source]? with
    | none => rw [hslot] at h; simp at h
    | some slot =>
      rw [hslot] at h
      simp only at h
      by_cases hd : slot.hasdata = true
      · rw [if_pos hd] at h
        have h1 := (Prod.mk.inj (Option.some.inj h)).1
        constructor
        · intro hcontrol
          subst hcontrol
          simp only [Bool.true_eq_false, if_false] at h1
          rw [← h1]
          exact ⟨rfl, rfl⟩
        · intro hcontrol
          subst hcontrol
          simp only [if_true] at h1
          rw [← h1]
          exact ⟨rfl, rfl⟩
      · rw [if_neg hd] at h
        simp at h

/-- C20, witness: the flags 1, 2 and 16 on an object of a two-process control plane
that has sent 5 and received 7 calls. -/
theorem control_packets_not_counted_witness :
    (dc_dist_object.mk 2 7 5 [⟨[], 0, false⟩, ⟨[4, 2], 9, true⟩]).remote_call ⟨1, 2, 16⟩ 1 =
        some (dc_dist_object.mk 2 7 6 [⟨[], 0, false⟩, ⟨[4, 2], 9, true⟩]) ∧
      (dc_dist_object.mk 2 7 5 [⟨[], 0, false⟩, ⟨[4, 2], 9, true⟩]).control_call ⟨1, 2, 16⟩ 1 =
        some (dc_dist_object.mk 2 7 5 [⟨[], 0, false⟩, ⟨[4, 2], 9, true⟩]) ∧
      (dc_dist_object.mk 2 7 5 [⟨[], 0, false⟩, ⟨[4, 2], 9, true⟩]).control_request
          ⟨1, 2, 16⟩ 1 =
        some (dc_dist_object.mk 2 7 5 [⟨[], 0, false⟩, ⟨[4, 2], 9, true⟩]) :=
  ⟨by decide,
    (control_packets_not_counted ⟨1, 2, 16⟩
      (dc_dist_object.mk 2 7 5 [⟨[], 0, false⟩, ⟨[4, 2], 9, true⟩])
      (by decide) (by decide) (by decide)).2.1 1 (by decide)⟩

/-! ### colored_scheduler: one call -/

theorem getD_set_of_lt {α : Type} (l : List α) (i j : Nat) (a d : α) (h : i < l.length) :
    (l.set i a).getD j d = if j = i then a else l.getD j d := by
  rw [List.getD_eq_getElem?_getD, List.getD_eq_getElem?_getD, List.getElem?_set]
  by_cases hji : j = i
  · subst hji
    simp [h]
  · have hij : ¬ i = j := fun e => hji e.symm
    simp [hji, hij]

theorem getD_set_ne {α : Type} (l : List α) (i j : Nat) (a d : α) (h : j ≠ i) :
    (l.set i a).getD j d = l.getD j d := by
  rw [List.getD_eq_getElem?_getD, List.getD_eq_getElem?_getD, List.getElem?_set]
  have hij : ¬ i = j := fun e => h e.symm
  simp [hij]

theorem getD_set_self {α : Type} (l : List α) (i : Nat) (a d : α) (h : i < l.length) :
    (l.set i a).getD i d = a := by
  rw [getD_set_of_lt l i i a d h, if_pos rfl]

/-- The call of a worker that is not waiting on the current colour continues with
`serve` on the state in which the worker has taken over the colour or moved on. -/
theorem get_next_task_eq_serve (s : colored_scheduler) (c : Nat)
    (hlen : ¬ s.cpu_index.length ≤ c)
    (hA : ¬ (s.cpu_waiting.getD c false = true ∧ s.cpu_color.getD c 0 = s.color)) :
    s.get_next_task c =
      colored_scheduler.serve
        (if s.cpu_waiting.getD c false = true then
          { s with
            cpu_color := s.cpu_color.set c s.color,
            cpu_index := s.cpu_index.set c c,
            cpu_waiting := s.cpu_waiting.set c false }
        else
          { s with
            cpu_index := s.cpu_index.set c (s.cpu_index.getD c 0 + s.cpu_index.length) }) c := by
  simp only [colored_scheduler.get_next_task, colored_scheduler.serve]
  rw [if_neg hlen, if_neg hA]

theorem sched_frame_trans (n : Nat) (s s1 s2 : colored_scheduler) (c : Nat)
    (h1 : sched_frame n s s1 c) (h2 : sched_frame n s1 s2 c) : sched_frame n s s2 c := by
  obtain ⟨a1, a2, a3, _, _, _, a7⟩ := h1
  obtain ⟨b1, b2, b3, b4, b5, b6, b7⟩ := h2
  refine ⟨b1.trans a1, b2.trans a2, b3.trans a3, b4, b5, b6, ?_⟩
  intro w hw
  obtain ⟨x1, x2, x3⟩ := a7 w hw
  obtain ⟨y1, y2, y3⟩ := b7 w hw
  exact ⟨y1.trans x1, y2.trans x2, y3.trans x3⟩

/-- The second part of a call, from a state `s1` in which the worker has taken over the
colour or moved on. -/
theorem serve_step (n : Nat) (s s1 : colored_scheduler) (c : Nat)
    (hframe : sched_frame n s s1 c) (hmoved : sched_moved n s s1 c)
    (hwt : s1.wt c = false) (hcolor : s1.color = s.color) (hwaiting : s1.waiting = s.waiting)
    (hterm : s1.terminator = s.terminator) (hb : 0 < s1.color_blocks.length) (hcn : c < n) :
    ∃ s2 stat task, s1.serve c = some (s2, stat, task) ∧ worker_step n s c s2 stat task := by
  have hb0 : ¬ s1.color_blocks.length = 0 := by omega
  obtain ⟨f1, f2, f3, f4, f5, f6, f7⟩ := hframe
  obtain ⟨m1, m2, m3⟩ := hmoved
  by_cases hT : s1.cpu_color.getD c 0 / s1.color_blocks.length ≥ s1.max_iterations
  · refine ⟨{ s1 with terminator := s1.terminator.complete }, sched_status.EMPTY, none, ?_, ?_⟩
    · simp only [colored_scheduler.serve]
      rw [if_neg hb0, if_pos hT]
    · exact worker_step.complete _ ⟨f1, f2, f3, f4, f5, f6, f7⟩ ⟨m1, m2, m3⟩ hT hwt hcolor
        hwaiting rfl
  · by_cases hN : s1.cpu_index.getD c 0 <
        (s1.color_blocks.getD (s1.cpu_color.getD c 0 % s1.color_blocks.length) []).length
    · refine ⟨s1, sched_status.NEWTASK,
        some (update_task.mk ((s1.block (s1.col c)).getD (s1.idx c) 0) s1.update_function),
        ?_, ?_⟩
      · simp only [colored_scheduler.serve]
        rw [if_neg hb0, if_neg hT, if_pos hN]
        rfl
      · exact worker_step.newtask s1 ⟨f1, f2, f3, f4, f5, f6, f7⟩ ⟨m1, m2, m3⟩
          (Nat.lt_of_not_ge hT) hN hwt hcolor hwaiting hterm
    · have hset : ∀ s2 : colored_scheduler, ∀ wv cv : Nat,
          s2 = { s1 with waiting := wv, cpu_waiting := s1.cpu_waiting.set c true,
                         color := cv } →
          sched_frame n s s2 c ∧ sched_moved n s s2 c ∧ s2.wt c = true ∧
            s2.col c = s1.col c ∧ s2.idx c = s1.idx c ∧ s2.color_blocks = s1.color_blocks ∧
            s2.max_iterations = s1.max_iterations ∧ s2.terminator = s.terminator := by
        intro s2 wv cv h2
        subst h2
        refine ⟨⟨f1, f2, f3, f4, f5, by simp [f6], ?_⟩, ⟨m1, m2, m3⟩, ?_, rfl, rfl, rfl, rfl,
          hterm⟩
        · intro w hwc
          obtain ⟨x1, x2, x3⟩ := f7 w hwc
          refine ⟨x1, x2, ?_⟩
          rw [← x3]
          simp only [colored_scheduler.wt]
          exact getD_set_ne _ _ _ _ _ hwc
        · simp only [colored_scheduler.wt]
          exact getD_set_self _ _ _ _ (by omega)
      by_cases hadv : atomic_inc s1.waiting = s1.cpu_index.length
      · obtain ⟨g1, g2, g3, g4, g5, g6, g7, g8⟩ := hset _ 0 (atomic_inc s1.color) rfl
        refine ⟨{ s1 with waiting := 0, cpu_waiting := s1.cpu_waiting.set c true,
                          color := atomic_inc s1.color }, sched_status.EMPTY, none, ?_, ?_⟩
        · simp only [colored_scheduler.serve]
          rw [if_neg hb0, if_neg hT, if_neg hN, if_pos hadv]
        · refine worker_step.advance _ g1 g2 ?_ ?_ g3 ?_ rfl ?_ g8
          · exact Nat.lt_of_not_ge hT
          · exact Nat.le_of_not_lt hN
          · simp only [atomic_inc, hcolor]
          · simp only [atomic_inc] at hadv
            omega
      · obtain ⟨g1, g2, g3, g4, g5, g6, g7, g8⟩ := hset _ (atomic_inc s1.waiting) s1.color rfl
        refine ⟨{ s1 with waiting := atomic_inc s1.waiting,
                          cpu_waiting := s1.cpu_waiting.set c true, color := s1.color },
          sched_status.EMPTY, none, ?_, ?_⟩
        · simp only [colored_scheduler.serve]
          rw [if_neg hb0, if_neg hT, if_neg hN, if_neg hadv]
        · refine worker_step.overrun _ g1 g2 ?_ ?_ g3 hcolor ?_ ?_ g8
          · exact Nat.lt_of_not_ge hT
          · exact Nat.le_of_not_lt hN
          · simp only [atomic_inc, hwaiting]
          · simp only [atomic_inc] at hadv
            omega

/-- Every `get_next_task` call by a worker of a scheduler with `n` workers and at least
one colour block returns, in one of the five ways of `worker_step`. -/
theorem get_next_task_step (n : Nat) (s : colored_scheduler) (c : Nat)
    (hi : s.cpu_index.length = n) (hc : s.cpu_color.length = n)
    (hw : s.cpu_waiting.length = n) (hb : 0 < s.color_blocks.length) (hcn : c < n) :
    ∃ s1 stat task, s.get_next_task c = some (s1, stat, task) ∧
      worker_step n s c s1 stat task := by
  have hlen : ¬ s.cpu_index.length ≤ c := by omega
  by_cases hA : s.cpu_waiting.getD c false = true ∧ s.cpu_color.getD c 0 = s.color
  · refine ⟨s, sched_status.EMPTY, none, ?_, worker_step.still_waiting hA.1 hA.2⟩
    simp only [colored_scheduler.get_next_task]
    rw [if_neg hlen, if_pos hA]
  · have hnot : s.waits_on_color c = false := by
      simp only [colored_scheduler.waits_on_color, colored_scheduler.wt, colored_scheduler.col]
      by_contra hcon
      simp only [Bool.not_eq_false, Bool.and_eq_true, decide_eq_true_eq] at hcon
      exact hA hcon
    rw [get_next_task_eq_serve s c hlen hA]
    by_cases hwt : s.cpu_waiting.getD c false = true
    · rw [if_pos hwt]
      apply serve_step n s _ c
      · refine ⟨rfl, rfl, rfl, by simp [hi], by simp [hc], by simp [hw], ?_⟩
        intro w hwc
        simp only [colored_scheduler.idx, colored_scheduler.col, colored_scheduler.wt]
        exact ⟨getD_set_ne _ _ _ _ _ hwc, getD_set_ne _ _ _ _ _ hwc, getD_set_ne _ _ _ _ _ hwc⟩
      · refine ⟨hnot, ?_, ?_⟩
        · simp only [colored_scheduler.col, colored_scheduler.wt]
          rw [getD_set_self _ _ _ _ (by omega), if_pos hwt]
        · simp only [colored_scheduler.idx, colored_scheduler.wt]
          rw [getD_set_self _ _ _ _ (by omega), if_pos hwt]
      · simp only [colored_scheduler.wt]
        exact getD_set_self _ _ _ _ (by omega)
      · rfl
      · rfl
      · rfl
      · exact hb
      · exact hcn
    · rw [if_neg hwt]
      apply serve_step n s _ c
      · refine ⟨rfl, rfl, rfl, by simp [hi], hc, hw, ?_⟩
        intro w hwc
        exact ⟨getD_set_ne _ _ _ _ _ hwc, rfl, rfl⟩
      · refine ⟨hnot, ?_, ?_⟩
        · simp only [colored_scheduler.col, colored_scheduler.wt]
          rw [if_neg hwt]
        · simp only [colored_scheduler.idx, colored_scheduler.wt]
          rw [getD_set_self _ _ _ _ (by omega), if_neg hwt, hi]
      · simp only [colored_scheduler.wt]
        simpa using hwt
      · rfl
      · rfl
      · rfl
      · exact hb
      · exact hcn

/-! ### colored_scheduler: counting and slices -/

theorem served_append_other (log : List sched_record) (e : sched_record) (k w : Nat)
    (h : ¬ (e.stat = sched_status.NEWTASK ∧ e.color = k ∧ e.cpuid = w)) :
    served (log ++ [e]) k w = served log k w := by
  simp [served, List.filterMap_append, h]

theorem served_append_newtask (log : List sched_record) (c k v f : Nat) :
    served (log ++ [⟨c, k, sched_status.NEWTASK, some ⟨v, f⟩⟩]) k c = served log k c ++ [v] := by
  simp [served, List.filterMap_append, update_task.vertex]

/-- Changing a predicate at one place `c < n` changes its count below `n` by that
place. -/
theorem countP_range_update (p q : Nat → Bool) (n c : Nat) (hc : c < n)
    (h : ∀ w, w ≠ c → q w = p w) :
    (List.range n).countP q + (if p c = true then 1 else 0) =
      (List.range n).countP p + (if q c = true then 1 else 0) := by
  induction n with
  | zero => omega
  | succ n ih =>
    rw [List.range_succ, List.countP_append, List.countP_append, List.countP_singleton,
      List.countP_singleton]
    by_cases hcn : c = n
    · subst hcn
      have hsame : (List.range c).countP q = (List.range c).countP p := by
        apply List.countP_congr
        intro w hw
        rw [h w (by have := List.mem_range.mp hw; omega)]
      rw [hsame]
      omega
    · have ih1 := ih (by omega)
      rw [h n (fun e => hcn e.symm)]
      omega

/-- When all but one of the places below `n` are counted and `c` is not, every other
place is. -/
theorem all_counted_but (p : Nat → Bool) (n c : Nat) (hc : c < n) (hpc : p c = false)
    (hcount : (List.range n).countP p + 1 = n) : ∀ w, w < n → w ≠ c → p w = true := by
  have h := countP_range_update p (fun w => if w = c then true else p w) n c hc
    (fun w hw => by simp [hw])
  simp only [hpc, if_true, Bool.false_eq_true, if_false] at h
  have hall : (List.range n).countP (fun w => if w = c then true else p w) =
      (List.range n).length := by
    rw [List.length_range]
    omega
  rw [List.countP_eq_length] at hall
  intro w hw hwc
  have := hall w (List.mem_range.mpr hw)
  simpa [hwc] using this

/-- The number of indices `w, w + n, ...` below `size`, when `w + j n` is the first of
them that reaches `size`. -/
theorem stride_count (w n size j : Nat) (hn : 0 < n) (hlo : j = 0 ∨ w + (j - 1) * n < size)
    (hhi : size ≤ w + j * n) : (size + n - 1 - w) / n = j := by
  apply Nat.div_eq_of_lt_le
  · rcases hlo with h0 | h1
    · subst h0
      omega
    · have hj : j = (j - 1) + 1 := by
        rcases j with _ | j
        · simp at h1
          omega
        · rfl
      have hm : j * n = (j - 1) * n + n := by
        conv_lhs => rw [hj, Nat.add_mul, Nat.one_mul]
      omega
  · rw [Nat.add_mul, Nat.one_mul]
    omega

theorem stride_indices_eq (w n size j : Nat) (hn : 0 < n)
    (hlo : j = 0 ∨ w + (j - 1) * n < size) (hhi : size ≤ w + j * n) :
    stride_indices w n size = (List.range j).map (fun t => w + t * n) := by
  rw [stride_indices, stride_count w n size j hn hlo hhi]

theorem stride_slice_eq (block : List Nat) (w n j : Nat) (hn : 0 < n)
    (hlo : j = 0 ∨ w + (j - 1) * n < block.length) (hhi : block.length ≤ w + j * n) :
    stride_slice block w n = (List.range j).map (fun t => block.getD (w + t * n) 0) := by
  rw [stride_slice, stride_indices_eq w n block.length j hn hlo hhi, List.map_map]
  rfl

/-! ### colored_scheduler: the invariant -/

theorem block_congr (s s1 : colored_scheduler) (h : s1.color_blocks = s.color_blocks) (k : Nat) :
    s1.block k = s.block k := by
  simp only [colored_scheduler.block, h]

/-- A worker that is not waiting on the current colour observes it after the first part
of its call. -/
theorem moved_col (n M f : Nat) (r : sched_run) (s1 : colored_scheduler) (c : Nat)
    (hinv : sched_inv n M f r) (hcn : c < n) (hmoved : sched_moved n r.sched s1 c) :
    s1.col c = r.sched.color := by
  obtain ⟨_, m2, _⟩ := hmoved
  rw [m2]
  by_cases hwt : r.sched.wt c = true
  · rw [if_pos hwt]
  · rw [if_neg hwt]
    exact hinv.working_color c hcn (by simpa using hwt)

/-- What worker `c` has been served at the current colour when its call reaches index
`c + j n`: the entries at the `j` indices before it. -/
theorem served_at_move (n M f : Nat) (r : sched_run) (s1 : colored_scheduler) (c : Nat)
    (hinv : sched_inv n M f r) (hcn : c < n) (hmoved : sched_moved n r.sched s1 c)
    (hM : r.sched.color / r.sched.color_blocks.length < M) :
    ∃ j, s1.idx c = c + j * n ∧
      (j = 0 ∨ c + (j - 1) * n < (r.sched.block r.sched.color).length) ∧
      served r.log r.sched.color c =
        (List.range j).map (fun t => (r.sched.block r.sched.color).getD (c + t * n) 0) := by
  obtain ⟨m1, _, m3⟩ := hmoved
  by_cases hwt : r.sched.wt c = true
  · refine ⟨0, ?_, Or.inl rfl, ?_⟩
    · rw [m3, if_pos hwt]
      omega
    · have hne : r.sched.col c ≠ r.sched.color := by
        intro heq
        simp [colored_scheduler.waits_on_color, hwt, heq] at m1
      rw [hinv.served_before c hcn hwt hne]
      rfl
  · have hwf : r.sched.wt c = false := by simpa using hwt
    obtain ⟨j, h1, h2, h3⟩ := hinv.served_working c hcn hwf hM
    refine ⟨j + 1, ?_, Or.inr ?_, h3⟩
    · rw [m3, if_neg hwt, h1, Nat.add_mul, Nat.one_mul]
      omega
    · rw [Nat.add_sub_cancel, ← h1]
      exact h2

theorem served_at_complete (n M f : Nat) (r : sched_run) (s1 : colored_scheduler) (c : Nat)
    (hinv : sched_inv n M f r) (hcn : c < n) (hmoved : sched_moved n r.sched s1 c)
    (hM : M ≤ r.sched.color / r.sched.color_blocks.length) :
    served r.log r.sched.color c = [] := by
  obtain ⟨m1, _, _⟩ := hmoved
  by_cases hwt : r.sched.wt c = true
  · have hne : r.sched.col c ≠ r.sched.color := by
      intro heq
      simp [colored_scheduler.waits_on_color, hwt, heq] at m1
    exact hinv.served_before c hcn hwt hne
  · exact hinv.served_complete c hcn (by simpa using hwt) hM

/-- The invariant after a call that leaves the colour counter as it is, from what the
call does to the calling worker. -/
theorem sched_inv_same_color (n M f : Nat) (r : sched_run) (s1 : colored_scheduler)
    (log1 : List sched_record) (c : Nat) (hinv : sched_inv n M f r)
    (hframe : sched_frame n r.sched s1 c) (hcolor : s1.color = r.sched.color)
    (hwaiting : s1.waiting = (List.range n).countP s1.waits_on_color)
    (hcolc : s1.wt c = false → s1.col c = s1.color)
    (hfin : s1.terminator.finished = true → M * s1.color_blocks.length ≤ s1.color)
    (hlog : ∀ e ∈ log1, e.stat = sched_status.NEWTASK →
      e.cpuid < n ∧ e.color / s1.color_blocks.length < M)
    (hserved : ∀ k w, ¬ (k = r.sched.color ∧ w = c) → served log1 k w = served r.log k w)
    (hc1 : s1.wt c = true → s1.col c ≠ s1.color → served log1 s1.color c = [])
    (hc2 : s1.wt c = true → s1.col c = s1.color →
      served log1 s1.color c = stride_slice (s1.block s1.color) c n)
    (hc3 : s1.wt c = false → s1.color / s1.color_blocks.length < M →
      ∃ j, s1.idx c = c + j * n ∧ s1.idx c < (s1.block s1.color).length ∧
        served log1 s1.color c =
          (List.range (j + 1)).map (fun t => (s1.block s1.color).getD (c + t * n) 0))
    (hc4 : s1.wt c = false → M ≤ s1.color / s1.color_blocks.length →
      served log1 s1.color c = []) :
    sched_inv n M f ⟨s1, log1⟩ := by
  obtain ⟨f1, f2, f3, f4, f5, f6, f7⟩ := hframe
  have hblock : ∀ k, s1.block k = r.sched.block k := block_congr _ _ f1
  refine
    { blocks_pos := by rw [f1]; exact hinv.blocks_pos
      max_eq := f2.trans hinv.max_eq
      func_eq := f3.trans hinv.func_eq
      len_index := f4
      len_color := f5
      len_waiting := f6
      waiting_eq := hwaiting
      working_color := ?_
      finished_color := hfin
      log_newtask := hlog
      served_later := ?_
      served_earlier := ?_
      served_before := ?_
      served_done := ?_
      served_working := ?_
      served_complete := ?_ }
  · intro w hw hwt
    by_cases hwc : w = c
    · subst hwc
      exact hcolc hwt
    · obtain ⟨_, x2, x3⟩ := f7 w hwc
      change s1.wt w = false at hwt
      change s1.col w = s1.color
      rw [x2, hcolor]
      exact hinv.working_color w hw (x3 ▸ hwt)
  · intro k w hk
    change s1.color < k at hk
    change served log1 k w = []
    rw [hserved k w (by omega)]
    exact hinv.served_later k w (by omega)
  · intro k w hw hk
    change k < s1.color at hk
    change served log1 k w = stride_slice (s1.block k) w n
    rw [hserved k w (by omega), hblock]
    exact hinv.served_earlier k w hw (by omega)
  · intro w hw hwt hne
    change s1.wt w = true at hwt
    change s1.col w ≠ s1.color at hne
    change served log1 s1.color w = []
    by_cases hwc : w = c
    · subst hwc
      exact hc1 hwt hne
    · obtain ⟨_, x2, x3⟩ := f7 w hwc
      rw [hcolor, hserved _ w (fun h => hwc h.2)]
      exact hinv.served_before w hw (x3 ▸ hwt) (by rw [← x2, ← hcolor]; exact hne)
  · intro w hw hwt heq
    change s1.wt w = true at hwt
    change s1.col w = s1.color at heq
    change served log1 s1.color w = stride_slice (s1.block s1.color) w n
    by_cases hwc : w = c
    · subst hwc
      exact hc2 hwt heq
    · obtain ⟨_, x2, x3⟩ := f7 w hwc
      rw [hcolor, hserved _ w (fun h => hwc h.2), hblock]
      exact hinv.served_done w hw (x3 ▸ hwt) (by rw [← x2, ← hcolor]; exact heq)
  · intro w hw hwt hM
    change s1.wt w = false at hwt
    change s1.color / s1.color_blocks.length < M at hM
    change ∃ j, s1.idx w = w + j * n ∧ s1.idx w < (s1.block s1.color).length ∧
      served log1 s1.color w =
        (List.range (j + 1)).map (fun t => (s1.block s1.color).getD (w + t * n) 0)
    by_cases hwc : w = c
    · subst hwc
      exact hc3 hwt hM
    · obtain ⟨x1, _, x3⟩ := f7 w hwc
      rw [hcolor, hserved _ w (fun h => hwc h.2), hblock, x1]
      rw [hcolor, f1] at hM
      exact hinv.served_working w hw (x3 ▸ hwt) hM
  · intro w hw hwt hM
    change s1.wt w = false at hwt
    change M ≤ s1.color / s1.color_blocks.length at hM
    change served log1 s1.color w = []
    by_cases hwc : w = c
    · subst hwc
      exact hc4 hwt hM
    · obtain ⟨_, _, x3⟩ := f7 w hwc
      rw [hcolor, hserved _ w (fun h => hwc h.2)]
      rw [hcolor, f1] at hM
      exact hinv.served_complete w hw (x3 ▸ hwt) hM

theorem sched_frame_refl (n M f : Nat) (r : sched_run) (c : Nat) (hinv : sched_inv n M f r) :
    sched_frame n r.sched r.sched c :=
  ⟨rfl, rfl, rfl, hinv.len_index, hinv.len_color, hinv.len_waiting, fun _ _ => ⟨rfl, rfl, rfl⟩⟩

theorem waits_on_color_other (n : Nat) (s s1 : colored_scheduler) (c : Nat)
    (hframe : sched_frame n s s1 c) (hcolor : s1.color = s.color) :
    ∀ w, w ≠ c → s1.waits_on_color w = s.waits_on_color w := by
  intro w hw
  obtain ⟨_, x2, x3⟩ := hframe.2.2.2.2.2.2 w hw
  simp only [colored_scheduler.waits_on_color, x2, x3, hcolor]

theorem log_newtask_append (n M C : Nat) (log : List sched_record) (e : sched_record)
    (h : ∀ e1 ∈ log, e1.stat = sched_status.NEWTASK → e1.cpuid < n ∧ e1.color / C < M)
    (he : e.stat = sched_status.NEWTASK → e.cpuid < n ∧ e.color / C < M) :
    ∀ e1 ∈ log ++ [e], e1.stat = sched_status.NEWTASK → e1.cpuid < n ∧ e1.color / C < M := by
  intro e1 h1 hs
  rcases List.mem_append.mp h1 with h2 | h2
  · exact h e1 h2 hs
  · rw [List.mem_singleton] at h2
    subst h2
    exact he hs

/-- What worker `c` has been served at the current colour when its call overruns the
block: its whole slice. -/
theorem served_at_overrun (n M f : Nat) (r : sched_run) (s1 : colored_scheduler) (c : Nat)
    (hinv : sched_inv n M f r) (hcn : c < n) (hframe : sched_frame n r.sched s1 c)
    (hmoved : sched_moved n r.sched s1 c)
    (hM : s1.col c / s1.color_blocks.length < s1.max_iterations)
    (hover : (s1.block (s1.col c)).length ≤ s1.idx c) :
    served r.log r.sched.color c = stride_slice (r.sched.block r.sched.color) c n := by
  have hcol := moved_col n M f r s1 c hinv hcn hmoved
  rw [hcol, hframe.1, hframe.2.1, hinv.max_eq] at hM
  rw [hcol, block_congr _ _ hframe.1] at hover
  obtain ⟨j, h1, h2, h3⟩ := served_at_move n M f r s1 c hinv hcn hmoved hM
  rw [h1] at hover
  rw [h3, stride_slice_eq _ c n j (by omega) h2 hover]

/-- The invariant is kept by every call that leaves the colour counter as it is. -/
theorem sched_inv_step_same (n M f : Nat) (r : sched_run) (c : Nat) (s1 : colored_scheduler)
    (stat : sched_status) (task : Option update_task) (hinv : sched_inv n M f r) (hcn : c < n)
    (hstep : worker_step n r.sched c s1 stat task) (hcolor : s1.color = r.sched.color) :
    sched_inv n M f ⟨s1, r.log ++ [⟨c, r.sched.color, stat, task⟩]⟩ := by
  have hn : 0 < n := by omega
  cases hstep with
  | still_waiting hwt hcol =>
    apply sched_inv_same_color n M f r r.sched _ c hinv (sched_frame_refl n M f r c hinv) rfl
      hinv.waiting_eq
    · intro h
      rw [hwt] at h
      cases h
    · exact hinv.finished_color
    · exact log_newtask_append n M _ r.log _ hinv.log_newtask (fun h => by cases h)
    · intro k w _
      exact served_append_other _ _ _ _ (fun h => by cases h.1)
    · intro _ hne
      exact absurd hcol hne
    · intro _ _
      rw [served_append_other _ _ _ _ (fun h => by cases h.1)]
      exact hinv.served_done c hcn hwt hcol
    · intro h
      rw [hwt] at h
      cases h
    · intro h
      rw [hwt] at h
      cases h
  | complete _ hframe hmoved hT hwt _ hwaiting hfin =>
    have hcol := moved_col n M f r s1 c hinv hcn hmoved
    have hT1 : M ≤ r.sched.color / r.sched.color_blocks.length := by
      rw [hcol, hframe.1, hframe.2.1, hinv.max_eq] at hT
      exact hT
    have hwc : s1.waits_on_color c = false := by
      simp [colored_scheduler.waits_on_color, hwt]
    apply sched_inv_same_color n M f r s1 _ c hinv hframe hcolor
    · have h := countP_range_update r.sched.waits_on_color s1.waits_on_color n c hcn
        (waits_on_color_other n r.sched s1 c hframe hcolor)
      rw [hmoved.1, hwc] at h
      rw [hwaiting, hinv.waiting_eq]
      simpa using h.symm
    · intro _
      rw [hcol, hcolor]
    · intro _
      rw [hcolor, hframe.1]
      exact (Nat.le_div_iff_mul_le hinv.blocks_pos).mp hT1
    · rw [hframe.1]
      exact log_newtask_append n M _ r.log _ hinv.log_newtask (fun h => by cases h)
    · intro k w _
      exact served_append_other _ _ _ _ (fun h => by cases h.1)
    · intro h
      rw [hwt] at h
      cases h
    · intro h
      rw [hwt] at h
      cases h
    · intro _ hM
      rw [hcolor, hframe.1] at hM
      omega
    · intro _ _
      rw [hcolor, served_append_other _ _ _ _ (fun h => by cases h.1)]
      exact served_at_complete n M f r s1 c hinv hcn hmoved hT1
  | newtask _ hframe hmoved hT hidx hwt _ hwaiting hterm =>
    have hcol := moved_col n M f r s1 c hinv hcn hmoved
    have hT1 : r.sched.color / r.sched.color_blocks.length < M := by
      rw [hcol, hframe.1, hframe.2.1, hinv.max_eq] at hT
      exact hT
    have hwc : s1.waits_on_color c = false := by
      simp [colored_scheduler.waits_on_color, hwt]
    obtain ⟨j, h1, _, h3⟩ := served_at_move n M f r s1 c hinv hcn hmoved hT1
    apply sched_inv_same_color n M f r s1 _ c hinv hframe hcolor
    · have h := countP_range_update r.sched.waits_on_color s1.waits_on_color n c hcn
        (waits_on_color_other n r.sched s1 c hframe hcolor)
      rw [hmoved.1, hwc] at h
      rw [hwaiting, hinv.waiting_eq]
      simpa using h.symm
    · intro _
      rw [hcol, hcolor]
    · intro hf
      rw [hcolor, hframe.1]
      exact hinv.finished_color (hterm ▸ hf)
    · rw [hframe.1]
      exact log_newtask_append n M _ r.log _ hinv.log_newtask (fun _ => ⟨hcn, hT1⟩)
    · intro k w hkw
      apply served_append_other
      intro h
      exact hkw ⟨h.2.1.symm, h.2.2.symm⟩
    · intro h
      rw [hwt] at h
      cases h
    · intro h
      rw [hwt] at h
      cases h
    · intro _ _
      refine ⟨j, h1, ?_, ?_⟩
      · rw [hcolor, ← hcol]
        exact hidx
      · rw [hcolor, served_append_newtask, h3, List.range_succ, List.map_append, hcol,
          block_congr _ _ hframe.1, h1]
        rfl
    · intro _ hM
      rw [hcolor, hframe.1] at hM
      omega
  | overrun _ hframe hmoved hT hover hwt _ hwaiting hne hterm =>
    have hcol := moved_col n M f r s1 c hinv hcn hmoved
    have hwc : s1.waits_on_color c = true := by
      simp [colored_scheduler.waits_on_color, hwt, hcol, hcolor]
    apply sched_inv_same_color n M f r s1 _ c hinv hframe hcolor
    · have h := countP_range_update r.sched.waits_on_color s1.waits_on_color n c hcn
        (waits_on_color_other n r.sched s1 c hframe hcolor)
      rw [hmoved.1, hwc] at h
      rw [hwaiting, hinv.waiting_eq]
      simpa using h.symm
    · intro h
      rw [hwt] at h
      cases h
    · intro hf
      rw [hcolor, hframe.1]
      exact hinv.finished_color (hterm ▸ hf)
    · rw [hframe.1]
      exact log_newtask_append n M _ r.log _ hinv.log_newtask (fun h => by cases h)
    · intro k w _
      exact served_append_other _ _ _ _ (fun h => by cases h.1)
    · intro _ h
      rw [hcol, hcolor] at h
      exact absurd rfl h
    · intro _ _
      rw [hcolor, served_append_other _ _ _ _ (fun h => by cases h.1),
        block_congr _ _ hframe.1]
      exact served_at_overrun n M f r s1 c hinv hcn hframe hmoved hT hover
    · intro h
      rw [hwt] at h
      cases h
    · intro h
      rw [hwt] at h
      cases h
  | advance _ _ _ _ _ _ hadv _ _ _ =>
    rw [hadv] at hcolor
    omega

/-- When the worker that overruns is the `n`-th to wait on the colour, all the others
are already waiting on it, and after the call all `n` workers are waiting with that
colour observed. -/
theorem all_waiting_at_advance (n M f : Nat) (r : sched_run) (s1 : colored_scheduler) (c : Nat)
    (hinv : sched_inv n M f r) (hcn : c < n) (hframe : sched_frame n r.sched s1 c)
    (hmoved : sched_moved n r.sched s1 c) (hwt : s1.wt c = true)
    (hnth : r.sched.waiting + 1 = n) :
    (∀ w, w < n → w ≠ c → r.sched.wt w = true ∧ r.sched.col w = r.sched.color) ∧
      (∀ w, w < n → s1.wt w = true ∧ s1.col w = r.sched.color) := by
  have hothers : ∀ w, w < n → w ≠ c → r.sched.wt w = true ∧ r.sched.col w = r.sched.color := by
    intro w hw hwc
    have h := all_counted_but r.sched.waits_on_color n c hcn hmoved.1
      (by rw [← hinv.waiting_eq]; exact hnth) w hw hwc
    simpa [colored_scheduler.waits_on_color] using h
  refine ⟨hothers, ?_⟩
  intro w hw
  by_cases hwc : w = c
  · subst hwc
    exact ⟨hwt, moved_col n M f r s1 w hinv hcn hmoved⟩
  · obtain ⟨_, x2, x3⟩ := hframe.2.2.2.2.2.2 w hwc
    rw [x2, x3]
    exact hothers w hw hwc

/-- The invariant is kept by the call that advances the colour counter. -/
theorem sched_inv_step_advance (n M f : Nat) (r : sched_run) (c : Nat) (s1 : colored_scheduler)
    (hinv : sched_inv n M f r) (hcn : c < n) (hframe : sched_frame n r.sched s1 c)
    (hmoved : sched_moved n r.sched s1 c)
    (hT : s1.col c / s1.color_blocks.length < s1.max_iterations)
    (hover : (s1.block (s1.col c)).length ≤ s1.idx c) (hwt : s1.wt c = true)
    (hcolor : s1.color = r.sched.color + 1) (hwaiting : s1.waiting = 0)
    (hnth : r.sched.waiting + 1 = n) (hterm : s1.terminator = r.sched.terminator) :
    sched_inv n M f ⟨s1, r.log ++ [⟨c, r.sched.color, sched_status.EMPTY, none⟩]⟩ := by
  obtain ⟨hothers, hall⟩ := all_waiting_at_advance n M f r s1 c hinv hcn hframe hmoved hwt hnth
  have hsame : ∀ k w, served (r.log ++ [⟨c, r.sched.color, sched_status.EMPTY, none⟩]) k w =
      served r.log k w :=
    fun k w => served_append_other _ _ _ _ (fun h => by cases h.1)
  obtain ⟨f1, f2, f3, f4, f5, f6, f7⟩ := hframe
  refine
    { blocks_pos := by rw [f1]; exact hinv.blocks_pos
      max_eq := f2.trans hinv.max_eq
      func_eq := f3.trans hinv.func_eq
      len_index := f4
      len_color := f5
      len_waiting := f6
      waiting_eq := ?_
      working_color := ?_
      finished_color := ?_
      log_newtask := ?_
      served_later := ?_
      served_earlier := ?_
      served_before := ?_
      served_done := ?_
      served_working := ?_
      served_complete := ?_ }
  · change s1.waiting = (List.range n).countP s1.waits_on_color
    rw [hwaiting, eq_comm, List.countP_eq_zero]
    intro w hw
    have h := (hall w (List.mem_range.mp hw)).2
    simp [colored_scheduler.waits_on_color, h, hcolor]
  · intro w hw h
    change s1.wt w = false at h
    rw [(hall w hw).1] at h
    cases h
  · intro hf
    change s1.terminator.finished = true at hf
    change M * s1.color_blocks.length ≤ s1.color
    rw [hcolor, f1]
    have := hinv.finished_color (hterm ▸ hf)
    omega
  · change ∀ e ∈ r.log ++ [_], e.stat = sched_status.NEWTASK →
      e.cpuid < n ∧ e.color / s1.color_blocks.length < M
    rw [f1]
    exact log_newtask_append n M _ r.log _ hinv.log_newtask (fun h => by cases h)
  · intro k w hk
    change s1.color < k at hk
    change served (r.log ++ [_]) k w = []
    rw [hsame]
    exact hinv.served_later k w (by omega)
  · intro k w hw hk
    change k < s1.color at hk
    change served (r.log ++ [_]) k w = stride_slice (s1.block k) w n
    rw [hsame, block_congr _ _ f1]
    by_cases hkc : k < r.sched.color
    · exact hinv.served_earlier k w hw hkc
    · have hk1 : k = r.sched.color := by omega
      subst hk1
      by_cases hwc : w = c
      · subst hwc
        exact served_at_overrun n M f r s1 w hinv hcn ⟨f1, f2, f3, f4, f5, f6, f7⟩ hmoved hT
          hover
      · exact hinv.served_done w hw (hothers w hw hwc).1 (hothers w hw hwc).2
  · intro w _ _ _
    change served (r.log ++ [_]) s1.color w = []
    rw [hsame]
    exact hinv.served_later _ w (by omega)
  · intro w hw _ h
    change s1.col w = s1.color at h
    rw [(hall w hw).2, hcolor] at h
    omega
  · intro w hw h
    change s1.wt w = false at h
    rw [(hall w hw).1] at h
    cases h
  · intro w hw h
    change s1.wt w = false at h
    rw [(hall w hw).1] at h
    cases h

/-- The invariant is kept by every call. -/
theorem sched_inv_step (n M f : Nat) (r : sched_run) (c : Nat) (s1 : colored_scheduler)
    (stat : sched_status) (task : Option update_task) (hinv : sched_inv n M f r) (hcn : c < n)
    (hstep : worker_step n r.sched c s1 stat task) :
    sched_inv n M f ⟨s1, r.log ++ [⟨c, r.sched.color, stat, task⟩]⟩ := by
  by_cases hcolor : s1.color = r.sched.color
  · exact sched_inv_step_same n M f r c s1 stat task hinv hcn hstep hcolor
  · cases hstep with
    | still_waiting _ _ => exact absurd rfl hcolor
    | complete _ _ _ _ _ h _ _ => exact absurd h hcolor
    | newtask _ _ _ _ _ _ h _ _ => exact absurd h hcolor
    | overrun _ _ _ _ _ _ h _ _ _ => exact absurd h hcolor
    | advance _ hframe hmoved hT hover hwt hadv hwaiting hnth hterm =>
      exact sched_inv_step_advance n M f r c s1 hinv hcn hframe hmoved hT hover hwt hadv
        hwaiting hnth hterm

/-- One call of a worker on a run that satisfies the invariant: it returns, in one of
the five ways, and the invariant holds afterwards. -/
theorem sched_run_step (n M f : Nat) (r : sched_run) (c : Nat) (hinv : sched_inv n M f r)
    (hcn : c < n) :
    ∃ s1 stat task, r.sched.get_next_task c = some (s1, stat, task) ∧
      worker_step n r.sched c s1 stat task ∧
      r.step c = some ⟨s1, r.log ++ [⟨c, r.sched.color, stat, task⟩]⟩ ∧
      sched_inv n M f ⟨s1, r.log ++ [⟨c, r.sched.color, stat, task⟩]⟩ := by
  obtain ⟨s1, stat, task, h1, h2⟩ := get_next_task_step n r.sched c hinv.len_index
    hinv.len_color hinv.len_waiting hinv.blocks_pos hcn
  refine ⟨s1, stat, task, h1, h2, ?_, sched_inv_step n M f r c s1 stat task hinv hcn h2⟩
  simp only [sched_run.step, h1]

theorem worker_step_blocks (n : Nat) (s : colored_scheduler) (c : Nat) (s1 : colored_scheduler)
    (stat : sched_status) (task : Option update_task) (hstep : worker_step n s c s1 stat task) :
    s1.color_blocks = s.color_blocks := by
  cases hstep with
  | still_waiting _ _ => rfl
  | complete _ h _ _ _ _ _ _ => exact h.1
  | newtask _ h _ _ _ _ _ _ _ => exact h.1
  | overrun _ h _ _ _ _ _ _ _ _ => exact h.1
  | advance _ h _ _ _ _ _ _ _ _ => exact h.1

/-- Every interleaving of calls by workers below `n` runs through, the invariant holds at
its end, the colour blocks are the same and the record has only grown. -/
theorem sched_run_inv (n M f : Nat) (sched : List Nat) :
    ∀ r : sched_run, sched_inv n M f r → (∀ c ∈ sched, c < n) →
      ∃ r1, r.run sched = some r1 ∧ sched_inv n M f r1 ∧
        r1.sched.color_blocks = r.sched.color_blocks ∧ ∃ extra, r1.log = r.log ++ extra := by
  induction sched with
  | nil =>
    intro r hinv _
    exact ⟨r, rfl, hinv, rfl, [], by simp⟩
  | cons c rest ih =>
    intro r hinv hc
    obtain ⟨s1, stat, task, _, h2, h3, h4⟩ := sched_run_step n M f r c hinv
      (hc c (List.mem_cons_self _ _))
    obtain ⟨r1, h5, h6, h7, extra, h8⟩ := ih _ h4 (fun x hx => hc x (List.mem_cons_of_mem _ hx))
    refine ⟨r1, ?_, h6, ?_, ⟨c, r.sched.color, stat, task⟩ :: extra, ?_⟩
    · simp only [sched_run.run, h3]
      exact h5
    · rw [h7]
      exact worker_step_blocks n r.sched c s1 stat task h2
    · rw [h8]
      simp

/-! ### colored_scheduler: construction and start -/

theorem color_blocks_push_length (blocks : List (List Nat)) (i color : Nat) :
    blocks.length ≤ (color_blocks_push blocks i color).length ∧
      color < (color_blocks_push blocks i color).length := by
  simp only [color_blocks_push]
  split_ifs with h
  · simp only [List.length_set, List.length_append, List.length_replicate]
    omega
  · simp only [List.length_set]
    omega

theorem init_color_blocks_length (colors : List Nat) :
    ∀ (i : Nat) (blocks : List (List Nat)),
      blocks.length ≤ (init_color_blocks colors i blocks).length ∧
        (colors ≠ [] → 0 < (init_color_blocks colors i blocks).length) := by
  induction colors with
  | nil =>
    intro i blocks
    exact ⟨le_refl _, fun h => absurd rfl h⟩
  | cons color rest ih =>
    intro i blocks
    obtain ⟨h1, _⟩ := ih (i + 1) (color_blocks_push blocks i color)
    obtain ⟨h3, h4⟩ := color_blocks_push_length blocks i color
    simp only [init_color_blocks]
    exact ⟨by omega, fun _ => by omega⟩

theorem sum_map_set (g : List Nat → Nat) (blocks : List (List Nat)) :
    ∀ (c : Nat) (b : List Nat), c < blocks.length →
      ((blocks.set c b).map g).sum + g (blocks.getD c []) = (blocks.map g).sum + g b := by
  induction blocks with
  | nil =>
    intro c b h
    simp at h
  | cons x xs ih =>
    intro c b h
    cases c with
    | zero =>
      simp only [List.set_cons_zero, List.map_cons, List.sum_cons, List.getD_cons_zero]
      omega
    | succ c =>
      have h1 := ih c b (by simpa using h)
      simp only [List.set_cons_succ, List.map_cons, List.sum_cons, List.getD_cons_succ]
      omega

/-- Pushing vertex `i` adds one occurrence of `i` to the blocks and nothing else. -/
theorem color_blocks_push_count (blocks : List (List Nat)) (i color v : Nat) :
    ((color_blocks_push blocks i color).map (List.count v)).sum =
      (blocks.map (List.count v)).sum + (if v = i then 1 else 0) := by
  have key : ∀ resized : List (List Nat), color < resized.length →
      ((resized.set color (resized.getD color [] ++ [i])).map (List.count v)).sum =
        (resized.map (List.count v)).sum + (if v = i then 1 else 0) := by
    intro resized h
    have h1 := sum_map_set (List.count v) resized color (resized.getD color [] ++ [i]) h
    rw [List.count_append, List.count_singleton] at h1
    have h2 : (if i = v then 1 else 0) = (if v = i then 1 else 0) := by
      by_cases hvi : v = i
      · simp [hvi]
      · have : ¬ i = v := fun e => hvi e.symm
        simp [hvi, this]
    have h3 : (if (i == v) = true then 1 else 0) = (if v = i then 1 else 0) := by
      rw [← h2]
      simp
    omega
  simp only [color_blocks_push]
  by_cases h : color ≥ blocks.length
  · rw [if_pos h, key _ (by simp only [List.length_append, List.length_replicate]; omega)]
    simp
  · rw [if_neg h]
    exact key _ (by omega)

/-- After the constructor loop every vertex of the graph occurs once in the colour
blocks, and nothing else occurs. -/
theorem init_color_blocks_count (colors : List Nat) (v : Nat) :
    ∀ (i : Nat) (blocks : List (List Nat)),
      ((init_color_blocks colors i blocks).map (List.count v)).sum =
        (blocks.map (List.count v)).sum + (if i ≤ v ∧ v < i + colors.length then 1 else 0) := by
  induction colors with
  | nil =>
    intro i blocks
    have : ¬ (i ≤ v ∧ v < i + ([] : List Nat).length) := by
      simp only [List.length_nil]
      omega
    simp only [init_color_blocks, if_neg this]
    omega
  | cons color rest ih =>
    intro i blocks
    simp only [init_color_blocks]
    rw [ih (i + 1) _, color_blocks_push_count, List.length_cons]
    by_cases h1 : v = i
    · subst h1
      have a : ¬ (v + 1 ≤ v ∧ v < v + 1 + rest.length) := by omega
      have b : v ≤ v ∧ v < v + (rest.length + 1) := by omega
      rw [if_pos rfl, if_neg a, if_pos b]
    · by_cases h2 : i + 1 ≤ v ∧ v < i + 1 + rest.length
      · have b : i ≤ v ∧ v < i + (rest.length + 1) := by omega
        rw [if_neg h1, if_pos h2, if_pos b]
      · have b : ¬ (i ≤ v ∧ v < i + (rest.length + 1)) := by omega
        rw [if_neg h1, if_neg h2, if_neg b]

theorem getD_replicate_of_lt {α : Type} (n w : Nat) (a d : α) (h : w < n) :
    (List.replicate n a).getD w d = a := by
  rw [List.getD_eq_getElem?_getD, List.getElem?_replicate]
  simp [h]

/-- The scheduler after construction, options and `start()`: it exists when an update
function was given, and with the empty record it satisfies the invariant when the
graph has a vertex. -/
theorem started_inv (colors : List Nat) (n M f : Nat) (hV : colors ≠ []) (hf : f ≠ 0) :
    ∃ s0, colored_scheduler.started colors n M f = some s0 ∧
      s0.color_blocks = init_color_blocks colors 0 [] ∧ s0.color = 0 ∧
      s0.terminator.finished = false ∧ sched_inv n M f ⟨s0, []⟩ := by
  refine ⟨{ color_blocks := init_color_blocks colors 0 [],
            cpu_index := List.range (List.replicate n 0).length,
            cpu_color := List.replicate (List.replicate n 0).length (2 ^ 64 - 1),
            cpu_waiting := List.replicate (List.replicate n 0).length true,
            max_iterations := M, update_function := f, color := 0, waiting := 0,
            terminator := { finished := false } }, ?_, ?_, ?_, ?_, ?_⟩
  · simp only [colored_scheduler.started, colored_scheduler.start,
      colored_scheduler.add_task_to_all, colored_scheduler.set_options,
      colored_scheduler.init]
    rw [if_neg hf]
  · rfl
  · rfl
  · rfl
  · have hwt : ∀ w, w < n → (List.replicate (List.replicate n 0).length true).getD w false
        = true := by
      intro w hw
      exact getD_replicate_of_lt _ _ _ _ (by simpa using hw)
    have hcol : ∀ w, w < n →
        (List.replicate (List.replicate n 0).length (2 ^ 64 - 1)).getD w 0 = 2 ^ 64 - 1 := by
      intro w hw
      exact getD_replicate_of_lt _ _ _ _ (by simpa using hw)
    refine
      { blocks_pos := (init_color_blocks_length colors 0 []).2 hV
        max_eq := rfl
        func_eq := rfl
        len_index := by simp
        len_color := by simp
        len_waiting := by simp
        waiting_eq := ?_
        working_color := ?_
        finished_color := fun h => by cases h
        log_newtask := fun e he => by cases he
        served_later := fun _ _ _ => rfl
        served_earlier := fun k w _ hk => by
          change k < 0 at hk
          omega
        served_before := fun _ _ _ _ => rfl
        served_done := ?_
        served_working := ?_
        served_complete := ?_ }
    · change 0 = _
      rw [eq_comm, List.countP_eq_zero]
      intro w hw
      have h := hcol w (List.mem_range.mp hw)
      simp only [colored_scheduler.waits_on_color, colored_scheduler.col, h]
      simp
    · intro w hw h
      change (List.replicate (List.replicate n 0).length true).getD w false = false at h
      rw [hwt w hw] at h
      cases h
    · intro w hw _ h
      change (List.replicate (List.replicate n 0).length (2 ^ 64 - 1)).getD w 0 = 0 at h
      rw [hcol w hw] at h
      simp at h
    · intro w hw h
      change (List.replicate (List.replicate n 0).length true).getD w false = false at h
      rw [hwt w hw] at h
      cases h
    · intro w hw h
      change (List.replicate (List.replicate n 0).length true).getD w false = false at h
      rw [hwt w hw] at h
      cases h

/-! ### colored_scheduler: slices partition a block -/

theorem stride_indices_mem (w n size i : Nat) (hw : w < n) :
    i ∈ stride_indices w n size ↔ i < size ∧ i % n = w := by
  have hn : 0 < n := by omega
  simp only [stride_indices, List.mem_map, List.mem_range]
  constructor
  · rintro ⟨j, hj, rfl⟩
    have h1 : (j + 1) * n ≤ size + n - 1 - w := (Nat.le_div_iff_mul_le hn).mp hj
    rw [Nat.add_mul, Nat.one_mul] at h1
    refine ⟨by omega, ?_⟩
    rw [Nat.add_mul_mod_self_right, Nat.mod_eq_of_lt hw]
  · rintro ⟨hi, rfl⟩
    refine ⟨i / n, ?_, ?_⟩
    · apply (Nat.le_div_iff_mul_le hn).mpr
      have h2 := Nat.mod_add_div i n
      have h3 : n * (i / n) = i / n * n := Nat.mul_comm _ _
      have h4 : (i / n).succ * n = i / n * n + n := Nat.succ_mul _ _
      rw [h4]
      omega
    · have h2 := Nat.mod_add_div i n
      have h3 : n * (i / n) = i / n * n := Nat.mul_comm _ _
      omega

theorem stride_indices_nodup (w n size : Nat) (hn : 0 < n) :
    (stride_indices w n size).Nodup := by
  apply List.Nodup.map _ (List.nodup_range _)
  intro a b hab
  have h : a * n = b * n := by
    simp only at hab
    omega
  exact Nat.eq_of_mul_eq_mul_right hn h

theorem stride_indices_sorted (w n size : Nat) (hn : 0 < n) :
    (stride_indices w n size).Pairwise (fun a b => a < b) := by
  simp only [stride_indices]
  rw [List.pairwise_map]
  apply List.Pairwise.imp _ (List.pairwise_lt_range _)
  intro a b hab
  have : a * n < b * n := Nat.mul_lt_mul_of_pos_right hab hn
  omega

/-- The indices of the slice of worker `w` are the indices of the block that leave the
remainder `w`, in some order. -/
theorem stride_indices_perm (w n size : Nat) (hw : w < n) :
    (stride_indices w n size).Perm ((List.range size).filter (fun i => decide (i % n = w))) := by
  rw [List.perm_ext_iff_of_nodup (stride_indices_nodup w n size (by omega))
    ((List.nodup_range size).filter _)]
  intro i
  rw [stride_indices_mem w n size i hw]
  simp [List.mem_filter]

theorem sum_range_indicator (N m x : Nat) (h : m < N) :
    ((List.range N).map (fun k => if m = k then x else 0)).sum = x := by
  induction N with
  | zero => omega
  | succ N ih =>
    rw [List.range_succ, List.map_append, List.sum_append, List.map_singleton,
      List.sum_singleton]
    by_cases hm : m = N
    · subst hm
      have hz : ((List.range m).map (fun k => if m = k then x else 0)).sum = 0 := by
        apply List.sum_eq_zero
        intro y hy
        obtain ⟨k, hk, rfl⟩ := List.mem_map.mp hy
        have := List.mem_range.mp hk
        rw [if_neg (by omega)]
      rw [hz, if_pos rfl]
      omega
    · rw [ih (by omega), if_neg hm]
      omega

/-- Counting by a key: when the key of every counted element is below `N`, the count is
the sum over the keys of the counts with that key. -/
theorem countP_eq_sum_key {α : Type} (p : α → Bool) (key : α → Nat) (N : Nat) (l : List α)
    (h : ∀ a ∈ l, p a = true → key a < N) :
    l.countP p =
      ((List.range N).map (fun k => l.countP (fun a => p a && decide (key a = k)))).sum := by
  induction l with
  | nil => simp
  | cons a l ih =>
    have ih1 := ih (fun b hb => h b (List.mem_cons_of_mem _ hb))
    have hsplit : ∀ k, (a :: l).countP (fun b => p b && decide (key b = k)) =
        l.countP (fun b => p b && decide (key b = k)) +
          (if key a = k then (if p a = true then 1 else 0) else 0) := by
      intro k
      rw [List.countP_cons]
      by_cases hk : key a = k <;> by_cases hp : p a = true <;> simp [hk, hp]
    have hfun : (fun k => (a :: l).countP (fun b => p b && decide (key b = k))) =
        (fun k => l.countP (fun b => p b && decide (key b = k)) +
          (if key a = k then (if p a = true then 1 else 0) else 0)) := funext hsplit
    rw [hfun, List.countP_cons, ih1, List.sum_map_add]
    congr 1
    by_cases hp : p a = true
    · rw [sum_range_indicator N (key a) _ (h a (List.mem_cons_self _ _) hp)]
    · simp only [if_neg hp]
      simp

theorem eq_map_getD_range {α : Type} (l : List α) (d : α) :
    l = (List.range l.length).map (fun i => l.getD i d) := by
  apply List.ext_getElem
  · simp
  · intro i h1 h2
    simp [List.getD_eq_getElem?_getD, List.getElem?_eq_getElem h1]

theorem count_eq_countP_range (b : List Nat) (v : Nat) :
    b.count v = (List.range b.length).countP (fun i => decide (b.getD i 0 = v)) := by
  conv_lhs => rw [eq_map_getD_range b 0]
  rw [List.count_eq_countP, List.countP_map]
  apply List.countP_congr
  intro i _
  simp [Function.comp]

theorem count_stride_slice (b : List Nat) (v w n : Nat) (hw : w < n) :
    (stride_slice b w n).count v =
      (List.range b.length).countP
        (fun i => decide (b.getD i 0 = v) && decide (i % n = w)) := by
  rw [stride_slice, List.count_eq_countP, List.countP_map,
    (stride_indices_perm w n b.length hw).countP_eq, List.countP_filter]
  apply List.countP_congr
  intro i _
  simp [Function.comp]

/-- The slices of the `n` workers together hold every entry of the block once. -/
theorem sum_count_stride_slice (b : List Nat) (v n : Nat) (hn : 0 < n) :
    ((List.range n).map (fun w => (stride_slice b w n).count v)).sum = b.count v := by
  rw [count_eq_countP_range, countP_eq_sum_key _ (fun i => i % n) n _
    (fun i _ _ => Nat.mod_lt i hn)]
  congr 1
  apply List.map_congr_left
  intro w hw
  exact count_stride_slice b v w n (List.mem_range.mp hw)

/-- A sum over `M` passes through `C` colours. -/
theorem sum_range_mod (g : Nat → Nat) (C M : Nat) :
    ((List.range (M * C)).map (fun k => g (k % C))).sum =
      M * ((List.range C).map g).sum := by
  induction M with
  | zero => simp
  | succ M ih =>
    rw [Nat.add_mul, Nat.one_mul, List.range_add, List.map_append, List.sum_append, ih,
      List.map_map, Nat.add_mul, Nat.one_mul]
    congr 1
    congr 1
    apply List.map_congr_left
    intro c hc
    have := List.mem_range.mp hc
    simp only [Function.comp]
    rw [Nat.mul_comm M C, Nat.mul_add_mod, Nat.mod_eq_of_lt this]

/-! ### colored_scheduler: counting the record -/

theorem count_served (log : List sched_record) (k w v : Nat) :
    (served log k w).count v =
      log.countP (fun r => ((decide (r.stat = sched_status.NEWTASK) &&
        decide (r.task.map update_task.vertex = some v)) && decide (r.color = k)) &&
        decide (r.cpuid = w)) := by
  induction log with
  | nil => rfl
  | cons r log ih =>
    rw [List.countP_cons, ← ih]
    simp only [served, List.filterMap_cons]
    by_cases hc : r.stat = sched_status.NEWTASK ∧ r.color = k ∧ r.cpuid = w
    · rw [if_pos hc]
      obtain ⟨h1, h2, h3⟩ := hc
      cases ht : r.task with
      | none => simp [h1, h2, h3]
      | some t =>
        simp only [Option.map_some', List.count_cons, h1, h2, h3, decide_True, Bool.true_and,
          Bool.and_true, Option.some.injEq, beq_iff_eq]
        by_cases hv : t.vertex = v <;> simp [hv]
    · rw [if_neg hc]
      have : (((decide (r.stat = sched_status.NEWTASK) &&
          decide (r.task.map update_task.vertex = some v)) && decide (r.color = k)) &&
          decide (r.cpuid = w)) = false := by
        by_contra hcon
        simp only [Bool.not_eq_false, Bool.and_eq_true, decide_eq_true_eq] at hcon
        exact hc ⟨hcon.1.1.1, hcon.1.2, hcon.2⟩
      rw [this]
      simp

/-- The returns of a vertex at one value of the colour counter, by worker. -/
theorem newtask_count_at_eq_sum (n M C : Nat) (log : List sched_record) (k v : Nat)
    (h : ∀ e ∈ log, e.stat = sched_status.NEWTASK → e.cpuid < n ∧ e.color / C < M) :
    newtask_count_at log k v = ((List.range n).map (fun w => (served log k w).count v)).sum := by
  rw [newtask_count_at, countP_eq_sum_key _ (fun r => r.cpuid) n log]
  · congr 1
    apply List.map_congr_left
    intro w _
    exact (count_served log k w v).symm
  · intro e he hp
    simp only [Bool.and_eq_true, decide_eq_true_eq] at hp
    exact (h e he hp.1.1).1

/-- The returns of a vertex, by value of the colour counter. -/
theorem newtask_count_eq_sum (n M C : Nat) (hC : 0 < C) (log : List sched_record) (v : Nat)
    (h : ∀ e ∈ log, e.stat = sched_status.NEWTASK → e.cpuid < n ∧ e.color / C < M) :
    newtask_count log v =
      ((List.range (M * C)).map (fun k => newtask_count_at log k v)).sum := by
  rw [newtask_count, countP_eq_sum_key _ (fun r => r.color) (M * C) log]
  · rfl
  · intro e he hp
    simp only [Bool.and_eq_true, decide_eq_true_eq] at hp
    exact (Nat.div_lt_iff_lt_mul hC).mp (h e he hp.1).2

theorem sum_getD_range (g : List Nat → Nat) (blocks : List (List Nat)) :
    ((List.range blocks.length).map (fun c => g (blocks.getD c []))).sum =
      (blocks.map g).sum := by
  conv_rhs => rw [eq_map_getD_range blocks [], List.map_map]
  rfl

/-- Over `M` passes through the colours, with every slice served, a vertex of the graph
has been returned `M` times. -/
theorem newtask_count_of_passes (n M f : Nat) (colors : List Nat) (r : sched_run)
    (hinv : sched_inv n M f r) (hn : 0 < n)
    (hblocks : r.sched.color_blocks = init_color_blocks colors 0 [])
    (hdone : M * r.sched.color_blocks.length ≤ r.sched.color) (v : Nat)
    (hv : v < colors.length) : newtask_count r.log v = M := by
  rw [newtask_count_eq_sum n M _ hinv.blocks_pos r.log v hinv.log_newtask]
  have h1 : ∀ k ∈ List.range (M * r.sched.color_blocks.length),
      newtask_count_at r.log k v =
        (r.sched.color_blocks.getD (k % r.sched.color_blocks.length) []).count v := by
    intro k hk
    have hk1 := List.mem_range.mp hk
    have hmap : (List.range n).map (fun w => (served r.log k w).count v) =
        (List.range n).map (fun w => (stride_slice (r.sched.block k) w n).count v) := by
      apply List.map_congr_left
      intro w hw
      rw [hinv.served_earlier k w (List.mem_range.mp hw) (by omega)]
    rw [newtask_count_at_eq_sum n M _ r.log k v hinv.log_newtask, hmap,
      sum_count_stride_slice (r.sched.block k) v n hn]
    rfl
  rw [List.map_congr_left h1]
  refine Eq.trans (sum_range_mod (fun c => (r.sched.color_blocks.getD c []).count v)
    r.sched.color_blocks.length M) ?_
  rw [sum_getD_range (fun b => b.count v), hblocks]
  have h2 := init_color_blocks_count colors v 0 []
  have h3 : (List.map (List.count v) (init_color_blocks colors 0 [])).sum = 1 := by
    rw [h2, if_pos (by omega)]
    simp
  rw [h3]
  omega

/-- Once the colour counter has passed `M` rounds, a call returns no task and leaves the
counter there. -/
theorem worker_step_after_passes (n M f : Nat) (r : sched_run) (c : Nat)
    (s1 : colored_scheduler) (stat : sched_status) (task : Option update_task)
    (hinv : sched_inv n M f r) (hcn : c < n)
    (hdone : M * r.sched.color_blocks.length ≤ r.sched.color)
    (hstep : worker_step n r.sched c s1 stat task) :
    stat ≠ sched_status.NEWTASK ∧ s1.color = r.sched.color := by
  have hM : M ≤ r.sched.color / r.sched.color_blocks.length :=
    (Nat.le_div_iff_mul_le hinv.blocks_pos).mpr hdone
  have hcontra : ∀ s2 : colored_scheduler, sched_frame n r.sched s2 c →
      sched_moved n r.sched s2 c →
      s2.col c / s2.color_blocks.length < s2.max_iterations → False := by
    intro s2 hframe hmoved hT
    rw [moved_col n M f r s2 c hinv hcn hmoved, hframe.1, hframe.2.1, hinv.max_eq] at hT
    omega
  cases hstep with
  | still_waiting _ _ => exact ⟨fun h => (by cases h), rfl⟩
  | complete _ _ _ _ _ h _ _ => exact ⟨fun h0 => (by cases h0), h⟩
  | newtask _ hframe hmoved hT _ _ _ _ _ => exact absurd (hcontra _ hframe hmoved hT) id
  | overrun _ hframe hmoved hT _ _ _ _ _ _ => exact absurd (hcontra _ hframe hmoved hT) id
  | advance _ hframe hmoved hT _ _ _ _ _ _ => exact absurd (hcontra _ hframe hmoved hT) id

/-- After `M` passes no interleaving returns another task. -/
theorem sched_run_after_passes (n M f : Nat) (sched : List Nat) :
    ∀ r : sched_run, sched_inv n M f r → (∀ c ∈ sched, c < n) →
      M * r.sched.color_blocks.length ≤ r.sched.color →
      ∀ r1, r.run sched = some r1 →
        ∃ extra, r1.log = r.log ++ extra ∧ ∀ e ∈ extra, e.stat ≠ sched_status.NEWTASK := by
  induction sched with
  | nil =>
    intro r _ _ _ r1 h
    simp only [sched_run.run, Option.some.injEq] at h
    subst h
    exact ⟨[], by simp, fun e he => by cases he⟩
  | cons c rest ih =>
    intro r hinv hc hdone r1 h
    have hcn := hc c (List.mem_cons_self _ _)
    obtain ⟨s1, stat, task, _, h2, h3, h4⟩ := sched_run_step n M f r c hinv hcn
    obtain ⟨g1, g2⟩ := worker_step_after_passes n M f r c s1 stat task hinv hcn hdone h2
    simp only [sched_run.run, h3] at h
    have hdone1 : M * s1.color_blocks.length ≤ s1.color := by
      rw [worker_step_blocks n r.sched c s1 stat task h2, g2]
      exact hdone
    obtain ⟨extra, e1, e2⟩ := ih _ h4 (fun x hx => hc x (List.mem_cons_of_mem _ hx)) hdone1 r1 h
    refine ⟨⟨c, r.sched.color, stat, task⟩ :: extra, ?_, ?_⟩
    · rw [e1]
      simp
    · intro e he
      rcases List.mem_cons.mp he with he1 | he1
      · rw [he1]
        exact g1
      · exact e2 e he1

/-! ### colored_scheduler: slices in the record -/

theorem range_map_initial (g : Nat → Nat) (a b : Nat) (h : a ≤ b) :
    (List.range a).map g <+: (List.range b).map g := by
  obtain ⟨d, rfl⟩ := Nat.exists_eq_add_of_le h
  rw [List.range_add, List.map_append]
  exact List.prefix_append _ _

/-- What a worker has been served at a value of the colour counter is an initial part
of its slice. -/
theorem served_initial (n M f : Nat) (r : sched_run) (hinv : sched_inv n M f r) (k w : Nat)
    (hw : w < n) : served r.log k w <+: stride_slice (r.sched.block k) w n := by
  have hn : 0 < n := by omega
  rcases Nat.lt_trichotomy k r.sched.color with hk | hk | hk
  · rw [hinv.served_earlier k w hw hk]
  · subst hk
    by_cases hwt : r.sched.wt w = true
    · by_cases hcol : r.sched.col w = r.sched.color
      · rw [hinv.served_done w hw hwt hcol]
      · rw [hinv.served_before w hw hwt hcol]
        exact List.nil_prefix
    · have hwf : r.sched.wt w = false := by simpa using hwt
      by_cases hM : r.sched.color / r.sched.color_blocks.length < M
      · obtain ⟨j, h1, h2, h3⟩ := hinv.served_working w hw hwf hM
        rw [h3, stride_slice, stride_indices, List.map_map]
        apply range_map_initial
        apply (Nat.le_div_iff_mul_le hn).mpr
        rw [Nat.add_mul, Nat.one_mul]
        omega
      · rw [hinv.served_complete w hw hwf (by omega)]
        exact List.nil_prefix
  · rw [hinv.served_later k w hk]
    exact List.nil_prefix

theorem le_sum_map_of_mem (g : List Nat → Nat) (blocks : List (List Nat)) (b : List Nat)
    (h : b ∈ blocks) : g b ≤ (blocks.map g).sum := by
  induction blocks with
  | nil => cases h
  | cons x xs ih =>
    rw [List.map_cons, List.sum_cons]
    rcases List.mem_cons.mp h with h1 | h1
    · rw [h1]
      omega
    · have := ih h1
      omega

/-- No vertex occurs twice in a colour block. -/
theorem block_count_le_one (colors : List Nat) (c v : Nat) :
    ((init_color_blocks colors 0 []).getD c []).count v ≤ 1 := by
  have h2 := init_color_blocks_count colors v 0 []
  have h3 : ((init_color_blocks colors 0 []).map (List.count v)).sum ≤ 1 := by
    rw [h2]
    split_ifs <;> simp
  by_cases hc : c < (init_color_blocks colors 0 []).length
  · have hmem : (init_color_blocks colors 0 []).getD c [] ∈ init_color_blocks colors 0 [] := by
      rw [List.getD_eq_getElem _ _ hc]
      exact List.getElem_mem _
    have := le_sum_map_of_mem (List.count v) _ _ hmem
    omega
  · rw [List.getD_eq_default _ _ (by omega)]
    simp

/-- At one value of the colour counter a vertex is returned at most once, and exactly
once when it is in the block and the counter has moved on. -/
theorem newtask_count_at_block (n M f : Nat) (colors : List Nat) (r : sched_run)
    (hinv : sched_inv n M f r) (hn : 0 < n)
    (hblocks : r.sched.color_blocks = init_color_blocks colors 0 []) (k v : Nat) :
    newtask_count_at r.log k v ≤ 1 ∧
      (k < r.sched.color → v ∈ r.sched.block k → newtask_count_at r.log k v = 1) := by
  have hle : (r.sched.block k).count v ≤ 1 := by
    simp only [colored_scheduler.block, hblocks]
    exact block_count_le_one colors _ v
  rw [newtask_count_at_eq_sum n M _ r.log k v hinv.log_newtask]
  constructor
  · have h1 : ((List.range n).map (fun w => (served r.log k w).count v)).sum ≤
        ((List.range n).map (fun w => (stride_slice (r.sched.block k) w n).count v)).sum := by
      apply List.sum_le_sum
      intro w hw
      exact (served_initial n M f r hinv k w (List.mem_range.mp hw)).sublist.count_le v
    rw [sum_count_stride_slice (r.sched.block k) v n hn] at h1
    omega
  · intro hk hv
    have hmap : (List.range n).map (fun w => (served r.log k w).count v) =
        (List.range n).map (fun w => (stride_slice (r.sched.block k) w n).count v) := by
      apply List.map_congr_left
      intro w hw
      rw [hinv.served_earlier k w (List.mem_range.mp hw) hk]
    rw [hmap, sum_count_stride_slice (r.sched.block k) v n hn]
    have hpos : 0 < (r.sched.block k).count v := List.count_pos_iff.mpr hv
    omega

/-- When every worker but `c` waits on the current colour and `c` does not, the waiting
counter is one short of `n`. -/
theorem waiting_of_others (n M f : Nat) (r : sched_run) (hinv : sched_inv n M f r) (c : Nat)
    (hcn : c < n) (hc : r.sched.waits_on_color c = false)
    (hothers : ∀ w, w < n → w ≠ c → r.sched.wt w = true ∧ r.sched.col w = r.sched.color) :
    r.sched.waiting + 1 = n := by
  have h := countP_range_update r.sched.waits_on_color
    (fun w => if w = c then true else r.sched.waits_on_color w) n c hcn
    (fun w hw => by simp [hw])
  have hall : (List.range n).countP (fun w => if w = c then true else r.sched.waits_on_color w) =
      (List.range n).length := by
    rw [List.countP_eq_length]
    intro w hw
    by_cases hwc : w = c
    · simp [hwc]
    · obtain ⟨a, b⟩ := hothers w (List.mem_range.mp hw) hwc
      simp [hwc, colored_scheduler.waits_on_color, a, b]
  rw [hall, List.length_range, hc] at h
  rw [hinv.waiting_eq]
  simpa using h.symm

/-! ### colored_scheduler: progress -/

theorem sum_range_update (p q : Nat → Nat) (n c : Nat) (hc : c < n)
    (h : ∀ w, w ≠ c → q w = p w) :
    ((List.range n).map q).sum + p c = ((List.range n).map p).sum + q c := by
  induction n with
  | zero => omega
  | succ n ih =>
    rw [List.range_succ, List.map_append, List.map_append, List.sum_append, List.sum_append]
    simp only [List.map_cons, List.map_nil, List.sum_cons, List.sum_nil, Nat.add_zero]
    by_cases hcn : c = n
    · subst hcn
      have hsame : (List.range c).map q = (List.range c).map p := by
        apply List.map_congr_left
        intro w hw
        rw [h w (by have := List.mem_range.mp hw; omega)]
      rw [hsame]
      omega
    · have ih1 := ih (by omega)
      rw [h n (fun e => hcn e.symm)]
      omega

theorem sum_range_le (p : Nat → Nat) (n B : Nat) (h : ∀ w, w < n → p w ≤ B) :
    ((List.range n).map p).sum ≤ n * B := by
  induction n with
  | zero => simp
  | succ n ih =>
    rw [List.range_succ, List.map_append, List.sum_append]
    simp only [List.map_cons, List.map_nil, List.sum_cons, List.sum_nil, Nat.add_zero]
    have h1 := ih (fun w hw => h w (by omega))
    have h2 := h n (by omega)
    rw [Nat.succ_mul]
    omega

theorem worker_potential_le (B : Nat) (s : colored_scheduler) (w : Nat) :
    worker_potential B s w ≤ B + 2 := by
  simp only [worker_potential]
  split_ifs <;> omega

/-- A worker that waits on the current colour gets `EMPTY` and changes nothing. -/
theorem worker_step_idle (n : Nat) (s : colored_scheduler) (c : Nat) (s1 : colored_scheduler)
    (stat : sched_status) (task : Option update_task)
    (hstep : worker_step n s c s1 stat task) (hidle : s.waits_on_color c = true) :
    s1 = s := by
  cases hstep with
  | still_waiting _ _ => rfl
  | complete _ _ hm _ _ _ _ _ => rw [hm.1] at hidle; cases hidle
  | newtask _ _ hm _ _ _ _ _ _ => rw [hm.1] at hidle; cases hidle
  | overrun _ _ hm _ _ _ _ _ _ _ => rw [hm.1] at hidle; cases hidle
  | advance _ _ hm _ _ _ _ _ _ _ => rw [hm.1] at hidle; cases hidle

theorem worker_potential_other (n B : Nat) (s s1 : colored_scheduler) (c : Nat)
    (hframe : sched_frame n s s1 c) (hcolor : s1.color = s.color) :
    ∀ w, w ≠ c → worker_potential B s1 w = worker_potential B s w := by
  intro w hw
  obtain ⟨x1, x2, x3⟩ := hframe.2.2.2.2.2.2 w hw
  simp only [worker_potential, x1, x2, x3, hcolor]

/-- The potential of the worker that calls, before its call, when it is not waiting on
the current colour and the iteration bound is not reached. -/
theorem worker_potential_busy (n M f B : Nat) (r : sched_run) (c : Nat)
    (hinv : sched_inv n M f r) (hcn : c < n)
    (hB : ∀ k, (r.sched.block k).length ≤ B)
    (hT : r.sched.color / r.sched.color_blocks.length < M)
    (hbusy : r.sched.waits_on_color c = false) :
    (r.sched.wt c = true → worker_potential B r.sched c = B + 2) ∧
      (r.sched.wt c = false →
        worker_potential B r.sched c = B + 1 - r.sched.idx c ∧ r.sched.idx c < B) := by
  constructor
  · intro hwt
    have hcol : r.sched.col c ≠ r.sched.color := by
      intro e
      simp [colored_scheduler.waits_on_color, hwt, e] at hbusy
    simp only [worker_potential, hwt, if_true, if_neg hcol]
  · intro hwt
    obtain ⟨j, _, h2, _⟩ := hinv.served_working c hcn hwt hT
    have := hB r.sched.color
    refine ⟨?_, by omega⟩
    simp only [worker_potential, hwt, Bool.false_eq_true, if_false]

/-- A call that gets past the waiting test uses up one unit of the potential. -/
theorem potential_step (n M f B : Nat) (r : sched_run) (c : Nat) (s1 : colored_scheduler)
    (stat : sched_status) (task : Option update_task)
    (hinv : sched_inv n M f r) (hn : 0 < n) (hcn : c < n)
    (hB : ∀ k, (r.sched.block k).length ≤ B)
    (hstep : worker_step n r.sched c s1 stat task)
    (hbusy : r.sched.waits_on_color c = false) :
    sched_potential n M B s1 ≤ sched_potential n M B r.sched - 1 := by
  have hC := hinv.blocks_pos
  have hlt : ∀ s2 : colored_scheduler, sched_frame n r.sched s2 c →
      sched_moved n r.sched s2 c →
      s2.col c / s2.color_blocks.length < s2.max_iterations →
      r.sched.color / r.sched.color_blocks.length < M ∧
        r.sched.color < M * r.sched.color_blocks.length ∧
        r.sched.terminator.finished = false := by
    intro s2 hframe hmoved hT
    rw [moved_col n M f r s2 c hinv hcn hmoved, hframe.1, hframe.2.1, hinv.max_eq] at hT
    have h2 : r.sched.color < M * r.sched.color_blocks.length :=
      (Nat.div_lt_iff_lt_mul hC).mp hT
    refine ⟨hT, h2, ?_⟩
    cases hfin : r.sched.terminator.finished with
    | false => rfl
    | true =>
      have := hinv.finished_color hfin
      omega
  have hsame : ∀ s2 : colored_scheduler, sched_frame n r.sched s2 c →
      s2.color = r.sched.color → s2.terminator = r.sched.terminator →
      r.sched.color < M * r.sched.color_blocks.length →
      r.sched.terminator.finished = false →
      worker_potential B s2 c + 1 ≤ worker_potential B r.sched c →
      sched_potential n M B s2 ≤ sched_potential n M B r.sched - 1 := by
    intro s2 hframe hcolor hterm h2 hfin hdec
    have hsum := sum_range_update (worker_potential B r.sched) (worker_potential B s2) n c hcn
      (worker_potential_other n B r.sched s2 c hframe hcolor)
    simp only [sched_potential, hterm, hfin, hcolor, hframe.1, Bool.false_eq_true, if_false]
    rw [if_neg (show ¬ M * r.sched.color_blocks.length ≤ r.sched.color by omega),
      if_neg (show ¬ M * r.sched.color_blocks.length ≤ r.sched.color by omega)]
    omega
  cases hstep with
  | still_waiting h1 h2 =>
    simp [colored_scheduler.waits_on_color, h1, h2] at hbusy
  | complete _ _ _ _ _ _ _ hfin =>
    simp only [sched_potential, hfin, if_true]
    omega
  | newtask _ hframe hmoved hT hidx hwt hcol _ hterm =>
    obtain ⟨hT1, h2, hfin⟩ := hlt _ hframe hmoved hT
    obtain ⟨p1, p2⟩ := worker_potential_busy n M f B r c hinv hcn hB hT1 hbusy
    apply hsame _ hframe hcol hterm h2 hfin
    have hm := moved_col n M f r s1 c hinv hcn hmoved
    rw [hm, block_congr r.sched s1 hframe.1] at hidx
    have hb := hB r.sched.color
    have hnew : worker_potential B s1 c = B + 1 - s1.idx c := by
      simp only [worker_potential, hwt, Bool.false_eq_true, if_false]
    rw [hnew]
    by_cases hw : r.sched.wt c = true
    · rw [p1 hw]
      omega
    · have hw2 : r.sched.wt c = false := by simpa using hw
      obtain ⟨q1, q2⟩ := p2 hw2
      have hi := hmoved.2.2
      rw [if_neg hw] at hi
      rw [q1, hi]
      omega
  | overrun _ hframe hmoved hT _ hwt hcol _ _ hterm =>
    obtain ⟨hT1, h2, hfin⟩ := hlt _ hframe hmoved hT
    obtain ⟨p1, p2⟩ := worker_potential_busy n M f B r c hinv hcn hB hT1 hbusy
    apply hsame _ hframe hcol hterm h2 hfin
    have hm := moved_col n M f r s1 c hinv hcn hmoved
    have hnew : worker_potential B s1 c = 0 := by
      simp only [worker_potential, hwt, if_true, hm, hcol]
    rw [hnew]
    by_cases hw : r.sched.wt c = true
    · rw [p1 hw]
      omega
    · have hw2 : r.sched.wt c = false := by simpa using hw
      obtain ⟨q1, q2⟩ := p2 hw2
      rw [q1]
      omega
  | advance _ hframe hmoved hT _ _ hadv _ _ hterm =>
    obtain ⟨_, h2, hfin⟩ := hlt _ hframe hmoved hT
    have hsum1 : ((List.range n).map (worker_potential B s1)).sum ≤ n * (B + 2) :=
      sum_range_le _ n (B + 2) (fun w _ => worker_potential_le B s1 w)
    obtain ⟨X, hX⟩ : ∃ X, M * r.sched.color_blocks.length - r.sched.color = X + 1 :=
      ⟨M * r.sched.color_blocks.length - r.sched.color - 1, by omega⟩
    have hprod : (X + 1) * (n * (B + 2) + 1) = X * (n * (B + 2) + 1) + (n * (B + 2) + 1) :=
      Nat.succ_mul _ _
    simp only [sched_potential, hterm, hfin, hadv, hframe.1, Bool.false_eq_true, if_false]
    rw [if_neg (show ¬ M * r.sched.color_blocks.length ≤ r.sched.color by omega)]
    rw [hX, hprod]
    by_cases hend : M * r.sched.color_blocks.length ≤ r.sched.color + 1
    · rw [if_pos hend]
      omega
    · rw [if_neg hend]
      have hX2 : M * r.sched.color_blocks.length - (r.sched.color + 1) = X := by omega
      rw [hX2]
      omega

/-- Pushing a vertex makes the blocks one entry longer in all. -/
theorem color_blocks_push_total (blocks : List (List Nat)) (i color : Nat) :
    ((color_blocks_push blocks i color).map List.length).sum =
      (blocks.map List.length).sum + 1 := by
  have key : ∀ resized : List (List Nat), color < resized.length →
      ((resized.set color (resized.getD color [] ++ [i])).map List.length).sum =
        (resized.map List.length).sum + 1 := by
    intro resized h
    have h1 := sum_map_set List.length resized color (resized.getD color [] ++ [i]) h
    rw [List.length_append, List.length_singleton] at h1
    omega
  simp only [color_blocks_push]
  by_cases h : color ≥ blocks.length
  · rw [if_pos h, key _ (by simp only [List.length_append, List.length_replicate]; omega)]
    simp
  · rw [if_neg h]
    exact key _ (by omega)

theorem init_color_blocks_total (colors : List Nat) :
    ∀ (i : Nat) (blocks : List (List Nat)),
      ((init_color_blocks colors i blocks).map List.length).sum =
        (blocks.map List.length).sum + colors.length := by
  induction colors with
  | nil =>
    intro i blocks
    simp [init_color_blocks]
  | cons color rest ih =>
    intro i blocks
    simp only [init_color_blocks]
    rw [ih (i + 1) _, color_blocks_push_total, List.length_cons]
    omega

/-- No colour block is longer than the number of vertices. -/
theorem block_length_le (colors : List Nat) (s : colored_scheduler)
    (hblocks : s.color_blocks = init_color_blocks colors 0 []) (k : Nat) :
    (s.block k).length ≤ colors.length := by
  simp only [colored_scheduler.block, hblocks]
  generalize k % (init_color_blocks colors 0 []).length = c
  have h2 := init_color_blocks_total colors 0 []
  simp only [List.map_nil, List.sum_nil, Nat.zero_add] at h2
  by_cases hc : c < (init_color_blocks colors 0 []).length
  · have hmem : (init_color_blocks colors 0 []).getD c [] ∈ init_color_blocks colors 0 [] := by
      rw [List.getD_eq_getElem _ _ hc]
      exact List.getElem_mem _
    have := le_sum_map_of_mem List.length _ _ hmem
    omega
  · rw [List.getD_eq_default _ _ (by omega)]
    simp

theorem busy_cons (r r1 : sched_run) (c : Nat) (rest : List Nat) (h : r.step c = some r1) :
    r.busy (c :: rest) =
      (if r.sched.waits_on_color c = true then 0 else 1) + r1.busy rest := by
  simp only [sched_run.busy, h]

/-- Along every interleaving the potential goes down by one with every call that gets
past the waiting test. -/
theorem potential_run (n M f B : Nat) (hn : 0 < n) (sched : List Nat) :
    ∀ r : sched_run, sched_inv n M f r → (∀ c ∈ sched, c < n) →
      (∀ k, (r.sched.block k).length ≤ B) →
      ∃ r1, r.run sched = some r1 ∧ sched_inv n M f r1 ∧
        r1.sched.color_blocks = r.sched.color_blocks ∧
        sched_potential n M B r1.sched ≤ sched_potential n M B r.sched - r.busy sched := by
  induction sched with
  | nil =>
    intro r hinv _ _
    exact ⟨r, rfl, hinv, rfl, by simp [sched_run.busy]⟩
  | cons c rest ih =>
    intro r hinv hc hB
    have hcn := hc c (List.mem_cons_self _ _)
    obtain ⟨s1, stat, task, _, g2, g3, g4⟩ := sched_run_step n M f r c hinv hcn
    have hb := worker_step_blocks n r.sched c s1 stat task g2
    obtain ⟨r1, i1, i2, i3, i4⟩ := ih _ g4 (fun x hx => hc x (List.mem_cons_of_mem _ hx))
      (fun k => by rw [block_congr r.sched s1 hb]; exact hB k)
    refine ⟨r1, ?_, i2, i3.trans hb, ?_⟩
    · simp only [sched_run.run, g3]
      exact i1
    · rw [busy_cons r _ c rest g3]
      simp only at i4
      by_cases hidle : r.sched.waits_on_color c = true
      · rw [if_pos hidle]
        have hs := worker_step_idle n r.sched c s1 stat task g2 hidle
        subst hs
        omega
      · rw [if_neg hidle]
        have := potential_step n M f B r c s1 stat task hinv hn hcn hB g2 (by simpa using hidle)
        omega

theorem finished_of_potential_zero (n M B : Nat) (s : colored_scheduler)
    (h : sched_potential n M B s = 0) : s.terminator.finished = true := by
  by_cases h1 : s.terminator.finished = true
  · exact h1
  · simp only [sched_potential, if_neg h1] at h
    split_ifs at h

/-- The potential of a started scheduler is within the bound. -/
theorem potential_started (colors : List Nat) (n M : Nat) (s0 : colored_scheduler)
    (hblocks : s0.color_blocks = init_color_blocks colors 0 []) (hcolor : s0.color = 0) :
    sched_potential n M colors.length s0 ≤ pass_bound colors n M := by
  have hsum : ((List.range n).map (worker_potential colors.length s0)).sum ≤
      n * (colors.length + 2) :=
    sum_range_le _ n _ (fun w _ => worker_potential_le _ s0 w)
  simp only [sched_potential, pass_bound, hblocks, hcolor]
  split_ifs
  · omega
  · omega
  · simp only [Nat.sub_zero]
    omega

/-- The waiting counter stays below the number of workers. -/
theorem worker_step_waiting (n : Nat) (s : colored_scheduler) (c : Nat) (s1 : colored_scheduler)
    (stat : sched_status) (task : Option update_task) (hn : 0 < n)
    (hstep : worker_step n s c s1 stat task) (hle : s1.waiting ≤ n) (hw : s.waiting < n) :
    s1.waiting < n := by
  cases hstep with
  | still_waiting _ _ => exact hw
  | complete _ _ _ _ _ _ h _ => omega
  | newtask _ _ _ _ _ _ _ h _ => omega
  | overrun _ _ _ _ _ _ _ h h2 _ => omega
  | advance _ _ _ _ _ _ _ h _ _ => omega

theorem waiting_le (n M f : Nat) (r : sched_run) (hinv : sched_inv n M f r) :
    r.sched.waiting ≤ n := by
  rw [hinv.waiting_eq]
  have := List.countP_le_length r.sched.waits_on_color (l := List.range n)
  rw [List.length_range] at this
  exact this

theorem sched_run_waiting (n M f : Nat) (hn : 0 < n) (sched : List Nat) :
    ∀ r : sched_run, sched_inv n M f r → (∀ c ∈ sched, c < n) → r.sched.waiting < n →
      ∀ r1, r.run sched = some r1 → r1.sched.waiting < n := by
  induction sched with
  | nil =>
    intro r _ _ hw r1 h
    simp only [sched_run.run, Option.some.injEq] at h
    subst h
    exact hw
  | cons c rest ih =>
    intro r hinv hc hw r1 h
    have hcn := hc c (List.mem_cons_self _ _)
    obtain ⟨s1, stat, task, _, g2, g3, g4⟩ := sched_run_step n M f r c hinv hcn
    simp only [sched_run.run, g3] at h
    exact ih _ g4 (fun x hx => hc x (List.mem_cons_of_mem _ hx))
      (worker_step_waiting n r.sched c s1 stat task hn g2 (waiting_le n M f _ g4) hw) r1 h

/-- In a state in which fewer than `n` workers wait on the current colour, some worker
does not. -/
theorem busy_worker_exists (n M f : Nat) (r : sched_run) (hinv : sched_inv n M f r)
    (hw : r.sched.waiting < n) : ∃ c, c < n ∧ r.sched.waits_on_color c = false := by
  by_contra hno
  have hall : (List.range n).countP r.sched.waits_on_color = (List.range n).length := by
    rw [List.countP_eq_length]
    intro w hwn
    cases hv : r.sched.waits_on_color w with
    | true => rfl
    | false => exact absurd ⟨w, List.mem_range.mp hwn, hv⟩ hno
  rw [List.length_range, ← hinv.waiting_eq] at hall
  omega

/-- From every state of a run there is a continuation with as many calls that get past
the waiting test as wanted. -/
theorem busy_schedule_exists (n M f : Nat) (hn : 0 < n) (k : Nat) :
    ∀ r : sched_run, sched_inv n M f r → r.sched.waiting < n →
      ∃ more : List Nat, (∀ c ∈ more, c < n) ∧ k ≤ r.busy more := by
  induction k with
  | zero =>
    intro r _ _
    exact ⟨[], fun c hc => (by cases hc), Nat.zero_le _⟩
  | succ k ih =>
    intro r hinv hw
    obtain ⟨c, hcn, hbusy⟩ := busy_worker_exists n M f r hinv hw
    obtain ⟨s1, stat, task, _, g2, g3, g4⟩ := sched_run_step n M f r c hinv hcn
    obtain ⟨more, m1, m2⟩ := ih _ g4
      (worker_step_waiting n r.sched c s1 stat task hn g2 (waiting_le n M f _ g4) hw)
    refine ⟨c :: more, ?_, ?_⟩
    · intro x hx
      rcases List.mem_cons.mp hx with h1 | h1
      · rw [h1]
        exact hcn
      · exact m1 x h1
    · rw [busy_cons r _ c more g3, hbusy]
      simp only [Bool.false_eq_true, if_false]
      omega

theorem getD_append_length {α : Type} (a : List α) (b : α) (t : List α) (d : α) :
    (a ++ b :: t).getD a.length d = b := by
  rw [List.getD_eq_getElem?_getD, List.getElem?_append_right (le_refl _)]
  simp

/-- The call of a worker that is not waiting on the current colour, while the iteration
bound is not reached: it returns the next entry of the slice of the worker when the
worker has not been served all of it, and otherwise `EMPTY`. -/
theorem next_entry (n M f : Nat) (r : sched_run) (c : Nat) (hinv : sched_inv n M f r)
    (hcn : c < n) (hbusy : r.sched.waits_on_color c = false)
    (hT : r.sched.color / r.sched.color_blocks.length < M) :
    ∃ s1 stat task, r.sched.get_next_task c = some (s1, stat, task) ∧
      ((served r.log r.sched.color c).length <
          (stride_slice (r.sched.block r.sched.color) c n).length →
        stat = sched_status.NEWTASK ∧
        task = some ⟨(stride_slice (r.sched.block r.sched.color) c n).getD
          (served r.log r.sched.color c).length 0, f⟩) ∧
      (served r.log r.sched.color c = stride_slice (r.sched.block r.sched.color) c n →
        stat = sched_status.EMPTY ∧ task = none) := by
  obtain ⟨s1, stat, task, g1, g2, _, g4⟩ := sched_run_step n M f r c hinv hcn
  have hb := worker_step_blocks n r.sched c s1 stat task g2
  have hpre := served_initial n M f _ g4 r.sched.color c hcn
  simp only at hpre
  rw [block_congr r.sched s1 hb] at hpre
  have hTs : ∀ s2 : colored_scheduler, sched_frame n r.sched s2 c →
      sched_moved n r.sched s2 c →
      ¬ s2.max_iterations ≤ s2.col c / s2.color_blocks.length := by
    intro s2 hframe hmoved
    rw [moved_col n M f r s2 c hinv hcn hmoved, hframe.1, hframe.2.1, hinv.max_eq]
    omega
  have hempty : stat = sched_status.EMPTY → task = none →
      served r.log r.sched.color c = stride_slice (r.sched.block r.sched.color) c n →
      ((served r.log r.sched.color c).length <
          (stride_slice (r.sched.block r.sched.color) c n).length →
        stat = sched_status.NEWTASK ∧
        task = some ⟨(stride_slice (r.sched.block r.sched.color) c n).getD
          (served r.log r.sched.color c).length 0, f⟩) ∧
      (served r.log r.sched.color c = stride_slice (r.sched.block r.sched.color) c n →
        stat = sched_status.EMPTY ∧ task = none) := by
    intro h1 h2 h3
    refine ⟨fun hlt => ?_, fun _ => ⟨h1, h2⟩⟩
    rw [h3] at hlt
    omega
  refine ⟨s1, stat, task, g1, ?_⟩
  cases g2 with
  | still_waiting h1 h2 =>
    simp [colored_scheduler.waits_on_color, h1, h2] at hbusy
  | complete _ hframe hmoved hge _ _ _ _ => exact absurd hge (hTs _ hframe hmoved)
  | newtask _ hframe hmoved _ _ _ _ _ _ =>
    rw [served_append_newtask] at hpre
    have hlen := hpre.length_le
    rw [List.length_append, List.length_singleton] at hlen
    refine ⟨fun _ => ⟨rfl, ?_⟩, fun h3 => ?_⟩
    · obtain ⟨t, ht⟩ := hpre
      rw [← ht, List.append_assoc, List.singleton_append, getD_append_length, hframe.2.2.1,
        hinv.func_eq]
    · rw [h3] at hlen
      omega
  | overrun _ hframe hmoved _ _ hwt hcol _ _ _ =>
    apply hempty rfl rfl
    have h5 := g4.served_done c hcn hwt (by
      simp only
      rw [moved_col n M f r s1 c hinv hcn hmoved, hcol])
    simp only at h5
    rw [hcol, block_congr r.sched s1 hb, served_append_other _ _ _ _ (by simp)] at h5
    exact h5
  | advance _ hframe hmoved _ _ hwt hadv _ _ _ =>
    apply hempty rfl rfl
    have h5 := g4.served_earlier r.sched.color c hcn (by simp only; omega)
    simp only at h5
    rw [block_congr r.sched s1 hb, served_append_other _ _ _ _ (by simp)] at h5
    exact h5

theorem started_waiting (colors : List Nat) (n M f : Nat) (s0 : colored_scheduler)
    (h : colored_scheduler.started colors n M f = some s0) : s0.waiting = 0 := by
  simp only [colored_scheduler.started, colored_scheduler.start,
    colored_scheduler.add_task_to_all, colored_scheduler.set_options,
    colored_scheduler.init] at h
  split_ifs at h
  rw [Option.some.injEq] at h
  rw [← h]

/-- Liveness of the coloured scheduler: after `start()`, an interleaving with at least
`pass_bound` calls that get past the waiting test has completed the terminator; in
every state of a run some worker is not waiting on the current colour; and every run
has a continuation that completes the terminator. -/
theorem sched_run_completes (colors : List Nat) (n M f : Nat) (sched : List Nat)
    (hV : colors ≠ []) (hn : 0 < n) (hf : f ≠ 0) (hsched : ∀ c ∈ sched, c < n) :
    ∃ s0 r, colored_scheduler.started colors n M f = some s0 ∧
      s0.color_blocks = init_color_blocks colors 0 [] ∧
      sched_run.run ⟨s0, []⟩ sched = some r ∧ sched_inv n M f r ∧
      r.sched.color_blocks = s0.color_blocks ∧
      (pass_bound colors n M ≤ sched_run.busy ⟨s0, []⟩ sched →
        r.sched.terminator.finished = true) ∧
      (∃ c, c < n ∧ r.sched.waits_on_color c = false) ∧
      (∃ more r3, (∀ c ∈ more, c < n) ∧ r.run more = some r3 ∧ sched_inv n M f r3 ∧
        r3.sched.color_blocks = s0.color_blocks ∧ r3.sched.terminator.finished = true) := by
  obtain ⟨s0, h1, h2, h3, _, h5⟩ := started_inv colors n M f hV hf
  have hB0 : ∀ k, ((⟨s0, []⟩ : sched_run).sched.block k).length ≤ colors.length :=
    fun k => block_length_le colors s0 h2 k
  obtain ⟨r, g1, g2, g3, g4⟩ := potential_run n M f colors.length hn sched ⟨s0, []⟩ h5 hsched hB0
  have hw0 : (⟨s0, []⟩ : sched_run).sched.waiting < n := by
    simp only
    rw [started_waiting colors n M f s0 h1]
    exact hn
  have hw := sched_run_waiting n M f hn sched ⟨s0, []⟩ h5 hsched hw0 r g1
  have hBr : ∀ k, (r.sched.block k).length ≤ colors.length :=
    fun k => block_length_le colors r.sched (g3.trans h2) k
  refine ⟨s0, r, h1, h2, g1, g2, g3, ?_, busy_worker_exists n M f r g2 hw, ?_⟩
  · intro hbusy
    have hp := potential_started colors n M s0 h2 h3
    simp only at g4
    exact finished_of_potential_zero n M colors.length r.sched (by omega)
  · obtain ⟨more, m1, m2⟩ := busy_schedule_exists n M f hn
      (sched_potential n M colors.length r.sched) r g2 hw
    obtain ⟨r3, k1, k2, k3, k4⟩ := potential_run n M f colors.length hn more r g2 m1 hBr
    exact ⟨more, r3, m1, k1, k2, k3.trans g3,
      finished_of_potential_zero n M colors.length r3.sched (by omega)⟩

/-! ### C11, C12, C13: the coloured scheduler -/

/-- C11: termination of the coloured scheduler after `max_iterations` passes.  For a
graph with at least one vertex (colours `colors`), `n ≥ 1` workers, `max_iterations = M`
and an update function, after one `start()` every interleaving `pre ++ post` of
`get_next_task` calls by workers below `n` runs through.  If the terminator has been
completed by the end of `pre` (in particular at the call that first completes it),
every vertex of the graph has been returned as `NEWTASK` exactly `M` times by then,
and no call of `post` returns `NEWTASK`.  For `M = 0` no call ever returns `NEWTASK`.
The terminator does get completed: it is after `pre` when `pre` has at least
`pass_bound` calls by workers that were not waiting on the current colour; in the
state after `pre` some worker is not waiting on the current colour; and `pre` has a
continuation after which the terminator is complete and every vertex has been
returned exactly `M` times. -/
theorem colored_scheduler_completes_after_max_iterations (colors : List Nat) (n M f : Nat)
    (pre post : List Nat) (hV : colors ≠ []) (hn : 0 < n) (hf : f ≠ 0)
    (hpre : ∀ c ∈ pre, c < n) (hpost : ∀ c ∈ post, c < n) :
    ∃ s0 r1 r2, colored_scheduler.started colors n M f = some s0 ∧
      sched_run.run ⟨s0, []⟩ pre = some r1 ∧ r1.run post = some r2 ∧
      (r1.sched.terminator.finished = true →
        (∀ v, v < colors.length → newtask_count r1.log v = M) ∧
        ∃ extra, r2.log = r1.log ++ extra ∧ ∀ e ∈ extra, e.stat ≠ sched_status.NEWTASK) ∧
      (M = 0 → ∀ e ∈ r2.log, e.stat ≠ sched_status.NEWTASK) ∧
      (pass_bound colors n M ≤ sched_run.busy ⟨s0, []⟩ pre →
        r1.sched.terminator.finished = true) ∧
      (∃ c, c < n ∧ r1.sched.waits_on_color c = false) ∧
      (∃ more r3, (∀ c ∈ more, c < n) ∧ r1.run more = some r3 ∧
        r3.sched.terminator.finished = true ∧
        ∀ v, v < colors.length → newtask_count r3.log v = M) := by
  obtain ⟨s0, r1, h1, h2, g1, g2, g3, l1, l2, more, r3, m1, m2, m3, m4, m5⟩ :=
    sched_run_completes colors n M f pre hV hn hf hpre
  obtain ⟨r2, k1, k2, _, _⟩ := sched_run_inv n M f post r1 g2 hpost
  refine ⟨s0, r1, r2, h1, g1, k1, ?_, ?_, l1, l2, more, r3, m1, m2, m5, ?_⟩
  · intro hfin
    have hdone := g2.finished_color hfin
    refine ⟨?_, sched_run_after_passes n M f post r1 g2 hpost hdone r2 k1⟩
    intro v hv
    exact newtask_count_of_passes n M f colors r1 g2 hn (g3.trans h2) hdone v hv
  · intro hM e he hstat
    have hlt := (k2.log_newtask e he hstat).2
    rw [hM] at hlt
    exact Nat.not_lt_zero _ hlt
  · intro v hv
    exact newtask_count_of_passes n M f colors r3 m3 hn (m4.trans h2) (m3.finished_color m5)
      v hv

/-- C11, witness: the graph with colours 0, 1, 0, two workers, one iteration.  After the
nine calls of `pre`, eight of them by a worker not waiting on the current colour, the
terminator is complete and each vertex has been returned once. -/
theorem colored_scheduler_completes_after_max_iterations_witness :
    (∃ s0 r1 r2, colored_scheduler.started [0, 1, 0] 2 1 7 = some s0 ∧
      sched_run.run ⟨s0, []⟩ [0, 1, 0, 1, 0, 1, 1, 0, 0] = some r1 ∧
      r1.run [1, 0] = some r2 ∧
      (r1.sched.terminator.finished = true →
        (∀ v, v < [0, 1, 0].length → newtask_count r1.log v = 1) ∧
        ∃ extra, r2.log = r1.log ++ extra ∧ ∀ e ∈ extra, e.stat ≠ sched_status.NEWTASK) ∧
      (1 = 0 → ∀ e ∈ r2.log, e.stat ≠ sched_status.NEWTASK) ∧
      (pass_bound [0, 1, 0] 2 1 ≤ sched_run.busy ⟨s0, []⟩ [0, 1, 0, 1, 0, 1, 1, 0, 0] →
        r1.sched.terminator.finished = true) ∧
      (∃ c, c < 2 ∧ r1.sched.waits_on_color c = false) ∧
      (∃ more r3, (∀ c ∈ more, c < 2) ∧ r1.run more = some r3 ∧
        r3.sched.terminator.finished = true ∧
        ∀ v, v < [0, 1, 0].length → newtask_count r3.log v = 1)) ∧
    ((colored_scheduler.started [0, 1, 0] 2 1 7).bind
      (fun s0 => (sched_run.run ⟨s0, []⟩ [0, 1, 0, 1, 0, 1, 1, 0, 0]).map
        (fun r1 => (r1.sched.terminator.finished, newtask_count r1.log 0,
          newtask_count r1.log 1, newtask_count r1.log 2,
          sched_run.busy ⟨s0, []⟩ [0, 1, 0, 1, 0, 1, 1, 0, 0])))) =
      some (true, 1, 1, 1, 8) :=
  ⟨colored_scheduler_completes_after_max_iterations [0, 1, 0] 2 1 7
    [0, 1, 0, 1, 0, 1, 1, 0, 0] [1, 0] (by decide) (by decide) (by decide) (by decide)
    (by decide), by decide⟩

/-- C12: stride slices of the coloured scheduler.  For a graph with at least one vertex,
`n ≥ 1` workers and any interleaving of calls after `start()`: every `NEWTASK` is
returned at a value `k` of the colour counter with `k / C < max_iterations`; the
vertices returned to worker `w` at the value `k`, in the order of the calls, are an
initial part of the entries of block `k mod C` at the indices `w, w + n, w + 2 n, ...`
below the block size, and all of them once the worker waits on `k` or the counter has
moved past `k`.  The index lists are increasing, and an index below the block size
belongs to the slice of worker `w` exactly when its remainder modulo `n` is `w`, so
the slices are disjoint and cover the block.  Hence per value `k` a vertex is
returned at most once, and exactly once if it is in the block and the counter has
moved on.  The entries are in fact handed out: while the iteration bound is not
reached, the call of a worker that is not waiting on the current colour returns the
next entry of its slice, as `NEWTASK` with the stored function, as long as the worker
has not been served the whole slice, and `EMPTY` once it has; and an interleaving
with at least `pass_bound` calls by workers not waiting on the current colour has
served every worker its whole slice, and so returned every entry of the block
exactly once, at every value `k` below `M * C`. -/
theorem colored_scheduler_stride_slices (colors : List Nat) (n M f : Nat) (sched : List Nat)
    (hV : colors ≠ []) (hn : 0 < n) (hf : f ≠ 0) (hsched : ∀ c ∈ sched, c < n) :
    ∃ s0 r, colored_scheduler.started colors n M f = some s0 ∧
      sched_run.run ⟨s0, []⟩ sched = some r ∧
      (∀ e ∈ r.log, e.stat = sched_status.NEWTASK →
        e.cpuid < n ∧ e.color / s0.color_blocks.length < M) ∧
      (∀ k w, w < n → served r.log k w <+: stride_slice (s0.block k) w n) ∧
      (∀ k w, w < n →
        (k < r.sched.color ∨
          (k = r.sched.color ∧ r.sched.wt w = true ∧ r.sched.col w = r.sched.color)) →
        served r.log k w = stride_slice (s0.block k) w n) ∧
      (∀ w size, w < n → (stride_indices w n size).Pairwise (fun a b => a < b) ∧
        ∀ i, i ∈ stride_indices w n size ↔ i < size ∧ i % n = w) ∧
      (∀ k v, newtask_count_at r.log k v ≤ 1) ∧
      (∀ k v, k < r.sched.color → v ∈ s0.block k → newtask_count_at r.log k v = 1) ∧
      (∀ c, c < n → r.sched.waits_on_color c = false →
        r.sched.color / s0.color_blocks.length < M →
        ∃ s1 stat task, r.sched.get_next_task c = some (s1, stat, task) ∧
          ((served r.log r.sched.color c).length <
              (stride_slice (s0.block r.sched.color) c n).length →
            stat = sched_status.NEWTASK ∧
            task = some ⟨(stride_slice (s0.block r.sched.color) c n).getD
              (served r.log r.sched.color c).length 0, f⟩) ∧
          (served r.log r.sched.color c = stride_slice (s0.block r.sched.color) c n →
            stat = sched_status.EMPTY ∧ task = none)) ∧
      (pass_bound colors n M ≤ sched_run.busy ⟨s0, []⟩ sched →
        (∀ k w, w < n → k < M * s0.color_blocks.length →
          served r.log k w = stride_slice (s0.block k) w n) ∧
        (∀ k v, k < M * s0.color_blocks.length → v ∈ s0.block k →
          newtask_count_at r.log k v = 1)) := by
  obtain ⟨s0, r, h1, h2, g1, g2, g3, l1, _, _⟩ :=
    sched_run_completes colors n M f sched hV hn hf hsched
  have hb : ∀ k, r.sched.block k = s0.block k := block_congr _ _ g3
  refine ⟨s0, r, h1, g1, ?_, ?_, ?_, ?_, ?_, ?_, ?_, ?_⟩
  · intro e he hstat
    have := g2.log_newtask e he hstat
    rw [g3] at this
    exact this
  · intro k w hw
    rw [← hb]
    exact served_initial n M f r g2 k w hw
  · intro k w hw hk
    rw [← hb]
    rcases hk with hk | ⟨hk, hwt, hcol⟩
    · exact g2.served_earlier k w hw hk
    · subst hk
      exact g2.served_done w hw hwt hcol
  · intro w size hw
    exact ⟨stride_indices_sorted w n size hn, fun i => stride_indices_mem w n size i hw⟩
  · intro k v
    exact (newtask_count_at_block n M f colors r g2 hn (g3.trans h2) k v).1
  · intro k v hk hv
    rw [← hb] at hv
    exact (newtask_count_at_block n M f colors r g2 hn (g3.trans h2) k v).2 hk hv
  · intro c hcn hbusy hT
    rw [← g3] at hT
    rw [← hb]
    exact next_entry n M f r c g2 hcn hbusy hT
  · intro hbusy
    have hdone := g2.finished_color (l1 hbusy)
    rw [g3] at hdone
    constructor
    · intro k w hw hk
      rw [← hb]
      exact g2.served_earlier k w hw (by omega)
    · intro k v hk hv
      rw [← hb] at hv
      exact (newtask_count_at_block n M f colors r g2 hn (g3.trans h2) k v).2 (by omega) hv

/-- C12, witness: colours 0, 1, 0, 0, 0, two workers, two iterations; at the value 0 of
the colour counter worker 0 is served the vertices 0 and 3 (indices 0 and 2 of the
block 0, 2, 3, 4) and worker 1 the vertices 2 and 4. -/
theorem colored_scheduler_stride_slices_witness :
    (∃ s0 r, colored_scheduler.started [0, 1, 0, 0, 0] 2 2 7 = some s0 ∧
      sched_run.run ⟨s0, []⟩ [0, 1, 1, 0, 0, 1, 1] = some r ∧
      (∀ e ∈ r.log, e.stat = sched_status.NEWTASK →
        e.cpuid < 2 ∧ e.color / s0.color_blocks.length < 2) ∧
      (∀ k w, w < 2 → served r.log k w <+: stride_slice (s0.block k) w 2) ∧
      (∀ k w, w < 2 →
        (k < r.sched.color ∨
          (k = r.sched.color ∧ r.sched.wt w = true ∧ r.sched.col w = r.sched.color)) →
        served r.log k w = stride_slice (s0.block k) w 2) ∧
      (∀ w size, w < 2 → (stride_indices w 2 size).Pairwise (fun a b => a < b) ∧
        ∀ i, i ∈ stride_indices w 2 size ↔ i < size ∧ i % 2 = w) ∧
      (∀ k v, newtask_count_at r.log k v ≤ 1) ∧
      (∀ k v, k < r.sched.color → v ∈ s0.block k → newtask_count_at r.log k v = 1) ∧
      (∀ c, c < 2 → r.sched.waits_on_color c = false →
        r.sched.color / s0.color_blocks.length < 2 →
        ∃ s1 stat task, r.sched.get_next_task c = some (s1, stat, task) ∧
          ((served r.log r.sched.color c).length <
              (stride_slice (s0.block r.sched.color) c 2).length →
            stat = sched_status.NEWTASK ∧
            task = some ⟨(stride_slice (s0.block r.sched.color) c 2).getD
              (served r.log r.sched.color c).length 0, 7⟩) ∧
          (served r.log r.sched.color c = stride_slice (s0.block r.sched.color) c 2 →
            stat = sched_status.EMPTY ∧ task = none)) ∧
      (pass_bound [0, 1, 0, 0, 0] 2 2 ≤ sched_run.busy ⟨s0, []⟩ [0, 1, 1, 0, 0, 1, 1] →
        (∀ k w, w < 2 → k < 2 * s0.color_blocks.length →
          served r.log k w = stride_slice (s0.block k) w 2) ∧
        (∀ k v, k < 2 * s0.color_blocks.length → v ∈ s0.block k →
          newtask_count_at r.log k v = 1))) ∧
    ((colored_scheduler.started [0, 1, 0, 0, 0] 2 2 7).bind
      (fun s0 => (sched_run.run ⟨s0, []⟩ [0, 1, 1, 0, 0, 1, 1]).map
        (fun r => (s0.block 0, served r.log 0 0, served r.log 0 1, r.sched.color)))) =
      some ([0, 2, 3, 4], [0, 3], [2, 4], 1) :=
  ⟨colored_scheduler_stride_slices [0, 1, 0, 0, 0] 2 2 7 [0, 1, 1, 0, 0, 1, 1] (by decide)
    (by decide) (by decide) (by decide), by decide⟩

/-- C13: the colour counter of the coloured scheduler.  In any state reached after
`start()` by an interleaving of calls, `waiting` is the number of workers that wait
on the current colour, and a call by a worker `c < n` returns with the counter either
unchanged or increased by one.  It is increased exactly when `c` is not yet waiting
on the colour, the iteration bound is not reached, the index `c` moves to is beyond
the block (the worker exhausts its slice in this call) and all other workers are
already waiting on the colour, so that `c` is the `n`-th.  The call then returns
`EMPTY`, afterwards all `n` workers are waiting with the old value as observed
colour, and `waiting` is 0.  A worker already waiting on the current colour gets
`EMPTY` and the state, so also `waiting`, is unchanged.  The other members leave
the counter alone. -/
theorem colored_scheduler_color_advance (colors : List Nat) (n M f : Nat) (sched : List Nat)
    (c : Nat) (hV : colors ≠ []) (hf : f ≠ 0) (hsched : ∀ x ∈ sched, x < n) (hc : c < n) :
    ∃ s0 r s1 stat task, colored_scheduler.started colors n M f = some s0 ∧
      sched_run.run ⟨s0, []⟩ sched = some r ∧
      r.sched.get_next_task c = some (s1, stat, task) ∧
      r.sched.waiting = (List.range n).countP r.sched.waits_on_color ∧
      (s1.color = r.sched.color ∨ s1.color = r.sched.color + 1) ∧
      (s1.color = r.sched.color + 1 ↔
        (r.sched.waits_on_color c = false ∧
          r.sched.color / r.sched.color_blocks.length < M ∧
          (r.sched.block r.sched.color).length ≤
            (if r.sched.wt c = true then c else r.sched.idx c + n) ∧
          ∀ w, w < n → w ≠ c → r.sched.wt w = true ∧ r.sched.col w = r.sched.color)) ∧
      (s1.color = r.sched.color + 1 →
        stat = sched_status.EMPTY ∧ r.sched.waiting + 1 = n ∧ s1.waiting = 0 ∧
        ∀ w, w < n → s1.wt w = true ∧ s1.col w = r.sched.color) ∧
      (r.sched.wt c = true → r.sched.col c = r.sched.color →
        stat = sched_status.EMPTY ∧ s1 = r.sched) ∧
      (∀ (t : update_task) (vs : List Nat) (g w : Nat),
        (r.sched.add_task t).color = r.sched.color ∧
        (r.sched.add_tasks vs g).color = r.sched.color ∧
        (r.sched.add_task_to_all g).color = r.sched.color ∧
        (r.sched.completed_task w t).color = r.sched.color) := by
  obtain ⟨s0, h1, _, _, _, h5⟩ := started_inv colors n M f hV hf
  obtain ⟨r, g1, g2, _, _⟩ := sched_run_inv n M f sched ⟨s0, []⟩ h5 hsched
  obtain ⟨s1, stat, task, k1, k2, _, _⟩ := sched_run_step n M f r c g2 hc
  have hfacts : ∀ s2 : colored_scheduler, sched_frame n r.sched s2 c →
      sched_moved n r.sched s2 c →
      (s2.col c / s2.color_blocks.length < s2.max_iterations ↔
        r.sched.color / r.sched.color_blocks.length < M) ∧
      ((s2.block (s2.col c)).length ≤ s2.idx c ↔
        (r.sched.block r.sched.color).length ≤
          (if r.sched.wt c = true then c else r.sched.idx c + n)) := by
    intro s2 hframe hmoved
    rw [moved_col n M f r s2 c g2 hc hmoved, hframe.1, hframe.2.1, g2.max_eq,
      block_congr _ _ hframe.1, hmoved.2.2]
    exact ⟨Iff.rfl, Iff.rfl⟩
  have hwaits : r.sched.wt c = true → r.sched.col c = r.sched.color →
      r.sched.waits_on_color c = true := by
    intro a b
    simp [colored_scheduler.waits_on_color, a, b]
  refine ⟨s0, r, s1, stat, task, h1, g1, k1, g2.waiting_eq, ?_, ?_, ?_, ?_, ?_⟩
  · cases k2 with
    | still_waiting _ _ => exact Or.inl rfl
    | complete _ _ _ _ _ h _ _ => exact Or.inl h
    | newtask _ _ _ _ _ _ h _ _ => exact Or.inl h
    | overrun _ _ _ _ _ _ h _ _ _ => exact Or.inl h
    | advance _ _ _ _ _ _ h _ _ _ => exact Or.inr h
  · cases k2 with
    | still_waiting a b =>
      constructor
      · intro h
        omega
      · intro h
        rw [hwaits a b] at h
        cases h.1
    | complete _ hframe hmoved hT _ h _ _ =>
      constructor
      · intro h1
        omega
      · intro h1
        have := ((hfacts _ hframe hmoved).1).mpr h1.2.1
        omega
    | newtask _ hframe hmoved _ hidx _ h _ _ =>
      constructor
      · intro h1
        omega
      · intro h1
        have := ((hfacts _ hframe hmoved).2).mpr h1.2.2.1
        omega
    | overrun _ hframe hmoved _ _ _ h _ hne _ =>
      constructor
      · intro h1
        omega
      · intro h1
        exact absurd (waiting_of_others n M f r g2 c hc h1.1 h1.2.2.2) hne
    | advance _ hframe hmoved hT hover hwt h _ hnth _ =>
      constructor
      · intro _
        exact ⟨hmoved.1, ((hfacts _ hframe hmoved).1).mp hT,
          ((hfacts _ hframe hmoved).2).mp hover,
          (all_waiting_at_advance n M f r s1 c g2 hc hframe hmoved hwt hnth).1⟩
      · intro _
        exact h
  · intro hadv
    cases k2 with
    | still_waiting _ _ => omega
    | complete _ _ _ _ _ h _ _ => omega
    | newtask _ _ _ _ _ _ h _ _ => omega
    | overrun _ _ _ _ _ _ h _ _ _ => omega
    | advance _ hframe hmoved _ _ hwt _ hwaiting hnth _ =>
      exact ⟨rfl, hnth, hwaiting,
        (all_waiting_at_advance n M f r s1 c g2 hc hframe hmoved hwt hnth).2⟩
  · intro a b
    have hw := hwaits a b
    cases k2 with
    | still_waiting _ _ => exact ⟨rfl, rfl⟩
    | complete _ _ hmoved _ _ _ _ _ =>
      rw [hmoved.1] at hw
      cases hw
    | newtask _ _ hmoved _ _ _ _ _ _ =>
      rw [hmoved.1] at hw
      cases hw
    | overrun _ _ hmoved _ _ _ _ _ _ _ =>
      rw [hmoved.1] at hw
      cases hw
    | advance _ _ hmoved _ _ _ _ _ _ _ =>
      rw [hmoved.1] at hw
      cases hw
  · intro t vs g w
    exact ⟨rfl, rfl, rfl, rfl⟩

/-- C13, witness: colours 0, 1, 0, two workers, one iteration.  After the calls of
workers 0, 1, 0 worker 0 waits on colour 0; the next call of worker 1 overruns the
block, and as the second of two workers it advances the counter to 1 and resets
`waiting`. -/
theorem colored_scheduler_color_advance_witness :
    (∃ s0 r s1 stat task, colored_scheduler.started [0, 1, 0] 2 1 7 = some s0 ∧
      sched_run.run ⟨s0, []⟩ [0, 1, 0] = some r ∧
      r.sched.get_next_task 1 = some (s1, stat, task) ∧
      r.sched.waiting = (List.range 2).countP r.sched.waits_on_color ∧
      (s1.color = r.sched.color ∨ s1.color = r.sched.color + 1) ∧
      (s1.color = r.sched.color + 1 ↔
        (r.sched.waits_on_color 1 = false ∧
          r.sched.color / r.sched.color_blocks.length < 1 ∧
          (r.sched.block r.sched.color).length ≤
            (if r.sched.wt 1 = true then 1 else r.sched.idx 1 + 2) ∧
          ∀ w, w < 2 → w ≠ 1 → r.sched.wt w = true ∧ r.sched.col w = r.sched.color)) ∧
      (s1.color = r.sched.color + 1 →
        stat = sched_status.EMPTY ∧ r.sched.waiting + 1 = 2 ∧ s1.waiting = 0 ∧
        ∀ w, w < 2 → s1.wt w = true ∧ s1.col w = r.sched.color) ∧
      (r.sched.wt 1 = true → r.sched.col 1 = r.sched.color →
        stat = sched_status.EMPTY ∧ s1 = r.sched) ∧
      (∀ (t : update_task) (vs : List Nat) (g w : Nat),
        (r.sched.add_task t).color = r.sched.color ∧
        (r.sched.add_tasks vs g).color = r.sched.color ∧
        (r.sched.add_task_to_all g).color = r.sched.color ∧
        (r.sched.completed_task w t).color = r.sched.color)) ∧
    ((colored_scheduler.started [0, 1, 0] 2 1 7).bind
      (fun s0 => (sched_run.run ⟨s0, []⟩ [0, 1, 0]).bind
        (fun r => (r.sched.get_next_task 1).map
          (fun o => (r.sched.color, r.sched.waiting, o.1.color, o.1.waiting,
            o.1.cpu_waiting, o.1.cpu_color, o.2.1))))) =
      some (0, 1, 1, 0, [true, true], [0, 0], sched_status.EMPTY) :=
  ⟨colored_scheduler_color_advance [0, 1, 0] 2 1 7 [0, 1, 0] 1 (by decide) (by decide)
    (by decide) (by decide), rfl⟩

/-! ### C21: dispatch of a received call -/

/-- C21: dispatch in `exec_function_call`, for every archive, every pair of name tables,
every source and every stream.  With `f` the dispatch id read first: if `f` is not 0,
the only thing done is one call of the thunk `f` (no table lookup).  If `f` is 0, a
name `s` and then a byte are read; when the byte is 0 the name is looked up in the
portable call table and in no other, when it is not 0 in the portable request table
and in no other; a registered thunk is called once, on the stream behind the byte,
and when none is registered an error is logged and nothing is called.  In every case
the function returns. -/
theorem exec_function_call_dispatch (dc : distributed_control) (arc : iarchive) (source : Nat)
    (istrm : List Nat) :
    ((arc.read_size_t istrm).1 ≠ 0 →
      dc.exec_function_call arc source istrm =
        [dc_event.dispatch (arc.read_size_t istrm).1 source (arc.read_size_t istrm).2] ∧
      dispatch_count (dc.exec_function_call arc source istrm) = 1 ∧
      find_count (dc.exec_function_call arc source istrm) = 0) ∧
    ((arc.read_size_t istrm).1 = 0 →
      (arc.read_char (arc.read_string (arc.read_size_t istrm).2).2).1 = 0 →
      (∀ thunk,
        dc.portable_dispatch_call_map.lookup (arc.read_string (arc.read_size_t istrm).2).1 =
          some thunk →
        dc.exec_function_call arc source istrm =
          [dc_event.find_call (arc.read_string (arc.read_size_t istrm).2).1,
            dc_event.dispatch thunk source
              (arc.read_char (arc.read_string (arc.read_size_t istrm).2).2).2] ∧
        dispatch_count (dc.exec_function_call arc source istrm) = 1) ∧
      (dc.portable_dispatch_call_map.lookup (arc.read_string (arc.read_size_t istrm).2).1 =
          none →
        dc.exec_function_call arc source istrm =
          [dc_event.find_call (arc.read_string (arc.read_size_t istrm).2).1,
            dc_event.log_error (arc.read_string (arc.read_size_t istrm).2).1] ∧
        dispatch_count (dc.exec_function_call arc source istrm) = 0)) ∧
    ((arc.read_size_t istrm).1 = 0 →
      (arc.read_char (arc.read_string (arc.read_size_t istrm).2).2).1 ≠ 0 →
      (∀ thunk,
        dc.portable_dispatch_request_map.lookup
          (arc.read_string (arc.read_size_t istrm).2).1 = some thunk →
        dc.exec_function_call arc source istrm =
          [dc_event.find_request (arc.read_string (arc.read_size_t istrm).2).1,
            dc_event.dispatch thunk source
              (arc.read_char (arc.read_string (arc.read_size_t istrm).2).2).2] ∧
        dispatch_count (dc.exec_function_call arc source istrm) = 1) ∧
      (dc.portable_dispatch_request_map.lookup
          (arc.read_string (arc.read_size_t istrm).2).1 = none →
        dc.exec_function_call arc source istrm =
          [dc_event.find_request (arc.read_string (arc.read_size_t istrm).2).1,
            dc_event.log_error (arc.read_string (arc.read_size_t istrm).2).1] ∧
        dispatch_count (dc.exec_function_call arc source istrm) = 0)) := by
  refine ⟨?_, ?_, ?_⟩
  · intro hf
    have h : dc.exec_function_call arc source istrm =
        [dc_event.dispatch (arc.read_size_t istrm).1 source (arc.read_size_t istrm).2] := by
      simp only [distributed_control.exec_function_call]
      rw [if_pos hf]
    rw [h]
    exact ⟨rfl, rfl, rfl⟩
  · intro hf hr
    have hf1 : ¬ (arc.read_size_t istrm).1 ≠ 0 := fun h => h hf
    constructor
    · intro thunk hl
      have h : dc.exec_function_call arc source istrm =
          [dc_event.find_call (arc.read_string (arc.read_size_t istrm).2).1,
            dc_event.dispatch thunk source
              (arc.read_char (arc.read_string (arc.read_size_t istrm).2).2).2] := by
        simp only [distributed_control.exec_function_call]
        rw [if_neg hf1, if_pos hr, hl]
      rw [h]
      exact ⟨rfl, rfl⟩
    · intro hl
      have h : dc.exec_function_call arc source istrm =
          [dc_event.find_call (arc.read_string (arc.read_size_t istrm).2).1,
            dc_event.log_error (arc.read_string (arc.read_size_t istrm).2).1] := by
        simp only [distributed_control.exec_function_call]
        rw [if_neg hf1, if_pos hr, hl]
      rw [h]
      exact ⟨rfl, rfl⟩
  · intro hf hr
    have hf1 : ¬ (arc.read_size_t istrm).1 ≠ 0 := fun h => h hf
    constructor
    · intro thunk hl
      have h : dc.exec_function_call arc source istrm =
          [dc_event.find_request (arc.read_string (arc.read_size_t istrm).2).1,
            dc_event.dispatch thunk source
              (arc.read_char (arc.read_string (arc.read_size_t istrm).2).2).2] := by
        simp only [distributed_control.exec_function_call]
        rw [if_neg hf1, if_neg hr, hl]
      rw [h]
      exact ⟨rfl, rfl⟩
    · intro hl
      have h : dc.exec_function_call arc source istrm =
          [dc_event.find_request (arc.read_string (arc.read_size_t istrm).2).1,
            dc_event.log_error (arc.read_string (arc.read_size_t istrm).2).1] := by
        simp only [distributed_control.exec_function_call]
        rw [if_neg hf1, if_neg hr, hl]
      rw [h]
      exact ⟨rfl, rfl⟩

/-- C21, witness: a portable call (dispatch id 0, name `ping`, byte 0) with `ping`
registered in both tables is dispatched through the call table. -/
theorem exec_function_call_dispatch_witness :
    (distributed_control.mk [("ping", 11)] [("ping", 22)] blocking_queue.init
        []).exec_function_call sample_archive 3 [0, 1, 0, 9] =
      [dc_event.find_call "ping", dc_event.dispatch 11 3 [9]] ∧
    dispatch_count ((distributed_control.mk [("ping", 11)] [("ping", 22)] blocking_queue.init
        []).exec_function_call sample_archive 3 [0, 1, 0, 9]) = 1 :=
  ((exec_function_call_dispatch
    (distributed_control.mk [("ping", 11)] [("ping", 22)] blocking_queue.init [])
    sample_archive 3 [0, 1, 0, 9]).2.1 (by decide) (by decide)).1 11 (by decide)

/-! ### C27: draining a stopped queue -/

theorem exec_function_call_congr (dc dc1 : distributed_control) (arc : iarchive) (source : Nat)
    (istrm : List Nat)
    (h1 : dc1.portable_dispatch_call_map = dc.portable_dispatch_call_map)
    (h2 : dc1.portable_dispatch_request_map = dc.portable_dispatch_request_map) :
    dc1.exec_function_call arc source istrm = dc.exec_function_call arc source istrm := by
  simp only [distributed_control.exec_function_call, h1, h2]

theorem block_events_congr (dc dc1 : distributed_control) (arc : iarchive)
    (h1 : dc1.portable_dispatch_call_map = dc.portable_dispatch_call_map)
    (h2 : dc1.portable_dispatch_request_map = dc.portable_dispatch_request_map) :
    block_events dc1 arc = block_events dc arc := by
  funext x
  simp only [block_events, distributed_control.exec_function_call, h1, h2]

theorem dequeue_stopped_cons {T : Type} [Inhabited T] (x : T) (rest : List T) :
    (blocking_queue.mk false (x :: rest)).dequeue = some (⟨false, rest⟩, (x, true)) := by
  simp [blocking_queue.dequeue]

theorem dequeue_stopped_nil {T : Type} [Inhabited T] :
    (blocking_queue.mk false ([] : List T)).dequeue = some (⟨false, []⟩, (default, false)) := by
  simp [blocking_queue.dequeue]

theorem fcallhandler_loop_succ (arc : iarchive) (fuel : Nat) (dc : distributed_control) :
    distributed_control.fcallhandler_loop arc (fuel + 1) dc =
      match dc.fcallqueue.dequeue with
      | none => { dc := dc, result := loop_result.waiting, executed := [], events := [] }
      | some (q1, entry) =>
        if entry.2 = false then
          { dc := { dc with fcallqueue := q1 }, result := loop_result.returned, executed := [],
            events := [] }
        else
          if entry.1.source < dc.receivers.length then
            { distributed_control.fcallhandler_loop arc fuel
                { dc with fcallqueue := q1,
                          receivers := dc.receivers.set entry.1.source
                            (dc.receivers.getD entry.1.source 0 + 1) } with
              executed := entry.1 ::
                (distributed_control.fcallhandler_loop arc fuel
                  { dc with fcallqueue := q1,
                            receivers := dc.receivers.set entry.1.source
                              (dc.receivers.getD entry.1.source 0 + 1) }).executed,
              events :=
                (distributed_control.exec_function_call { dc with fcallqueue := q1 } arc
                  entry.1.source entry.1.data) ++
                dc_event.function_call_completed entry.1.source ::
                (distributed_control.fcallhandler_loop arc fuel
                  { dc with fcallqueue := q1,
                            receivers := dc.receivers.set entry.1.source
                              (dc.receivers.getD entry.1.source 0 + 1) }).events }
          else
            { dc := { dc with fcallqueue := q1 }, result := loop_result.out_of_range,
              executed := [entry.1],
              events := distributed_control.exec_function_call { dc with fcallqueue := q1 } arc
                entry.1.source entry.1.data } := by
  rw [distributed_control.fcallhandler_loop]
  try rfl

/-- The handler loop on a stopped queue holding `bs`, all from sources that have a
receiver: it handles the blocks of `bs` in order and returns at the following
`dequeue`. -/
theorem fcallhandler_loop_stopped (arc : iarchive) (bs : List function_call_block) :
    ∀ (dc : distributed_control) (extra : Nat), dc.fcallqueue = ⟨false, bs⟩ →
      (∀ b ∈ bs, b.source < dc.receivers.length) →
      (distributed_control.fcallhandler_loop arc (bs.length + 1 + extra) dc).result =
        loop_result.returned ∧
      (distributed_control.fcallhandler_loop arc (bs.length + 1 + extra) dc).executed = bs ∧
      (distributed_control.fcallhandler_loop arc (bs.length + 1 + extra) dc).events =
        bs.flatMap (block_events dc arc) ∧
      (distributed_control.fcallhandler_loop arc (bs.length + 1 + extra) dc).dc.fcallqueue =
        ⟨false, []⟩ := by
  induction bs with
  | nil =>
    intro dc extra hq _
    rw [List.length_nil, show 0 + 1 + extra = extra + 1 by omega, fcallhandler_loop_succ, hq,
      dequeue_stopped_nil]
    exact ⟨rfl, rfl, rfl, rfl⟩
  | cons b rest ih =>
    intro dc extra hq hsrc
    have hb : b.source < dc.receivers.length := hsrc b (List.mem_cons_self _ _)
    rw [List.length_cons, show rest.length + 1 + 1 + extra = (rest.length + 1 + extra) + 1 by omega,
      fcallhandler_loop_succ, hq, dequeue_stopped_cons]
    simp only [Bool.true_eq_false, if_false, if_pos hb]
    obtain ⟨i1, i2, i3, i4⟩ := ih
      { dc with fcallqueue := ⟨false, rest⟩,
                receivers := dc.receivers.set b.source (dc.receivers.getD b.source 0 + 1) }
      extra rfl
      (fun x hx => by
        simp only [List.length_set]
        exact hsrc x (List.mem_cons_of_mem _ hx))
    refine ⟨i1, ?_, ?_, i4⟩
    · rw [i2]
    · rw [i3, List.flatMap_cons, block_events_congr dc _ arc rfl rfl]
      simp only [block_events, List.append_assoc, List.singleton_append]
      exact congrArg (fun l => l ++ dc_event.function_call_completed b.source ::
        rest.flatMap (fun x => dc.exec_function_call arc x.source x.data ++
          [dc_event.function_call_completed x.source]))
        (exec_function_call_congr dc _ arc b.source b.data rfl rfl)

theorem sum_map_set_of_getElem {α : Type} (g : α → Nat) (l : List α) :
    ∀ (i : Nat) (a old : α), l[i]? = some old →
      ((l.set i a).map g).sum + g old = (l.map g).sum + g a := by
  induction l with
  | nil =>
    intro i a old h
    simp at h
  | cons x xs ih =>
    intro i a old h
    cases i with
    | zero =>
      simp only [List.getElem?_cons_zero, Option.some.injEq] at h
      subst h
      simp only [List.set_cons_zero, List.map_cons, List.sum_cons]
      omega
    | succ j =>
      rw [List.getElem?_cons_succ] at h
      have := ih j a old h
      simp only [List.set_cons_succ, List.map_cons, List.sum_cons]
      omega

/-- One iteration on a stopped queue that is empty: the loop returns. -/
theorem iteration_stopped_nil (arc : iarchive) (dc : distributed_control)
    (hq : dc.fcallqueue = ⟨false, []⟩) :
    distributed_control.fcallhandler_loop arc 1 dc =
      { dc := dc, result := loop_result.returned, executed := [], events := [] } := by
  rw [fcallhandler_loop_succ, hq, dequeue_stopped_nil]
  simp only [if_true]
  rw [← hq]

/-- One iteration on a stopped queue with the block `b` in front, whose source has a
receiver: the block is executed, the receiver is told, and the loop goes on. -/
theorem iteration_stopped_cons (arc : iarchive) (dc : distributed_control)
    (b : function_call_block) (rest : List function_call_block)
    (hq : dc.fcallqueue = ⟨false, b :: rest⟩) (hb : b.source < dc.receivers.length) :
    distributed_control.fcallhandler_loop arc 1 dc =
      { dc := { dc with fcallqueue := ⟨false, rest⟩,
                        receivers := dc.receivers.set b.source
                          (dc.receivers.getD b.source 0 + 1) },
        result := loop_result.running, executed := [b], events := block_events dc arc b } := by
  rw [fcallhandler_loop_succ, hq, dequeue_stopped_cons]
  simp only [Bool.true_eq_false, if_false, if_pos hb]
  simp only [distributed_control.fcallhandler_loop, block_events, List.append_nil]
  rw [exec_function_call_congr dc { dc with fcallqueue := ⟨false, rest⟩ } arc b.source b.data
    rfl rfl]

/-- One iteration on a stopped queue with the block `b` in front, whose source has no
receiver: the block is passed to `exec_function_call`, and the subscript of
`receivers` that follows is out of range. -/
theorem iteration_stopped_out_of_range (arc : iarchive) (dc : distributed_control)
    (fuel : Nat) (b : function_call_block) (rest : List function_call_block)
    (hq : dc.fcallqueue = ⟨false, b :: rest⟩) (hb : ¬ b.source < dc.receivers.length) :
    distributed_control.fcallhandler_loop arc (fuel + 1) dc =
      { dc := { dc with fcallqueue := ⟨false, rest⟩ },
        result := loop_result.out_of_range, executed := [b],
        events := dc.exec_function_call arc b.source b.data } := by
  rw [fcallhandler_loop_succ, hq, dequeue_stopped_cons]
  simp only [Bool.true_eq_false, if_false, if_neg hb]
  rw [exec_function_call_congr dc { dc with fcallqueue := ⟨false, rest⟩ } arc b.source b.data
    rfl rfl]

theorem mem_of_getElem_some {α : Type} (l : List α) (i : Nat) (a : α) (h : l[i]? = some a) :
    a ∈ l := by
  obtain ⟨_, hget⟩ := List.getElem?_eq_some.mp h
  rw [← hget]
  exact List.getElem_mem _

theorem pool_inv_launch (arc : iarchive) (dc : distributed_control) (n : Nat)
    (hstop : dc.fcallqueue.m_alive = false) :
    pool_inv arc dc dc.fcallqueue.m_queue n [] (handler_pool.launch dc n) where
  alive := hstop
  call_map := rfl
  request_map := rfl
  recv := rfl
  queue := rfl
  len := List.length_replicate _ _
  res := by
    intro th hth
    rw [handler_pool.launch] at hth
    rw [List.eq_of_mem_replicate hth]
    exact Or.inl rfl
  ev := by
    intro th hth
    rw [handler_pool.launch] at hth
    rw [List.eq_of_mem_replicate hth]
    rfl
  sub := by
    intro th hth
    rw [handler_pool.launch] at hth
    rw [List.eq_of_mem_replicate hth]
    exact List.Sublist.refl _
  cnt := by
    intro b
    simp [handler_pool.launch]
  steps := by
    intro i th hth _
    simp only [handler_pool.launch] at hth
    have hm : th ∈ List.replicate n (⟨loop_result.running, [], []⟩ : handler_thread) :=
      mem_of_getElem_some _ _ _ hth
    rw [List.eq_of_mem_replicate hm]
    rfl

theorem count_snoc_ne (sched : List Nat) (i j : Nat) (h : j ≠ i) :
    (sched ++ [i]).count j = sched.count j := by
  rw [List.count_append, List.count_singleton]
  have : ¬ (i == j) = true := by
    simp only [beq_iff_eq]
    exact fun e => h e.symm
  rw [if_neg this]
  rfl

theorem count_snoc_self (sched : List Nat) (i : Nat) :
    (sched ++ [i]).count i = sched.count i + 1 := by
  rw [List.count_append, List.count_singleton]
  simp

/-- The invariant is kept by an iteration of any thread. -/
theorem pool_inv_step (arc : iarchive) (dc0 : distributed_control)
    (bs : List function_call_block) (n : Nat) (sched : List Nat) (p : handler_pool) (i : Nat)
    (hsrc : ∀ b ∈ bs, b.source < dc0.receivers.length)
    (h : pool_inv arc dc0 bs n sched p) :
    pool_inv arc dc0 bs n (sched ++ [i]) (p.step arc i) := by
  have hsame : ∀ q : handler_pool, q = p →
      (∀ th, p.threads[i]? = some th → th.result ≠ loop_result.running) →
      pool_inv arc dc0 bs n (sched ++ [i]) q := by
    intro q hq hno
    subst hq
    refine { h with steps := ?_ }
    intro j thj hj hrun
    have hji : j ≠ i := by
      intro e
      subst e
      exact hno thj hj hrun
    rw [count_snoc_ne sched i j hji]
    exact h.steps j thj hj hrun
  cases hth : p.threads[i]? with
  | none =>
    apply hsame
    · simp only [handler_pool.step, hth]
    · intro th h1
      rw [hth] at h1
      cases h1
  | some th =>
    have hmem : th ∈ p.threads := mem_of_getElem_some _ _ _ hth
    have hilt : i < p.threads.length := (List.getElem?_eq_some.mp hth).1
    rcases h.res th hmem with hrun | ⟨hret, _⟩
    · have hstep : p.step arc i =
          { dc := (distributed_control.fcallhandler_loop arc 1 p.dc).dc,
            threads := p.threads.set i
              ⟨(distributed_control.fcallhandler_loop arc 1 p.dc).result,
                th.executed ++ (distributed_control.fcallhandler_loop arc 1 p.dc).executed,
                th.events ++ (distributed_control.fcallhandler_loop arc 1 p.dc).events⟩,
            dequeued :=
              p.dequeued ++ (distributed_control.fcallhandler_loop arc 1 p.dc).executed } := by
        simp only [handler_pool.step, hth, hrun, true_or, if_true]
      have hq : p.dc.fcallqueue = ⟨false, p.dc.fcallqueue.m_queue⟩ := by
        have ha := h.alive
        cases hfq : p.dc.fcallqueue with
        | mk a l =>
          rw [hfq] at ha
          simp only at ha
          rw [ha]
      have hother : ∀ (j : Nat) (thj new : handler_thread), j ≠ i →
          (p.threads.set i new)[j]? = some thj → p.threads[j]? = some thj := by
        intro j thj new hji hj
        rw [List.getElem?_set_ne (fun e => hji e.symm)] at hj
        exact hj
      have hself : ∀ (thj new : handler_thread),
          (p.threads.set i new)[i]? = some thj → thj = new := by
        intro thj new hj
        rw [List.getElem?_set_self hilt, Option.some.injEq] at hj
        exact hj.symm
      cases hqueue : p.dc.fcallqueue.m_queue with
      | nil =>
        rw [hqueue] at hq
        rw [hstep, iteration_stopped_nil arc p.dc hq]
        simp only [List.append_nil]
        refine { alive := h.alive, call_map := h.call_map, request_map := h.request_map,
                 recv := h.recv, queue := h.queue, len := ?_, res := ?_, ev := ?_, sub := ?_,
                 cnt := ?_, steps := ?_ }
        · simp only [List.length_set]
          exact h.len
        · intro th1 h1
          rcases List.mem_or_eq_of_mem_set h1 with h2 | h2
          · exact h.res th1 h2
          · rw [h2]
            exact Or.inr ⟨rfl, hqueue⟩
        · intro th1 h1
          rcases List.mem_or_eq_of_mem_set h1 with h2 | h2
          · exact h.ev th1 h2
          · rw [h2]
            exact h.ev th hmem
        · intro th1 h1
          rcases List.mem_or_eq_of_mem_set h1 with h2 | h2
          · exact h.sub th1 h2
          · rw [h2]
            exact h.sub th hmem
        · intro b
          have h3 := sum_map_set_of_getElem (fun t : handler_thread => t.executed.count b)
            p.threads i ⟨loop_result.returned, th.executed, th.events⟩ th hth
          have h4 := h.cnt b
          simp only at h3 ⊢
          omega
        · intro j thj hj hrunj
          by_cases hji : j = i
          · subst hji
            have := hself thj _ hj
            rw [this] at hrunj
            cases hrunj
          · rw [count_snoc_ne sched i j hji]
            exact h.steps j thj (hother j thj _ hji hj) hrunj
      | cons x rest =>
        rw [hqueue] at hq
        have hxbs : x ∈ bs := by
          rw [← h.queue, hqueue]
          exact List.mem_append_right _ (List.mem_cons_self _ _)
        have hx : x.source < p.dc.receivers.length := by
          rw [h.recv]
          exact hsrc x hxbs
        rw [hstep, iteration_stopped_cons arc p.dc x rest hq hx]
        simp only
        refine { alive := rfl, call_map := h.call_map, request_map := h.request_map,
                 recv := ?_, queue := ?_, len := ?_, res := ?_, ev := ?_, sub := ?_,
                 cnt := ?_, steps := ?_ }
        · simp only [List.length_set]
          exact h.recv
        · rw [List.append_assoc, List.singleton_append, ← hqueue]
          exact h.queue
        · simp only [List.length_set]
          exact h.len
        · intro th1 h1
          rcases List.mem_or_eq_of_mem_set h1 with h2 | h2
          · rcases h.res th1 h2 with h5 | ⟨_, h6⟩
            · exact Or.inl h5
            · rw [hqueue] at h6
              cases h6
          · rw [h2]
            exact Or.inl rfl
        · intro th1 h1
          rcases List.mem_or_eq_of_mem_set h1 with h2 | h2
          · exact h.ev th1 h2
          · rw [h2]
            simp only
            rw [List.flatMap_append, ← h.ev th hmem,
              block_events_congr dc0 p.dc arc h.call_map h.request_map]
            simp
        · intro th1 h1
          rcases List.mem_or_eq_of_mem_set h1 with h2 | h2
          · exact (h.sub th1 h2).trans (List.sublist_append_left _ _)
          · rw [h2]
            exact List.Sublist.append (h.sub th hmem) (List.Sublist.refl _)
        · intro b
          have h3 := sum_map_set_of_getElem (fun t : handler_thread => t.executed.count b)
            p.threads i ⟨loop_result.running, th.executed ++ [x],
              th.events ++ block_events p.dc arc x⟩ th hth
          have h4 := h.cnt b
          simp only [List.count_append] at h3 ⊢
          omega
        · intro j thj hj hrunj
          by_cases hji : j = i
          · subst hji
            have := hself thj _ hj
            rw [this, count_snoc_self]
            simp only [List.length_append, List.length_singleton]
            rw [h.steps j th hth hrun]
          · rw [count_snoc_ne sched i j hji]
            exact h.steps j thj (hother j thj _ hji hj) hrunj
    · apply hsame
      · simp only [handler_pool.step, hth, hret]
        simp
      · intro th1 h1 h2
        rw [hth, Option.some.injEq] at h1
        rw [← h1, hret] at h2
        cases h2

theorem pool_run_snoc (arc : iarchive) (sched : List Nat) :
    ∀ (p : handler_pool) (i : Nat), p.run arc (sched ++ [i]) = (p.run arc sched).step arc i := by
  induction sched with
  | nil => intro p i; rfl
  | cons j rest ih =>
    intro p i
    simp only [List.cons_append, handler_pool.run]
    exact ih _ i

/-- The invariant holds after every interleaving of iterations. -/
theorem pool_inv_run (arc : iarchive) (dc : distributed_control) (n : Nat) (sched : List Nat)
    (hstop : dc.fcallqueue.m_alive = false)
    (hsrc : ∀ b ∈ dc.fcallqueue.m_queue, b.source < dc.receivers.length) :
    pool_inv arc dc dc.fcallqueue.m_queue n sched ((handler_pool.launch dc n).run arc sched) := by
  induction sched using List.reverseRecOn with
  | nil => exact pool_inv_launch arc dc n hstop
  | append_singleton rest i ih =>
    rw [pool_run_snoc]
    exact pool_inv_step arc dc _ n rest _ i hsrc ih

/-- The two replacements leave `=` and the line end alone and produce neither. -/
theorem replace_keeps (c d : Char) (hd : d = '=' ∨ d = '\n') :
    ((if (if c = ',' then ' ' else c) = ';' then ' ' else (if c = ',' then ' ' else c)) ≠ d) =
      (c ≠ d) := by
  by_cases h1 : c = ','
  · subst h1
    rcases hd with hd | hd <;> subst hd <;> simp
  · by_cases h2 : c = ';'
    · subst h2
      rcases hd with hd | hd <;> subst hd <;> simp
    · simp [h1, h2]

theorem replaced_eq_map (str : List Char) :
    std_replace (std_replace str ',' ' ') ';' ' ' =
      str.map (fun c => if (if c = ',' then ' ' else c) = ';' then ' '
        else (if c = ',' then ' ' else c)) := by
  simp only [std_replace, List.map_map]
  rfl

theorem replaced_takeWhile (str : List Char) (d : Char) (hd : d = '=' ∨ d = '\n') :
    (std_replace (std_replace str ',' ' ') ';' ' ').takeWhile (fun c => decide (c ≠ d)) =
      std_replace (std_replace (str.takeWhile (fun c => decide (c ≠ d))) ',' ' ') ';' ' ' := by
  rw [replaced_eq_map, replaced_eq_map, List.takeWhile_map]
  congr 1
  congr 1
  funext c
  simp only [Function.comp, replace_keeps c d hd]

theorem replaced_dropWhile (str : List Char) (d : Char) (hd : d = '=' ∨ d = '\n') :
    (std_replace (std_replace str ',' ' ') ';' ' ').dropWhile (fun c => decide (c ≠ d)) =
      std_replace (std_replace (str.dropWhile (fun c => decide (c ≠ d))) ',' ' ') ';' ' ' := by
  rw [replaced_eq_map, replaced_eq_map, List.dropWhile_map]
  congr 1
  congr 1
  funext c
  simp only [Function.comp, replace_keeps c d hd]

theorem replaced_tail (str : List Char) :
    (std_replace (std_replace str ',' ' ') ';' ' ').tail =
      std_replace (std_replace str.tail ',' ' ') ';' ' ' := by
  cases str <;> rfl

theorem dropWhile_ne_nil_of_not_mem (str : List Char) (d : Char) (h : d ∉ str) :
    str.dropWhile (fun c => decide (c ≠ d)) = [] ∧
      str.takeWhile (fun c => decide (c ≠ d)) = str := by
  induction str with
  | nil => exact ⟨rfl, rfl⟩
  | cons a l ih =>
    have ha : a ≠ d := fun e => h (e ▸ List.mem_cons_self _ _)
    obtain ⟨i1, i2⟩ := ih (fun hm => h (List.mem_cons_of_mem _ hm))
    have hp : decide (a ≠ d) = true := by simpa using ha
    rw [List.dropWhile_cons, List.takeWhile_cons]
    simp only [hp, if_true]
    exact ⟨i1, by rw [i2]⟩

theorem dropWhile_ne_cons_of_mem (str : List Char) (d : Char) (h : d ∈ str) :
    str.dropWhile (fun c => decide (c ≠ d)) =
      d :: (str.dropWhile (fun c => decide (c ≠ d))).tail := by
  induction str with
  | nil => cases h
  | cons a l ih =>
    by_cases ha : a = d
    · subst ha
      simp [List.dropWhile_cons]
    · have hl : d ∈ l := by
        rcases List.mem_cons.mp h with h1 | h1
        · exact absurd h1.symm ha
        · exact h1
      have := ih hl
      simp only [List.dropWhile_cons, ha, ne_eq, not_false_eq_true, decide_True, if_true]
      exact this

theorem not_mem_dropWhile (str : List Char) (p : Char → Bool) (d : Char) (h : d ∉ str) :
    d ∉ (str.dropWhile p).tail := by
  intro hm
  exact h ((List.dropWhile_suffix p).subset (List.mem_of_mem_tail hm))

theorem parse_options_loop_succ (trim : List Char → List Char) (fuel : Nat) (s : stringstream)
    (opt value : List Char) (options : List (List Char × List Char)) :
    parse_options_loop trim (fuel + 1) s opt value options =
      if s.good = false then some options
      else
        if ((getline s opt '=').1.bad || (getline s opt '=').1.eof) = true then some options
        else
          if (getline (getline s opt '=').1 value '\n').1.bad = true then some options
          else
            parse_options_loop trim fuel (getline (getline s opt '=').1 value '\n').1
              (getline s opt '=').2 (getline (getline s opt '=').1 value '\n').2
              (map_assign options (trim (getline s opt '=').2)
                (trim (getline (getline s opt '=').1 value '\n').2)) := by
  rw [parse_options_loop]

/-- The loop on a line without `=`: nothing is stored. -/
theorem parse_options_loop_no_equal (trim : List Char → List Char) (fuel : Nat)
    (str opt value : List Char) (h : '=' ∉ str) :
    parse_options_loop trim (fuel + 1) (stringstream.init str) opt value [] = some [] := by
  have hd := (dropWhile_ne_nil_of_not_mem str '=' h).1
  have h1 : getline (stringstream.init str) opt '=' =
      (⟨[], true, (str.takeWhile (fun c => decide (c ≠ '='))).isEmpty, false⟩,
        str.takeWhile (fun c => decide (c ≠ '='))) := by
    simp only [getline, stringstream.init, stringstream.good]
    rw [hd]
    rfl
  rw [parse_options_loop_succ, h1]
  simp [stringstream.init, stringstream.good, stringstream.bad, stringstream.eof]

/-- The loop on a line with `=` and no line end: one entry is stored. -/
theorem parse_options_loop_equal (trim : List Char → List Char) (fuel : Nat)
    (str opt value : List Char) (h : '=' ∈ str) (hnl : '\n' ∉ str) :
    parse_options_loop trim (fuel + 2) (stringstream.init str) opt value [] =
      some [(trim (str.takeWhile (fun c => decide (c ≠ '='))),
        trim (str.dropWhile (fun c => decide (c ≠ '='))).tail)] := by
  have hd := dropWhile_ne_cons_of_mem str '=' h
  have hrest := dropWhile_ne_nil_of_not_mem (str.dropWhile (fun c => decide (c ≠ '='))).tail
    '\n' (not_mem_dropWhile str _ '\n' hnl)
  have h1 : getline (stringstream.init str) opt '=' =
      (⟨(str.dropWhile (fun c => decide (c ≠ '='))).tail, false, false, false⟩,
        str.takeWhile (fun c => decide (c ≠ '='))) := by
    simp only [getline, stringstream.init, stringstream.good]
    rw [hd]
    rfl
  have h2 : (getline ⟨(str.dropWhile (fun c => decide (c ≠ '='))).tail, false, false, false⟩
      value '\n') =
      (⟨[], true, ((str.dropWhile (fun c => decide (c ≠ '='))).tail).isEmpty, false⟩,
        (str.dropWhile (fun c => decide (c ≠ '='))).tail) := by
    simp only [getline, stringstream.good]
    rw [hrest.1, hrest.2]
    rfl
  rw [show fuel + 2 = (fuel + 1) + 1 by omega, parse_options_loop_succ, h1, h2,
    parse_options_loop_succ]
  simp [stringstream.init, stringstream.good, stringstream.bad, stringstream.eof, map_assign]

/-- C28: `parse_options` on an init string without a line end, for any `trim`.  If the
string has no `=`, the result is the empty map.  Otherwise the result has exactly one
entry: its key is the trimmed text before the first `=` and its value the trimmed
whole remainder behind that `=`, both with every `,` and `;` replaced by a blank.  So
`a=1,b=2` gives the one entry with key `a` and value `1 b=2`, while two lines `a=1` and
`b=2` give two entries. -/
theorem parse_options_single_line (trim : List Char → List Char) (initstring : List Char)
    (hnl : '\n' ∉ initstring) :
    ('=' ∉ initstring → parse_options trim initstring = some []) ∧
    ('=' ∈ initstring → parse_options trim initstring =
      some [(trim (std_replace (std_replace
              (initstring.takeWhile (fun c => decide (c ≠ '='))) ',' ' ') ';' ' '),
            trim (std_replace (std_replace
              (initstring.dropWhile (fun c => decide (c ≠ '='))).tail ',' ' ') ';' ' '))]) ∧
    parse_options trim "a=1,b=2".toList = some [(trim "a".toList, trim "1 b=2".toList)] ∧
    parse_options (fun str => str) ("a=1".toList ++ '\n' :: "b=2".toList) =
      some [("a".toList, "1".toList), ("b".toList, "2".toList)] := by
  have hmem : ∀ (str : List Char) (d : Char), (d = '=' ∨ d = '\n') →
      (d ∈ std_replace (std_replace str ',' ' ') ';' ' ' ↔ d ∈ str) := by
    intro str d hd
    rw [replaced_eq_map, List.mem_map]
    constructor
    · rintro ⟨c, hc, he⟩
      have hk := replace_keeps c d hd
      by_cases hcd : c = d
      · rw [← hcd]
        exact hc
      · have : ¬ ((if (if c = ',' then ' ' else c) = ';' then ' '
            else (if c = ',' then ' ' else c)) ≠ d) := fun hne => hne he
        rw [hk] at this
        exact absurd hcd this
    · intro hc
      refine ⟨d, hc, ?_⟩
      rcases hd with hd | hd <;> subst hd <;> decide
  have hgen : ∀ str : List Char, '\n' ∉ str → '=' ∈ str → parse_options trim str =
      some [(trim (std_replace (std_replace
              (str.takeWhile (fun c => decide (c ≠ '='))) ',' ' ') ';' ' '),
            trim (std_replace (std_replace
              (str.dropWhile (fun c => decide (c ≠ '='))).tail ',' ' ') ';' ' '))] := by
    intro str h1 h2
    obtain ⟨a, l, rfl⟩ := List.exists_cons_of_ne_nil (List.ne_nil_of_mem h2)
    simp only [parse_options]
    rw [List.length_cons, parse_options_loop_equal trim l.length _ [] []
      ((hmem _ '=' (Or.inl rfl)).mpr h2)
      (fun hm => h1 ((hmem _ '\n' (Or.inr rfl)).mp hm)),
      replaced_takeWhile _ '=' (Or.inl rfl), replaced_dropWhile _ '=' (Or.inl rfl),
      replaced_tail]
  refine ⟨?_, hgen initstring hnl, ?_, ?_⟩
  · intro h
    simp only [parse_options]
    exact parse_options_loop_no_equal trim _ _ [] []
      (fun hm => h ((hmem _ '=' (Or.inl rfl)).mp hm))
  · exact hgen "a=1,b=2".toList (by decide) (by decide)
  · decide

/-- C28, witness: the init string `buffered_send=yes; x` has the single option
`buffered_send`, with the value `yes  x` before trimming. -/
theorem parse_options_single_line_witness :
    parse_options (fun str => str) "buffered_send=yes; x".toList =
      some [("buffered_send".toList, "yes  x".toList)] :=
  (parse_options_single_line (fun str => str) "buffered_send=yes; x".toList (by decide)).2.1
    (by decide)

/-! ### C22: the merge of topic vectors -/

theorem add_loop_spec (bits : Nat) (other : List Nat) (count : Nat) :
    ∀ (i : Nat) (this : List Nat), i + count ≤ this.length →
      (topic_vector.add_loop bits other count i this).length = this.length ∧
      ∀ j, (topic_vector.add_loop bits other count i this).getD j 0 =
        if i ≤ j ∧ j < i + count then
          topic_wrap bits (this.getD j 0 + (if j < other.length then other.getD j 0 else 0))
        else this.getD j 0 := by
  induction count with
  | zero =>
    intro i this _
    refine ⟨rfl, fun j => ?_⟩
    rw [if_neg (show ¬ (i ≤ j ∧ j < i + 0) by omega)]
    rfl
  | succ count ih =>
    intro i this h
    obtain ⟨h1, h2⟩ := ih (i + 1)
      (this.set i (topic_wrap bits
        (this.getD i 0 + (if i < other.length then other.getD i 0 else 0))))
      (by rw [List.length_set]; omega)
    simp only [topic_vector.add_loop]
    refine ⟨by rw [h1, List.length_set], fun j => ?_⟩
    rw [h2 j]
    by_cases hj : j = i
    · rw [hj, if_neg (show ¬ (i + 1 ≤ i ∧ i < i + 1 + count) by omega),
        getD_set_self _ _ _ _ (by omega),
        if_pos (show i ≤ i ∧ i < i + (count + 1) by omega)]
    · rw [getD_set_ne _ _ _ _ _ hj]
      by_cases hr : i + 1 ≤ j ∧ j < i + 1 + count
      · rw [if_pos hr, if_pos (show i ≤ j ∧ j < i + (count + 1) by omega)]
      · rw [if_neg hr, if_neg (show ¬ (i ≤ j ∧ j < i + (count + 1)) by omega)]

theorem getD_append_zeros (a : List Nat) (k j : Nat) :
    (a ++ List.replicate k 0).getD j 0 = a.getD j 0 := by
  by_cases h : j < a.length
  · rw [List.getD_append _ _ _ _ h]
  · rw [List.getD_append_right _ _ _ _ (by omega), List.getD_eq_default a 0 (by omega)]
    rw [List.getD_eq_getElem?_getD, List.getElem?_replicate]
    split_ifs <;> rfl

/-- The entries and the size of a sum of topic vectors. -/
theorem add_assign_spec (bits : Nat) (a b : List Nat) :
    (topic_vector.add_assign bits a b).length = max a.length b.length ∧
      ∀ j, (topic_vector.add_assign bits a b).getD j 0 =
        if j < max a.length b.length then topic_wrap bits (a.getD j 0 + b.getD j 0)
        else 0 := by
  have hlen : (a ++ List.replicate (max a.length b.length - a.length) 0).length =
      max a.length b.length := by
    rw [List.length_append, List.length_replicate]
    omega
  obtain ⟨h1, h2⟩ := add_loop_spec bits b (max a.length b.length) 0
    (a ++ List.replicate (max a.length b.length - a.length) 0) (by rw [hlen]; omega)
  simp only [topic_vector.add_assign]
  refine ⟨by rw [h1, hlen], fun j => ?_⟩
  rw [h2 j, getD_append_zeros]
  by_cases hj : j < max a.length b.length
  · rw [if_pos (show 0 ≤ j ∧ j < 0 + max a.length b.length by omega), if_pos hj]
    by_cases hb : j < b.length
    · rw [if_pos hb]
    · rw [if_neg hb, List.getD_eq_default b 0 (by omega)]
  · rw [if_neg (show ¬ (0 ≤ j ∧ j < 0 + max a.length b.length) by omega), if_neg hj]
    exact List.getD_eq_default a 0 (by omega)

theorem ext_getD (a b : List Nat) (hlen : a.length = b.length)
    (h : ∀ j, a.getD j 0 = b.getD j 0) : a = b := by
  apply List.ext_getElem hlen
  intro j h1 h2
  have := h j
  rw [List.getD_eq_getElem _ _ h1, List.getD_eq_getElem _ _ h2] at this
  exact this

/-- C22: the merge `operator+` of topic vectors, for an element type of any width
`bits` and vectors of any sizes.  It is commutative and associative; the sum has the
larger of the two sizes, and its entry `i` is the sum of the entries `i` of the
operands, a missing entry counting as 0, in the arithmetic of the element type (so
the plain sum whenever that is a value of the type). -/
theorem topic_vector_add_comm_assoc (bits : Nat) (a b c : List Nat) :
    topic_vector.add bits a b = topic_vector.add bits b a ∧
    topic_vector.add bits (topic_vector.add bits a b) c =
      topic_vector.add bits a (topic_vector.add bits b c) ∧
    (topic_vector.add bits a b).length = max a.length b.length ∧
    (∀ i, i < max a.length b.length →
      (topic_vector.add bits a b).getD i 0 = (a.getD i 0 + b.getD i 0) % 2 ^ bits) ∧
    (∀ i, i < max a.length b.length → a.getD i 0 + b.getD i 0 < 2 ^ bits →
      (topic_vector.add bits a b).getD i 0 = a.getD i 0 + b.getD i 0) ∧
    topic_vector.add_assign bits a b = topic_vector.add bits a b := by
  have hentry : ∀ (x y : List Nat) (j : Nat), (topic_vector.add bits x y).getD j 0 =
      (x.getD j 0 + y.getD j 0) % 2 ^ bits := by
    intro x y j
    rw [topic_vector.add, (add_assign_spec bits x y).2 j]
    by_cases hj : j < max x.length y.length
    · rw [if_pos hj]
      rfl
    · rw [if_neg hj, List.getD_eq_default x 0 (by omega), List.getD_eq_default y 0 (by omega)]
      simp
  have hlen : ∀ x y : List Nat, (topic_vector.add bits x y).length = max x.length y.length :=
    fun x y => (add_assign_spec bits x y).1
  refine ⟨?_, ?_, hlen a b, fun i _ => hentry a b i, ?_, rfl⟩
  · apply ext_getD
    · rw [hlen, hlen, max_comm]
    · intro j
      rw [hentry, hentry, Nat.add_comm]
  · apply ext_getD
    · rw [hlen, hlen, hlen, hlen, max_assoc]
    · intro j
      rw [hentry, hentry, hentry, hentry, Nat.mod_add_mod, Nat.add_mod_mod, Nat.add_assoc]
  · intro i _ hfit
    rw [hentry, Nat.mod_eq_of_lt hfit]

/-- C22, witness: 16-bit entries; the sum of the vectors 1, 2 and 3 is 4, 2. -/
theorem topic_vector_add_comm_assoc_witness :
    topic_vector.add 16 [1, 2] [3] = [4, 2] ∧
      topic_vector.add 16 [1, 2] [3] = topic_vector.add 16 [3] [1, 2] ∧
      (topic_vector.add 16 [1, 2] [3]).getD 0 0 = [1, 2].getD 0 0 + [3].getD 0 0 :=
  ⟨by decide, (topic_vector_add_comm_assoc 16 [1, 2] [3] []).1,
    (topic_vector_add_comm_assoc 16 [1, 2] [3] []).2.2.2.2.1 0 (by decide) (by decide)⟩

/-! ### C25: tasks of non-positive priority -/

theorem pos_not_le_zero (p : double) (h : p.pos = true) : p.le_zero = false := by
  cases p with
  | nan => rfl
  | neg_inf => cases h
  | finite q =>
    simp only [double.pos, decide_eq_true_eq] at h
    simp only [double.le_zero, decide_eq_false_iff_not, not_le]
    exact h
  | pos_inf => rfl

/-- C25: `add_task` of the sampling scheduler, for any task set and multinomial.  With
a priority `p <= 0` the call returns with the scheduler unchanged (task set,
multinomial and the job count of the terminator) and nothing is sent to the monitor.
With `p > 0` and a vertex of the graph, the task is handed to the task set with
priority `p`, a new job is recorded exactly when the task set reports a first
insertion, and the weight of the vertex in the multinomial is set to the top
priority of the vertex in the new task set. -/
theorem sampling_add_task_priority {VT MN : Type} (sup : sampling_support VT MN)
    (s : sampling_scheduler VT MN) (task : update_task) (p : double) :
    (p.le_zero = true →
      ∃ notices, s.add_task sup task p = some (s, notices) ∧
        ∀ e ∈ notices, e.to_monitor = false) ∧
    (p.pos = true → task.vertex < s.num_vertices →
      ∃ s1 notices, s.add_task sup task p = some (s1, notices) ∧
        s1.vertex_tasks = (sup.add s.vertex_tasks task p).1 ∧
        (s1.terminator_jobs = s.terminator_jobs + 1 ↔
          (sup.add s.vertex_tasks task p).2 = true) ∧
        (s1.terminator_jobs = s.terminator_jobs ↔
          (sup.add s.vertex_tasks task p).2 = false) ∧
        s1.multinomial = sup.set s.multinomial task.vertex
          (sup.top_priority s1.vertex_tasks task.vertex) ∧
        s1.num_vertices = s.num_vertices) := by
  constructor
  · intro h
    refine ⟨[sched_notice.warning], ?_, ?_⟩
    · simp only [sampling_scheduler.add_task]
      rw [if_pos h]
    · intro e he
      rw [List.mem_singleton.mp he]
      rfl
  · intro hp hv
    have h1 : ¬ p.le_zero = true := by
      rw [pos_not_le_zero p hp]
      exact Bool.false_ne_true
    have h2 : ¬ s.num_vertices ≤ task.vertex := by omega
    refine ⟨{ s with
        vertex_tasks := (sup.add s.vertex_tasks task p).1,
        terminator_jobs := if (sup.add s.vertex_tasks task p).2 = true
          then s.terminator_jobs + 1 else s.terminator_jobs,
        multinomial := sup.set s.multinomial task.vertex
          (sup.top_priority (sup.add s.vertex_tasks task p).1 task.vertex) },
      if s.has_monitor = true then
        (if (sup.add s.vertex_tasks task p).2 = true
          then [sched_notice.scheduler_task_added task p]
          else [sched_notice.scheduler_task_promoted task p,
            sched_notice.scheduler_task_pruned task])
      else [], ?_, rfl, ?_, ?_, rfl, rfl⟩
    · simp only [sampling_scheduler.add_task]
      rw [if_neg h1, if_neg h2]
    · cases hadd : (sup.add s.vertex_tasks task p).2 <;> simp
    · cases hadd : (sup.add s.vertex_tasks task p).2 <;> simp

/-- C25, witness: on the sample task set a task with priority 0 is dropped, and the
same task with priority 2 is a first insertion, recorded as a new job. -/
theorem sampling_add_task_priority_witness :
    (∃ notices, (sampling_scheduler.mk 4 [] [] 0 true).add_task sample_support ⟨1, 7⟩
        (double.finite 0) = some (sampling_scheduler.mk 4 [] [] 0 true, notices) ∧
      ∀ e ∈ notices, e.to_monitor = false) ∧
    ((sampling_scheduler.mk 4 [] [] 0 true).add_task sample_support ⟨1, 7⟩
        (double.finite 2)).map (fun o => (o.1.terminator_jobs, o.1.multinomial, o.2)) =
      some (1, [(1, double.finite 2)],
        [sched_notice.scheduler_task_added ⟨1, 7⟩ (double.finite 2)]) :=
  ⟨(sampling_add_task_priority sample_support (sampling_scheduler.mk 4 [] [] 0 true) ⟨1, 7⟩
    (double.finite 0)).1 (by decide), by decide⟩

/-! ### C29: `reader_count` counts the readers modulo `2 ^ 16` -/

/-- The counter at the head test of an unlock made by a holder, modulo `65536`. -/
theorem unlock_base_mod (t : tracked) (op : lock_op) (rc0 : Nat) (w0 : Bool)
    (hi : t.lock.reader_count = t.readers % 65536) (ha : t.allowed op = true)
    (hb : unlock_base t.lock op rc0 w0) :
    rc0 = (unlock_holder t.holders op).countP is_read % 65536 := by
  rcases hb with ⟨I, hop, hrc, _⟩ | ⟨I, hop, hz, hrc, _⟩
  · subst hop
    have e2 := countP_erase_of_neg is_read ⟨I, lockclass_t.WRITE⟩ rfl t.holders
    simp only [unlock_holder, tracked.readers] at hi ⊢
    rw [e2, hrc, hi]
  · subst hop
    simp only [tracked.allowed, decide_eq_true_eq] at ha
    have e1 := countP_erase_of_pos is_read ⟨I, lockclass_t.READ⟩ t.holders ha rfl
    simp only [unlock_holder, tracked.readers] at hi ⊢
    rw [hi] at hz
    omega

/-- One correctly used call keeps `reader_count` equal to the number of read holders
modulo `65536`. -/
theorem reader_count_mod_step (t : tracked) (op : lock_op)
    (hi : t.lock.reader_count = t.readers % 65536) (ha : t.allowed op = true) :
    (t.step op).lock.reader_count = (t.step op).readers % 65536 := by
  have hp := lock_path_step t.lock op
  have hR := readers_step t op
  have hlock : (t.step op).lock = lock_next t.lock op := rfl
  rw [hlock]
  cases hp with
  | wl_fast I hop hrc hw0 hL1 hg =>
    rw [hL1, hR, hg]
    subst hop
    simp only [tracked.readers] at hi
    simp only [unlock_holder, countP_read_write_request, Nat.add_zero]
    exact hi
  | wl_slow I hop hc hL1 hg =>
    rw [hL1, hR, hg]
    subst hop
    simp only [tracked.readers] at hi
    simp only [unlock_holder, List.countP_nil, Nat.add_zero]
    exact hi
  | rl_fast I hop hq0 hw0 hL1 hg =>
    rw [hL1, hR, hg]
    subst hop
    simp only [tracked.readers] at hi
    simp only [unlock_holder, countP_read_read_request]
    rw [hi]
    omega
  | rl_slow I hop hc hn hL1 hg =>
    rw [hL1, hR, hg]
    subst hop
    simp only [tracked.readers] at hi
    simp only [unlock_holder, List.countP_nil, Nat.add_zero]
    exact hi
  | rl_serve I h0 t0 hop hq0 hr hw0 hL1 hg =>
    rw [hL1, hR, hg, countP_read_takeWhile]
    subst hop
    simp only [tracked.readers] at hi
    simp only [unlock_holder]
    rw [hi]
    omega
  | un_empty rc0 w0 hb hq0 hL1 hg =>
    have e := unlock_base_mod t op rc0 w0 hi ha hb
    rw [hL1, hR, hg, List.countP_nil, Nat.add_zero]
    exact e
  | un_read rc0 w0 h0 t0 hb hq0 hr hL1 hg =>
    have e := unlock_base_mod t op rc0 w0 hi ha hb
    rw [hL1, hR, hg, countP_read_takeWhile]
    simp only
    rw [e]
    omega
  | un_write rc0 w0 h0 t0 hb hq0 hr hL1 hg =>
    have e := unlock_base_mod t op rc0 w0 hi ha hb
    rw [hL1, hR, hg]
    have h0r : List.countP is_read [h0] = 0 := by simp [hr]
    rw [h0r, Nat.add_zero]
    exact e
  | rd_more I hop hrc hL1 hg =>
    rw [hL1, hR, hg]
    subst hop
    simp only [tracked.allowed, decide_eq_true_eq] at ha
    have e1 := countP_erase_of_pos is_read ⟨I, lockclass_t.READ⟩ t.holders ha rfl
    simp only [tracked.readers] at hi
    simp only [unlock_holder, List.countP_nil, Nat.add_zero]
    rw [hi]
    omega

theorem reader_count_mod_run (ops : List lock_op) :
    ∀ t : tracked, t.lock.reader_count = t.readers % 65536 → t.correct_use ops = true →
      (t.run ops).lock.reader_count = (t.run ops).readers % 65536 := by
  induction ops with
  | nil =>
    intro t hi _
    exact hi
  | cons op ops ih =>
    intro t hi hc
    rw [correct_use_cons, Bool.and_eq_true] at hc
    rw [run_cons]
    exact ih (t.step op) (reader_count_mod_step t op hi hc.1) hc.2

/-- The state in which a correctly used `rdunlock(I)` is called, as long as fewer than
65536 read requests have held the lock together: the caller is one of the counted
readers, no writer holds the lock, and a waiting request at the head of the queue is
a write request. -/
theorem read_holder_state (ops : List lock_op) (I : Nat)
    (hc : tracked.init.correct_use (ops ++ [lock_op.rdunlock I]) = true)
    (hb : ∀ s ∈ tracked.init.states ops, s.readers < 65536) :
    (tracked.init.run ops).lock.reader_count = (tracked.init.run ops).readers ∧
      0 < (tracked.init.run ops).readers ∧ (tracked.init.run ops).readers < 65536 ∧
      (tracked.init.run ops).lock.writer = false ∧
      (∀ h rest, (tracked.init.run ops).lock.queue = h :: rest → is_read h = false) := by
  rw [correct_use_append, Bool.and_eq_true] at hc
  obtain ⟨hc1, hc2⟩ := hc
  have hinv := lock_inv_states ops tracked.init lock_inv_init hc1 hb _
    (run_mem_states ops tracked.init)
  obtain ⟨h1, h2, _, _⟩ := hinv
  have hlt := hb _ (run_mem_states ops tracked.init)
  have ha : (⟨I, lockclass_t.READ⟩ : request) ∈ (tracked.init.run ops).holders := by
    rw [correct_use_cons, Bool.and_eq_true] at hc2
    simpa [tracked.allowed] using hc2.1
  have hpos : 0 < (tracked.init.run ops).readers := countP_pos_of_mem is_read _ _ ha rfl
  have hwf : (tracked.init.run ops).lock.writer = false := by
    by_contra hne
    have := (h2 (by simpa using hne)).2
    omega
  refine ⟨h1, hpos, hlt, hwf, ?_⟩
  have hhead := head_not_read_run ops deferred_rw_lock.init head_not_read_init
  rw [← show (tracked.init.run ops).lock = lock_run deferred_rw_lock.init ops from
    run_lock ops tracked.init] at hhead
  exact hhead hwf

/-- Outcome of `rdunlock` by the last of the counted readers. -/
theorem rdunlock_last (q : List request) (w : Bool) (I : Nat) :
    (deferred_rw_lock.mk q 1 w).rdunlock I =
      match q with
      | [] => ⟨⟨[], 0, w⟩, [], 0⟩
      | h :: rest =>
        if is_read h then (deferred_rw_lock.mk q 0 w).complete_rdlock
        else ⟨⟨rest, 0, true⟩, h :: rest, 1⟩ := by
  have e : (1 + 65535) % 65536 = 0 := by norm_num
  cases q with
  | nil =>
    simp only [deferred_rw_lock.rdunlock, e]
    rw [if_pos trivial]
  | cons h rest =>
    simp only [deferred_rw_lock.rdunlock, e]
    rw [if_pos trivial]
    by_cases hr : is_read h = true
    · simp [hr]
    · simp [hr, deferred_rw_lock.complete_wrlock]

/-- Outcome of `rdunlock` while other counted readers remain. -/
theorem rdunlock_more (q : List request) (rc : Nat) (w : Bool) (I : Nat) (h1 : 1 < rc)
    (h2 : rc < 65536) :
    (deferred_rw_lock.mk q rc w).rdunlock I = ⟨⟨q, rc - 1, w⟩, [], 0⟩ := by
  have e : (rc + 65535) % 65536 = rc - 1 := by omega
  have hne : ¬ rc - 1 = 0 := by omega
  simp only [deferred_rw_lock.rdunlock, e]
  rw [if_neg hne]

/-- The run used below, for any list `l` of 65537 request addresses that contains 0:
`readlock` of every address of `l` on the fast path, and `writelock(70000)`, which is
queued because the wrapped `reader_count` is 1. -/
theorem run_overfull_readers (l : List Nat) (Q : List request)
    (hQ : l.map (fun I => (⟨I, lockclass_t.READ⟩ : request)) = Q) (hlen : l.length = 65537)
    (h0 : 0 ∈ l) :
    tracked.init.run (l.map lock_op.readlock ++ [lock_op.writelock 70000]) =
        tracked.mk ⟨[⟨70000, lockclass_t.WRITE⟩], 1, false⟩ Q ∧
      tracked.init.correct_use
        ((l.map lock_op.readlock ++ [lock_op.writelock 70000]) ++ [lock_op.rdunlock 0]) =
          true ∧
      (tracked.mk ⟨[⟨70000, lockclass_t.WRITE⟩], 1, false⟩ Q).readers = 65537 ∧
      ((tracked.mk ⟨[⟨70000, lockclass_t.WRITE⟩], 1, false⟩ Q).step
        (lock_op.rdunlock 0)).readers = 65536 := by
  have hrun0 := run_readlocks_fast l 0 [] (by norm_num)
  rw [hlen, List.nil_append, hQ] at hrun0
  have hmod : (0 + 65537) % 65536 = 1 := by norm_num
  rw [hmod] at hrun0
  have hinit : tracked.init = tracked.mk ⟨[], 0, false⟩ [] := rfl
  have hstep : (tracked.mk ⟨[], 1, false⟩ Q).step (lock_op.writelock 70000) =
      tracked.mk ⟨[⟨70000, lockclass_t.WRITE⟩], 1, false⟩ Q := by
    simp [tracked.step, lock_next, lock_granted, deferred_rw_lock.writelock,
      deferred_rw_lock.insert_queue, unlock_holder]
  have hrun : tracked.init.run (l.map lock_op.readlock ++ [lock_op.writelock 70000]) =
      tracked.mk ⟨[⟨70000, lockclass_t.WRITE⟩], 1, false⟩ Q := by
    rw [run_append, hinit, hrun0]
    exact hstep
  have hmem : (⟨0, lockclass_t.READ⟩ : request) ∈ Q := by
    rw [← hQ]
    exact List.mem_map.mpr ⟨0, h0, rfl⟩
  have hall : Q.countP is_read = 65537 := by
    rw [List.countP_eq_length.mpr, ← hQ, List.length_map, hlen]
    intro a ha
    rw [← hQ] at ha
    obtain ⟨I, _, rfl⟩ := List.mem_map.mp ha
    rfl
  refine ⟨hrun, ?_, hall, ?_⟩
  · rw [correct_use_append, hrun, correct_use_append, correct_use_readlocks, hinit, hrun0]
    simp only [Bool.true_and, Bool.and_eq_true]
    refine ⟨rfl, ?_⟩
    rw [correct_use_cons]
    simp only [tracked.allowed, Bool.and_eq_true, decide_eq_true_eq]
    exact ⟨hmem, rfl⟩
  · rw [readers_step]
    have e1 := countP_erase_of_pos is_read ⟨0, lockclass_t.READ⟩ Q hmem rfl
    have hg : lock_granted (deferred_rw_lock.mk [⟨70000, lockclass_t.WRITE⟩] 1 false)
        (lock_op.rdunlock 0) = [⟨70000, lockclass_t.WRITE⟩] := by
      simp only [lock_granted]
      rw [rdunlock_last]
      rfl
    simp only [unlock_holder]
    rw [hg, countP_read_write_request]
    omega

theorem getD_append_replicate_nil (blocks : List (List Nat)) (m c : Nat) :
    (blocks ++ List.replicate m []).getD c [] = blocks.getD c [] := by
  rw [List.getD_eq_getElem?_getD, List.getD_eq_getElem?_getD]
  by_cases h : c < blocks.length
  · rw [List.getElem?_append_left h]
  · rw [List.getElem?_append_right (by omega), List.getElem?_replicate,
      List.getElem?_eq_none (by omega)]
    split_ifs <;> rfl

/-- Pushing vertex `i` of colour `color` puts `i` into the block `color` and changes
no other membership. -/
theorem color_blocks_push_mem (blocks : List (List Nat)) (i color c v : Nat) :
    v ∈ (color_blocks_push blocks i color).getD c [] ↔
      v ∈ blocks.getD c [] ∨ (v = i ∧ c = color) := by
  have key : ∀ resized : List (List Nat), color < resized.length →
      (v ∈ (resized.set color (resized.getD color [] ++ [i])).getD c [] ↔
        v ∈ resized.getD c [] ∨ (v = i ∧ c = color)) := by
    intro resized h
    rw [getD_set_of_lt resized color c _ [] h]
    by_cases hc : c = color
    · subst hc
      rw [if_pos rfl, List.mem_append, List.mem_singleton]
      simp
    · rw [if_neg hc]
      simp [hc]
  simp only [color_blocks_push]
  by_cases h : color ≥ blocks.length
  · rw [if_pos h, key _ (by simp only [List.length_append, List.length_replicate]; omega),
      getD_append_replicate_nil]
  · rw [if_neg h]
    exact key _ (by omega)

/-- After the constructor loop the block `c` holds the vertices of colour `c`. -/
theorem init_color_blocks_mem (colors : List Nat) (c v : Nat) :
    ∀ (i : Nat) (blocks : List (List Nat)),
      (v ∈ (init_color_blocks colors i blocks).getD c [] ↔
        v ∈ blocks.getD c [] ∨ (i ≤ v ∧ v < i + colors.length ∧ colors.getD (v - i) 0 = c)) := by
  induction colors with
  | nil =>
    intro i blocks
    simp only [init_color_blocks, List.length_nil]
    constructor
    · intro h
      exact Or.inl h
    · rintro (h | ⟨h1, h2, _⟩)
      · exact h
      · omega
  | cons color rest ih =>
    intro i blocks
    simp only [init_color_blocks]
    rw [ih (i + 1) _, color_blocks_push_mem, List.length_cons]
    constructor
    · rintro ((h | ⟨h1, h2⟩) | ⟨h1, h2, h3⟩)
      · exact Or.inl h
      · refine Or.inr ⟨by omega, by omega, ?_⟩
        rw [h1, Nat.sub_self, h2]
        rfl
      · refine Or.inr ⟨by omega, by omega, ?_⟩
        have e : v - i = (v - (i + 1)) + 1 := by omega
        rw [e, List.getD_cons_succ]
        exact h3
    · rintro (h | ⟨h1, h2, h3⟩)
      · exact Or.inl (Or.inl h)
      · by_cases hv : v = i
        · refine Or.inl (Or.inr ⟨hv, ?_⟩)
          rw [hv, Nat.sub_self] at h3
          exact h3.symm
        · refine Or.inr ⟨by omega, by omega, ?_⟩
          have e : v - i = (v - (i + 1)) + 1 := by omega
          rw [e, List.getD_cons_succ] at h3
          exact h3

/-- A member of the block used at the counter value `k` is a vertex of the graph whose
colour is `k` modulo the number of blocks. -/
theorem block_mem_color (colors : List Nat) (s : colored_scheduler)
    (hblocks : s.color_blocks = init_color_blocks colors 0 []) (k v : Nat)
    (hv : v ∈ s.block k) :
    v < colors.length ∧ colors.getD v 0 = k % s.color_blocks.length := by
  simp only [colored_scheduler.block] at hv
  rw [hblocks] at hv ⊢
  rcases (init_color_blocks_mem colors _ v 0 []).mp hv with h | ⟨_, h2, h3⟩
  · simp at h
  · exact ⟨by omega, h3⟩

theorem two_le_countP {α : Type} (p : α → Bool) :
    ∀ (l : List α) (i j : Nat) (a b : α), i < j → l[i]? = some a → l[j]? = some b →
      p a = true → p b = true → 2 ≤ l.countP p := by
  intro l
  induction l with
  | nil =>
    intro i j a b _ hi
    simp at hi
  | cons x xs ih =>
    intro i j a b hij hi hj pa pb
    cases j with
    | zero => omega
    | succ j1 =>
      rw [List.getElem?_cons_succ] at hj
      cases i with
      | zero =>
        rw [List.getElem?_cons_zero, Option.some.injEq] at hi
        subst hi
        rw [List.countP_cons_of_pos _ _ pa]
        have hb : b ∈ xs := by
          obtain ⟨hlt, hget⟩ := List.getElem?_eq_some.mp hj
          rw [← hget]
          exact List.getElem_mem _
        have : 0 < xs.countP p := List.countP_pos_iff.mpr ⟨b, hb, pb⟩
        omega
      | succ i1 =>
        rw [List.getElem?_cons_succ] at hi
        have := ih i1 j1 a b (by omega) hi hj pa pb
        have h2 : xs.countP p ≤ (x :: xs).countP p := by
          rw [List.countP_cons]
          omega
        omega

/-- What one call adds to the record: a task returned with `NEWTASK` carries the stored
function and a vertex of the block of the current counter value, the counter is not
moved by such a call and is the colour the worker has observed; no call moves the
counter back. -/
theorem worker_step_record (n M f : Nat) (r : sched_run) (c : Nat) (s1 : colored_scheduler)
    (stat : sched_status) (task : Option update_task) (hinv : sched_inv n M f r) (hcn : c < n)
    (hstep : worker_step n r.sched c s1 stat task) :
    (stat = sched_status.NEWTASK →
      ∃ v, task = some ⟨v, f⟩ ∧ v ∈ r.sched.block r.sched.color ∧
        s1.color = r.sched.color ∧ s1.col c = s1.color ∧ s1.wt c = false) ∧
      r.sched.color ≤ s1.color := by
  cases hstep with
  | still_waiting _ _ => exact ⟨fun h => (by cases h), le_refl _⟩
  | complete _ _ _ _ _ h _ _ => exact ⟨fun h0 => (by cases h0), by omega⟩
  | newtask _ hframe hmoved hT hidx hwt hcol _ _ =>
    refine ⟨fun _ => ?_, by omega⟩
    refine ⟨(s1.block (s1.col c)).getD (s1.idx c) 0, ?_, ?_, hcol, ?_, hwt⟩
    · rw [hframe.2.2.1, hinv.func_eq]
    · have hm := moved_col n M f r s1 c hinv hcn hmoved
      rw [hm] at hidx ⊢
      rw [block_congr r.sched s1 hframe.1] at hidx ⊢
      rw [List.getD_eq_getElem _ _ hidx]
      exact List.getElem_mem _
    · rw [moved_col n M f r s1 c hinv hcn hmoved, hcol]
  | overrun _ _ _ _ _ _ h _ _ _ => exact ⟨fun h0 => (by cases h0), by omega⟩
  | advance _ _ _ _ _ _ h _ _ _ => exact ⟨fun h0 => (by cases h0), by omega⟩

/-- Along every interleaving the recorded counter values never decrease and stay below
the counter, and every task returned with `NEWTASK` carries the stored function and
a vertex of the block of the counter value at its call. -/
theorem sched_run_record (n M f : Nat) (sched : List Nat) :
    ∀ r : sched_run, sched_inv n M f r → (∀ c ∈ sched, c < n) →
      (∀ e ∈ r.log, e.color ≤ r.sched.color) →
      r.log.Pairwise (fun a b => a.color ≤ b.color) →
      (∀ e ∈ r.log, e.stat = sched_status.NEWTASK →
        ∃ v, e.task = some ⟨v, f⟩ ∧ v ∈ r.sched.block e.color) →
      ∀ r1, r.run sched = some r1 →
        (∀ e ∈ r1.log, e.color ≤ r1.sched.color) ∧
        r1.log.Pairwise (fun a b => a.color ≤ b.color) ∧
        (∀ e ∈ r1.log, e.stat = sched_status.NEWTASK →
          ∃ v, e.task = some ⟨v, f⟩ ∧ v ∈ r1.sched.block e.color) := by
  induction sched with
  | nil =>
    intro r _ _ h1 h2 h3 r1 h
    simp only [sched_run.run, Option.some.injEq] at h
    subst h
    exact ⟨h1, h2, h3⟩
  | cons c rest ih =>
    intro r hinv hc h1 h2 h3 r1 h
    have hcn := hc c (List.mem_cons_self _ _)
    obtain ⟨s1, stat, task, _, g2, g3, g4⟩ := sched_run_step n M f r c hinv hcn
    obtain ⟨k1, k2⟩ := worker_step_record n M f r c s1 stat task hinv hcn g2
    have hb := worker_step_blocks n r.sched c s1 stat task g2
    simp only [sched_run.run, g3] at h
    refine ih _ g4 (fun x hx => hc x (List.mem_cons_of_mem _ hx)) ?_ ?_ ?_ r1 h
    · intro e he
      rcases List.mem_append.mp he with he1 | he1
      · have := h1 e he1
        simp only
        omega
      · rw [List.mem_singleton] at he1
        rw [he1]
        exact k2
    · rw [List.pairwise_append]
      refine ⟨h2, List.pairwise_singleton _ _, ?_⟩
      intro a ha b hb1
      rw [List.mem_singleton] at hb1
      rw [hb1]
      exact h1 a ha
    · intro e he hstat
      rcases List.mem_append.mp he with he1 | he1
      · obtain ⟨v, a1, a2⟩ := h3 e he1 hstat
        refine ⟨v, a1, ?_⟩
        rw [block_congr r.sched s1 hb]
        exact a2
      · rw [List.mem_singleton] at he1
        rw [he1] at hstat ⊢
        obtain ⟨v, a1, a2, _⟩ := k1 hstat
        refine ⟨v, a1, ?_⟩
        rw [block_congr r.sched s1 hb]
        exact a2

theorem valid_coloring_no_edge (edges : List (Nat × Nat)) (colors : List Nat) (u v : Nat)
    (hvalid : valid_coloring edges colors = true)
    (hc : colors.getD u 0 = colors.getD v 0) : (u, v) ∉ edges ∧ (v, u) ∉ edges := by
  simp only [valid_coloring, List.all_eq_true, decide_eq_true_eq] at hvalid
  constructor
  · intro h
    exact hvalid _ h hc
  · intro h
    exact hvalid _ h hc.symm

/-- C23: in-flight colours of the coloured scheduler.  For a graph with at least one
vertex (colours `colors`) and an update function, after `start()` and any interleaving
of `get_next_task` calls by workers below `n`: every worker that is not waiting has
observed the value of the global colour counter; every vertex returned as `NEWTASK`,
in the record or by a further call, has the colour (counter mod number of colour
blocks) for the counter value at its call, which that call does not move; the
recorded counter values never decrease; and two tasks returned at the same counter
value, that is without an advance in between, are on distinct vertices of the same
colour, hence not joined by an edge of any graph for which the colouring is valid. -/
theorem colored_scheduler_in_flight_colors (colors : List Nat) (n M f : Nat)
    (sched : List Nat) (hV : colors ≠ []) (hf : f ≠ 0) (hsched : ∀ c ∈ sched, c < n) :
    ∃ s0 r, colored_scheduler.started colors n M f = some s0 ∧
      sched_run.run ⟨s0, []⟩ sched = some r ∧
      (∀ w, w < n → r.sched.cpu_waiting.getD w false = false →
        r.sched.cpu_color.getD w 0 = r.sched.color) ∧
      (∀ e ∈ r.log, e.stat = sched_status.NEWTASK →
        ∃ v, e.task = some ⟨v, f⟩ ∧ v < colors.length ∧
          colors.getD v 0 = e.color % r.sched.color_blocks.length) ∧
      (∀ c s1 task, c < n →
        r.sched.get_next_task c = some (s1, sched_status.NEWTASK, task) →
        ∃ v, task = some ⟨v, f⟩ ∧ v < colors.length ∧
          colors.getD v 0 = s1.color % s1.color_blocks.length ∧
          s1.color = r.sched.color ∧ s1.cpu_waiting.getD c false = false ∧
          s1.cpu_color.getD c 0 = s1.color) ∧
      (∀ (i j : Nat) (e1 e2 : sched_record), i < j → r.log[i]? = some e1 → r.log[j]? = some e2 →
        e1.color ≤ e2.color ∧ e2.color ≤ r.sched.color ∧
        (e1.stat = sched_status.NEWTASK → e2.stat = sched_status.NEWTASK →
          e1.color = e2.color →
          ∃ v1 v2, e1.task = some ⟨v1, f⟩ ∧ e2.task = some ⟨v2, f⟩ ∧ v1 ≠ v2 ∧
            colors.getD v1 0 = colors.getD v2 0 ∧
            ∀ edges, valid_coloring edges colors = true →
              (v1, v2) ∉ edges ∧ (v2, v1) ∉ edges)) := by
  obtain ⟨s0, h1, h2, h3, _, h5⟩ := started_inv colors n M f hV hf
  obtain ⟨r, g1, g2, g3, _⟩ := sched_run_inv n M f sched ⟨s0, []⟩ h5 hsched
  have hblocks : r.sched.color_blocks = init_color_blocks colors 0 [] := g3.trans h2
  obtain ⟨k1, k2, k3⟩ := sched_run_record n M f sched ⟨s0, []⟩ h5 hsched
    (fun e he => by cases he) List.Pairwise.nil (fun e he => by cases he) r g1
  have hcolor : ∀ e ∈ r.log, e.stat = sched_status.NEWTASK →
      ∃ v, e.task = some ⟨v, f⟩ ∧ v < colors.length ∧
        colors.getD v 0 = e.color % r.sched.color_blocks.length := by
    intro e he hstat
    obtain ⟨v, a1, a2⟩ := k3 e he hstat
    obtain ⟨b1, b2⟩ := block_mem_color colors r.sched hblocks e.color v a2
    exact ⟨v, a1, b1, b2⟩
  refine ⟨s0, r, h1, g1, g2.working_color, hcolor, ?_, ?_⟩
  · intro c s1 task hcn hcall
    obtain ⟨s2, stat, task2, q1, q2, _, _⟩ := sched_run_step n M f r c g2 hcn
    rw [hcall, Option.some.injEq, Prod.mk.injEq, Prod.mk.injEq] at q1
    obtain ⟨e1, e2, e3⟩ := q1
    subst e1 e2 e3
    obtain ⟨p1, _⟩ := worker_step_record n M f r c s1 _ task g2 hcn q2
    obtain ⟨v, a1, a2, a3, a4, a5⟩ := p1 rfl
    obtain ⟨b1, b2⟩ := block_mem_color colors r.sched hblocks r.sched.color v a2
    refine ⟨v, a1, b1, ?_, a3, a5, a4⟩
    rw [a3, worker_step_blocks n r.sched c s1 _ task q2]
    exact b2
  · intro i j e1 e2 hij hi hj
    obtain ⟨hi1, hi2⟩ := List.getElem?_eq_some.mp hi
    obtain ⟨hj1, hj2⟩ := List.getElem?_eq_some.mp hj
    have hm1 : e1 ∈ r.log := by
      rw [← hi2]
      exact List.getElem_mem _
    have hm2 : e2 ∈ r.log := by
      rw [← hj2]
      exact List.getElem_mem _
    refine ⟨?_, k1 e2 hm2, ?_⟩
    · have := List.pairwise_iff_getElem.mp k2 i j hi1 hj1 hij
      rw [hi2, hj2] at this
      exact this
    · intro s1 s2 hk
      obtain ⟨v1, a1, a2, a3⟩ := hcolor e1 hm1 s1
      obtain ⟨v2, b1, b2, b3⟩ := hcolor e2 hm2 s2
      have hsame : colors.getD v1 0 = colors.getD v2 0 := by
        rw [a3, b3, hk]
      refine ⟨v1, v2, a1, b1, ?_, hsame, ?_⟩
      · intro hv
        have hn : 0 < n := by
          have := (g2.log_newtask e1 hm1 s1).1
          omega
        have hle := (newtask_count_at_block n M f colors r g2 hn hblocks e1.color v1).1
        have htwo := two_le_countP (fun r => (decide (r.stat = sched_status.NEWTASK) &&
            decide (r.task.map update_task.vertex = some v1)) && decide (r.color = e1.color))
          r.log i j e1 e2 hij hi hj (by simp [s1, a1, update_task.vertex])
          (by simp [s2, b1, update_task.vertex, hv, hk])
        simp only [newtask_count_at] at hle
        omega
      · intro edges hvalid
        exact valid_coloring_no_edge edges colors v1 v2 hvalid hsame

/-- C23, witness: the graph with colours 0, 1, 0, two workers, one iteration; after the
calls of workers 0 and 1 both work on colour 0, on the vertices 0 and 2. -/
theorem colored_scheduler_in_flight_colors_witness :
    ((colored_scheduler.started [0, 1, 0] 2 1 7).bind
        (fun s0 => (sched_run.run ⟨s0, []⟩ [0, 1]).map
          (fun r => r.log.map (fun e => (e.cpuid, e.color, e.task))))) =
      some [(0, 0, some ⟨0, 7⟩), (1, 0, some ⟨2, 7⟩)] ∧
    ∃ s0 r, colored_scheduler.started [0, 1, 0] 2 1 7 = some s0 ∧
      sched_run.run ⟨s0, []⟩ [0, 1] = some r ∧
      (∀ w, w < 2 → r.sched.cpu_waiting.getD w false = false →
        r.sched.cpu_color.getD w 0 = r.sched.color) ∧
      (∀ e ∈ r.log, e.stat = sched_status.NEWTASK →
        ∃ v, e.task = some ⟨v, 7⟩ ∧ v < [0, 1, 0].length ∧
          [0, 1, 0].getD v 0 = e.color % r.sched.color_blocks.length) ∧
      (∀ c s1 task, c < 2 →
        r.sched.get_next_task c = some (s1, sched_status.NEWTASK, task) →
        ∃ v, task = some ⟨v, 7⟩ ∧ v < [0, 1, 0].length ∧
          [0, 1, 0].getD v 0 = s1.color % s1.color_blocks.length ∧
          s1.color = r.sched.color ∧ s1.cpu_waiting.getD c false = false ∧
          s1.cpu_color.getD c 0 = s1.color) ∧
      (∀ (i j : Nat) (e1 e2 : sched_record), i < j → r.log[i]? = some e1 → r.log[j]? = some e2 →
        e1.color ≤ e2.color ∧ e2.color ≤ r.sched.color ∧
        (e1.stat = sched_status.NEWTASK → e2.stat = sched_status.NEWTASK →
          e1.color = e2.color →
          ∃ v1 v2, e1.task = some ⟨v1, 7⟩ ∧ e2.task = some ⟨v2, 7⟩ ∧ v1 ≠ v2 ∧
            [0, 1, 0].getD v1 0 = [0, 1, 0].getD v2 0 ∧
            ∀ edges, valid_coloring edges [0, 1, 0] = true →
              (v1, v2) ∉ edges ∧ (v2, v1) ∉ edges)) :=
  ⟨by decide, colored_scheduler_in_flight_colors [0, 1, 0] 2 1 7 [0, 1] (by decide)
    (by decide) (by decide)⟩

/-! ### colored_scheduler: the stored function plays no part in the schedule -/

/-- A `get_next_task` call on a scheduler with another stored function goes the same
way: same status, same vertex, same new state, apart from the function. -/
theorem get_next_task_set_function (s : colored_scheduler) (g c : Nat) :
    ({ s with update_function := g } : colored_scheduler).get_next_task c =
      (s.get_next_task c).map (fun x =>
        (({ x.1 with update_function := g } : colored_scheduler), x.2.1,
          x.2.2.map (fun t => (⟨t.vertexid, g⟩ : update_task)))) := by
  simp only [colored_scheduler.get_next_task]
  split_ifs <;> simp_all [controlled_termination.complete]

theorem newtask_count_vertex_part (log1 log2 : List sched_record) (v : Nat)
    (h : log1.map sched_record.vertex_part = log2.map sched_record.vertex_part) :
    newtask_count log1 v = newtask_count log2 v := by
  have key : ∀ log : List sched_record, newtask_count log v =
      (log.map sched_record.vertex_part).countP
        (fun x => decide (x.2.2.1 = sched_status.NEWTASK) && decide (x.2.2.2 = some v)) := by
    intro log
    rw [List.countP_map]
    rfl
  rw [key, key, h]

/-- A sequence of calls that mixes `get_next_task` with the three `add` calls runs
through whenever its `get_next_task` calls alone do, with the same statuses and
vertices in the record and the same final state, apart from the stored function,
which is that of the most recent `add` call. -/
theorem sched_calls_sim (calls : List sched_call) :
    ∀ (r r0 : sched_run) (g : Nat), r.sched = { r0.sched with update_function := g } →
      r.log.map sched_record.vertex_part = r0.log.map sched_record.vertex_part →
      ∀ r1, r0.run (calls.filterMap sched_call.worker) = some r1 →
        ∃ r2, r.calls calls = some r2 ∧
          r2.sched = { r1.sched with update_function := last_function g calls } ∧
          r2.log.map sched_record.vertex_part = r1.log.map sched_record.vertex_part := by
  induction calls with
  | nil =>
    intro r r0 g hs hl r1 hrun
    simp only [List.filterMap_nil, sched_run.run, Option.some.injEq] at hrun
    subst hrun
    exact ⟨r, rfl, hs, hl⟩
  | cons call rest ih =>
    intro r r0 g hs hl r1 hrun
    cases call with
    | get_next_task c =>
      have hf : (sched_call.get_next_task c :: rest).filterMap sched_call.worker =
          c :: rest.filterMap sched_call.worker := rfl
      rw [hf] at hrun
      simp only [sched_run.run, sched_run.step] at hrun
      cases hcall : r0.sched.get_next_task c with
      | none =>
        rw [hcall] at hrun
        cases hrun
      | some x =>
        obtain ⟨s1, stat, task⟩ := x
        rw [hcall] at hrun
        simp only at hrun
        have hstep : r.call (sched_call.get_next_task c) =
            some ⟨{ s1 with update_function := g },
              r.log ++ [⟨c, r.sched.color, stat,
                task.map (fun t => (⟨t.vertexid, g⟩ : update_task))⟩]⟩ := by
          simp only [sched_run.call, sched_run.step]
          rw [hs, get_next_task_set_function, hcall]
          rfl
        obtain ⟨r2, a1, a2, a3⟩ := ih
          ⟨{ s1 with update_function := g },
            r.log ++ [⟨c, r.sched.color, stat,
              task.map (fun t => (⟨t.vertexid, g⟩ : update_task))⟩]⟩
          ⟨s1, r0.log ++ [⟨c, r0.sched.color, stat, task⟩]⟩ g rfl (by
            simp only
            rw [List.map_append, List.map_append, hl, hs]
            cases task <;> rfl) r1 hrun
        refine ⟨r2, ?_, a2, a3⟩
        simp only [sched_run.calls, hstep]
        exact a1
    | add_task task priority =>
      obtain ⟨r2, a1, a2, a3⟩ := ih ⟨r.sched.add_task task, r.log⟩ r0 task.function
        (by rw [hs]; rfl) hl r1 hrun
      exact ⟨r2, a1, a2, a3⟩
    | add_tasks vertices func priority =>
      obtain ⟨r2, a1, a2, a3⟩ := ih ⟨r.sched.add_tasks vertices func, r.log⟩ r0 func
        (by rw [hs]; rfl) hl r1 hrun
      exact ⟨r2, a1, a2, a3⟩
    | add_task_to_all func priority =>
      obtain ⟨r2, a1, a2, a3⟩ := ih ⟨r.sched.add_task_to_all func, r.log⟩ r0 func
        (by rw [hs]; rfl) hl r1 hrun
      exact ⟨r2, a1, a2, a3⟩

/-- C24: tasks of the coloured scheduler are implicit.  `add_task`, `add_tasks` and
`add_task_to_all` leave the record and every field of the scheduler as they are,
except the stored update function; the vertex, the vertex list and the priority play
no part.  For a graph with at least one vertex, after `start()` with the function `f`,
every sequence of `get_next_task` calls by workers below `n` mixed with `add` calls
runs through; the colour blocks are unchanged; a task returned by a `get_next_task`
call carries the function of the most recent `add` call before it (`f` when there is
none) and a vertex of the graph; statuses, vertices and final state are those of the
same `get_next_task` calls without any `add` call, apart from the stored function; no
vertex outside the graph is ever returned, and once the terminator is complete every
vertex of the graph has been returned `M` times. -/
theorem colored_scheduler_tasks_implicit (colors : List Nat) (n M f : Nat)
    (calls : List sched_call) (hV : colors ≠ []) (hn : 0 < n) (hf : f ≠ 0)
    (hcalls : ∀ c ∈ calls.filterMap sched_call.worker, c < n) :
    (∀ (r : sched_run) (task : update_task) (priority : double),
      r.call (sched_call.add_task task priority) =
        some ⟨{ r.sched with update_function := task.function }, r.log⟩) ∧
    (∀ (r : sched_run) (vertices : List Nat) (func : Nat) (priority : double),
      r.call (sched_call.add_tasks vertices func priority) =
        some ⟨{ r.sched with update_function := func }, r.log⟩) ∧
    (∀ (r : sched_run) (func : Nat) (priority : double),
      r.call (sched_call.add_task_to_all func priority) =
        some ⟨{ r.sched with update_function := func }, r.log⟩) ∧
    ∃ s0 r, colored_scheduler.started colors n M f = some s0 ∧
      sched_run.calls ⟨s0, []⟩ calls = some r ∧
      r.sched.color_blocks = s0.color_blocks ∧
      r.sched.update_function = last_function f calls ∧
      (∀ (pre : List sched_call) (c : Nat) (post : List sched_call),
        calls = pre ++ sched_call.get_next_task c :: post →
        ∃ r1 s1 stat task, sched_run.calls ⟨s0, []⟩ pre = some r1 ∧
          r1.sched.get_next_task c = some (s1, stat, task) ∧
          (stat = sched_status.NEWTASK →
            ∃ v, task = some ⟨v, last_function f pre⟩ ∧ v < colors.length)) ∧
      (∃ r0, sched_run.run ⟨s0, []⟩ (calls.filterMap sched_call.worker) = some r0 ∧
        r.sched = { r0.sched with update_function := last_function f calls } ∧
        r.log.map sched_record.vertex_part = r0.log.map sched_record.vertex_part) ∧
      (∀ v, colors.length ≤ v → newtask_count r.log v = 0) ∧
      (r.sched.terminator.finished = true →
        ∀ v, v < colors.length → newtask_count r.log v = M) := by
  refine ⟨fun _ _ _ => rfl, fun _ _ _ _ => rfl, fun _ _ _ => rfl, ?_⟩
  obtain ⟨s0, h1, h2, _, _, h5⟩ := started_inv colors n M f hV hf
  have hs0 : s0 = { s0 with update_function := f } := by
    have e : s0.update_function = f := h5.func_eq
    rw [← e]
  obtain ⟨r0, g1, g2, g3, _⟩ := sched_run_inv n M f _ ⟨s0, []⟩ h5 hcalls
  have hblocks : r0.sched.color_blocks = init_color_blocks colors 0 [] := g3.trans h2
  obtain ⟨r, a1, a2, a3⟩ := sched_calls_sim calls ⟨s0, []⟩ ⟨s0, []⟩ f hs0 rfl r0 g1
  obtain ⟨_, _, k3⟩ := sched_run_record n M f _ ⟨s0, []⟩ h5 hcalls
    (fun e he => by cases he) List.Pairwise.nil (fun e he => by cases he) r0 g1
  refine ⟨s0, r, h1, a1, ?_, ?_, ?_, ⟨r0, g1, a2, a3⟩, ?_, ?_⟩
  · rw [a2]
    exact g3
  · rw [a2]
  · intro pre c post hsplit
    have hpre : ∀ x ∈ pre.filterMap sched_call.worker, x < n := by
      intro x hx
      apply hcalls x
      rw [hsplit, List.filterMap_append]
      exact List.mem_append_left _ hx
    have hcn : c < n := by
      apply hcalls c
      rw [hsplit, List.filterMap_append]
      exact List.mem_append_right _ (List.mem_cons_self _ _)
    obtain ⟨p0, b1, b2, b3, _⟩ := sched_run_inv n M f _ ⟨s0, []⟩ h5 hpre
    obtain ⟨p, c1, c2, _⟩ := sched_calls_sim pre ⟨s0, []⟩ ⟨s0, []⟩ f hs0 rfl p0 b1
    obtain ⟨s1, stat, task, q1, q2, _, _⟩ := sched_run_step n M f p0 c b2 hcn
    refine ⟨p, { s1 with update_function := last_function f pre }, stat,
      task.map (fun t => (⟨t.vertexid, last_function f pre⟩ : update_task)), c1, ?_, ?_⟩
    · rw [c2, get_next_task_set_function, q1]
      rfl
    · intro hstat
      obtain ⟨v, d1, d2, _⟩ := (worker_step_record n M f p0 c s1 stat task b2 hcn q2).1 hstat
      refine ⟨v, ?_, (block_mem_color colors p0.sched (b3.trans h2) _ v d2).1⟩
      rw [d1]
      rfl
  · intro v hv
    rw [newtask_count_vertex_part r.log r0.log v a3, newtask_count, List.countP_eq_zero]
    intro e he hp
    simp only [Bool.and_eq_true, decide_eq_true_eq] at hp
    obtain ⟨w, e1, e2⟩ := k3 e he hp.1
    have hlt := (block_mem_color colors r0.sched hblocks e.color w e2).1
    rw [e1] at hp
    simp only [Option.map_some', update_task.vertex, Option.some.injEq] at hp
    omega
  · intro hfin v hv
    rw [newtask_count_vertex_part r.log r0.log v a3]
    have hfin0 : r0.sched.terminator.finished = true := by
      rw [a2] at hfin
      exact hfin
    exact newtask_count_of_passes n M f colors r0 g2 hn hblocks (g2.finished_color hfin0) v hv

/-- C24, witness: the graph with colours 0, 1, 0, two workers, one iteration, started
with the function 7.  The tasks returned are on the vertices 0, 2 and 1, with the
functions 9, 9 and 11 of the most recent `add` call; at the end the terminator is
complete, the stored function is 13 and every vertex has been returned once. -/
theorem colored_scheduler_tasks_implicit_witness :
    ((colored_scheduler.started [0, 1, 0] 2 1 7).bind
      (fun s0 => (sched_run.calls ⟨s0, []⟩ sample_calls).map
        (fun r => (r.log.filterMap (fun e => e.task), r.sched.terminator.finished,
          r.sched.update_function, newtask_count r.log 0, newtask_count r.log 1,
          newtask_count r.log 2)))) =
      some ([⟨0, 9⟩, ⟨2, 9⟩, ⟨1, 11⟩], true, 13, 1, 1, 1) ∧
    ∃ s0 r, colored_scheduler.started [0, 1, 0] 2 1 7 = some s0 ∧
      sched_run.calls ⟨s0, []⟩ sample_calls = some r ∧
      r.sched.color_blocks = s0.color_blocks ∧
      r.sched.update_function = last_function 7 sample_calls ∧
      (∀ (pre : List sched_call) (c : Nat) (post : List sched_call),
        sample_calls = pre ++ sched_call.get_next_task c :: post →
        ∃ r1 s1 stat task, sched_run.calls ⟨s0, []⟩ pre = some r1 ∧
          r1.sched.get_next_task c = some (s1, stat, task) ∧
          (stat = sched_status.NEWTASK →
            ∃ v, task = some ⟨v, last_function 7 pre⟩ ∧ v < [0, 1, 0].length)) ∧
      (∃ r0, sched_run.run ⟨s0, []⟩ (sample_calls.filterMap sched_call.worker) = some r0 ∧
        r.sched = { r0.sched with update_function := last_function 7 sample_calls } ∧
        r.log.map sched_record.vertex_part = r0.log.map sched_record.vertex_part) ∧
      (∀ v, [0, 1, 0].length ≤ v → newtask_count r.log v = 0) ∧
      (r.sched.terminator.finished = true →
        ∀ v, v < [0, 1, 0].length → newtask_count r.log v = 1) :=
  ⟨by decide, (colored_scheduler_tasks_implicit [0, 1, 0] 2 1 7 sample_calls (by decide)
    (by decide) (by decide) (by decide)).2.2.2⟩

/-! ### colored_scheduler: divisions and subscripts -/

/-- With at least one colour block, the part of `get_next_task` after the waiting test
goes one of three ways: the iteration test stops it, the index is not good and no
entry is read, or the index is good and the entry at that index is read. -/
theorem serve_accesses_cases (s1 : colored_scheduler) (c : Nat)
    (hb : 0 < s1.color_blocks.length) :
    (s1.serve_accesses c = [sched_access.remainder s1.color_blocks.length,
        sched_access.quotient s1.color_blocks.length] ∧
      ∃ s2, s1.serve c = some (s2, sched_status.EMPTY, none)) ∨
    (s1.serve_accesses c = [sched_access.remainder s1.color_blocks.length,
        sched_access.quotient s1.color_blocks.length,
        sched_access.block (s1.cpu_color.getD c 0 % s1.color_blocks.length)
          s1.color_blocks.length] ∧
      (s1.color_blocks.getD (s1.cpu_color.getD c 0 % s1.color_blocks.length) []).length ≤
        s1.cpu_index.getD c 0 ∧
      ∃ s2, s1.serve c = some (s2, sched_status.EMPTY, none)) ∨
    (s1.serve_accesses c = [sched_access.remainder s1.color_blocks.length,
        sched_access.quotient s1.color_blocks.length,
        sched_access.block (s1.cpu_color.getD c 0 % s1.color_blocks.length)
          s1.color_blocks.length,
        sched_access.block (s1.cpu_color.getD c 0 % s1.color_blocks.length)
          s1.color_blocks.length,
        sched_access.entry (s1.cpu_index.getD c 0)
          (s1.color_blocks.getD (s1.cpu_color.getD c 0 % s1.color_blocks.length) []).length] ∧
      s1.cpu_index.getD c 0 <
        (s1.color_blocks.getD (s1.cpu_color.getD c 0 % s1.color_blocks.length) []).length ∧
      s1.serve c = some (s1, sched_status.NEWTASK,
        some ⟨(s1.color_blocks.getD (s1.cpu_color.getD c 0 % s1.color_blocks.length) []).getD
          (s1.cpu_index.getD c 0) 0, s1.update_function⟩)) := by
  have hC : ¬ s1.color_blocks.length = 0 := by omega
  simp only [colored_scheduler.serve_accesses, colored_scheduler.serve]
  rw [if_neg hC, if_neg hC]
  by_cases hq : s1.cpu_color.getD c 0 / s1.color_blocks.length ≥ s1.max_iterations
  · rw [if_pos hq, if_pos hq]
    exact Or.inl ⟨rfl, _, rfl⟩
  · rw [if_neg hq, if_neg hq]
    by_cases hi : s1.cpu_index.getD c 0 <
        (s1.color_blocks.getD (s1.cpu_color.getD c 0 % s1.color_blocks.length) []).length
    · rw [if_pos hi, if_pos hi]
      exact Or.inr (Or.inr ⟨rfl, hi, rfl⟩)
    · rw [if_neg hi, if_neg hi]
      refine Or.inr (Or.inl ⟨rfl, by omega, ?_⟩)
      split_ifs
      · exact ⟨_, rfl⟩
      · exact ⟨_, rfl⟩

/-- A `get_next_task` call returns if and only if every division and subscript of the
call is defined. -/
theorem get_next_task_isSome_iff_safe (s : colored_scheduler) (c : Nat) :
    (s.get_next_task c).isSome = true ↔ ∀ a ∈ s.accesses c, a.safe = true := by
  by_cases hlen : s.cpu_index.length ≤ c
  · simp only [colored_scheduler.get_next_task, colored_scheduler.accesses, if_pos hlen]
    simp [sched_access.safe, hlen]
  · by_cases hA : s.cpu_waiting.getD c false = true ∧ s.cpu_color.getD c 0 = s.color
    · simp only [colored_scheduler.get_next_task, colored_scheduler.accesses, if_neg hlen,
        if_pos hA]
      simp [sched_access.safe]
      omega
    · rw [get_next_task_eq_serve s c hlen hA]
      simp only [colored_scheduler.accesses, if_neg hlen, if_neg hA]
      generalize (if s.cpu_waiting.getD c false = true then
          ({ s with
            cpu_color := s.cpu_color.set c s.color,
            cpu_index := s.cpu_index.set c c,
            cpu_waiting := s.cpu_waiting.set c false } : colored_scheduler)
        else
          { s with
            cpu_index := s.cpu_index.set c (s.cpu_index.getD c 0 + s.cpu_index.length) }) = s1
      have hcl : c < s.cpu_index.length := by omega
      by_cases hb : 0 < s1.color_blocks.length
      · have hmod : s1.cpu_color.getD c 0 % s1.color_blocks.length < s1.color_blocks.length :=
          Nat.mod_lt _ hb
        have hne : s1.color_blocks.length ≠ 0 := by omega
        rcases serve_accesses_cases s1 c hb with ⟨h1, s2, h2⟩ | ⟨h1, _, s2, h2⟩ | ⟨h1, h3, h2⟩
        · rw [h1, h2]
          simp only [List.mem_cons, List.mem_singleton, forall_eq_or_imp, forall_eq,
            sched_access.safe, decide_eq_true_eq, Option.isSome_some, true_iff]
          exact ⟨hcl, hne, hne, fun a ha => by cases ha⟩
        · rw [h1, h2]
          simp only [List.mem_cons, List.mem_singleton, forall_eq_or_imp, forall_eq,
            sched_access.safe, decide_eq_true_eq, Option.isSome_some, true_iff]
          exact ⟨hcl, hne, hne, hmod, fun a ha => by cases ha⟩
        · rw [h1, h2]
          simp only [List.mem_cons, List.mem_singleton, forall_eq_or_imp, forall_eq,
            sched_access.safe, decide_eq_true_eq, Option.isSome_some, true_iff]
          exact ⟨hcl, hne, hne, hmod, hmod, h3, fun a ha => by cases ha⟩
      · have h0 : s1.color_blocks.length = 0 := by omega
        simp only [colored_scheduler.serve, colored_scheduler.serve_accesses, if_pos h0]
        simp [sched_access.safe, h0]

/-- The state in which a worker that is not waiting on the current colour continues:
the colour blocks and the stored function are untouched, and the colour the worker
has observed is the colour counter, when a working worker has observed it before. -/
theorem enter_facts (s : colored_scheduler) (c : Nat) (hcc : c < s.cpu_color.length)
    (hwork : s.cpu_waiting.getD c false = false → s.cpu_color.getD c 0 = s.color)
    (s1 : colored_scheduler)
    (hs1 : s1 = (if s.cpu_waiting.getD c false = true then
        ({ s with
          cpu_color := s.cpu_color.set c s.color,
          cpu_index := s.cpu_index.set c c,
          cpu_waiting := s.cpu_waiting.set c false } : colored_scheduler)
      else
        { s with
          cpu_index := s.cpu_index.set c (s.cpu_index.getD c 0 + s.cpu_index.length) })) :
    s1.color_blocks = s.color_blocks ∧ s1.cpu_color.getD c 0 = s.color ∧
      s1.update_function = s.update_function := by
  by_cases hwt : s.cpu_waiting.getD c false = true
  · rw [if_pos hwt] at hs1
    rw [hs1]
    exact ⟨rfl, getD_set_self _ _ _ _ hcc, rfl⟩
  · rw [if_neg hwt] at hs1
    rw [hs1]
    refine ⟨rfl, hwork ?_, rfl⟩
    simpa using hwt

/-- The scheduler of a graph without vertices: `start()` succeeds, there is no colour
block, and the first call of a worker takes a remainder by zero. -/
theorem started_no_vertices (n M f c : Nat) (hf : f ≠ 0) (hcn : c < n) :
    ∃ s0, colored_scheduler.started [] n M f = some s0 ∧ s0.color_blocks.length = 0 ∧
      s0.accesses c = [sched_access.worker c n, sched_access.remainder 0] ∧
      s0.get_next_task c = none := by
  have hstart : colored_scheduler.started [] n M f =
      some { color_blocks := [], cpu_index := List.range n,
             cpu_color := List.replicate n (2 ^ 64 - 1), cpu_waiting := List.replicate n true,
             max_iterations := M, update_function := f, color := 0, waiting := 0,
             terminator := { finished := false } } := by
    simp only [colored_scheduler.started, colored_scheduler.start,
      colored_scheduler.add_task_to_all, colored_scheduler.set_options,
      colored_scheduler.init, init_color_blocks, List.length_replicate]
    rw [if_neg hf]
  refine ⟨_, hstart, rfl, ?_, ?_⟩
  · have hlen : ¬ (List.range n).length ≤ c := by
      rw [List.length_range]
      omega
    have hA : ¬ ((List.replicate n true).getD c false = true ∧
        (List.replicate n (2 ^ 64 - 1)).getD c 0 = 0) := by
      rw [getD_replicate_of_lt n c _ _ hcn, getD_replicate_of_lt n c _ _ hcn]
      norm_num
    have hwt : (List.replicate n true).getD c false = true :=
      getD_replicate_of_lt n c _ _ hcn
    simp only [colored_scheduler.accesses]
    rw [if_neg hlen, if_neg hA, if_pos hwt, List.length_range]
    rfl
  · have hlen : ¬ (List.range n).length ≤ c := by
      rw [List.length_range]
      omega
    have hA : ¬ ((List.replicate n true).getD c false = true ∧
        (List.replicate n (2 ^ 64 - 1)).getD c 0 = 0) := by
      rw [getD_replicate_of_lt n c _ _ hcn, getD_replicate_of_lt n c _ _ hcn]
      norm_num
    have hwt : (List.replicate n true).getD c false = true :=
      getD_replicate_of_lt n c _ _ hcn
    simp only [colored_scheduler.get_next_task]
    rw [if_neg hlen, if_neg hA, if_pos hwt]
    rfl

/-- C30: index safety of the coloured scheduler.  For a graph with at least one vertex,
after `start()` and any interleaving of `get_next_task` calls by workers below `n`,
a further call by a worker `c < n` returns, every division and subscript of the call
is defined, and the call does one of four things: it only reads the entries of the
worker (still waiting); it takes remainder and quotient by the non-zero number of
colour blocks and stops at the iteration test; it moreover selects the block
(counter mod number of blocks), below the number of blocks, finds the index not
below the size of that block and reads no entry; or it reads the entry at an index
below the size of the block and returns it as `NEWTASK`.  When the selected block is
empty the call returns `EMPTY` without reading an entry.  For a graph without
vertices the number of colour blocks is 0 and the first call after `start()` takes a
remainder by zero. -/
theorem colored_scheduler_index_safety (colors : List Nat) (n M f : Nat) (sched : List Nat)
    (c : Nat) (hf : f ≠ 0) (hsched : ∀ x ∈ sched, x < n) (hcn : c < n) :
    (colors ≠ [] →
      ∃ s0 r s1 stat task, colored_scheduler.started colors n M f = some s0 ∧
        sched_run.run ⟨s0, []⟩ sched = some r ∧
        r.sched.get_next_task c = some (s1, stat, task) ∧
        0 < r.sched.color_blocks.length ∧
        (∀ a ∈ r.sched.accesses c, a.safe = true) ∧
        ((r.sched.accesses c = [sched_access.worker c n] ∧ stat = sched_status.EMPTY) ∨
          (r.sched.accesses c = [sched_access.worker c n,
              sched_access.remainder r.sched.color_blocks.length,
              sched_access.quotient r.sched.color_blocks.length] ∧
            stat = sched_status.EMPTY) ∨
          (r.sched.accesses c = [sched_access.worker c n,
              sched_access.remainder r.sched.color_blocks.length,
              sched_access.quotient r.sched.color_blocks.length,
              sched_access.block (r.sched.color % r.sched.color_blocks.length)
                r.sched.color_blocks.length] ∧
            r.sched.color % r.sched.color_blocks.length < r.sched.color_blocks.length ∧
            stat = sched_status.EMPTY) ∨
          (∃ i, r.sched.accesses c = [sched_access.worker c n,
              sched_access.remainder r.sched.color_blocks.length,
              sched_access.quotient r.sched.color_blocks.length,
              sched_access.block (r.sched.color % r.sched.color_blocks.length)
                r.sched.color_blocks.length,
              sched_access.block (r.sched.color % r.sched.color_blocks.length)
                r.sched.color_blocks.length,
              sched_access.entry i (r.sched.block r.sched.color).length] ∧
            r.sched.color % r.sched.color_blocks.length < r.sched.color_blocks.length ∧
            i < (r.sched.block r.sched.color).length ∧ stat = sched_status.NEWTASK ∧
            task = some ⟨(r.sched.block r.sched.color).getD i 0, f⟩)) ∧
        (r.sched.block r.sched.color = [] →
          stat = sched_status.EMPTY ∧
            ∀ i size, sched_access.entry i size ∉ r.sched.accesses c)) ∧
    (colors = [] →
      ∃ s0, colored_scheduler.started colors n M f = some s0 ∧
        s0.color_blocks.length = 0 ∧
        s0.accesses c = [sched_access.worker c n, sched_access.remainder 0] ∧
        s0.get_next_task c = none) := by
  constructor
  · intro hV
    obtain ⟨s0, h1, _, _, _, h5⟩ := started_inv colors n M f hV hf
    obtain ⟨r, g1, g2, _, _⟩ := sched_run_inv n M f sched ⟨s0, []⟩ h5 hsched
    have hb := g2.blocks_pos
    have hmod : r.sched.color % r.sched.color_blocks.length < r.sched.color_blocks.length :=
      Nat.mod_lt _ hb
    have hlen : ¬ r.sched.cpu_index.length ≤ c := by
      rw [g2.len_index]
      omega
    have hcases : ∃ s1 stat task, r.sched.get_next_task c = some (s1, stat, task) ∧
        ((r.sched.accesses c = [sched_access.worker c n] ∧ stat = sched_status.EMPTY) ∨
          (r.sched.accesses c = [sched_access.worker c n,
              sched_access.remainder r.sched.color_blocks.length,
              sched_access.quotient r.sched.color_blocks.length] ∧
            stat = sched_status.EMPTY) ∨
          (r.sched.accesses c = [sched_access.worker c n,
              sched_access.remainder r.sched.color_blocks.length,
              sched_access.quotient r.sched.color_blocks.length,
              sched_access.block (r.sched.color % r.sched.color_blocks.length)
                r.sched.color_blocks.length] ∧
            r.sched.color % r.sched.color_blocks.length < r.sched.color_blocks.length ∧
            stat = sched_status.EMPTY) ∨
          (∃ i, r.sched.accesses c = [sched_access.worker c n,
              sched_access.remainder r.sched.color_blocks.length,
              sched_access.quotient r.sched.color_blocks.length,
              sched_access.block (r.sched.color % r.sched.color_blocks.length)
                r.sched.color_blocks.length,
              sched_access.block (r.sched.color % r.sched.color_blocks.length)
                r.sched.color_blocks.length,
              sched_access.entry i (r.sched.block r.sched.color).length] ∧
            r.sched.color % r.sched.color_blocks.length < r.sched.color_blocks.length ∧
            i < (r.sched.block r.sched.color).length ∧ stat = sched_status.NEWTASK ∧
            task = some ⟨(r.sched.block r.sched.color).getD i 0, f⟩)) := by
      by_cases hA : r.sched.cpu_waiting.getD c false = true ∧
          r.sched.cpu_color.getD c 0 = r.sched.color
      · refine ⟨r.sched, sched_status.EMPTY, none, ?_, Or.inl ⟨?_, rfl⟩⟩
        · simp only [colored_scheduler.get_next_task]
          rw [if_neg hlen, if_pos hA]
        · simp only [colored_scheduler.accesses]
          rw [if_neg hlen, if_pos hA, g2.len_index]
      · have hserve := get_next_task_eq_serve r.sched c hlen hA
        have hacc : r.sched.accesses c = sched_access.worker c n ::
            colored_scheduler.serve_accesses
              (if r.sched.cpu_waiting.getD c false = true then
                { r.sched with
                  cpu_color := r.sched.cpu_color.set c r.sched.color,
                  cpu_index := r.sched.cpu_index.set c c,
                  cpu_waiting := r.sched.cpu_waiting.set c false }
              else
                { r.sched with
                  cpu_index := r.sched.cpu_index.set c
                    (r.sched.cpu_index.getD c 0 + r.sched.cpu_index.length) }) c := by
          simp only [colored_scheduler.accesses]
          rw [if_neg hlen, if_neg hA, g2.len_index]
        obtain ⟨e1, e2, e3⟩ := enter_facts r.sched c (by rw [g2.len_color]; exact hcn)
          (g2.working_color c hcn) _ rfl
        generalize (if r.sched.cpu_waiting.getD c false = true then
            ({ r.sched with
              cpu_color := r.sched.cpu_color.set c r.sched.color,
              cpu_index := r.sched.cpu_index.set c c,
              cpu_waiting := r.sched.cpu_waiting.set c false } : colored_scheduler)
          else
            { r.sched with
              cpu_index := r.sched.cpu_index.set c
                (r.sched.cpu_index.getD c 0 + r.sched.cpu_index.length) }) = s1
          at hserve hacc e1 e2 e3
        have hb1 : 0 < s1.color_blocks.length := by
          rw [e1]
          exact hb
        rcases serve_accesses_cases s1 c hb1 with ⟨k1, s2, k2⟩ | ⟨k1, _, s2, k2⟩ | ⟨k1, k3, k2⟩
        · rw [e1] at k1
          refine ⟨s2, sched_status.EMPTY, none, hserve.trans k2, Or.inr (Or.inl ⟨?_, rfl⟩)⟩
          rw [hacc, k1]
        · rw [e1, e2] at k1
          refine ⟨s2, sched_status.EMPTY, none, hserve.trans k2,
            Or.inr (Or.inr (Or.inl ⟨?_, hmod, rfl⟩))⟩
          rw [hacc, k1]
        · rw [e1, e2] at k1 k3
          rw [e1, e2, e3, g2.func_eq] at k2
          refine ⟨s1, sched_status.NEWTASK, _, hserve.trans k2,
            Or.inr (Or.inr (Or.inr ⟨s1.cpu_index.getD c 0, ?_, hmod, k3, rfl, rfl⟩))⟩
          rw [hacc, k1]
          rfl
    obtain ⟨s1, stat, task, q1, q2⟩ := hcases
    have hsafe : ∀ a ∈ r.sched.accesses c, a.safe = true := by
      apply (get_next_task_isSome_iff_safe r.sched c).mp
      rw [q1]
      rfl
    refine ⟨s0, r, s1, stat, task, h1, g1, q1, hb, hsafe, q2, ?_⟩
    intro hempty
    rcases q2 with ⟨k1, k2⟩ | ⟨k1, k2⟩ | ⟨k1, _, k2⟩ | ⟨i, _, _, k3, _⟩
    · refine ⟨k2, fun i size hmem => ?_⟩
      rw [k1] at hmem
      simp at hmem
    · refine ⟨k2, fun i size hmem => ?_⟩
      rw [k1] at hmem
      simp at hmem
    · refine ⟨k2, fun i size hmem => ?_⟩
      rw [k1] at hmem
      simp at hmem
    · rw [hempty] at k3
      simp at k3
  · intro hV
    rw [hV]
    exact started_no_vertices n M f c hf hcn

/-- C30, witness: the graph with the colours 0 and 2 has the blocks of the colours 0, 1
and 2, of which the block 1 is empty.  With one worker, after two calls the counter
is 1, and the next call takes remainder and quotient by 3, selects block 1 and reads
no entry.  With no vertex at all the first call takes a remainder by zero. -/
theorem colored_scheduler_index_safety_witness :
    ((colored_scheduler.started [0, 2] 1 1 7).bind
      (fun s0 => (sched_run.run ⟨s0, []⟩ [0, 0]).map
        (fun r => (r.sched.color_blocks, r.sched.color, r.sched.accesses 0)))) =
      some ([[0], [], [1]], 1, [sched_access.worker 0 1, sched_access.remainder 3,
        sched_access.quotient 3, sched_access.block 1 3]) ∧
    (∃ s0 r s1 stat task, colored_scheduler.started [0, 2] 1 1 7 = some s0 ∧
        sched_run.run ⟨s0, []⟩ [0, 0] = some r ∧
        r.sched.get_next_task 0 = some (s1, stat, task) ∧
        0 < r.sched.color_blocks.length ∧
        (∀ a ∈ r.sched.accesses 0, a.safe = true) ∧
        ((r.sched.accesses 0 = [sched_access.worker 0 1] ∧ stat = sched_status.EMPTY) ∨
          (r.sched.accesses 0 = [sched_access.worker 0 1,
              sched_access.remainder r.sched.color_blocks.length,
              sched_access.quotient r.sched.color_blocks.length] ∧
            stat = sched_status.EMPTY) ∨
          (r.sched.accesses 0 = [sched_access.worker 0 1,
              sched_access.remainder r.sched.color_blocks.length,
              sched_access.quotient r.sched.color_blocks.length,
              sched_access.block (r.sched.color % r.sched.color_blocks.length)
                r.sched.color_blocks.length] ∧
            r.sched.color % r.sched.color_blocks.length < r.sched.color_blocks.length ∧
            stat = sched_status.EMPTY) ∨
          (∃ i, r.sched.accesses 0 = [sched_access.worker 0 1,
              sched_access.remainder r.sched.color_blocks.length,
              sched_access.quotient r.sched.color_blocks.length,
              sched_access.block (r.sched.color % r.sched.color_blocks.length)
                r.sched.color_blocks.length,
              sched_access.block (r.sched.color % r.sched.color_blocks.length)
                r.sched.color_blocks.length,
              sched_access.entry i (r.sched.block r.sched.color).length] ∧
            r.sched.color % r.sched.color_blocks.length < r.sched.color_blocks.length ∧
            i < (r.sched.block r.sched.color).length ∧ stat = sched_status.NEWTASK ∧
            task = some ⟨(r.sched.block r.sched.color).getD i 0, 7⟩)) ∧
        (r.sched.block r.sched.color = [] →
          stat = sched_status.EMPTY ∧
            ∀ i size, sched_access.entry i size ∉ r.sched.accesses 0)) ∧
    (∃ s0, colored_scheduler.started [] 1 1 7 = some s0 ∧
      s0.color_blocks.length = 0 ∧
      s0.accesses 0 = [sched_access.worker 0 1, sched_access.remainder 0] ∧
      s0.get_next_task 0 = none) :=
  ⟨by decide,
    (colored_scheduler_index_safety [0, 2] 1 1 7 [0, 0] 0 (by decide) (by decide)
      (by decide)).1 (by decide),
    (colored_scheduler_index_safety [] 1 1 7 [] 0 (by decide) (by decide) (by decide)).2 rfl⟩

end graphlab
